import Mathlib

/-!
Surplus-food marketplace: settlement, display and decision engines

A shallow embedding of the C++ sources under `src/analysis`.

Conventions of the embedding.

* C++ `int` is `Int`.  No computation below approaches the 32-bit range
  (counters are incremented once per event, bag counts are bounded by
  `actual_bags`), so wrap-around is not modelled.
* C++ `float` is `ℚ`, i.e. exact arithmetic: literals such as `0.01f` are the
  rationals `1/100`, and rounding is not modelled.  The `<cmath>` functions
  `sqrt`, `log` and `exp` are parameters (`FloatMath`).
* `std::map<K,V>` is an association list with unique keys; `map_find` is
  `find`, `map_update` is `operator[]` followed by an assignment.
* `std::vector<T>` is `List T`; a `Reservation*` into the reservation log is
  the position of the reservation in the log.
* `std::sort` is a parameter constrained by `SortContract`: the C++ standard
  promises a sorted permutation and nothing about the order of equivalent
  elements.
* A read outside the bounds of a vector is undefined behaviour; the functions
  that can perform one return `Option`, with `none` for the fault.
-/

namespace FoodWaste

/-! ## Timestamp.h / Timestamp.cpp -/

/-- Time of day, `struct Timestamp`. -/
structure Timestamp where
  hour : Int
  minute : Int
deriving DecidableEq, Repr, Inhabited

/-- Minutes since midnight, `Timestamp::to_minutes`. -/
def Timestamp.to_minutes (t : Timestamp) : Int :=
  t.hour * 60 + t.minute

/-- Comparison `Timestamp::operator<`. -/
def Timestamp.lt (a b : Timestamp) : Bool :=
  decide (a.to_minutes < b.to_minutes)

/-! ## Reservation.h -/

/-- Reservation status, `Reservation::Status`. -/
inductive Status where
  | PENDING
  | CONFIRMED
  | CANCELLED
deriving DecidableEq, Repr, Inhabited

/-- One reservation of the log, `class Reservation`. -/
structure Reservation where
  reservation_id : Int
  customer_id : Int
  restaurant_id : Int
  reservation_time : Timestamp
  status : Status
  bags_received : Int
deriving DecidableEq, Repr, Inhabited

/-- Constructor `Reservation::Reservation`: a new reservation is PENDING with no bags. -/
def Reservation.create (res_id cust_id rest_id : Int) (time : Timestamp) : Reservation :=
  { reservation_id := res_id, customer_id := cust_id, restaurant_id := rest_id,
    reservation_time := time, status := Status.PENDING, bags_received := 0 }

/-! ## std::map as an association list -/

/-- Lookup `std::map::find`: the value stored under `k`, if any. -/
def map_find {K V : Type} [DecidableEq K] : List (K × V) → K → Option V
  | [], _ => none
  | (k1, v) :: rest, k => if k1 = k then some v else map_find rest k

/-- Assignment through `operator[]`: `m[k] = f (m[k])`, where a missing key is
first inserted with the value-initialised default `d`. -/
def map_update {K V : Type} [DecidableEq K] : List (K × V) → K → V → (V → V) → List (K × V)
  | [], k, d, f => [(k, f d)]
  | (k1, v) :: rest, k, d, f =>
    if k1 = k then (k1, f v) :: rest else (k1, v) :: map_update rest k d f

/-- Read through `operator[]`: the stored value, or the default `d`. -/
def map_read {K V : Type} [DecidableEq K] (m : List (K × V)) (k : K) (d : V) : V :=
  (map_find m k).getD d

/-! ## Restaurant.h / Restaurant.cpp -/

/-- A store, `class Restaurant`. -/
structure Restaurant where
  business_id : Int
  business_name : String
  branch : String
  estimated_bags : Int
  general_ranking : ℚ
  price_per_bag : ℚ
  longitude : ℚ
  latitude : ℚ
  business_type : String
  actual_bags : Int
  reserved_count : Int
  has_inventory : Bool
  max_bags_per_customer : Int
  total_orders_confirmed : Int
  total_orders_cancelled : Int
  initial_rating : ℚ
  rating_at_day_start : ℚ
  daily_orders_confirmed : Int
  daily_orders_cancelled : Int
deriving DecidableEq, Inhabited

/-- Availability test `Restaurant::can_accept_reservation`. -/
def Restaurant.can_accept_reservation (r : Restaurant) : Bool :=
  r.has_inventory && decide (r.reserved_count < r.estimated_bags)

/-- Setter `Restaurant::set_actual_inventory`. -/
def Restaurant.set_actual_inventory (r : Restaurant) (bags : Int) : Restaurant :=
  { r with actual_bags := bags }

/-- Rating reward `Restaurant::update_rating_on_confirmation`. -/
def Restaurant.update_rating_on_confirmation (r : Restaurant) : Restaurant :=
  { r with total_orders_confirmed := r.total_orders_confirmed + 1,
           daily_orders_confirmed := r.daily_orders_confirmed + 1,
           general_ranking := min 5 (r.general_ranking + 1 / 100) }

/-- Rating penalty `Restaurant::update_rating_on_cancellation`. -/
def Restaurant.update_rating_on_cancellation (r : Restaurant) : Restaurant :=
  { r with total_orders_cancelled := r.total_orders_cancelled + 1,
           daily_orders_cancelled := r.daily_orders_cancelled + 1,
           general_ranking := max 1 (r.general_ranking - 5 / 100) }

/-- Getter `Restaurant::get_rating`. -/
def Restaurant.get_rating (r : Restaurant) : ℚ :=
  r.general_ranking

/-! ## Customer.h / Customer.cpp -/

/-- Per-store counters, `CustomerHistory::StoreInteraction`. -/
structure StoreInteraction where
  reservations : Int
  successes : Int
  cancellations : Int
deriving DecidableEq, Repr, Inhabited

/-- Value-initialised `StoreInteraction()`. -/
def StoreInteraction.zero : StoreInteraction :=
  { reservations := 0, successes := 0, cancellations := 0 }

/-- Aggregate history, `struct CustomerHistory`. -/
structure CustomerHistory where
  visits : Int
  reservations : Int
  successes : Int
  cancellations : Int
  last_reservation_time : Timestamp
  categories_reserved : List (String × Int)
  store_interactions : List (Int × StoreInteraction)
deriving DecidableEq, Inhabited

/-- Value-initialised `CustomerHistory()`. -/
def CustomerHistory.fresh : CustomerHistory :=
  { visits := 0, reservations := 0, successes := 0, cancellations := 0,
    last_reservation_time := { hour := 0, minute := 0 },
    categories_reserved := [], store_interactions := [] }

/-- Decision weights, `Customer::Weights`. -/
structure Weights where
  rating_w : ℚ
  price_w : ℚ
  novelty_w : ℚ
deriving DecidableEq, Inhabited

/-- A customer, `class Customer`. -/
structure Customer where
  id : Int
  longitude : ℚ
  latitude : ℚ
  customer_name : String
  segment : String
  willingness_to_pay : ℚ
  weights : Weights
  loyalty : ℚ
  leaving_threshold : ℚ
  history : CustomerHistory
  churned : Bool
  category_preference : List (String × ℚ)
  store_valuations : List (Int × ℚ)
deriving DecidableEq, Inhabited

/-- Loyalty nudge `Customer::update_loyalty`. -/
def Customer.update_loyalty (c : Customer) (was_cancelled : Bool) : Customer :=
  if was_cancelled then { c with loyalty := max 0 (c.loyalty - 1 / 10) }
  else { c with loyalty := min 1 (c.loyalty + 5 / 100) }

/-- Affinity bump `Customer::update_category_preference`: `category_preference[category] += 0.1f`. -/
def Customer.update_category_preference (c : Customer) (category : String) : Customer :=
  { c with category_preference := map_update c.category_preference category 0 (fun v => v + 1 / 10) }

/-- Visit counter `Customer::record_visit`. -/
def Customer.record_visit (c : Customer) : Customer :=
  { c with history := { c.history with visits := c.history.visits + 1 } }

/-- Bookkeeping of a new reservation, `Customer::record_reservation_attempt`. -/
def Customer.record_reservation_attempt (c : Customer) (store_id : Int) (category : String)
    (time : Timestamp) : Customer :=
  { c with history :=
      { c.history with
        reservations := c.history.reservations + 1,
        last_reservation_time := time,
        categories_reserved := map_update c.history.categories_reserved category 0 (fun n => n + 1),
        store_interactions := map_update c.history.store_interactions store_id StoreInteraction.zero
          (fun s => { s with reservations := s.reservations + 1 }) } }

/-- Bookkeeping of a confirmed purchase, `Customer::record_reservation_success`. -/
def Customer.record_reservation_success (c : Customer) (store_id : Int) (category : String) :
    Customer :=
  let c1 : Customer :=
    { c with history :=
        { c.history with
          successes := c.history.successes + 1,
          store_interactions := map_update c.history.store_interactions store_id StoreInteraction.zero
            (fun s => { s with successes := s.successes + 1 }) } }
  c1.update_category_preference category

/-- Bookkeeping of a cancellation, `Customer::record_reservation_cancellation`. -/
def Customer.record_reservation_cancellation (c : Customer) (store_id : Int) : Customer :=
  let c1 : Customer :=
    { c with history :=
        { c.history with
          cancellations := c.history.cancellations + 1,
          store_interactions := map_update c.history.store_interactions store_id StoreInteraction.zero
            (fun s => { s with cancellations := s.cancellations + 1 }) } }
  c1.update_loyalty true

/-! ## MarketState.h / MarketState.cpp -/

/-- The shared world of one simulated day, `class MarketState`. -/
structure MarketState where
  restaurants : List Restaurant
  customers : List (Int × Customer)
  reservations : List Reservation
  current_time : Timestamp
  next_reservation_id : Int
  impression_counts : List (Int × Int)
deriving DecidableEq, Inhabited

/-- Ids of the stores that can accept a reservation, in store order,
`MarketState::get_available_restaurant_ids`. -/
def MarketState.get_available_restaurant_ids (ms : MarketState) : List Int :=
  (ms.restaurants.filter (fun r => r.can_accept_reservation)).map (fun r => r.business_id)

/-- Linear scan `MarketState::get_restaurant`: the first store with the id. -/
def MarketState.get_restaurant (ms : MarketState) (id : Int) : Option Restaurant :=
  ms.restaurants.find? (fun r => decide (r.business_id = id))

/-- Registry lookup `MarketState::get_customer`. -/
def MarketState.get_customer (ms : MarketState) (id : Int) : Option Customer :=
  map_find ms.customers id

/-- Write through the pointer returned by `get_restaurant`: `f` is applied to
the first store with the id, and to nothing when there is none. -/
def update_restaurant (f : Restaurant → Restaurant) (id : Int) : List Restaurant → List Restaurant
  | [] => []
  | r :: rest => if r.business_id = id then f r :: rest else r :: update_restaurant f id rest

/-- Write through the pointer returned by `get_customer`: `f` is applied to
the registry entry of the id, and to nothing when there is none. -/
def update_customer (f : Customer → Customer) (id : Int) : List (Int × Customer) → List (Int × Customer)
  | [] => []
  | (k, c) :: rest => if k = id then (k, f c) :: rest else (k, c) :: update_customer f id rest

/-! ## std::sort -/

/-- The type of `std::sort` with a comparator. -/
def StdSort : Type 1 :=
  (α : Type) → (α → α → Bool) → List α → List α

/-- The requirement the standard puts on a comparator: a strict weak ordering. -/
structure StrictWeakOrder {α : Type} (lt : α → α → Bool) : Prop where
  irrefl : ∀ a, lt a a = false
  trans : ∀ a b c, lt a b = true → lt b c = true → lt a c = true
  incomp_trans : ∀ a b c, lt a b = false → lt b a = false → lt b c = false → lt c b = false →
    lt a c = false ∧ lt c a = false

/-- What the standard promises of `std::sort` on a strict weak ordering: the
result is a permutation of the input in which no later element compares less
than an earlier one.  The relative order of equivalent elements is left open. -/
def SortContract (sort : StdSort) : Prop :=
  ∀ (α : Type) (lt : α → α → Bool) (l : List α), StrictWeakOrder lt →
    List.Perm (sort α lt l) l ∧ List.Pairwise (fun a b => lt b a = false) (sort α lt l)

/-- A conforming `std::sort` that happens to be stable: insertion sort. -/
def insertion_sort : StdSort :=
  fun _ lt l => List.insertionSort (fun a b => lt b a = false) l

/-- Another conforming `std::sort`: insertion sort of the reversed input.  It
places equivalent elements in the reverse of their original order. -/
def reversing_sort : StdSort :=
  fun _ lt l => List.insertionSort (fun a b => lt b a = false) l.reverse

/-! ## RestaurantManagementSystem.cpp -/

/-- Cancellation of the reservation at log position `p`, whose customer is the
registry entry `cid`: `RestaurantManagementSystem::handle_cancellation`. -/
def handle_cancellation (ms : MarketState) (p : Nat) (cid : Int) : MarketState :=
  match ms.reservations[p]? with
  | none => ms
  | some res =>
    { ms with
      reservations := ms.reservations.set p { res with status := Status.CANCELLED },
      customers := update_customer (fun c => c.record_reservation_cancellation res.restaurant_id)
        cid ms.customers,
      restaurants := update_restaurant Restaurant.update_rating_on_cancellation
        res.restaurant_id ms.restaurants }

/-- Confirmation of the reservation at log position `p`, whose customer is the
registry entry `cid`: `RestaurantManagementSystem::handle_confirmation`.  The
category passed to `record_reservation_success` is the empty string, as in the source. -/
def handle_confirmation (ms : MarketState) (p : Nat) (cid : Int) (bags_received : Int) :
    MarketState :=
  match ms.reservations[p]? with
  | none => ms
  | some res =>
    { ms with
      reservations := ms.reservations.set p
        { res with status := Status.CONFIRMED, bags_received := bags_received },
      customers := update_customer (fun c => c.record_reservation_success res.restaurant_id "")
        cid ms.customers,
      restaurants := update_restaurant Restaurant.update_rating_on_confirmation
        res.restaurant_id ms.restaurants }

/-- Log positions of the PENDING reservations of store `id`, in log order: the
collection loop at the head of `process_end_of_day`. -/
def pending_for (ms : MarketState) (id : Int) : List Nat :=
  (List.range ms.reservations.length).filter (fun j =>
    match ms.reservations[j]? with
    | some res => decide (res.restaurant_id = id ∧ res.status = Status.PENDING)
    | none => false)

/-- The comparator handed to `std::sort` in `process_end_of_day`: it
dereferences both pointers and compares the reservation times. -/
def time_lt (ms : MarketState) (a b : Nat) : Bool :=
  (ms.reservations.getD a default).reservation_time.lt
    (ms.reservations.getD b default).reservation_time

/-- The abundance loop of `process_end_of_day` (lines 39-53) over the sorted
pointers still to visit, with the running `extra_bags`.  The cap
`restaurant.max_bags_per_customer` is read through a reference to the store;
`handle_confirmation` changes only the rating and the order counters of a
store, so every iteration reads the value `max_bags`. -/
def confirm_all (max_bags bags_per_customer : Int) : List Nat → Int → MarketState → MarketState
  | [], _, ms => ms
  | p :: rest, extra_bags, ms =>
    match ms.reservations[p]? with
    | none => confirm_all max_bags bags_per_customer rest extra_bags ms
    | some res =>
      match ms.get_customer res.customer_id with
      | none => confirm_all max_bags bags_per_customer rest extra_bags ms
      | some _ =>
        if extra_bags > 0 ∧ bags_per_customer < max_bags then
          confirm_all max_bags bags_per_customer rest (extra_bags - 1)
            (handle_confirmation ms p res.customer_id (bags_per_customer + 1))
        else
          confirm_all max_bags bags_per_customer rest extra_bags
            (handle_confirmation ms p res.customer_id bags_per_customer)

/-- The first scarcity loop of `process_end_of_day` (lines 57-63): one bag each. -/
def confirm_first : List Nat → MarketState → MarketState
  | [], ms => ms
  | p :: rest, ms =>
    match ms.reservations[p]? with
    | none => confirm_first rest ms
    | some res =>
      match ms.get_customer res.customer_id with
      | none => confirm_first rest ms
      | some _ => confirm_first rest (handle_confirmation ms p res.customer_id 1)

/-- The second scarcity loop of `process_end_of_day` (lines 66-72). -/
def cancel_rest : List Nat → MarketState → MarketState
  | [], ms => ms
  | p :: rest, ms =>
    match ms.reservations[p]? with
    | none => cancel_rest rest ms
    | some res =>
      match ms.get_customer res.customer_id with
      | none => cancel_rest rest ms
      | some _ => cancel_rest rest (handle_cancellation ms p res.customer_id)

/-- The body of the store loop of `process_end_of_day` for one store.  In the
scarcity branch the second loop starts at index `actual_bags`; when that is
negative it reads before the start of the vector, which is the fault `none`. -/
def settle_store (sort : StdSort) (ms : MarketState) (restaurant : Restaurant) :
    Option MarketState :=
  let restaurant_reservations := sort Nat (time_lt ms) (pending_for ms restaurant.business_id)
  let num_reservations : Int := restaurant_reservations.length
  let actual_bags := restaurant.actual_bags
  if num_reservations = 0 then some ms
  else if actual_bags ≥ num_reservations then
    let remaining_bags := actual_bags
    let bags_per_customer :=
      min restaurant.max_bags_per_customer (Int.tdiv remaining_bags num_reservations)
    let extra_bags := remaining_bags - bags_per_customer * num_reservations
    some (confirm_all restaurant.max_bags_per_customer bags_per_customer
      restaurant_reservations extra_bags ms)
  else if actual_bags < 0 then none
  else
    let ms1 := confirm_first (restaurant_reservations.take actual_bags.toNat) ms
    some (cancel_rest (restaurant_reservations.drop actual_bags.toNat) ms1)

/-- The store loop of `process_end_of_day` over the store positions still to visit. -/
def settle_stores (sort : StdSort) : List Nat → MarketState → Option MarketState
  | [], ms => some ms
  | i :: rest, ms =>
    match ms.restaurants[i]? with
    | none => settle_stores sort rest ms
    | some restaurant =>
      match settle_store sort ms restaurant with
      | none => none
      | some ms1 => settle_stores sort rest ms1

/-- End-of-day settlement, `RestaurantManagementSystem::process_end_of_day`. -/
def process_end_of_day (sort : StdSort) (ms : MarketState) : Option MarketState :=
  settle_stores sort (List.range ms.restaurants.length) ms

/-! ## <cmath>, float conversions and size_t -/

/-- The `<cmath>` functions the sources call on floats. -/
structure FloatMath where
  sqrt : ℚ → ℚ
  log : ℚ → ℚ
  exp : ℚ → ℚ

/-- Conversion `(int)x` of a float: truncation toward zero. -/
def float_to_int (x : ℚ) : Int :=
  Int.tdiv x.num (x.den : Int)

/-- Conversion of an `int` to `size_t` (64 bits), as performed when an `int` is
compared with a `size()`. -/
def to_size_t (n : Int) : Int :=
  n % 2 ^ 64

/-- The comparison `v.size() < n` between a vector size and an `int`. -/
def size_lt (size : Nat) (n : Int) : Bool :=
  decide ((size : Int) < to_size_t n)

/-- The constant `numeric_limits<float>::max()`. -/
def FLT_MAX : ℚ :=
  (2 ^ 24 - 1) * 2 ^ 104

/-! ## Customer.cpp: personal utility -/

/-- Distance threshold for pickup, `MAX_TRAVEL_DISTANCE = 0.05f`. -/
def MAX_TRAVEL_DISTANCE : ℚ :=
  5 / 100

/-- Flat Euclidean distance, the static helper `calculate_distance`. -/
def calculate_distance (fm : FloatMath) (lat1 lon1 lat2 lon2 : ℚ) : ℚ :=
  let dlat := lat2 - lat1
  let dlon := lon2 - lon1
  fm.sqrt (dlat * dlat + dlon * dlon)

/-- Personal utility `Customer::calculate_store_score`. -/
def Customer.calculate_store_score (fm : FloatMath) (c : Customer) (store : Restaurant) : ℚ :=
  let distance := calculate_distance fm c.latitude c.longitude store.latitude store.longitude
  if distance > MAX_TRAVEL_DISTANCE then -100
  else
    let rating_score := c.weights.rating_w * store.get_rating
    let price_score :=
      c.weights.price_w * (c.willingness_to_pay - store.price_per_bag) / c.willingness_to_pay
    let novelty_score :=
      match map_find c.history.categories_reserved store.business_type with
      | none => c.weights.novelty_w * 1
      | some count => c.weights.novelty_w * (1 / (1 + (count : ℚ)))
    let normalized_distance := distance / MAX_TRAVEL_DISTANCE
    let distance_score := (1 - normalized_distance) * (3 / 2)
    rating_score + price_score + novelty_score + distance_score

/-! ## RankingAlgorithms.h / RankingAlgorithms.cpp -/

/-- The strategy selector, `enum class RankingAlgorithm`. -/
inductive RankingAlgorithm where
  | BASELINE
  | SAMA
  | ANDREW
  | AMER
  | ZIAD
  | HARMONY
deriving DecidableEq, Repr, Inhabited

/-- The comparator of the score sorts: descending by the second component. -/
def score_gt (a b : Int × ℚ) : Bool :=
  decide (a.2 > b.2)

/-- Unsold bags of a store, `max(0, estimated_bags - reserved_count)`. -/
def unsold_bags (store : Restaurant) : Int :=
  max 0 (store.estimated_bags - store.reserved_count)

/-- The scan inside the baseline comparator: it has no `break`, so it ends on
the last store with the id. -/
def last_restaurant (ms : MarketState) (id : Int) : Option Restaurant :=
  ms.restaurants.reverse.find? (fun r => decide (r.business_id = id))

/-- The comparator of the baseline sort: higher rating first. -/
def baseline_gt (ms : MarketState) (a b : Int) : Bool :=
  match last_restaurant ms a, last_restaurant ms b with
  | some r1, some r2 => decide (r1.get_rating > r2.get_rating)
  | _, _ => false

/-- Baseline strategy `get_displayed_stores_baseline`.  A negative
`num_to_show` builds a vector from a reversed iterator range, the fault `none`. -/
def get_displayed_stores_baseline (sort : StdSort) (ms : MarketState) (n_displayed : Int) :
    Option (List Int) :=
  let available := sort Int (baseline_gt ms) ms.get_available_restaurant_ids
  let num_to_show := min n_displayed (available.length : Int)
  if num_to_show < 0 then none else some (available.take num_to_show.toNat)

/-- The scoring loop of `get_displayed_stores_andrew` over the ids still to
visit: `impression_counts[store_id]` inserts a zero entry for an id not yet in the table. -/
def andrew_scores (fm : FloatMath) (customer : Customer) :
    List Int → MarketState → List (Int × ℚ) → List (Int × ℚ) × MarketState
  | [], ms, store_scores => (store_scores, ms)
  | store_id :: rest, ms, store_scores =>
    match ms.get_restaurant store_id with
    | none => andrew_scores fm customer rest ms store_scores
    | some store =>
      let base_score := customer.calculate_store_score fm store
      let impressions := map_read ms.impression_counts store_id 0
      let ms1 := { ms with impression_counts := map_update ms.impression_counts store_id 0 id }
      let damping_factor := fm.log ((impressions : ℚ) + 1) + 1
      let adjusted_score := base_score / damping_factor
      andrew_scores fm customer rest ms1 (store_scores ++ [(store_id, adjusted_score)])

/-- Fairness strategy `get_displayed_stores_andrew`. -/
def get_displayed_stores_andrew (fm : FloatMath) (sort : StdSort) (customer : Customer)
    (ms : MarketState) (n_displayed : Int) : List Int × MarketState :=
  let available := ms.get_available_restaurant_ids
  if available = [] then (available, ms)
  else
    let scored := andrew_scores fm customer available ms []
    let store_scores := sort (Int × ℚ) score_gt scored.1
    let num_to_show := min n_displayed (store_scores.length : Int)
    ((store_scores.take num_to_show.toNat).map (fun s => s.1), scored.2)

/-- The scoring loop of `get_displayed_stores_ziad`. -/
def ziad_scores (fm : FloatMath) (customer : Customer) (ms : MarketState) :
    List Int → List (Int × ℚ)
  | [] => []
  | store_id :: rest =>
    match ms.get_restaurant store_id with
    | none => ziad_scores fm customer ms rest
    | some store =>
      let distance := calculate_distance fm customer.latitude customer.longitude
        store.latitude store.longitude
      if distance > MAX_TRAVEL_DISTANCE then ziad_scores fm customer ms rest
      else
        let score := (-1 / 100) * store.price_per_bag + (3 / 2) * store.get_rating +
          (1 / 10) * (unsold_bags store : ℚ)
        (store_id, score) :: ziad_scores fm customer ms rest

/-- Weighted-linear strategy `get_displayed_stores_ziad`. -/
def get_displayed_stores_ziad (fm : FloatMath) (sort : StdSort) (customer : Customer)
    (ms : MarketState) (n_displayed : Int) : List Int :=
  let available := ms.get_available_restaurant_ids
  if available = [] then available
  else
    let store_scores := sort (Int × ℚ) score_gt (ziad_scores fm customer ms available)
    let num_to_show := min n_displayed (min 5 (store_scores.length : Int))
    (store_scores.take num_to_show.toNat).map (fun s => s.1)

/-- Step 1 of `get_displayed_stores_amer`: the scan for the closest in-radius
store, carrying `closest_store_id` and `min_distance`. -/
def amer_closest (fm : FloatMath) (customer : Customer) (ms : MarketState) :
    List Int → Int → ℚ → Int
  | [], closest_store_id, _ => closest_store_id
  | store_id :: rest, closest_store_id, min_distance =>
    match ms.get_restaurant store_id with
    | none => amer_closest fm customer ms rest closest_store_id min_distance
    | some store =>
      let distance := calculate_distance fm customer.latitude customer.longitude
        store.latitude store.longitude
      if distance < min_distance ∧ distance ≤ MAX_TRAVEL_DISTANCE then
        amer_closest fm customer ms rest store_id distance
      else amer_closest fm customer ms rest closest_store_id min_distance

/-- Step 2 of `get_displayed_stores_amer`: the scoring loop over the ids not yet selected. -/
def amer_scores (fm : FloatMath) (customer : Customer) (ms : MarketState)
    (selected : List Int) : List Int → List (Int × ℚ)
  | [] => []
  | store_id :: rest =>
    if store_id ∈ selected then amer_scores fm customer ms selected rest
    else
      match ms.get_restaurant store_id with
      | none => amer_scores fm customer ms selected rest
      | some store =>
        let distance := calculate_distance fm customer.latitude customer.longitude
          store.latitude store.longitude
        if distance > MAX_TRAVEL_DISTANCE then amer_scores fm customer ms selected rest
        else
          let base_score := customer.calculate_store_score fm store
          let price_penalty := store.price_per_bag * (1 / 100)
          let distance_penalty := distance * 20
          let final_score := base_score - price_penalty - distance_penalty
          (store_id, final_score) :: amer_scores fm customer ms selected rest

/-- Nearest-first strategy `get_displayed_stores_amer`.  The closest store is
pushed before `n_displayed` is consulted. -/
def get_displayed_stores_amer (fm : FloatMath) (sort : StdSort) (customer : Customer)
    (ms : MarketState) (n_displayed : Int) : List Int :=
  let available := ms.get_available_restaurant_ids
  if available = [] then available
  else
    let closest_store_id := amer_closest fm customer ms available (-1) FLT_MAX
    let result : List Int := if closest_store_id ≠ -1 then [closest_store_id] else []
    let store_scores := sort (Int × ℚ) score_gt (amer_scores fm customer ms result available)
    let remaining := n_displayed - (result.length : Int)
    result ++ (store_scores.take remaining.toNat).map (fun s => s.1)

/-- The comprehensive score computed for one store in the first loop of
`get_displayed_stores_sama` (lines 69-130). -/
def sama_score (fm : FloatMath) (customer : Customer) (store : Restaurant) (store_id : Int) : ℚ :=
  let is_budget : Bool := customer.segment == "budget"
  let is_premium : Bool := customer.segment == "premium"
  let segment_rating_weight : ℚ := if is_premium then 3 / 2 else (if is_budget then 4 / 5 else 1)
  let segment_inventory_weight : ℚ :=
    if is_budget then 4 / 5 else (if is_premium then 1 / 2 else 3 / 5)
  let base_score := customer.calculate_store_score fm store
  let unsold := unsold_bags store
  let inventory_urgency : ℚ := min 1 ((unsold : ℚ) / 15)
  let inventory_bonus := inventory_urgency * (6 / 5) * segment_inventory_weight
  let distance_bonus : ℚ := 0
  let rating_bonus0 := (store.get_rating - 7 / 2) * (3 / 10) * segment_rating_weight
  let rating_bonus : ℚ := if rating_bonus0 < 0 then 0 else rating_bonus0
  let price_bonus : ℚ :=
    if is_budget then
      (if store.price_per_bag < customer.willingness_to_pay then
        ((customer.willingness_to_pay - store.price_per_bag) / customer.willingness_to_pay) *
          (2 / 5)
      else 0)
    else if is_premium then (if store.price_per_bag > 100 then 1 / 10 else 0)
    else 0
  let history_bonus : ℚ :=
    match map_find customer.history.store_interactions store_id with
    | none => 0
    | some hist =>
      if hist.reservations > 0 then
        let success_rate : ℚ := (hist.successes : ℚ) / (hist.reservations : ℚ)
        let bonus := success_rate * (1 / 2)
        if hist.cancellations > 0 then
          bonus - ((hist.cancellations : ℚ) / (hist.reservations : ℚ)) * 1
        else bonus
      else 0
  let category_bonus : ℚ :=
    match map_find customer.category_preference store.business_type with
    | none => 0
    | some pref => pref * (1 / 5)
  let waste_reduction_bonus : ℚ :=
    if unsold > 5 then min 2 ((unsold : ℚ) / 5) * (1 / 2) else 0
  let revenue_potential := store.price_per_bag * inventory_urgency
  let revenue_bonus := (revenue_potential / 200) * (3 / 10)
  base_score + inventory_bonus + rating_bonus + price_bonus + history_bonus + category_bonus +
    distance_bonus + waste_reduction_bonus + revenue_bonus

/-- The first loop of `get_displayed_stores_sama`: one scored pair per
available id whose store is found. -/
def sama_scores (fm : FloatMath) (customer : Customer) (ms : MarketState) :
    List Int → List (Int × ℚ)
  | [] => []
  | store_id :: rest =>
    match ms.get_restaurant store_id with
    | none => sama_scores fm customer ms rest
    | some store => (store_id, sama_score fm customer store store_id) ::
        sama_scores fm customer ms rest

/-- The market-waste average of `get_displayed_stores_sama` (lines 145-154). -/
def sama_avg_unsold (ms : MarketState) : ℚ :=
  let unsold := (ms.restaurants.map unsold_bags).filter (fun u => decide (u > 0))
  if unsold.length > 0 then ((unsold.sum : Int) : ℚ) / (unsold.length : ℚ) else 0

/-- The share of slots filled purely by score, `personalization_ratio`
(lines 141-160). -/
def sama_personalization (customer : Customer) (ms : MarketState) : ℚ :=
  let is_budget : Bool := customer.segment == "budget"
  let is_premium : Bool := customer.segment == "premium"
  let base_personalization : ℚ := if is_budget then 7 / 10 else (if is_premium then 1 / 2 else 3 / 5)
  let loyalty_adjustment := customer.loyalty * (15 / 100)
  let waste_adjustment : ℚ := if sama_avg_unsold ms > 10 then -1 / 10 else 0
  min (85 / 100) (max (4 / 10) (base_personalization + loyalty_adjustment + waste_adjustment))

/-- SELECT 1 of `get_displayed_stores_sama` (lines 166-170): the loop
`for (i = 0; i < personalized_count && result.size() < n_displayed; i++)`,
run from index `i` with `fuel` iterations left; `personalized_count`
iterations exhaust the first loop condition.  `store_scores[i]` past the end
of the vector is the fault `none`. -/
def sama_select1 (store_scores : List (Int × ℚ)) (personalized_count n_displayed : Int) :
    Nat → Nat → List Int → Option (List Int)
  | 0, _, result => some result
  | fuel + 1, i, result =>
    if (i : Int) < personalized_count ∧ size_lt result.length n_displayed = true then
      match store_scores[i]? with
      | none => none
      | some s => sama_select1 store_scores personalized_count n_displayed fuel (i + 1)
          (result ++ [s.1])
    else some result

/-- Whether the customer never reserved at the store, `is_new`. -/
def is_new_store (customer : Customer) (store_id : Int) : Bool :=
  match map_find customer.history.store_interactions store_id with
  | none => true
  | some hist => decide (hist.reservations = 0)

/-- The segment-specific quality gate and score of SELECT 2 (lines 192-228):
`some quality_score` when `meets_threshold`. -/
def sama_quality (customer : Customer) (store : Restaurant) : Option ℚ :=
  let is_budget : Bool := customer.segment == "budget"
  let is_premium : Bool := customer.segment == "premium"
  let unsold_bonus : ℚ := min 1 ((unsold_bags store : ℚ) / 10)
  if is_budget then
    if store.price_per_bag ≤ customer.willingness_to_pay * (11 / 10) ∧
        store.estimated_bags ≥ 8 ∧ store.get_rating ≥ 38 / 10 then
      let value_ratio := store.get_rating / store.price_per_bag
      let price_affordability :=
        (customer.willingness_to_pay - store.price_per_bag) / customer.willingness_to_pay
      let inventory_safety : ℚ := min 1 ((store.estimated_bags : ℚ) / 15)
      some (value_ratio * 15 + price_affordability * 2 + inventory_safety * (1 / 2) +
        store.get_rating * (3 / 10) + unsold_bonus * (4 / 5))
    else none
  else if is_premium then
    if store.get_rating ≥ 4 ∧ store.estimated_bags ≥ 8 then
      let value_score := store.get_rating / store.price_per_bag
      let inventory_bonus : ℚ := min 1 ((store.estimated_bags : ℚ) / 15)
      some (store.get_rating * (3 / 2) + value_score * 10 + inventory_bonus * (1 / 2) +
        unsold_bonus * (3 / 5))
    else none
  else
    if store.get_rating ≥ 39 / 10 ∧ store.estimated_bags ≥ 8 then
      let value_score := store.get_rating / store.price_per_bag
      let inventory_bonus : ℚ := min 1 ((store.estimated_bags : ℚ) / 15)
      some (store.get_rating + value_score * 10 + inventory_bonus * (1 / 2) +
        unsold_bonus * (7 / 10))
    else none

/-- The candidate loop of SELECT 2 (lines 175-231) over the available ids,
given the ids selected so far. -/
def sama_discovery (customer : Customer) (ms : MarketState) (selected : List Int) :
    List Int → List (Int × ℚ)
  | [] => []
  | store_id :: rest =>
    if store_id ∈ selected then sama_discovery customer ms selected rest
    else if is_new_store customer store_id then
      match ms.get_restaurant store_id with
      | none => sama_discovery customer ms selected rest
      | some store =>
        match sama_quality customer store with
        | none => sama_discovery customer ms selected rest
        | some quality_score =>
          (store_id, quality_score) :: sama_discovery customer ms selected rest
    else sama_discovery customer ms selected rest

/-- The segment-specific value gate and score of SELECT 3 (lines 258-285):
`some competitive_score` when `is_competitive`. -/
def sama_competitive (customer : Customer) (store : Restaurant) : Option ℚ :=
  let is_budget : Bool := customer.segment == "budget"
  let is_premium : Bool := customer.segment == "premium"
  if store.estimated_bags ≥ 8 then
    let value_ratio := store.get_rating / store.price_per_bag
    let inventory_safety : ℚ := min 1 ((store.estimated_bags : ℚ) / 15)
    if is_budget then
      if store.price_per_bag ≤ customer.willingness_to_pay * (11 / 10) ∧
          value_ratio > 25 / 1000 then
        let price_affordability :=
          (customer.willingness_to_pay - store.price_per_bag) / customer.willingness_to_pay
        some (value_ratio * 120 + price_affordability * 3 + inventory_safety * (1 / 2) +
          store.get_rating * (3 / 10))
      else none
    else if is_premium then
      if value_ratio > 3 / 100 ∧ store.get_rating ≥ 38 / 10 then
        some (value_ratio * 100 + inventory_safety * (1 / 2) + store.get_rating * (4 / 5))
      else none
    else
      if value_ratio > 3 / 100 then
        some (value_ratio * 100 + inventory_safety * (1 / 2) + store.get_rating * (1 / 2))
      else none
  else none

/-- The candidate loop of SELECT 3 (lines 247-287). -/
def sama_price_candidates (customer : Customer) (ms : MarketState) (selected : List Int) :
    List Int → List (Int × ℚ)
  | [] => []
  | store_id :: rest =>
    if store_id ∈ selected then sama_price_candidates customer ms selected rest
    else
      match ms.get_restaurant store_id with
      | none => sama_price_candidates customer ms selected rest
      | some store =>
        match sama_competitive customer store with
        | none => sama_price_candidates customer ms selected rest
        | some competitive_score =>
          (store_id, competitive_score) :: sama_price_candidates customer ms selected rest

/-- The tail shared by SELECT 2 and SELECT 3: when there is a candidate, the
candidates are sorted and the best one is appended. -/
def push_best (sort : StdSort) (candidates : List (Int × ℚ)) (result : List Int) : List Int :=
  if candidates = [] then result
  else
    match sort (Int × ℚ) score_gt candidates with
    | [] => result
    | best :: _ => result ++ [best.1]

/-- SELECT 4 of `get_displayed_stores_sama` (lines 301-307), also STEP 5 of
`get_displayed_stores_harmony` (lines 605-611): fill by score with the ids not yet selected. -/
def fill_remaining (n_displayed : Int) : List (Int × ℚ) → List Int → List Int
  | [], result => result
  | s :: rest, result =>
    if size_lt result.length n_displayed = true then
      if s.1 ∈ result then fill_remaining n_displayed rest result
      else fill_remaining n_displayed rest (result ++ [s.1])
    else result

/-- Multi-objective strategy `get_displayed_stores_sama`.  The set `selected`
of the source holds exactly the ids of `result` at every point, so membership
in `selected` is membership in `result`. -/
def get_displayed_stores_sama (fm : FloatMath) (sort : StdSort) (customer : Customer)
    (ms : MarketState) (n_displayed : Int) : Option (List Int) :=
  let available := ms.get_available_restaurant_ids
  if available = [] then some available
  else
    let store_scores := sort (Int × ℚ) score_gt (sama_scores fm customer ms available)
    let personalized_count0 :=
      min (float_to_int ((n_displayed : ℚ) * sama_personalization customer ms))
        (store_scores.length : Int)
    let personalized_count := max 3 personalized_count0
    match sama_select1 store_scores personalized_count n_displayed personalized_count.toNat 0 [] with
    | none => none
    | some result1 =>
      let result2 := if size_lt result1.length n_displayed = true then
          push_best sort (sama_discovery customer ms result1 available) result1
        else result1
      let result3 := if size_lt result2.length n_displayed = true then
          push_best sort (sama_price_candidates customer ms result2 available) result2
        else result2
      some (fill_remaining n_displayed store_scores result3)

/-- The mean of the impression table computed at the head of
`get_displayed_stores_harmony` (lines 482-488); `1.0f` for an empty table. -/
def harmony_avg_impressions (ms : MarketState) : ℚ :=
  let total_impressions : ℚ := ((ms.impression_counts.map (fun e => e.2)).sum : Int)
  let store_count := ms.impression_counts.length
  if store_count > 0 then total_impressions / (store_count : ℚ) else 1

/-- The score of one in-radius store in `get_displayed_stores_harmony`
(lines 500-549), given its impression count. -/
def harmony_score (fm : FloatMath) (customer : Customer) (avg_impressions : ℚ)
    (store : Restaurant) (store_id : Int) (impressions : Int) : ℚ :=
  let base_score := customer.calculate_store_score fm store
  let satisfaction_bonus0 : ℚ :=
    if customer.segment = "premium" ∧ store.get_rating ≥ 4 then 1 / 2
    else if customer.segment = "budget" ∧ store.price_per_bag ≤ customer.willingness_to_pay then
      2 / 5
    else if customer.segment = "regular" ∧ store.get_rating ≥ 38 / 10 then 3 / 10
    else 0
  let satisfaction_bonus : ℚ :=
    match map_find customer.history.store_interactions store_id with
    | none => satisfaction_bonus0
    | some hist =>
      if hist.successes > 0 then
        satisfaction_bonus0 + ((hist.successes : ℚ) / (hist.reservations : ℚ)) * (3 / 10)
      else satisfaction_bonus0
  let unsold := unsold_bags store
  let waste_bonus0 : ℚ := (unsold : ℚ) * (8 / 100)
  let waste_bonus : ℚ := if unsold > 12 then waste_bonus0 + 3 / 5 else waste_bonus0
  let fairness_boost : ℚ :=
    if (impressions : ℚ) < avg_impressions * (1 / 2) then 4 / 5
    else if (impressions : ℚ) > avg_impressions * (3 / 2) then -2 / 5
    else 0
  let inventory_safety : ℚ := min 1 ((store.estimated_bags : ℚ) / 10)
  let revenue_bonus := (store.price_per_bag / 100) * inventory_safety * (3 / 10)
  let quality_penalty : ℚ := if store.estimated_bags < 5 then -3 / 2 else 0
  base_score + satisfaction_bonus + waste_bonus + fairness_boost + revenue_bonus + quality_penalty

/-- The scoring loop of `get_displayed_stores_harmony` (lines 490-552) over
the ids still to visit.  `impression_counts[store_id]` is reached only for an
in-radius store and inserts a zero entry for an id not yet in the table. -/
def harmony_scores (fm : FloatMath) (customer : Customer) (avg_impressions : ℚ) :
    List Int → MarketState → List (Int × ℚ) → List (Int × ℚ) × MarketState
  | [], ms, store_scores => (store_scores, ms)
  | store_id :: rest, ms, store_scores =>
    match ms.get_restaurant store_id with
    | none => harmony_scores fm customer avg_impressions rest ms store_scores
    | some store =>
      let distance := calculate_distance fm customer.latitude customer.longitude
        store.latitude store.longitude
      if distance > MAX_TRAVEL_DISTANCE then
        harmony_scores fm customer avg_impressions rest ms store_scores
      else
        let impressions := map_read ms.impression_counts store_id 0
        let ms1 := { ms with impression_counts := map_update ms.impression_counts store_id 0 id }
        let final_score := harmony_score fm customer avg_impressions store store_id impressions
        harmony_scores fm customer avg_impressions rest ms1
          (store_scores ++ [(store_id, final_score)])

/-- STEP 3 of `get_displayed_stores_harmony` (lines 568-582): the first store
in score order that is not selected and has at least 10 unsold bags. -/
def harmony_high_waste (ms : MarketState) (store_scores : List (Int × ℚ)) (result : List Int) :
    List Int :=
  match store_scores.find? (fun s =>
      !(decide (s.1 ∈ result)) &&
        (match ms.get_restaurant s.1 with
         | some store => decide (unsold_bags store ≥ 10)
         | none => false)) with
  | some s => result ++ [s.1]
  | none => result

/-- STEP 4 of `get_displayed_stores_harmony` (lines 585-602): the first store
in score order that is not selected, new to the customer, rated at least 3.8
and with at least 6 estimated bags. -/
def harmony_discovery (customer : Customer) (ms : MarketState) (store_scores : List (Int × ℚ))
    (result : List Int) : List Int :=
  match store_scores.find? (fun s =>
      !(decide (s.1 ∈ result)) && is_new_store customer s.1 &&
        (match ms.get_restaurant s.1 with
         | some store => decide (store.get_rating ≥ 38 / 10 ∧ store.estimated_bags ≥ 6)
         | none => false)) with
  | some s => result ++ [s.1]
  | none => result

/-- The loop `for (id : result) impression_counts[id]++`. -/
def track_impressions (counts : List (Int × Int)) (result : List Int) : List (Int × Int) :=
  result.foldl (fun m store_id => map_update m store_id 0 (fun v => v + 1)) counts

/-- Combined strategy `get_displayed_stores_harmony`; it returns the display
and the market state with the impression table it leaves behind. -/
def get_displayed_stores_harmony (fm : FloatMath) (sort : StdSort) (customer : Customer)
    (ms : MarketState) (n_displayed : Int) : List Int × MarketState :=
  let available := ms.get_available_restaurant_ids
  if available = [] then (available, ms)
  else
    let avg_impressions := harmony_avg_impressions ms
    let scored := harmony_scores fm customer avg_impressions available ms []
    let ms1 := scored.2
    let store_scores := sort (Int × ℚ) score_gt scored.1
    let direct_slots := float_to_int ((n_displayed : ℚ) * (7 / 10))
    let result2 := (store_scores.take direct_slots.toNat).map (fun s => s.1)
    let result3 := if size_lt result2.length n_displayed = true then
        harmony_high_waste ms1 store_scores result2 else result2
    let result4 := if size_lt result3.length n_displayed = true then
        harmony_discovery customer ms1 store_scores result3 else result3
    let result := fill_remaining n_displayed store_scores result4
    (result, { ms1 with impression_counts := track_impressions ms1.impression_counts result })

/-- The dispatcher `get_displayed_stores`: the display and the market state
after the call; `none` when the strategy faults. -/
def get_displayed_stores (fm : FloatMath) (sort : StdSort) (customer : Customer)
    (ms : MarketState) (n_displayed : Int) (algorithm : RankingAlgorithm) :
    Option (List Int × MarketState) :=
  match algorithm with
  | RankingAlgorithm.SAMA =>
    (get_displayed_stores_sama fm sort customer ms n_displayed).map (fun r => (r, ms))
  | RankingAlgorithm.ANDREW => some (get_displayed_stores_andrew fm sort customer ms n_displayed)
  | RankingAlgorithm.AMER => some (get_displayed_stores_amer fm sort customer ms n_displayed, ms)
  | RankingAlgorithm.ZIAD => some (get_displayed_stores_ziad fm sort customer ms n_displayed, ms)
  | RankingAlgorithm.HARMONY =>
    some (get_displayed_stores_harmony fm sort customer ms n_displayed)
  | RankingAlgorithm.BASELINE =>
    (get_displayed_stores_baseline sort ms n_displayed).map (fun r => (r, ms))

/-! ## CustomerDecisionSystem.cpp -/

/-- Scores of the displayed stores, `CustomerDecisionSystem::calculate_store_scores`;
an id absent from the store table scores `-100`. -/
def calculate_store_scores (fm : FloatMath) (customer : Customer)
    (displayed_store_ids : List Int) (ms : MarketState) : List ℚ :=
  displayed_store_ids.map (fun store_id =>
    match ms.get_restaurant store_id with
    | some store => customer.calculate_store_score fm store
    | none => -100)

/-- The adjustment `select_store` applies to the score of one displayed store
(lines 90-113): history bonus and penalty, then the inventory-safety bonus. -/
def adjust_score (customer : Customer) (ms : MarketState) (store_id : Int) (score : ℚ) : ℚ :=
  let score1 : ℚ :=
    match map_find customer.history.store_interactions store_id with
    | none => score
    | some interaction =>
      if interaction.reservations > 0 then
        let success_rate : ℚ := (interaction.successes : ℚ) / (interaction.reservations : ℚ)
        let boosted := score + success_rate * (3 / 2)
        if interaction.cancellations > 0 then
          boosted - ((interaction.cancellations : ℚ) / (interaction.reservations : ℚ)) * 2
        else boosted
      else score
  match ms.get_restaurant store_id with
  | some store => score1 + min 1 ((store.estimated_bags : ℚ) / 12) * (3 / 10)
  | none => score1

/-- The adjustment loop of `select_store` (lines 89-113): `adjusted_scores`
starts as a copy of `scores` and entry `i` is adjusted for every displayed id
`i`; a displayed id without a score entry is a write past the end, the fault `none`. -/
def adjust_all (customer : Customer) (ms : MarketState) : List Int → List ℚ → Option (List ℚ)
  | [], scores => some scores
  | _ :: _, [] => none
  | store_id :: ids, score :: scores =>
    (adjust_all customer ms ids scores).map
      (fun rest => adjust_score customer ms store_id score :: rest)

/-- The cumulative scan of `probabilistic_select` (lines 166-171) over the
probabilities and valid indices still to visit: the first index whose
cumulative mass reaches `random_val`. -/
def cumulative_pick (random_val : ℚ) : List ℚ → List Nat → ℚ → Option Nat
  | p :: ps, i :: is, cumulative =>
    if random_val ≤ cumulative + p then some i
    else cumulative_pick random_val ps is (cumulative + p)
  | _, _, _ => none

/-- Softmax draw `CustomerDecisionSystem::probabilistic_select`; `random_val`
is the value drawn from the generator.  Both vectors are non-empty at the
only call site; an index outside `store_ids` is the fault `none`. -/
def probabilistic_select (fm : FloatMath) (random_val : ℚ) (store_ids : List Int)
    (valid_indices : List Nat) (valid_scores : List ℚ) : Option Int :=
  match valid_scores with
  | [] => none
  | first :: others =>
    let min_score := others.foldl min first
    let temperature : ℚ := 2
    let exps := valid_scores.map (fun score => fm.exp ((score - min_score + 1) / temperature))
    let sum_exp := exps.foldl (fun acc e => acc + e) 0
    let probabilities := exps.map (fun e => e / sum_exp)
    match cumulative_pick random_val probabilities valid_indices 0 with
    | some i => store_ids[i]?
    | none =>
      match valid_indices.getLast? with
      | some i => store_ids[i]?
      | none => none

/-- Positions `0 .. n-1` paired with the entries of a list. -/
def indexed {α : Type} (l : List α) : List (Nat × α) :=
  (List.range l.length).zip l

/-- Store choice `CustomerDecisionSystem::select_store`, `-1` for none. -/
def select_store (fm : FloatMath) (random_val : ℚ) (customer : Customer)
    (displayed_store_ids : List Int) (scores : List ℚ) (ms : MarketState) : Option Int :=
  match scores with
  | [] => some (-1)
  | first :: others =>
    let base_threshold := customer.leaving_threshold
    let loyalty_adjustment := (1 - customer.loyalty) * 2
    let threshold := base_threshold + loyalty_adjustment
    let max_score := others.foldl max first
    if max_score < threshold then some (-1)
    else
      match adjust_all customer ms displayed_store_ids scores with
      | none => none
      | some adjusted_scores =>
        let valid := (indexed adjusted_scores).filter
          (fun e => decide (e.2 ≥ threshold ∧ e.2 > -50))
        if valid = [] then some (-1)
        else probabilistic_select fm random_val displayed_store_ids
          (valid.map (fun e => e.1)) (valid.map (fun e => e.2))

/-- Reservation creation `CustomerDecisionSystem::create_reservation`: the
success flag, the customer and the market state after the call. -/
def create_reservation (customer : Customer) (restaurant_id : Int) (ms : MarketState) :
    Bool × Customer × MarketState :=
  match ms.get_restaurant restaurant_id with
  | none => (false, customer, ms)
  | some restaurant =>
    if restaurant.can_accept_reservation = false then (false, customer, ms)
    else
      let res := Reservation.create ms.next_reservation_id customer.id restaurant_id
        ms.current_time
      let customer1 := customer.record_reservation_attempt restaurant_id
        restaurant.business_type ms.current_time
      (true, customer1,
        { ms with
          next_reservation_id := ms.next_reservation_id + 1,
          restaurants := update_restaurant
            (fun r => { r with reserved_count := r.reserved_count + 1 }) restaurant_id
            ms.restaurants,
          reservations := ms.reservations ++ [res] })

/-- Arrival of one customer, `CustomerDecisionSystem::process_customer_arrival`:
the selected store id (`-1` for none), the customer and the market state after
the call; `none` when the display strategy or the selection faults.  The
engine passes the registry entry `market_state.customers[id]` as the customer;
nothing reached from this function reads the registry, so the customer is
passed and returned beside the market state. -/
def process_customer_arrival (fm : FloatMath) (sort : StdSort) (random_val : ℚ)
    (customer : Customer) (ms : MarketState) (n_displayed : Int)
    (algorithm : RankingAlgorithm) : Option (Int × Customer × MarketState) :=
  let customer1 := customer.record_visit
  match get_displayed_stores fm sort customer1 ms n_displayed algorithm with
  | none => none
  | some (displayed, ms1) =>
    let ms2 := { ms1 with impression_counts := track_impressions ms1.impression_counts displayed }
    if displayed = [] then some (-1, { customer1 with churned := true }, ms2)
    else
      let scores := calculate_store_scores fm customer1 displayed ms2
      match select_store fm random_val customer1 displayed scores ms2 with
      | none => none
      | some selected =>
        if selected = -1 then some (-1, { customer1 with churned := true }, ms2)
        else
          match create_reservation customer1 selected ms2 with
          | (false, customer2, ms3) => some (-1, { customer2 with churned := true }, ms3)
          | (true, customer2, ms3) => some (selected, customer2, ms3)

/-! ## std::sort with a comparator that orders the values of the range -/

/-- The requirement of the standard on a comparator, to the letter: it induces
a strict weak ordering on the values of the range that is sorted. -/
structure StrictWeakOrderOn {α : Type} (lt : α → α → Bool) (l : List α) : Prop where
  irrefl : ∀ a ∈ l, lt a a = false
  trans : ∀ a ∈ l, ∀ b ∈ l, ∀ c ∈ l, lt a b = true → lt b c = true → lt a c = true
  incomp_trans : ∀ a ∈ l, ∀ b ∈ l, ∀ c ∈ l, lt a b = false → lt b a = false →
    lt b c = false → lt c b = false → lt a c = false ∧ lt c a = false

/-- The promise of `std::sort` for such a comparator: a permutation of the
input in which no later element compares less than an earlier one.  It
implies `SortContract`, which asks the ordering of the comparator on all values. -/
def SortContractOn (sort : StdSort) : Prop :=
  ∀ (α : Type) (lt : α → α → Bool) (l : List α), StrictWeakOrderOn lt l →
    List.Perm (sort α lt l) l ∧ List.Pairwise (fun a b => lt b a = false) (sort α lt l)

/-! ## CustomerDecisionSystem.cpp: the softmax of `probabilistic_select` -/

/-- The vector `probabilities` built by `probabilistic_select` (lines 143-159)
from the retained scores: `exp((score - min_score + 1) / temperature)` divided
by the sum of these values, with `temperature = 2`.  The computation is
written for any ordered field of numbers and any `exp`; `probabilistic_select`
runs it on the floats with the `exp` of `<cmath>`. -/
def softmax_probabilities {F : Type} [LinearOrderedField F] (exp : F → F) : List F → List F
  | [] => []
  | first :: others =>
    let min_score := others.foldl min first
    let temperature : F := 2
    let exps := (first :: others).map (fun score => exp ((score - min_score + 1) / temperature))
    let sum_exp := exps.foldl (fun acc e => acc + e) 0
    exps.map (fun e => e / sum_exp)

/-! ## Metrics.h / Metrics.cpp -/

/-- The metrics of one run, `struct SimulationMetrics`. -/
structure SimulationMetrics where
  total_bags_sold : Int
  total_bags_cancelled : Int
  total_bags_unsold : Int
  total_revenue_generated : ℚ
  total_revenue_lost : ℚ
  customers_who_left : Int
  total_customer_arrivals : Int
  bags_sold_per_store : List (Int × Int)
  bags_cancelled_per_store : List (Int × Int)
  revenue_per_store : List (Int × ℚ)
  times_displayed_per_store : List (Int × Int)
  waste_per_store : List (Int × Int)
  gini_coefficient_exposure : ℚ
deriving DecidableEq, Inhabited

/-- Constructor `SimulationMetrics::SimulationMetrics`. -/
def SimulationMetrics.fresh : SimulationMetrics :=
  { total_bags_sold := 0, total_bags_cancelled := 0, total_bags_unsold := 0,
    total_revenue_generated := 0, total_revenue_lost := 0, customers_who_left := 0,
    total_customer_arrivals := 0, bags_sold_per_store := [], bags_cancelled_per_store := [],
    revenue_per_store := [], times_displayed_per_store := [], waste_per_store := [],
    gini_coefficient_exposure := 0 }

/-- Exposure log `MetricsCollector::log_stores_displayed`. -/
def log_stores_displayed (metrics : SimulationMetrics) (store_ids : List Int) :
    SimulationMetrics :=
  { metrics with
    times_displayed_per_store :=
      store_ids.foldl (fun m id => map_update m id 0 (fun v => v + 1))
        metrics.times_displayed_per_store }

/-- The locals of the store loop of `log_end_of_day` together with the
metrics, as carried through the reservation loop. -/
structure StoreTally where
  bags_sold : Int
  bags_cancelled : Int
  total_bags_given : Int
  metrics : SimulationMetrics

/-- One iteration of the reservation loop of `log_end_of_day` (lines 135-154). -/
def tally_reservation (restaurant : Restaurant) (t : StoreTally) (res : Reservation) :
    StoreTally :=
  if res.restaurant_id = restaurant.business_id then
    if res.status = Status.CONFIRMED then
      let bags_for_this_reservation := res.bags_received
      let revenue_for_reservation := restaurant.price_per_bag * (bags_for_this_reservation : ℚ)
      { bags_sold := t.bags_sold + bags_for_this_reservation,
        bags_cancelled := t.bags_cancelled,
        total_bags_given := t.total_bags_given + bags_for_this_reservation,
        metrics :=
          { t.metrics with
            total_bags_sold := t.metrics.total_bags_sold + bags_for_this_reservation,
            revenue_per_store := map_update t.metrics.revenue_per_store restaurant.business_id 0
              (fun v => v + revenue_for_reservation),
            total_revenue_generated :=
              t.metrics.total_revenue_generated + revenue_for_reservation } }
    else if res.status = Status.CANCELLED then
      { t with
        bags_cancelled := t.bags_cancelled + 1,
        metrics :=
          { t.metrics with
            total_bags_cancelled := t.metrics.total_bags_cancelled + 1,
            total_revenue_lost := t.metrics.total_revenue_lost + restaurant.price_per_bag } }
    else t
  else t

/-- The body of the store loop of `log_end_of_day` (lines 131-167) for one store. -/
def log_store (ms : MarketState) (metrics : SimulationMetrics) (restaurant : Restaurant) :
    SimulationMetrics :=
  let t := ms.reservations.foldl (tally_reservation restaurant)
    { bags_sold := 0, bags_cancelled := 0, total_bags_given := 0, metrics := metrics }
  let m1 : SimulationMetrics :=
    { t.metrics with
      bags_sold_per_store :=
        map_update t.metrics.bags_sold_per_store restaurant.business_id 0 (fun _ => t.bags_sold),
      bags_cancelled_per_store :=
        map_update t.metrics.bags_cancelled_per_store restaurant.business_id 0
          (fun _ => t.bags_cancelled) }
  let unsold := max 0 (restaurant.actual_bags - t.total_bags_given)
  if unsold > 0 then
    { m1 with
      total_bags_unsold := m1.total_bags_unsold + unsold,
      waste_per_store := map_update m1.waste_per_store restaurant.business_id 0 (fun _ => unsold) }
  else
    { m1 with
      waste_per_store := map_update m1.waste_per_store restaurant.business_id 0 (fun _ => 0) }

/-- Daily totals, `MetricsCollector::log_end_of_day`. -/
def log_end_of_day (metrics : SimulationMetrics) (ms : MarketState) : SimulationMetrics :=
  ms.restaurants.foldl (log_store ms)
    { metrics with
      total_bags_sold := 0, total_bags_cancelled := 0, total_bags_unsold := 0,
      total_revenue_generated := 0, total_revenue_lost := 0 }

/-- The collection loop of `calculate_fairness_metrics` (lines 173-176):
`times_displayed_per_store[id]` inserts a zero entry for an id not in the table. -/
def collect_exposures : List Restaurant → List (Int × Int) → List Int × List (Int × Int)
  | [], table => ([], table)
  | restaurant :: rest, table =>
    let exposure := map_read table restaurant.business_id 0
    let collected := collect_exposures rest (map_update table restaurant.business_id 0 id)
    (exposure :: collected.1, collected.2)

/-- The summation loop of `calculate_fairness_metrics` (lines 188-191) from
index `i`, carrying `sum` and `weighted_sum`.  In `exposures[i] * (i + 1)` the
`int` is converted to `size_t` and the product is taken modulo `2^64` before it
is added to the float. -/
def gini_sums : List Int → Nat → ℚ → ℚ → ℚ × ℚ
  | [], _, sum, weighted_sum => (sum, weighted_sum)
  | x :: rest, i, sum, weighted_sum =>
    gini_sums rest (i + 1) (sum + (x : ℚ))
      (weighted_sum + ((to_size_t (to_size_t x * ((i : Int) + 1)) : Int) : ℚ))

/-- The comparator of `std::sort` without a comparator on `int`: `operator<`. -/
def int_lt (a b : Int) : Bool :=
  decide (a < b)

/-- The Gini coefficient of the exposures, `MetricsCollector::calculate_fairness_metrics`. -/
def calculate_fairness_metrics (sort : StdSort) (metrics : SimulationMetrics)
    (ms : MarketState) : SimulationMetrics :=
  let collected := collect_exposures ms.restaurants metrics.times_displayed_per_store
  let metrics1 : SimulationMetrics := { metrics with times_displayed_per_store := collected.2 }
  if collected.1 = [] then { metrics1 with gini_coefficient_exposure := 0 }
  else
    let exposures := sort Int int_lt collected.1
    let sums := gini_sums exposures 0 0 0
    let sum := sums.1
    let weighted_sum := sums.2
    if sum = 0 then { metrics1 with gini_coefficient_exposure := 0 }
    else
      let n : Int := exposures.length
      { metrics1 with
        gini_coefficient_exposure :=
          (2 * weighted_sum) / ((n : ℚ) * sum) - ((n : ℚ) + 1) / (n : ℚ) }

/-- The final fairness computation of `SimulationEngine::run_multi_day_simulation`
(lines 269-285) on the aggregated metrics: the same sums, but the coefficient is
assigned only when there are stores and `sum > 0`. -/
def aggregate_fairness (sort : StdSort) (aggregated_metrics : SimulationMetrics)
    (ms : MarketState) : SimulationMetrics :=
  let collected := collect_exposures ms.restaurants aggregated_metrics.times_displayed_per_store
  let metrics1 : SimulationMetrics :=
    { aggregated_metrics with times_displayed_per_store := collected.2 }
  if collected.1 ≠ [] then
    let exposures := sort Int int_lt collected.1
    let sums := gini_sums exposures 0 0 0
    let sum := sums.1
    let weighted_sum := sums.2
    if sum > 0 then
      let n : Int := exposures.length
      { metrics1 with
        gini_coefficient_exposure :=
          (2 * weighted_sum) / ((n : ℚ) * sum) - ((n : ℚ) + 1) / (n : ℚ) }
    else metrics1
  else metrics1

/-! ## RestaurantManagementSystem.cpp: the positions read by the settlement loops -/

/-- The values an `int` counter takes in `for (int i = a; i < b; i++)`. -/
def int_range (a b : Int) : List Int :=
  (List.range (b - a).toNat).map (fun (i : Nat) => a + (i : Int))

/-- The positions of the sorted pending list of a store that the loops of
`process_end_of_day` read, for `k` pending reservations: none when `k = 0`
(`continue`), `0 .. k-1` through the `size_t` counter of the abundance loop
when `actual_bags >= k`, and otherwise `0 .. actual_bags-1` followed by
`actual_bags .. k-1` through the `int` counters of the two scarcity loops. -/
def settlement_reads (k : Nat) (actual_bags : Int) : List Int :=
  if k = 0 then []
  else if actual_bags ≥ (k : Int) then (List.range k).map (fun (i : Nat) => (i : Int))
  else int_range 0 actual_bags ++ int_range actual_bags (k : Int)

/-! ## SimulationEngine.cpp: the calls that change customers and reservations -/

/-- The call `process_customer_arrival(market_state.customers[id], market_state, ...)`
of the day loop (lines 92-93): the customer argument is the registry entry
itself, so what the call leaves in the customer is what the registry holds
afterwards.  The day loop inserts the customer under its id just before the
call; for an id without entry `operator[]` would first insert a
default-constructed customer, a case that is left out (`none`). -/
def registered_arrival (fm : FloatMath) (sort : StdSort) (random_val : ℚ) (id : Int)
    (ms : MarketState) (n_displayed : Int) (algorithm : RankingAlgorithm) :
    Option (Int × MarketState) :=
  match ms.get_customer id with
  | none => none
  | some customer =>
    match process_customer_arrival fm sort random_val customer ms n_displayed algorithm with
    | none => none
    | some (selected, customer1, ms1) =>
      some (selected,
        { ms1 with customers := update_customer (fun _ => customer1) id ms1.customers })

/-- One step of a day: the arrival of a registered customer, or the settlement. -/
inductive MarketEvent where
  | arrival (random_val : ℚ) (id : Int) (n_displayed : Int) (algorithm : RankingAlgorithm)
  | settlement

/-- The market state after one step; `none` when the step faults. -/
def apply_event (fm : FloatMath) (sort : StdSort) (ms : MarketState) :
    MarketEvent → Option MarketState
  | MarketEvent.arrival random_val id n_displayed algorithm =>
    (registered_arrival fm sort random_val id ms n_displayed algorithm).map (fun r => r.2)
  | MarketEvent.settlement => process_end_of_day sort ms

/-- The market state after a sequence of steps. -/
def run_events (fm : FloatMath) (sort : StdSort) : List MarketEvent → MarketState →
    Option MarketState
  | [], ms => some ms
  | e :: rest, ms =>
    match apply_event fm sort ms e with
    | none => none
    | some ms1 => run_events fm sort rest ms1

/-! ## Observations and loop summaries used in the statements and proofs -/

/-- The fields of a reservation that settlement never writes. -/
def Reservation.static (r : Reservation) : Int × Int × Int × Timestamp :=
  (r.reservation_id, r.customer_id, r.restaurant_id, r.reservation_time)

/-- The fields of a store that settlement reads and never writes. -/
def Restaurant.key (r : Restaurant) : Int × Int × Int :=
  (r.business_id, r.actual_bags, r.max_bags_per_customer)

/-- What settlement leaves alone. -/
structure Frame (ms ms1 : MarketState) : Prop where
  stores : ms1.restaurants.map Restaurant.key = ms.restaurants.map Restaurant.key
  registry : ∀ id, (ms1.get_customer id).isSome = (ms.get_customer id).isSome
  log : ms1.reservations.map Reservation.static = ms.reservations.map Reservation.static

/-- Whether the reservation at log position `p` has a registered customer. -/
def reg_at (ms : MarketState) (p : Nat) : Bool :=
  match ms.reservations[p]? with
  | some r => (ms.get_customer r.customer_id).isSome
  | none => false

/-- The bag counts the abundance loop hands out, position by position, given
which positions have a registered customer and the extra bags left. -/
def alloc (max_bags bags_per_customer : Int) : List Bool → Int → List (Option Int)
  | [], _ => []
  | false :: fs, e => none :: alloc max_bags bags_per_customer fs e
  | true :: fs, e =>
    if e > 0 ∧ bags_per_customer < max_bags then
      some (bags_per_customer + 1) :: alloc max_bags bags_per_customer fs (e - 1)
    else some bags_per_customer :: alloc max_bags bags_per_customer fs e

/-- The write a confirmation makes to a reservation, if one is made. -/
def apply_bags : Option Int → Reservation → Reservation
  | none, r => r
  | some n, r => { r with status := Status.CONFIRMED, bags_received := n }

/-- The write a cancellation makes to a reservation, if one is made. -/
def apply_cancel : Bool → Reservation → Reservation
  | false, r => r
  | true, r => { r with status := Status.CANCELLED }

/-- The sorted pointer list the store loop of `process_end_of_day` works on. -/
def settlement_order (sort : StdSort) (ms : MarketState) (id : Int) : List Nat :=
  sort Nat (time_lt ms) (pending_for ms id)

/-- A reservation that no later store step will write: it is no longer
PENDING, or its customer is not registered, or no store still to visit has its id. -/
def frozen (ms : MarketState) (is : List Nat) (q : Nat) (r : Reservation) : Prop :=
  r.status ≠ Status.PENDING ∨ reg_at ms q = false ∨
    ∀ i ∈ is, ∀ Ri, ms.restaurants[i]? = some Ri → Ri.business_id ≠ r.restaurant_id

/-- Status of the reservation at log position `q`. -/
def status_at (ms : MarketState) (q : Nat) : Option Status :=
  (ms.reservations[q]?).map (fun r => r.status)

/-- Bags received by the reservation at log position `q`. -/
def bags_at (ms : MarketState) (q : Nat) : Option Int :=
  (ms.reservations[q]?).map (fun r => r.bags_received)

/-- Reservation time, in minutes, of the reservation at log position `q`. -/
def minutes_at (ms : MarketState) (q : Nat) : Int :=
  (ms.reservations.getD q default).reservation_time.to_minutes

/-- Total of `bags_received` over the CONFIRMED reservations of store `id` in the log. -/
def confirmed_bags (ms : MarketState) (id : Int) : Int :=
  ((ms.reservations.filter
    (fun r => decide (r.restaurant_id = id ∧ r.status = Status.CONFIRMED))).map
    (fun r => r.bags_received)).sum

/-- The share of log position `q` in `confirmed_bags`. -/
def confirmed_bags_at (ms : MarketState) (id : Int) (q : Nat) : Int :=
  match ms.reservations[q]? with
  | some r => if r.restaurant_id = id ∧ r.status = Status.CONFIRMED then r.bags_received else 0
  | none => 0

/-- The number of bags an entry of `alloc` hands out. -/
def bags_of : Option Int → Int
  | none => 0
  | some n => n

/-! ## Reference utility and call sequences -/

/-- The reference utility, in the words of the specification: with `d` the
Euclidean distance between the customer and the store and `T = 0.05`, it is
`-100` when `d > T`, and otherwise
`rating_w * rating + price_w * (wtp - price) / wtp + novelty_w * n + 1.5 * (1 - d / T)`,
where `n = 1` when the customer has no reservation count for the store's
category and `n = 1 / (1 + count)` otherwise. -/
def reference_utility (fm : FloatMath) (c : Customer) (store : Restaurant) : ℚ :=
  let d := fm.sqrt ((c.latitude - store.latitude) ^ 2 + (c.longitude - store.longitude) ^ 2)
  let T : ℚ := 5 / 100
  let n : ℚ :=
    match map_find c.history.categories_reserved store.business_type with
    | none => 1
    | some count => 1 / (1 + (count : ℚ))
  if d > T then -100
  else
    c.weights.rating_w * store.general_ranking +
      c.weights.price_w * ((c.willingness_to_pay - store.price_per_bag) / c.willingness_to_pay) +
      c.weights.novelty_w * n + (3 / 2) * (1 - d / T)

/-- The calls on a `Customer` that reach the loyalty field or are made by settlement. -/
inductive CustomerCall where
  | update_loyalty (was_cancelled : Bool)
  | record_reservation_cancellation (store_id : Int)
  | record_reservation_success (store_id : Int) (category : String)
deriving DecidableEq, Repr

/-- One call on a customer. -/
def Customer.call (c : Customer) : CustomerCall → Customer
  | CustomerCall.update_loyalty was_cancelled => c.update_loyalty was_cancelled
  | CustomerCall.record_reservation_cancellation store_id =>
    c.record_reservation_cancellation store_id
  | CustomerCall.record_reservation_success store_id category =>
    c.record_reservation_success store_id category

/-- A finite sequence of calls on a customer, first call first. -/
def Customer.calls (c : Customer) (l : List CustomerCall) : Customer :=
  l.foldl Customer.call c

/-- The two rating calls on a store. -/
inductive RatingCall where
  | update_rating_on_confirmation
  | update_rating_on_cancellation
deriving DecidableEq, Repr

/-- One rating call on a store. -/
def Restaurant.rating_call (r : Restaurant) : RatingCall → Restaurant
  | RatingCall.update_rating_on_confirmation => r.update_rating_on_confirmation
  | RatingCall.update_rating_on_cancellation => r.update_rating_on_cancellation

/-- A finite sequence of rating calls on a store, first call first. -/
def Restaurant.rating_calls (r : Restaurant) (l : List RatingCall) : Restaurant :=
  l.foldl Restaurant.rating_call r

/-- Whether the rating of a store lies in `[1, 5]`. -/
def Restaurant.rating_in_range (r : Restaurant) : Prop :=
  1 ≤ r.general_ranking ∧ r.general_ranking ≤ 5

/-! ## Observations on timestamps and displays -/

/-- Whether a timestamp is a time of day: `0 <= hour <= 23` and `0 <= minute <= 59`. -/
def Timestamp.time_of_day (t : Timestamp) : Prop :=
  0 ≤ t.hour ∧ t.hour ≤ 23 ∧ 0 ≤ t.minute ∧ t.minute ≤ 59

instance Timestamp.time_of_day_decidable (t : Timestamp) : Decidable t.time_of_day := by
  unfold Timestamp.time_of_day
  infer_instance

/-- The rating of the store found under an id, `0` when there is none. -/
def rating_of (ms : MarketState) (id : Int) : ℚ :=
  match ms.get_restaurant id with
  | some store => store.get_rating
  | none => 0

/-- The distance from the customer to the store found under an id, `0` when there is none. -/
def distance_to (fm : FloatMath) (customer : Customer) (ms : MarketState) (id : Int) : ℚ :=
  match ms.get_restaurant id with
  | some store =>
    calculate_distance fm customer.latitude customer.longitude store.latitude store.longitude
  | none => 0

/-- Whether an id belongs to a store within `MAX_TRAVEL_DISTANCE` of the customer. -/
def within_radius (fm : FloatMath) (customer : Customer) (ms : MarketState) (id : Int) : Bool :=
  match ms.get_restaurant id with
  | some store =>
    decide (calculate_distance fm customer.latitude customer.longitude store.latitude
      store.longitude ≤ MAX_TRAVEL_DISTANCE)
  | none => false

/-- The weighted-linear score of the store found under an id, in the words of
the specification: `-0.01 * price_per_bag + 1.5 * rating +
0.1 * max(0, estimated_bags - reserved_count)`; `0` when there is no store. -/
def linear_score_of (ms : MarketState) (id : Int) : ℚ :=
  match ms.get_restaurant id with
  | some store =>
    -(1 / 100) * store.price_per_bag + (3 / 2) * store.general_ranking +
      (1 / 10) * ((max 0 (store.estimated_bags - store.reserved_count) : Int) : ℚ)
  | none => 0

/-! ## Vocabulary of the fairness and waste claims -/

/-- The exposure counts of the stores, in store order: what
`times_displayed_per_store` holds for each store's id, 0 for an id without entry. -/
def exposure_counts (metrics : SimulationMetrics) (ms : MarketState) : List Int :=
  ms.restaurants.map (fun r => map_read metrics.times_displayed_per_store r.business_id 0)

/-- The rank-weighted total of a list of counts: the count at position `j`
(from 0) weighs `i + j + 1`. -/
def weighted_total : List Int → Nat → Int
  | [], _ => 0
  | x :: rest, i => x * ((i : Int) + 1) + weighted_total rest (i + 1)

/-! ## Vocabulary of the behaviour claims -/

/-- The damped score of the fairness strategy, in the words of the
specification: personal utility divided by `log(impressions + 1) + 1`. -/
def damped_score (fm : FloatMath) (u : ℚ) (impressions : Int) : ℚ :=
  u / (fm.log ((impressions : ℚ) + 1) + 1)

/-- The raw score `calculate_store_scores` gives a displayed id: the customer's
utility for the store found under the id, `-100` when there is none. -/
def raw_score (fm : FloatMath) (customer : Customer) (ms : MarketState) (store_id : Int) : ℚ :=
  match ms.get_restaurant store_id with
  | some store => customer.calculate_store_score fm store
  | none => -100

/-- A display under construction from the scored list `S` for `n_displayed`
slots: no id twice, ids of `S` only, no more than `n_displayed` ids. -/
def WithinDisplay (S : List (Int × ℚ)) (n_displayed : Int) (r : List Int) : Prop :=
  r.Nodup ∧ (∀ id ∈ r, id ∈ S.map (fun s => s.1)) ∧ (r.length : Int) ≤ n_displayed

/-- The loyalty after one cancellation, in the words of the specification:
`max(0, loyalty - 0.1)`. -/
def loyalty_drop (l : ℚ) : ℚ :=
  max 0 (l - 1 / 10)

/-- The number of CANCELLED reservations of customer `k` in the log. -/
def cancelled_count (ms : MarketState) (k : Int) : Nat :=
  ms.reservations.countP (fun r => decide (r.customer_id = k ∧ r.status = Status.CANCELLED))

/-- The number of PENDING reservations of customer `k` at store `s` in the log. -/
def pending_count (ms : MarketState) (k s : Int) : Nat :=
  ms.reservations.countP
    (fun r => decide (r.customer_id = k ∧ r.restaurant_id = s ∧ r.status = Status.PENDING))

/-- The counters the customer keeps for store `s`; zeros when there is no entry. -/
def interaction_of (c : Customer) (s : Int) : StoreInteraction :=
  map_read c.history.store_interactions s StoreInteraction.zero

/-- The history consistency invariant: every registry entry is filed under the
customer's own id, and for every registered customer and every store the
successes and cancellations are not negative and together with the customer's
PENDING reservations at the store do not exceed the reservations recorded. -/
def HistoryConsistent (ms : MarketState) : Prop :=
  ∀ (k : Int) (c : Customer), ms.get_customer k = some c →
    c.id = k ∧
    ∀ s : Int, 0 ≤ (interaction_of c s).successes ∧ 0 ≤ (interaction_of c s).cancellations ∧
      (interaction_of c s).successes + (interaction_of c s).cancellations +
        (pending_count ms k s : Int) ≤ (interaction_of c s).reservations

/-! ## Concrete scenarios -/

/-- A store fixture: only the identity, the inventory and the cap vary. -/
def store_fixture (id actual_bags max_bags : Int) : Restaurant :=
  { business_id := id, business_name := "store", branch := "", estimated_bags := 10,
    general_ranking := 4, price_per_bag := 50, longitude := 0, latitude := 0,
    business_type := "bakery", actual_bags := actual_bags, reserved_count := 0,
    has_inventory := true, max_bags_per_customer := max_bags, total_orders_confirmed := 0,
    total_orders_cancelled := 0, initial_rating := 4, rating_at_day_start := 4,
    daily_orders_confirmed := 0, daily_orders_cancelled := 0 }

/-- A customer fixture: the values set by `Customer::Customer(int, const string&)`
for the segment "regular", placed at the origin. -/
def customer_fixture (id : Int) : Customer :=
  { id := id, longitude := 0, latitude := 0, customer_name := "", segment := "regular",
    willingness_to_pay := 200, weights := { rating_w := 1, price_w := 1, novelty_w := 1 / 2 },
    loyalty := 4 / 5, leaving_threshold := 3, history := CustomerHistory.fresh,
    churned := false,
    category_preference := [("bakery", 1), ("cafe", 1), ("restaurant", 1)],
    store_valuations := [] }

/-- A market state fixture at 08:00 with an empty impression table. -/
def market_fixture (stores : List Restaurant) (customers : List Int)
    (log : List Reservation) : MarketState :=
  { restaurants := stores, customers := customers.map (fun id => (id, customer_fixture id)),
    reservations := log, current_time := { hour := 8, minute := 0 },
    next_reservation_id := log.length + 1, impression_counts := [] }

/-- One store with 5 bags; its only reservation belongs to customer 7, who is
not in the registry. -/
def orphan_state : MarketState :=
  market_fixture [store_fixture 1 5 3] [] [Reservation.create 1 7 1 { hour := 9, minute := 0 }]

/-- One store whose `actual_bags` is negative, with one reservation of a registered customer. -/
def negative_state : MarketState :=
  market_fixture [store_fixture 1 (-1) 3] [7] [Reservation.create 1 7 1 { hour := 9, minute := 0 }]

/-- The scenario of the spec: one store, `actual_bags = 3`, five pending
reservations at 08:01 .. 08:05, entered in the log out of time order. -/
def scarcity_state : MarketState :=
  market_fixture [store_fixture 1 3 3] [1, 2, 3, 4, 5]
    [Reservation.create 1 1 1 { hour := 8, minute := 5 },
     Reservation.create 2 2 1 { hour := 8, minute := 1 },
     Reservation.create 3 3 1 { hour := 8, minute := 4 },
     Reservation.create 4 4 1 { hour := 8, minute := 2 },
     Reservation.create 5 5 1 { hour := 8, minute := 3 }]

/-- Two stores share business id 1: the first has 5 bags, the second none.
Two pending reservations of registered customers carry that id. -/
def duplicate_scarcity_state : MarketState :=
  market_fixture [store_fixture 1 5 3, store_fixture 1 0 3] [1, 2]
    [Reservation.create 1 1 1 { hour := 8, minute := 1 },
     Reservation.create 2 2 1 { hour := 8, minute := 2 }]

/-- Two stores share business id 1: the first has 5 bags, the second 1.  Three
pending reservations of registered customers carry that id. -/
def duplicate_total_state : MarketState :=
  market_fixture [store_fixture 1 5 3, store_fixture 1 1 3] [1, 2, 3]
    [Reservation.create 1 1 1 { hour := 8, minute := 1 },
     Reservation.create 2 2 1 { hour := 8, minute := 2 },
     Reservation.create 3 3 1 { hour := 8, minute := 3 }]

/-- Two stores share business id 1: both have 3 bags, the caps are 3 and 1.
One pending reservation of a registered customer carries that id. -/
def duplicate_cap_state : MarketState :=
  market_fixture [store_fixture 1 3 3, store_fixture 1 3 1] [1]
    [Reservation.create 1 1 1 { hour := 8, minute := 1 }]

/-- Two stores share business id 1: the first has 2 bags, the second 4, both
with cap 3.  Two pending reservations of registered customers carry that id. -/
def duplicate_allocation_state : MarketState :=
  market_fixture [store_fixture 1 2 3, store_fixture 1 4 3] [1, 2]
    [Reservation.create 1 1 1 { hour := 8, minute := 1 },
     Reservation.create 2 2 1 { hour := 8, minute := 2 }]

/-- The scenario of the spec: one store with `actual_bags = 10`, cap 3, and
ten pending reservations of registered customers at 08:01 .. 08:10. -/
def abundance_state : MarketState :=
  market_fixture [store_fixture 1 10 3] [1, 2, 3, 4, 5, 6, 7, 8, 9, 10]
    ((List.range 10).map (fun n =>
      Reservation.create (n + 1) (n + 1) 1 { hour := 8, minute := n + 1 }))

/-- One store with 7 bags and cap 3, three pending reservations of
registered customers, entered in the log out of time order. -/
def extras_state : MarketState :=
  market_fixture [store_fixture 1 7 3] [1, 2, 3]
    [Reservation.create 1 1 1 { hour := 8, minute := 3 },
     Reservation.create 2 2 1 { hour := 8, minute := 1 },
     Reservation.create 3 3 1 { hour := 8, minute := 2 }]

/-- One store with a single bag and seventeen pending reservations of
registered customers 1..17, all made at 08:00; log position `i` holds the
reservation created `i`-th. -/
def tie_state : MarketState :=
  market_fixture [store_fixture 1 1 3] ((List.range 17).map (fun i => (i : Int) + 1))
    ((List.range 17).map
      (fun i => Reservation.create ((i : Int) + 1) ((i : Int) + 1) 1 { hour := 8, minute := 0 }))

/-- An instance of the `<cmath>` parameters for evaluating concrete scenarios:
`sqrt` is exact on squares of rationals; `log` and `exp` are low-order
rational approximations, exact at `log 1 = 0` and `exp 0 = 1`. -/
def reference_math : FloatMath :=
  { sqrt := Rat.sqrt,
    log := fun x => 2 * (x - 1) / (x + 1),
    exp := fun x => 1 + x + x * x / 2 }

/-- One available store at the customer's position. -/
def single_store_state : MarketState :=
  market_fixture [store_fixture 1 5 3] [] []

/-- Two available stores at the customer's position that differ only in
rating (4.5 and 4.0), with an empty impression table. -/
def rivalry_state : MarketState :=
  market_fixture
    [{ store_fixture 1 10 3 with general_ranking := 9 / 2 }, store_fixture 2 10 3] [] []

/-- The impression table `get_displayed_stores_harmony` leaves behind on
`rivalry_state`: store 1 was displayed once. -/
def rivalry_state_after : MarketState :=
  { rivalry_state with impression_counts := [(1, 1), (2, 0)] }

/-! ## Concrete scenarios: arrivals and purchases -/

/-- One bakery store with 5 bags and one pending reservation of the registered customer 7. -/
def purchase_state : MarketState :=
  market_fixture [store_fixture 1 5 3] [7] [Reservation.create 1 7 1 { hour := 9, minute := 0 }]

/-- Two stores: store 1 has one pending reservation of the registered
customer 7 and 5 bags, store 2 has no reservation. -/
def idle_store_state : MarketState :=
  market_fixture [store_fixture 1 5 3, store_fixture 2 4 3] [7]
    [Reservation.create 1 7 1 { hour := 9, minute := 0 }]

/-- A customer with `leaving_threshold = 5` and `loyalty = 0.8`: decision threshold 5.4. -/
def picky_customer : Customer :=
  { customer_fixture 1 with leaving_threshold := 5 }

/-- One available store at the customer's position rated 1.25, whose utility
for the fixture weights is `1.25 + 0.75 + 0.5 + 1.5 = 4.0`. -/
def modest_store_state : MarketState :=
  market_fixture [{ store_fixture 1 5 3 with general_ranking := 5 / 4 }] [] []

/-- The market state an arrival of customer 1 leaves behind on
`single_store_state` when store 1 is displayed and reserved. -/
def single_store_state_reserved : MarketState :=
  { single_store_state with
    restaurants := [{ store_fixture 1 5 3 with reserved_count := 1 }],
    reservations := [Reservation.create 1 1 1 { hour := 8, minute := 0 }],
    next_reservation_id := 2,
    impression_counts := [(1, 1)] }

/-- One store with 5 bags; the log holds a CANCELLED reservation, a CONFIRMED
reservation with 2 bags and a PENDING one, all of the registered customer 7. -/
def settled_state : MarketState :=
  market_fixture [store_fixture 1 5 3] [7]
    [{ Reservation.create 1 7 1 { hour := 9, minute := 0 } with status := Status.CANCELLED },
     { Reservation.create 2 7 1 { hour := 9, minute := 1 } with
       status := Status.CONFIRMED, bags_received := 2 },
     Reservation.create 3 7 1 { hour := 9, minute := 2 }]

/-! ## Concrete scenarios: displays -/

/-- Three available stores with distinct ids and ratings 3.5, 4.5 and 4.0. -/
def three_ratings_state : MarketState :=
  market_fixture
    [{ store_fixture 1 5 3 with general_ranking := 7 / 2 },
     { store_fixture 2 5 3 with general_ranking := 9 / 2 },
     store_fixture 3 5 3] [] []

/-- Seven available stores at the customer's position, rated 4.0, 4.1, ..., 4.6. -/
def seven_stores_state : MarketState :=
  market_fixture
    ((List.range 7).map (fun i =>
      { store_fixture ((i : Int) + 1) 5 3 with general_ranking := 4 + (i : ℚ) / 10 })) [] []

/-- Three available stores at distances 0.03, 0.01 and 0.01 of the customer;
a fourth at distance 0.08 is out of the radius. -/
def distances_state : MarketState :=
  market_fixture
    [{ store_fixture 1 5 3 with latitude := 3 / 100 },
     { store_fixture 2 5 3 with latitude := 1 / 100 },
     { store_fixture 3 5 3 with longitude := 1 / 100 },
     { store_fixture 4 5 3 with latitude := 8 / 100 }] [] []

/-- Four stores with ids 1 to 4. -/
def four_stores_state : MarketState :=
  market_fixture [store_fixture 1 5 3, store_fixture 2 5 3, store_fixture 3 5 3,
    store_fixture 4 5 3] [] []

/-- Each of the four stores displayed once. -/
def equal_exposure_metrics : SimulationMetrics :=
  log_stores_displayed SimulationMetrics.fresh [1, 2, 3, 4]

/-- Store 4 displayed ten times, the other stores never. -/
def single_exposure_metrics : SimulationMetrics :=
  (List.replicate 10 [4]).foldl log_stores_displayed SimulationMetrics.fresh

/-- One available store one degree of latitude away from the customer
fixture, far outside the travel radius, shown `shown` times so far. -/
def far_store_state (shown : Int) : MarketState :=
  { market_fixture [{ store_fixture 1 5 3 with latitude := 1 }] [] [] with impression_counts := [(1, shown)] }

/-- One store without bags and one pending reservation of the registered
customer 1, whose loyalty is `loyalty`. -/
def shortage_state (loyalty : ℚ) : MarketState :=
  { market_fixture [store_fixture 1 0 3] [] [Reservation.create 1 1 1 { hour := 9, minute := 0 }] with customers := [(1, { customer_fixture 1 with loyalty := loyalty })] }

/-- One store with 5 bags, the registered customer 1 with an empty history,
and an empty reservation log. -/
def opening_state : MarketState :=
  market_fixture [store_fixture 1 5 3] [1] []

/-! # Theorems -/

/-! ## std::sort: two conforming instances -/

theorem swo_total {α : Type} {lt : α → α → Bool} (h : StrictWeakOrder lt) (a b : α) :
    lt b a = false ∨ lt a b = false := by
  cases hab : lt a b
  · exact Or.inr rfl
  · left
    cases hba : lt b a
    · rfl
    · have := h.trans a b a hab hba
      rw [h.irrefl] at this
      exact absurd this (by simp)

theorem swo_not_lt_trans {α : Type} {lt : α → α → Bool} (h : StrictWeakOrder lt) (a b c : α)
    (hab : lt b a = false) (hbc : lt c b = false) : lt c a = false := by
  cases hca : lt c a
  · rfl
  · exfalso
    cases h1 : lt a b
    · cases h2 : lt b c
      · have := (h.incomp_trans a b c h1 hab h2 hbc).2
        rw [hca] at this
        exact absurd this (by simp)
      · have := h.trans b c a h2 hca
        rw [hab] at this
        exact absurd this (by simp)
    · have := h.trans c a b hca h1
      rw [hbc] at this
      exact absurd this (by simp)

theorem insertionSort_sorted_of_swo {α : Type} {lt : α → α → Bool} (h : StrictWeakOrder lt)
    (l : List α) :
    List.Pairwise (fun a b => lt b a = false) (List.insertionSort (fun a b => lt b a = false) l) := by
  haveI : IsTotal α (fun a b => lt b a = false) := ⟨fun a b => swo_total h a b⟩
  haveI : IsTrans α (fun a b => lt b a = false) := ⟨fun a b c hab hbc => swo_not_lt_trans h a b c hab hbc⟩
  exact List.sorted_insertionSort (fun a b => lt b a = false) l

theorem insertion_sort_conforms : SortContract insertion_sort := by
  intro α lt l h
  exact ⟨List.perm_insertionSort _ l, insertionSort_sorted_of_swo h l⟩

theorem reversing_sort_conforms : SortContract reversing_sort := by
  intro α lt l h
  exact ⟨(List.perm_insertionSort _ l.reverse).trans (List.reverse_perm l),
    insertionSort_sorted_of_swo h l.reverse⟩

theorem time_lt_swo (ms : MarketState) : StrictWeakOrder (time_lt ms) := by
  constructor
  · intro a; simp [time_lt, Timestamp.lt]
  · intro a b c; simp only [time_lt, Timestamp.lt, decide_eq_true_eq]; omega
  · intro a b c; simp only [time_lt, Timestamp.lt, decide_eq_false_iff_not]; omega

/-! ## Settlement: what one confirmation or cancellation writes -/

theorem Frame.refl (ms : MarketState) : Frame ms ms :=
  ⟨rfl, fun _ => rfl, rfl⟩

theorem Frame.trans {a b c : MarketState} (h1 : Frame a b) (h2 : Frame b c) : Frame a c :=
  ⟨h2.stores.trans h1.stores, fun id => (h2.registry id).trans (h1.registry id),
    h2.log.trans h1.log⟩

theorem update_restaurant_key (f : Restaurant → Restaurant) (hf : ∀ r, (f r).key = r.key)
    (id : Int) (rs : List Restaurant) :
    (update_restaurant f id rs).map Restaurant.key = rs.map Restaurant.key := by
  induction rs with
  | nil => rfl
  | cons r rest ih =>
    unfold update_restaurant
    split
    · simp [hf]
    · simp [ih]

theorem update_customer_find (f : Customer → Customer) (id : Int) (m : List (Int × Customer))
    (k : Int) :
    (map_find (update_customer f id m) k).isSome = (map_find m k).isSome := by
  induction m with
  | nil => rfl
  | cons e rest ih =>
    obtain ⟨k1, c⟩ := e
    unfold update_customer
    split
    · simp only [map_find]; split <;> rfl
    · simp only [map_find]; split
      · rfl
      · exact ih

theorem set_map_static (l : List Reservation) (p : Nat) (r r1 : Reservation)
    (hp : l[p]? = some r) (hs : r1.static = r.static) :
    (l.set p r1).map Reservation.static = l.map Reservation.static := by
  apply List.ext_getElem?
  intro q
  simp only [List.getElem?_map, List.getElem?_set]
  by_cases hq : p = q
  · subst hq
    have hlt : p < l.length := by
      rcases Nat.lt_or_ge p l.length with h | h
      · exact h
      · rw [List.getElem?_eq_none h] at hp; cases hp
    simp [hlt, hp, hs]
  · simp [hq]

theorem handle_confirmation_frame (ms : MarketState) (p : Nat) (cid b : Int) :
    Frame ms (handle_confirmation ms p cid b) := by
  unfold handle_confirmation
  split
  · exact Frame.refl ms
  · rename_i res hres
    refine ⟨?_, ?_, ?_⟩
    · exact update_restaurant_key Restaurant.update_rating_on_confirmation (fun r => rfl) _ _
    · intro id; exact update_customer_find _ _ _ _
    · exact set_map_static _ _ res _ hres rfl

theorem handle_cancellation_frame (ms : MarketState) (p : Nat) (cid : Int) :
    Frame ms (handle_cancellation ms p cid) := by
  unfold handle_cancellation
  split
  · exact Frame.refl ms
  · rename_i res hres
    refine ⟨?_, ?_, ?_⟩
    · exact update_restaurant_key Restaurant.update_rating_on_cancellation (fun r => rfl) _ _
    · intro id; exact update_customer_find _ _ _ _
    · exact set_map_static _ _ res _ hres rfl

theorem handle_confirmation_get (ms : MarketState) (p : Nat) (cid b : Int) (q : Nat) :
    (handle_confirmation ms p cid b).reservations[q]? =
      if q = p then (ms.reservations[p]?).map
        (fun r => { r with status := Status.CONFIRMED, bags_received := b })
      else ms.reservations[q]? := by
  unfold handle_confirmation
  split
  · rename_i h; by_cases hq : q = p
    · subst hq; simp [h]
    · simp [hq]
  · rename_i res hres
    have hlt : p < ms.reservations.length := by
      rcases Nat.lt_or_ge p ms.reservations.length with h | h
      · exact h
      · rw [List.getElem?_eq_none h] at hres; cases hres
    by_cases hq : q = p
    · subst hq; simp [List.getElem?_set, hlt, hres]
    · have : ¬ p = q := fun h => hq h.symm
      simp [List.getElem?_set, hq, this]

theorem handle_cancellation_get (ms : MarketState) (p : Nat) (cid : Int) (q : Nat) :
    (handle_cancellation ms p cid).reservations[q]? =
      if q = p then (ms.reservations[p]?).map (fun r => { r with status := Status.CANCELLED })
      else ms.reservations[q]? := by
  unfold handle_cancellation
  split
  · rename_i h; by_cases hq : q = p
    · subst hq; simp [h]
    · simp [hq]
  · rename_i res hres
    have hlt : p < ms.reservations.length := by
      rcases Nat.lt_or_ge p ms.reservations.length with h | h
      · exact h
      · rw [List.getElem?_eq_none h] at hres; cases hres
    by_cases hq : q = p
    · subst hq; simp [List.getElem?_set, hlt, hres]
    · have : ¬ p = q := fun h => hq h.symm
      simp [List.getElem?_set, hq, this]

/-! ## Settlement: the three loops over the sorted pointers -/

theorem map_apply_bags_none (x : Option Reservation) : x.map (apply_bags none) = x := by
  cases x <;> rfl

theorem map_apply_cancel_false (x : Option Reservation) : x.map (apply_cancel false) = x := by
  cases x <;> rfl

theorem reg_at_congr {ms ms1 : MarketState} (p : Nat)
    (hreg : ∀ id, (ms1.get_customer id).isSome = (ms.get_customer id).isSome)
    (hp : ms1.reservations[p]? = ms.reservations[p]?) : reg_at ms1 p = reg_at ms p := by
  unfold reg_at
  rw [hp]
  split
  · exact hreg _
  · rfl

theorem confirm_all_spec (M b : Int) (ps : List Nat) :
    ∀ (e : Int) (ms : MarketState), ps.Nodup →
      Frame ms (confirm_all M b ps e ms) ∧
      (∀ q, q ∉ ps → (confirm_all M b ps e ms).reservations[q]? = ms.reservations[q]?) ∧
      (∀ (t p : Nat) (o : Option Int), ps[t]? = some p →
        (alloc M b (ps.map (reg_at ms)) e)[t]? = some o →
        (confirm_all M b ps e ms).reservations[p]? = (ms.reservations[p]?).map (apply_bags o)) := by
  induction ps with
  | nil =>
    intro e ms _
    refine ⟨Frame.refl ms, fun _ _ => rfl, ?_⟩
    intro t p o h
    simp at h
  | cons p0 rest ih =>
    intro e ms hnd
    have hp0 : p0 ∉ rest := (List.nodup_cons.mp hnd).1
    have hrest : rest.Nodup := (List.nodup_cons.mp hnd).2
    -- the case where nothing is written for `p0`
    have skip : reg_at ms p0 = false → confirm_all M b (p0 :: rest) e ms = confirm_all M b rest e ms →
        Frame ms (confirm_all M b (p0 :: rest) e ms) ∧
        (∀ q, q ∉ p0 :: rest → (confirm_all M b (p0 :: rest) e ms).reservations[q]? = ms.reservations[q]?) ∧
        (∀ (t p : Nat) (o : Option Int), (p0 :: rest)[t]? = some p →
          (alloc M b ((p0 :: rest).map (reg_at ms)) e)[t]? = some o →
          (confirm_all M b (p0 :: rest) e ms).reservations[p]? =
            (ms.reservations[p]?).map (apply_bags o)) := by
      intro hflag heq
      obtain ⟨h1, h2, h3⟩ := ih e ms hrest
      rw [heq]
      refine ⟨h1, fun q hq => h2 q (fun h => hq (List.mem_cons_of_mem _ h)), ?_⟩
      intro t p o ht ho
      simp only [List.map_cons, hflag, alloc] at ho
      cases t with
      | zero =>
        simp at ht ho
        subst ht; subst ho
        rw [h2 p0 hp0, map_apply_bags_none]
      | succ t =>
        simp at ht ho
        exact h3 t p o ht ho
    cases hres : ms.reservations[p0]? with
    | none =>
      apply skip
      · simp [reg_at, hres]
      · simp [confirm_all, hres]
    | some res =>
      cases hc : ms.get_customer res.customer_id with
      | none =>
        apply skip
        · simp [reg_at, hres, hc]
        · simp [confirm_all, hres, hc]
      | some c =>
        have hflag : reg_at ms p0 = true := by simp [reg_at, hres, hc]
        -- the written state and the bag count
        have key : ∀ (b0 e1 : Int),
            confirm_all M b (p0 :: rest) e ms =
              confirm_all M b rest e1 (handle_confirmation ms p0 res.customer_id b0) →
            alloc M b ((p0 :: rest).map (reg_at ms)) e =
              some b0 :: alloc M b (rest.map (reg_at ms)) e1 →
            Frame ms (confirm_all M b (p0 :: rest) e ms) ∧
            (∀ q, q ∉ p0 :: rest →
              (confirm_all M b (p0 :: rest) e ms).reservations[q]? = ms.reservations[q]?) ∧
            (∀ (t p : Nat) (o : Option Int), (p0 :: rest)[t]? = some p →
              (alloc M b ((p0 :: rest).map (reg_at ms)) e)[t]? = some o →
              (confirm_all M b (p0 :: rest) e ms).reservations[p]? =
                (ms.reservations[p]?).map (apply_bags o)) := by
          intro b0 e1 heq halloc
          obtain ⟨h1, h2, h3⟩ := ih e1 (handle_confirmation ms p0 res.customer_id b0) hrest
          have hfr := handle_confirmation_frame ms p0 res.customer_id b0
          have hflags : rest.map (reg_at (handle_confirmation ms p0 res.customer_id b0)) =
              rest.map (reg_at ms) := by
            apply List.map_congr_left
            intro p hp
            apply reg_at_congr p hfr.registry
            rw [handle_confirmation_get]
            have : p ≠ p0 := fun h => hp0 (h ▸ hp)
            simp [this]
          rw [heq, halloc]
          refine ⟨hfr.trans h1, ?_, ?_⟩
          · intro q hq
            rw [h2 q (fun h => hq (List.mem_cons_of_mem _ h)), handle_confirmation_get]
            have : q ≠ p0 := fun h => hq (h ▸ List.mem_cons_self _ _)
            simp [this]
          · intro t p o ht ho
            cases t with
            | zero =>
              simp at ht ho
              subst ht; subst ho
              rw [h2 p0 hp0, handle_confirmation_get]
              simp [apply_bags]
              rfl
            | succ t =>
              simp at ht ho
              rw [hflags] at h3
              rw [h3 t p o ht ho, handle_confirmation_get]
              have hmem : p ∈ rest := List.getElem?_mem ht
              have : p ≠ p0 := fun h => hp0 (h ▸ hmem)
              simp [this]
        by_cases hcond : e > 0 ∧ b < M
        · apply key (b + 1) (e - 1)
          · simp [confirm_all, hres, hc, hcond]
          · simp [alloc, hflag, hcond]
        · apply key b e
          · simp [confirm_all, hres, hc, hcond]
          · simp [alloc, hflag, hcond]

theorem confirm_first_eq (M : Int) (ps : List Nat) :
    ∀ ms : MarketState, confirm_first ps ms = confirm_all M 1 ps 0 ms := by
  induction ps with
  | nil => intro ms; rfl
  | cons p rest ih =>
    intro ms
    unfold confirm_first confirm_all
    cases ms.reservations[p]? with
    | none => simp [ih]
    | some res =>
      cases ms.get_customer res.customer_id with
      | none => simp [ih]
      | some c => simp [ih]

theorem alloc_no_extra (M b : Int) (fs : List Bool) :
    ∀ e : Int, e ≤ 0 → alloc M b fs e = fs.map (fun f => if f then some b else none) := by
  induction fs with
  | nil => intro e _; rfl
  | cons f rest ih =>
    intro e he
    cases f with
    | false => simp [alloc, ih e he]
    | true =>
      have : ¬ (e > 0 ∧ b < M) := fun h => by omega
      simp [alloc, this, ih e he]

theorem confirm_first_spec (ps : List Nat) (ms : MarketState) (hnd : ps.Nodup) :
    Frame ms (confirm_first ps ms) ∧
    (∀ q, q ∉ ps → (confirm_first ps ms).reservations[q]? = ms.reservations[q]?) ∧
    (∀ p, p ∈ ps → (confirm_first ps ms).reservations[p]? =
      (ms.reservations[p]?).map (apply_bags (if reg_at ms p then some 1 else none))) := by
  rw [confirm_first_eq 0 ps ms]
  obtain ⟨h1, h2, h3⟩ := confirm_all_spec 0 1 ps 0 ms hnd
  refine ⟨h1, h2, ?_⟩
  intro p hp
  obtain ⟨t, ht⟩ := List.getElem?_of_mem hp
  apply h3 t p _ ht
  rw [alloc_no_extra 0 1 _ 0 (le_refl 0)]
  simp [List.getElem?_map, ht]

theorem cancel_rest_spec (ps : List Nat) :
    ∀ ms : MarketState, ps.Nodup →
      Frame ms (cancel_rest ps ms) ∧
      (∀ q, q ∉ ps → (cancel_rest ps ms).reservations[q]? = ms.reservations[q]?) ∧
      (∀ p, p ∈ ps → (cancel_rest ps ms).reservations[p]? =
        (ms.reservations[p]?).map (apply_cancel (reg_at ms p))) := by
  induction ps with
  | nil =>
    intro ms _
    refine ⟨Frame.refl ms, fun _ _ => rfl, ?_⟩
    intro p h
    simp at h
  | cons p0 rest ih =>
    intro ms hnd
    have hp0 : p0 ∉ rest := (List.nodup_cons.mp hnd).1
    have hrest : rest.Nodup := (List.nodup_cons.mp hnd).2
    have skip : reg_at ms p0 = false → cancel_rest (p0 :: rest) ms = cancel_rest rest ms →
        Frame ms (cancel_rest (p0 :: rest) ms) ∧
        (∀ q, q ∉ p0 :: rest → (cancel_rest (p0 :: rest) ms).reservations[q]? = ms.reservations[q]?) ∧
        (∀ p, p ∈ p0 :: rest → (cancel_rest (p0 :: rest) ms).reservations[p]? =
          (ms.reservations[p]?).map (apply_cancel (reg_at ms p))) := by
      intro hflag heq
      obtain ⟨h1, h2, h3⟩ := ih ms hrest
      rw [heq]
      refine ⟨h1, fun q hq => h2 q (fun h => hq (List.mem_cons_of_mem _ h)), ?_⟩
      intro p hp
      rcases List.mem_cons.mp hp with h | h
      · subst h
        rw [h2 p hp0, hflag, map_apply_cancel_false]
      · exact h3 p h
    cases hres : ms.reservations[p0]? with
    | none =>
      apply skip
      · simp [reg_at, hres]
      · simp [cancel_rest, hres]
    | some res =>
      cases hc : ms.get_customer res.customer_id with
      | none =>
        apply skip
        · simp [reg_at, hres, hc]
        · simp [cancel_rest, hres, hc]
      | some c =>
        have hflag : reg_at ms p0 = true := by simp [reg_at, hres, hc]
        have heq : cancel_rest (p0 :: rest) ms =
            cancel_rest rest (handle_cancellation ms p0 res.customer_id) := by
          simp [cancel_rest, hres, hc]
        obtain ⟨h1, h2, h3⟩ := ih (handle_cancellation ms p0 res.customer_id) hrest
        have hfr := handle_cancellation_frame ms p0 res.customer_id
        rw [heq]
        refine ⟨hfr.trans h1, ?_, ?_⟩
        · intro q hq
          rw [h2 q (fun h => hq (List.mem_cons_of_mem _ h)), handle_cancellation_get]
          have : q ≠ p0 := fun h => hq (h ▸ List.mem_cons_self _ _)
          simp [this]
        · intro p hp
          rcases List.mem_cons.mp hp with h | h
          · subst h
            rw [h2 p hp0, handle_cancellation_get, hflag]
            simp [apply_cancel]
            rfl
          · have hne : p ≠ p0 := fun h1 => hp0 (h1 ▸ h)
            have hsame : (handle_cancellation ms p0 res.customer_id).reservations[p]? =
                ms.reservations[p]? := by
              rw [handle_cancellation_get]; simp [hne]
            rw [h3 p h, reg_at_congr p hfr.registry hsame, hsame]

theorem mem_pending_for (ms : MarketState) (id : Int) (q : Nat) :
    q ∈ pending_for ms id ↔
      ∃ r, ms.reservations[q]? = some r ∧ r.restaurant_id = id ∧ r.status = Status.PENDING := by
  unfold pending_for
  rw [List.mem_filter]
  constructor
  · rintro ⟨_, h⟩
    cases hq : ms.reservations[q]? with
    | none => simp [hq] at h
    | some r =>
      simp [hq] at h
      exact ⟨r, rfl, h.1, h.2⟩
  · rintro ⟨r, hr, h1, h2⟩
    have hlt : q < ms.reservations.length := by
      rcases Nat.lt_or_ge q ms.reservations.length with h | h
      · exact h
      · rw [List.getElem?_eq_none h] at hr; cases hr
    refine ⟨List.mem_range.mpr hlt, ?_⟩
    simp [hr, h1, h2]

theorem pending_for_nodup (ms : MarketState) (id : Int) : (pending_for ms id).Nodup :=
  List.Nodup.filter _ (List.nodup_range _)

/-! ## Settlement: the body of the store loop -/

theorem settlement_order_perm {sort : StdSort} (hs : SortContract sort) (ms : MarketState)
    (id : Int) : (settlement_order sort ms id).Perm (pending_for ms id) :=
  (hs Nat (time_lt ms) (pending_for ms id) (time_lt_swo ms)).1

theorem settlement_order_sorted {sort : StdSort} (hs : SortContract sort) (ms : MarketState)
    (id : Int) :
    (settlement_order sort ms id).Pairwise (fun a b => time_lt ms b a = false) :=
  (hs Nat (time_lt ms) (pending_for ms id) (time_lt_swo ms)).2

theorem settlement_order_nodup {sort : StdSort} (hs : SortContract sort) (ms : MarketState)
    (id : Int) : (settlement_order sort ms id).Nodup :=
  (settlement_order_perm hs ms id).nodup_iff.mpr (pending_for_nodup ms id)

theorem settlement_order_length {sort : StdSort} (hs : SortContract sort) (ms : MarketState)
    (id : Int) : (settlement_order sort ms id).length = (pending_for ms id).length :=
  (settlement_order_perm hs ms id).length_eq

theorem settle_store_eq {sort : StdSort} (hs : SortContract sort) (ms : MarketState)
    (R : Restaurant) :
    settle_store sort ms R =
      if (pending_for ms R.business_id).length = 0 then some ms
      else if R.actual_bags ≥ ((pending_for ms R.business_id).length : Int) then
        some (confirm_all R.max_bags_per_customer
          (min R.max_bags_per_customer
            (Int.tdiv R.actual_bags ((pending_for ms R.business_id).length : Int)))
          (settlement_order sort ms R.business_id)
          (R.actual_bags - min R.max_bags_per_customer
            (Int.tdiv R.actual_bags ((pending_for ms R.business_id).length : Int)) *
              ((pending_for ms R.business_id).length : Int)) ms)
      else if R.actual_bags < 0 then none
      else some (cancel_rest ((settlement_order sort ms R.business_id).drop R.actual_bags.toNat)
        (confirm_first ((settlement_order sort ms R.business_id).take R.actual_bags.toNat) ms)) := by
  have hlen := settlement_order_length hs ms R.business_id
  unfold settlement_order at hlen
  unfold settle_store settlement_order
  simp only [hlen, Nat.cast_eq_zero]

theorem alloc_length (M b : Int) (fs : List Bool) :
    ∀ e : Int, (alloc M b fs e).length = fs.length := by
  induction fs with
  | nil => intro e; rfl
  | cons f rest ih =>
    intro e
    cases f with
    | false => simp [alloc, ih]
    | true =>
      unfold alloc
      split <;> simp [ih]

theorem alloc_get (M b : Int) (fs : List Bool) :
    ∀ (e : Int) (t : Nat) (o : Option Int), (alloc M b fs e)[t]? = some o →
      ∃ f, fs[t]? = some f ∧ (f = false → o = none) ∧
        (f = true → ∃ n, o = some n ∧ (n = b ∨ (n = b + 1 ∧ b < M))) := by
  induction fs with
  | nil => intro e t o h; simp [alloc] at h
  | cons f rest ih =>
    intro e t o h
    cases f with
    | false =>
      simp only [alloc] at h
      cases t with
      | zero =>
        simp at h
        exact ⟨false, by simp, fun _ => h.symm, fun h1 => by cases h1⟩
      | succ t =>
        simp at h
        simpa using ih e t o h
    | true =>
      unfold alloc at h
      split at h
      · rename_i hc
        cases t with
        | zero =>
          simp at h
          exact ⟨true, by simp, (fun h1 => by cases h1), fun _ => ⟨b + 1, h.symm, Or.inr ⟨rfl, hc.2⟩⟩⟩
        | succ t =>
          simp at h
          simpa using ih (e - 1) t o h
      · cases t with
        | zero =>
          simp at h
          exact ⟨true, by simp, (fun h1 => by cases h1), fun _ => ⟨b, h.symm, Or.inl rfl⟩⟩
        | succ t =>
          simp at h
          simpa using ih e t o h

theorem settle_store_idle {sort : StdSort} (hs : SortContract sort) (ms : MarketState)
    (R : Restaurant) (hk : (pending_for ms R.business_id).length = 0) :
    settle_store sort ms R = some ms := by
  rw [settle_store_eq hs, if_pos hk]

theorem settle_store_abundance {sort : StdSort} (hs : SortContract sort) (ms ms1 : MarketState)
    (R : Restaurant) (hk : (pending_for ms R.business_id).length ≠ 0)
    (ha : R.actual_bags ≥ ((pending_for ms R.business_id).length : Int))
    (h : settle_store sort ms R = some ms1) :
    Frame ms ms1 ∧
    (∀ q, q ∉ pending_for ms R.business_id → ms1.reservations[q]? = ms.reservations[q]?) ∧
    (∀ (t p : Nat) (o : Option Int), (settlement_order sort ms R.business_id)[t]? = some p →
      (alloc R.max_bags_per_customer
        (min R.max_bags_per_customer
          (Int.tdiv R.actual_bags ((pending_for ms R.business_id).length : Int)))
        ((settlement_order sort ms R.business_id).map (reg_at ms))
        (R.actual_bags - min R.max_bags_per_customer
          (Int.tdiv R.actual_bags ((pending_for ms R.business_id).length : Int)) *
            ((pending_for ms R.business_id).length : Int)))[t]? = some o →
      ms1.reservations[p]? = (ms.reservations[p]?).map (apply_bags o)) := by
  rw [settle_store_eq hs, if_neg hk, if_pos ha] at h
  injection h with h
  subst h
  obtain ⟨h1, h2, h3⟩ := confirm_all_spec R.max_bags_per_customer
    (min R.max_bags_per_customer
      (Int.tdiv R.actual_bags ((pending_for ms R.business_id).length : Int)))
    (settlement_order sort ms R.business_id)
    (R.actual_bags - min R.max_bags_per_customer
      (Int.tdiv R.actual_bags ((pending_for ms R.business_id).length : Int)) *
        ((pending_for ms R.business_id).length : Int)) ms
    (settlement_order_nodup hs ms R.business_id)
  refine ⟨h1, ?_, h3⟩
  intro q hq
  exact h2 q (fun hmem => hq ((settlement_order_perm hs ms R.business_id).mem_iff.mp hmem))

theorem take_drop_disjoint {l : List Nat} (hnd : l.Nodup) (n p : Nat)
    (h1 : p ∈ l.take n) (h2 : p ∈ l.drop n) : False := by
  have h := hnd
  rw [← List.take_append_drop n l] at h
  exact (List.nodup_append.mp h).2.2 h1 h2

theorem settle_store_scarcity {sort : StdSort} (hs : SortContract sort) (ms ms1 : MarketState)
    (R : Restaurant) (hk : (pending_for ms R.business_id).length ≠ 0)
    (ha : R.actual_bags < ((pending_for ms R.business_id).length : Int))
    (h : settle_store sort ms R = some ms1) :
    0 ≤ R.actual_bags ∧ Frame ms ms1 ∧
    (∀ q, q ∉ pending_for ms R.business_id → ms1.reservations[q]? = ms.reservations[q]?) ∧
    (∀ p, p ∈ (settlement_order sort ms R.business_id).take R.actual_bags.toNat →
      ms1.reservations[p]? =
        (ms.reservations[p]?).map (apply_bags (if reg_at ms p then some 1 else none))) ∧
    (∀ p, p ∈ (settlement_order sort ms R.business_id).drop R.actual_bags.toNat →
        ms1.reservations[p]? = (ms.reservations[p]?).map (apply_cancel (reg_at ms p))) := by
  have hna : ¬ R.actual_bags ≥ ((pending_for ms R.business_id).length : Int) := not_le.mpr ha
  rw [settle_store_eq hs, if_neg hk, if_neg hna] at h
  by_cases hneg : R.actual_bags < 0
  · rw [if_pos hneg] at h; cases h
  rw [if_neg hneg] at h
  injection h with h
  subst h
  have hnd := settlement_order_nodup hs ms R.business_id
  have hperm := settlement_order_perm hs ms R.business_id
  have hndt : ((settlement_order sort ms R.business_id).take R.actual_bags.toNat).Nodup :=
    List.Nodup.sublist (List.take_sublist _ _) hnd
  have hndd : ((settlement_order sort ms R.business_id).drop R.actual_bags.toNat).Nodup :=
    List.Nodup.sublist (List.drop_sublist _ _) hnd
  obtain ⟨a1, a2, a3⟩ := confirm_first_spec _ ms hndt
  obtain ⟨c1, c2, c3⟩ := cancel_rest_spec _
    (confirm_first ((settlement_order sort ms R.business_id).take R.actual_bags.toNat) ms) hndd
  refine ⟨not_lt.mp hneg, a1.trans c1, ?_, ?_, ?_⟩
  · intro q hq
    have hqo : q ∉ settlement_order sort ms R.business_id := fun hm => hq (hperm.mem_iff.mp hm)
    rw [c2 q (fun hm => hqo (List.mem_of_mem_drop hm)),
      a2 q (fun hm => hqo (List.mem_of_mem_take hm))]
  · intro p hp
    rw [c2 p (fun hm => take_drop_disjoint hnd _ p hp hm), a3 p hp]
  · intro p hp
    have hnt : p ∉ (settlement_order sort ms R.business_id).take R.actual_bags.toNat :=
      fun hm => take_drop_disjoint hnd _ p hm hp
    rw [c3 p hp, reg_at_congr p a1.registry (a2 p hnt), a2 p hnt]

theorem settle_store_effect {sort : StdSort} (hs : SortContract sort) (ms ms1 : MarketState)
    (R : Restaurant) (h : settle_store sort ms R = some ms1) :
    Frame ms ms1 ∧
    (∀ q, q ∉ pending_for ms R.business_id → ms1.reservations[q]? = ms.reservations[q]?) ∧
    (∀ q, q ∈ pending_for ms R.business_id → reg_at ms q = false →
      ms1.reservations[q]? = ms.reservations[q]?) ∧
    (∀ q, q ∈ pending_for ms R.business_id → reg_at ms q = true →
      ∃ r1, ms1.reservations[q]? = some r1 ∧
        (r1.status = Status.CONFIRMED ∨ r1.status = Status.CANCELLED)) := by
  have hperm := settlement_order_perm hs ms R.business_id
  by_cases hk : (pending_for ms R.business_id).length = 0
  · rw [settle_store_idle hs ms R hk] at h
    injection h with h
    subst h
    have hnil : pending_for ms R.business_id = [] := List.length_eq_zero.mp hk
    refine ⟨Frame.refl _, fun _ _ => rfl, fun _ _ _ => rfl, ?_⟩
    intro q hq
    rw [hnil] at hq
    cases hq
  by_cases ha : R.actual_bags ≥ ((pending_for ms R.business_id).length : Int)
  · obtain ⟨h1, h2, h3⟩ := settle_store_abundance hs ms ms1 R hk ha h
    have pick : ∀ q, q ∈ pending_for ms R.business_id →
        ∃ o, ms1.reservations[q]? = (ms.reservations[q]?).map (apply_bags o) ∧
          (reg_at ms q = false → o = none) ∧ (reg_at ms q = true → ∃ n, o = some n) := by
      intro q hq
      obtain ⟨t, ht⟩ := List.getElem?_of_mem (hperm.mem_iff.mpr hq)
      have hlt : t < (settlement_order sort ms R.business_id).length := by
        rcases Nat.lt_or_ge t (settlement_order sort ms R.business_id).length with h | h
        · exact h
        · rw [List.getElem?_eq_none h] at ht; cases ht
      have hal : t < (alloc R.max_bags_per_customer
          (min R.max_bags_per_customer
            (Int.tdiv R.actual_bags ((pending_for ms R.business_id).length : Int)))
          ((settlement_order sort ms R.business_id).map (reg_at ms))
          (R.actual_bags - min R.max_bags_per_customer
            (Int.tdiv R.actual_bags ((pending_for ms R.business_id).length : Int)) *
              ((pending_for ms R.business_id).length : Int))).length := by
        rw [alloc_length, List.length_map]; exact hlt
      have ho := List.getElem?_eq_getElem hal
      obtain ⟨f, hf, hf0, hf1⟩ := alloc_get _ _ _ _ _ _ ho
      rw [List.getElem?_map, ht] at hf
      simp at hf
      refine ⟨_, h3 t q _ ht ho, ?_, ?_⟩
      · intro hr; exact hf0 (by rw [← hf, hr])
      · intro hr
        obtain ⟨n, hn, _⟩ := hf1 (by rw [← hf, hr])
        exact ⟨n, hn⟩
    refine ⟨h1, h2, ?_, ?_⟩
    · intro q hq hr
      obtain ⟨o, ho, hnone, _⟩ := pick q hq
      rw [ho, hnone hr, map_apply_bags_none]
    · intro q hq hr
      obtain ⟨o, ho, _, hsome⟩ := pick q hq
      obtain ⟨n, hn⟩ := hsome hr
      obtain ⟨r, hr1, _, _⟩ := (mem_pending_for ms _ q).mp hq
      refine ⟨apply_bags (some n) r, ?_, Or.inl rfl⟩
      rw [ho, hn, hr1]
      rfl
  · have ha1 : R.actual_bags < ((pending_for ms R.business_id).length : Int) := not_le.mp ha
    obtain ⟨_, h1, h2, h3, h4⟩ := settle_store_scarcity hs ms ms1 R hk ha1 h
    have split_mem : ∀ q, q ∈ pending_for ms R.business_id →
        q ∈ (settlement_order sort ms R.business_id).take R.actual_bags.toNat ∨
        q ∈ (settlement_order sort ms R.business_id).drop R.actual_bags.toNat := by
      intro q hq
      have hm := hperm.mem_iff.mpr hq
      rw [← List.take_append_drop R.actual_bags.toNat (settlement_order sort ms R.business_id)] at hm
      exact List.mem_append.mp hm
    refine ⟨h1, h2, ?_, ?_⟩
    · intro q hq hr
      rcases split_mem q hq with hm | hm
      · rw [h3 q hm, hr]; simp [map_apply_bags_none]
      · rw [h4 q hm, hr, map_apply_cancel_false]
    · intro q hq hr
      obtain ⟨r, hr1, _, _⟩ := (mem_pending_for ms _ q).mp hq
      rcases split_mem q hq with hm | hm
      · refine ⟨apply_bags (some 1) r, ?_, Or.inl rfl⟩
        rw [h3 q hm, hr, hr1]; rfl
      · refine ⟨apply_cancel true r, ?_, Or.inr rfl⟩
        rw [h4 q hm, hr, hr1]; rfl

theorem Frame.store_at {ms ms1 : MarketState} (h : Frame ms ms1) (i : Nat) (R1 : Restaurant)
    (h1 : ms1.restaurants[i]? = some R1) :
    ∃ R, ms.restaurants[i]? = some R ∧ R.key = R1.key := by
  have := congrArg (fun l => l[i]?) h.stores
  simp only [List.getElem?_map, h1, Option.map_some'] at this
  cases hR : ms.restaurants[i]? with
  | none => rw [hR] at this; cases this
  | some R =>
    rw [hR] at this
    simp at this
    exact ⟨R, rfl, this.symm⟩

theorem Frame.symm {ms ms1 : MarketState} (h : Frame ms ms1) : Frame ms1 ms :=
  ⟨h.stores.symm, fun id => (h.registry id).symm, h.log.symm⟩

theorem Frame.static_at {ms ms1 : MarketState} (h : Frame ms ms1) (q : Nat) (r : Reservation)
    (hr : ms.reservations[q]? = some r) :
    ∃ r1, ms1.reservations[q]? = some r1 ∧ r1.static = r.static := by
  have := congrArg (fun l => l[q]?) h.log
  simp only [List.getElem?_map, hr, Option.map_some'] at this
  cases hR : ms1.reservations[q]? with
  | none => rw [hR] at this; cases this
  | some r1 =>
    rw [hR] at this
    simp at this
    exact ⟨r1, rfl, this⟩

theorem Frame.length_eq {ms ms1 : MarketState} (h : Frame ms ms1) :
    ms1.reservations.length = ms.reservations.length := by
  have := congrArg List.length h.log
  simpa using this

theorem Frame.stores_length {ms ms1 : MarketState} (h : Frame ms ms1) :
    ms1.restaurants.length = ms.restaurants.length := by
  have := congrArg List.length h.stores
  simpa using this

/-! ## Settlement: the store loop -/

theorem settle_stores_cons_none (sort : StdSort) (i : Nat) (rest : List Nat) (ms : MarketState)
    (h : ms.restaurants[i]? = none) :
    settle_stores sort (i :: rest) ms = settle_stores sort rest ms := by
  simp only [settle_stores, h]

theorem settle_stores_cons_some (sort : StdSort) (i : Nat) (rest : List Nat) (ms : MarketState)
    (R : Restaurant) (h : ms.restaurants[i]? = some R) :
    settle_stores sort (i :: rest) ms =
      (settle_store sort ms R).bind (settle_stores sort rest) := by
  simp only [settle_stores, h]
  cases settle_store sort ms R <;> rfl

theorem settle_stores_frame {sort : StdSort} (hs : SortContract sort) (is : List Nat) :
    ∀ ms ms1 : MarketState, settle_stores sort is ms = some ms1 → Frame ms ms1 := by
  induction is with
  | nil =>
    intro ms ms1 h
    simp only [settle_stores] at h
    injection h with h
    subst h
    exact Frame.refl _
  | cons i rest ih =>
    intro ms ms1 h
    cases hR : ms.restaurants[i]? with
    | none => rw [settle_stores_cons_none sort i rest ms hR] at h; exact ih ms ms1 h
    | some R =>
      rw [settle_stores_cons_some sort i rest ms R hR] at h
      cases hst : settle_store sort ms R with
      | none => rw [hst] at h; cases h
      | some ms2 =>
        rw [hst] at h
        simp only [Option.bind] at h
        exact (settle_store_effect hs ms ms2 R hst).1.trans (ih ms2 ms1 h)

theorem settle_stores_frozen {sort : StdSort} (hs : SortContract sort) (is : List Nat) :
    ∀ (ms ms1 : MarketState), settle_stores sort is ms = some ms1 →
      ∀ (q : Nat) (r : Reservation), ms.reservations[q]? = some r → frozen ms is q r →
        ms1.reservations[q]? = some r := by
  induction is with
  | nil =>
    intro ms ms1 h q r hr _
    simp only [settle_stores] at h
    injection h with h
    subst h
    exact hr
  | cons i rest ih =>
    intro ms ms1 h q r hr hfz
    cases hR : ms.restaurants[i]? with
    | none =>
      rw [settle_stores_cons_none sort i rest ms hR] at h
      apply ih ms ms1 h q r hr
      rcases hfz with h1 | h1 | h1
      · exact Or.inl h1
      · exact Or.inr (Or.inl h1)
      · exact Or.inr (Or.inr (fun j hj => h1 j (List.mem_cons_of_mem _ hj)))
    | some R =>
      rw [settle_stores_cons_some sort i rest ms R hR] at h
      cases hst : settle_store sort ms R with
      | none => rw [hst] at h; cases h
      | some ms2 =>
        rw [hst] at h
        simp only [Option.bind] at h
        obtain ⟨e1, e2, e3, _⟩ := settle_store_effect hs ms ms2 R hst
        have hsame : ms2.reservations[q]? = ms.reservations[q]? := by
          by_cases hq : q ∈ pending_for ms R.business_id
          · obtain ⟨r0, hr0, hid, hpend⟩ := (mem_pending_for ms _ q).mp hq
            rw [hr] at hr0
            injection hr0 with hr0
            subst hr0
            rcases hfz with h1 | h1 | h1
            · exact absurd hpend h1
            · exact e3 q hq h1
            · exact absurd hid.symm (h1 i (List.mem_cons_self _ _) R hR)
          · exact e2 q hq
        apply ih ms2 ms1 h q r (hsame.trans hr)
        rcases hfz with h1 | h1 | h1
        · exact Or.inl h1
        · exact Or.inr (Or.inl ((reg_at_congr q e1.registry hsame).trans h1))
        · refine Or.inr (Or.inr ?_)
          intro j hj Rj hRj
          obtain ⟨R0, hR0, hkey⟩ := e1.store_at j Rj hRj
          have hid : R0.business_id = Rj.business_id := congrArg Prod.fst hkey
          rw [← hid]
          exact h1 j (List.mem_cons_of_mem _ hj) R0 hR0

theorem settle_stores_resolves {sort : StdSort} (hs : SortContract sort) (is : List Nat) :
    ∀ (ms ms1 : MarketState), settle_stores sort is ms = some ms1 →
      ∀ (q : Nat) (r : Reservation), ms.reservations[q]? = some r →
        r.status = Status.PENDING → reg_at ms q = true →
        (∃ i ∈ is, ∃ Ri, ms.restaurants[i]? = some Ri ∧ Ri.business_id = r.restaurant_id) →
        ∃ r1, ms1.reservations[q]? = some r1 ∧
          (r1.status = Status.CONFIRMED ∨ r1.status = Status.CANCELLED) := by
  induction is with
  | nil =>
    intro ms ms1 _ q r _ _ _ hex
    obtain ⟨i, hi, _⟩ := hex
    cases hi
  | cons i rest ih =>
    intro ms ms1 h q r hr hpend hreg hex
    cases hR : ms.restaurants[i]? with
    | none =>
      rw [settle_stores_cons_none sort i rest ms hR] at h
      apply ih ms ms1 h q r hr hpend hreg
      obtain ⟨j, hj, Rj, hRj, hid⟩ := hex
      rcases List.mem_cons.mp hj with hji | hji
      · subst hji; rw [hR] at hRj; cases hRj
      · exact ⟨j, hji, Rj, hRj, hid⟩
    | some R =>
      rw [settle_stores_cons_some sort i rest ms R hR] at h
      cases hst : settle_store sort ms R with
      | none => rw [hst] at h; cases h
      | some ms2 =>
        rw [hst] at h
        simp only [Option.bind] at h
        obtain ⟨e1, e2, e3, e4⟩ := settle_store_effect hs ms ms2 R hst
        by_cases hid : R.business_id = r.restaurant_id
        · have hq : q ∈ pending_for ms R.business_id :=
            (mem_pending_for ms _ q).mpr ⟨r, hr, hid.symm, hpend⟩
          obtain ⟨r1, hr1, hstat⟩ := e4 q hq hreg
          refine ⟨r1, settle_stores_frozen hs rest ms2 ms1 h q r1 hr1 (Or.inl ?_), hstat⟩
          rcases hstat with h1 | h1 <;> rw [h1] <;> simp
        · have hq : q ∉ pending_for ms R.business_id := by
            intro hm
            obtain ⟨r0, hr0, hid0, _⟩ := (mem_pending_for ms _ q).mp hm
            rw [hr] at hr0
            injection hr0 with hr0
            subst hr0
            exact hid hid0.symm
          have hsame := e2 q hq
          apply ih ms2 ms1 h q r (hsame.trans hr) hpend
            ((reg_at_congr q e1.registry hsame).trans hreg)
          obtain ⟨j, hj, Rj, hRj, hidj⟩ := hex
          rcases List.mem_cons.mp hj with hji | hji
          · subst hji
            rw [hR] at hRj
            injection hRj with hRj
            subst hRj
            exact absurd hidj hid
          · obtain ⟨r2, hr2, hkey⟩ := e1.symm.store_at j Rj hRj
            refine ⟨j, hji, r2, hr2, ?_⟩
            have : r2.business_id = Rj.business_id := congrArg Prod.fst hkey
            rw [this, hidj]

theorem Frame.store_mem {ms ms1 : MarketState} (h : Frame ms ms1) (R1 : Restaurant)
    (h1 : R1 ∈ ms1.restaurants) : ∃ R, R ∈ ms.restaurants ∧ R.key = R1.key := by
  have hm : R1.key ∈ ms1.restaurants.map Restaurant.key := List.mem_map_of_mem _ h1
  rw [h.stores] at hm
  obtain ⟨R, hR, hk⟩ := List.mem_map.mp hm
  exact ⟨R, hR, hk⟩

theorem settle_stores_total {sort : StdSort} (hs : SortContract sort) (is : List Nat) :
    ∀ ms : MarketState, (∀ R ∈ ms.restaurants, 0 ≤ R.actual_bags) →
      ∃ ms1, settle_stores sort is ms = some ms1 := by
  induction is with
  | nil => intro ms _; exact ⟨ms, rfl⟩
  | cons i rest ih =>
    intro ms hbags
    cases hR : ms.restaurants[i]? with
    | none => rw [settle_stores_cons_none sort i rest ms hR]; exact ih ms hbags
    | some R =>
      have hRm : R ∈ ms.restaurants := List.getElem?_mem hR
      have hst : ∃ ms2, settle_store sort ms R = some ms2 := by
        rw [settle_store_eq hs]
        split
        · exact ⟨_, rfl⟩
        · split
          · exact ⟨_, rfl⟩
          · rw [if_neg (not_lt.mpr (hbags R hRm))]
            exact ⟨_, rfl⟩
      obtain ⟨ms2, hms2⟩ := hst
      rw [settle_stores_cons_some sort i rest ms R hR, hms2]
      simp only [Option.bind]
      apply ih ms2
      intro R1 hR1
      obtain ⟨R0, hR0, hkey⟩ := (settle_store_effect hs ms ms2 R hms2).1.store_mem R1 hR1
      have : R0.actual_bags = R1.actual_bags := congrArg (fun k => k.2.1) hkey
      rw [← this]
      exact hbags R0 hR0

theorem settle_stores_append (sort : StdSort) (l1 l2 : List Nat) :
    ∀ ms : MarketState, settle_stores sort (l1 ++ l2) ms =
      (settle_stores sort l1 ms).bind (settle_stores sort l2) := by
  induction l1 with
  | nil => intro ms; rfl
  | cons i rest ih =>
    intro ms
    cases hR : ms.restaurants[i]? with
    | none =>
      rw [List.cons_append, settle_stores_cons_none sort i _ ms hR,
        settle_stores_cons_none sort i _ ms hR, ih]
    | some R =>
      rw [List.cons_append, settle_stores_cons_some sort i _ ms R hR,
        settle_stores_cons_some sort i _ ms R hR]
      cases settle_store sort ms R with
      | none => rfl
      | some ms2 => simp only [Option.bind]; exact ih ms2

theorem range_split (n i : Nat) (h : i < n) :
    List.range n = List.range i ++ i :: List.range' (i + 1) (n - (i + 1)) := by
  obtain ⟨k, rfl⟩ : ∃ k, n = i + (k + 1) := ⟨n - (i + 1), by omega⟩
  rw [List.range_eq_range', List.range_eq_range']
  have := List.range'_append_1 0 i (k + 1)
  simp only [Nat.zero_add] at this
  rw [Nat.add_comm i (k + 1), ← this, List.range'_succ]
  congr 3
  omega

theorem settle_store_key (sort : StdSort) (ms : MarketState) (R1 R2 : Restaurant)
    (h : R1.key = R2.key) : settle_store sort ms R1 = settle_store sort ms R2 := by
  have h1 : R1.business_id = R2.business_id := congrArg Prod.fst h
  have h2 : R1.actual_bags = R2.actual_bags := congrArg (fun k => k.2.1) h
  have h3 : R1.max_bags_per_customer = R2.max_bags_per_customer := congrArg (fun k => k.2.2) h
  unfold settle_store
  rw [h1, h2, h3]

theorem pending_for_congr {ms msi : MarketState} (hf : Frame ms msi) (X : Int)
    (hsame : ∀ (q : Nat) (r : Reservation), ms.reservations[q]? = some r → r.restaurant_id = X →
      msi.reservations[q]? = some r) :
    pending_for msi X = pending_for ms X := by
  unfold pending_for
  rw [hf.length_eq]
  apply List.filter_congr
  intro q _
  cases hq : ms.reservations[q]? with
  | none =>
    have : msi.reservations[q]? = none := by
      have hlen := hf.length_eq
      rw [List.getElem?_eq_none_iff] at hq ⊢
      omega
    rw [this]
  | some r =>
    by_cases hid : r.restaurant_id = X
    · rw [hsame q r hq hid]
    · obtain ⟨r1, hr1, hst⟩ := hf.static_at q r hq
      have hid1 : r1.restaurant_id = r.restaurant_id := congrArg (fun k => k.2.2.1) hst
      rw [hr1]
      simp [hid, hid1]

theorem time_lt_congr {ms msi : MarketState} (hf : Frame ms msi) : time_lt msi = time_lt ms := by
  have key : ∀ a, (msi.reservations.getD a default).reservation_time =
      (ms.reservations.getD a default).reservation_time := by
    intro a
    have := congrArg (fun l => l[a]?) hf.log
    simp only [List.getElem?_map] at this
    rw [List.getD_eq_getElem?_getD, List.getD_eq_getElem?_getD]
    cases h1 : msi.reservations[a]? with
    | none =>
      cases h2 : ms.reservations[a]? with
      | none => rfl
      | some r => rw [h1, h2] at this; cases this
    | some r1 =>
      cases h2 : ms.reservations[a]? with
      | none => rw [h1, h2] at this; cases this
      | some r =>
        rw [h1, h2] at this
        simp at this
        exact congrArg (fun k => k.2.2.2) this
  funext a b
  unfold time_lt
  rw [key a, key b]

theorem first_store_run {sort : StdSort} (hs : SortContract sort) (ms ms1 : MarketState)
    (i : Nat) (R : Restaurant) (hR : ms.restaurants[i]? = some R)
    (hfirst : ∀ j Rj, j < i → ms.restaurants[j]? = some Rj → Rj.business_id ≠ R.business_id)
    (hrun : process_end_of_day sort ms = some ms1) :
    ∃ msi ms2, Frame ms msi ∧
      (∀ (q : Nat) (r : Reservation), ms.reservations[q]? = some r → r.restaurant_id = R.business_id →
        msi.reservations[q]? = some r) ∧
      settle_store sort msi R = some ms2 ∧
      (∀ (q : Nat) (r : Reservation), ms.reservations[q]? = some r → r.restaurant_id = R.business_id →
        ms1.reservations[q]? = ms2.reservations[q]?) := by
  have hi : i < ms.restaurants.length := by
    rcases Nat.lt_or_ge i ms.restaurants.length with h | h
    · exact h
    · rw [List.getElem?_eq_none h] at hR; cases hR
  unfold process_end_of_day at hrun
  rw [range_split _ i hi, settle_stores_append] at hrun
  cases hpre : settle_stores sort (List.range i) ms with
  | none => rw [hpre] at hrun; cases hrun
  | some msi =>
    rw [hpre] at hrun
    simp only [Option.bind] at hrun
    have hfi := settle_stores_frame hs _ ms msi hpre
    have hsame : ∀ (q : Nat) (r : Reservation), ms.reservations[q]? = some r → r.restaurant_id = R.business_id →
        msi.reservations[q]? = some r := by
      intro q r hr hid
      apply settle_stores_frozen hs _ ms msi hpre q r hr
      refine Or.inr (Or.inr ?_)
      intro j hj Rj hRj
      rw [hid]
      exact hfirst j Rj (List.mem_range.mp hj) hRj
    obtain ⟨Ri, hRi, hkey⟩ : ∃ Ri, msi.restaurants[i]? = some Ri ∧ Ri.key = R.key := by
      obtain ⟨Ri, hRi, hk⟩ := hfi.symm.store_at i R hR
      exact ⟨Ri, hRi, hk⟩
    rw [settle_stores_cons_some sort i _ msi Ri hRi, settle_store_key sort msi Ri R hkey] at hrun
    cases hst : settle_store sort msi R with
    | none => rw [hst] at hrun; cases hrun
    | some ms2 =>
      rw [hst] at hrun
      simp only [Option.bind] at hrun
      refine ⟨msi, ms2, hfi, hsame, hst, ?_⟩
      intro q r hr hid
      obtain ⟨e1, e2, e3, e4⟩ := settle_store_effect hs msi ms2 R hst
      have hri := hsame q r hr hid
      by_cases hq : q ∈ pending_for msi R.business_id
      · cases hreg : reg_at msi q with
        | false =>
          have h2 := (e3 q hq hreg).trans hri
          rw [h2]
          apply settle_stores_frozen hs _ ms2 ms1 hrun q r h2
          exact Or.inr (Or.inl ((reg_at_congr q e1.registry (e3 q hq hreg)).trans hreg))
        | true =>
          obtain ⟨r2, hr2, hstat⟩ := e4 q hq hreg
          rw [hr2]
          apply settle_stores_frozen hs _ ms2 ms1 hrun q r2 hr2
          refine Or.inl ?_
          rcases hstat with h1 | h1 <;> rw [h1] <;> simp
      · have h2 := (e2 q hq).trans hri
        rw [h2]
        apply settle_stores_frozen hs _ ms2 ms1 hrun q r h2
        refine Or.inl ?_
        intro hpend
        exact hq ((mem_pending_for msi _ q).mpr ⟨r, hri, hid, hpend⟩)

theorem first_store_view {sort : StdSort} (hs : SortContract sort) (ms ms1 : MarketState)
    (i : Nat) (R : Restaurant) (hR : ms.restaurants[i]? = some R)
    (hfirst : ∀ j Rj, j < i → ms.restaurants[j]? = some Rj → Rj.business_id ≠ R.business_id)
    (hrun : process_end_of_day sort ms = some ms1) :
    ∃ msi ms2, settle_store sort msi R = some ms2 ∧
      pending_for msi R.business_id = pending_for ms R.business_id ∧
      settlement_order sort msi R.business_id = settlement_order sort ms R.business_id ∧
      (∀ p, p ∈ pending_for ms R.business_id →
        msi.reservations[p]? = ms.reservations[p]? ∧ reg_at msi p = reg_at ms p ∧
        ms1.reservations[p]? = ms2.reservations[p]?) := by
  obtain ⟨msi, ms2, hf, hsame, hst, hfin⟩ := first_store_run hs ms ms1 i R hR hfirst hrun
  have hp := pending_for_congr hf R.business_id hsame
  refine ⟨msi, ms2, hst, hp, ?_, ?_⟩
  · unfold settlement_order
    rw [time_lt_congr hf, hp]
  · intro p hpm
    obtain ⟨r, hr, hid, _⟩ := (mem_pending_for ms _ p).mp hpm
    have h1 : msi.reservations[p]? = ms.reservations[p]? := (hsame p r hr hid).trans hr.symm
    exact ⟨h1, reg_at_congr p hf.registry h1, hfin p r hr hid⟩

theorem first_store_abundance {sort : StdSort} (hs : SortContract sort) (ms ms1 : MarketState)
    (i : Nat) (R : Restaurant) (hR : ms.restaurants[i]? = some R)
    (hfirst : ∀ j Rj, j < i → ms.restaurants[j]? = some Rj → Rj.business_id ≠ R.business_id)
    (hk : (pending_for ms R.business_id).length ≠ 0)
    (ha : R.actual_bags ≥ ((pending_for ms R.business_id).length : Int))
    (hrun : process_end_of_day sort ms = some ms1) :
    ∀ (t p : Nat) (o : Option Int), (settlement_order sort ms R.business_id)[t]? = some p →
      (alloc R.max_bags_per_customer
        (min R.max_bags_per_customer
          (Int.tdiv R.actual_bags ((pending_for ms R.business_id).length : Int)))
        ((settlement_order sort ms R.business_id).map (reg_at ms))
        (R.actual_bags - min R.max_bags_per_customer
          (Int.tdiv R.actual_bags ((pending_for ms R.business_id).length : Int)) *
            ((pending_for ms R.business_id).length : Int)))[t]? = some o →
      ms1.reservations[p]? = (ms.reservations[p]?).map (apply_bags o) := by
  obtain ⟨msi, ms2, hst, hp, ho, hview⟩ := first_store_view hs ms ms1 i R hR hfirst hrun
  have hperm := settlement_order_perm hs ms R.business_id
  have hflags : (settlement_order sort ms R.business_id).map (reg_at msi) =
      (settlement_order sort ms R.business_id).map (reg_at ms) := by
    apply List.map_congr_left
    intro p hpm
    exact (hview p (hperm.mem_iff.mp hpm)).2.1
  obtain ⟨_, _, h3⟩ := settle_store_abundance hs msi ms2 R (by rw [hp]; exact hk)
    (by rw [hp]; exact ha) hst
  rw [hp, ho, hflags] at h3
  intro t p o ht hal
  have hpm : p ∈ pending_for ms R.business_id := hperm.mem_iff.mp (List.getElem?_mem ht)
  obtain ⟨v1, _, v3⟩ := hview p hpm
  rw [v3, h3 t p o ht hal, v1]

theorem first_store_scarcity {sort : StdSort} (hs : SortContract sort) (ms ms1 : MarketState)
    (i : Nat) (R : Restaurant) (hR : ms.restaurants[i]? = some R)
    (hfirst : ∀ j Rj, j < i → ms.restaurants[j]? = some Rj → Rj.business_id ≠ R.business_id)
    (hk : (pending_for ms R.business_id).length ≠ 0)
    (ha : R.actual_bags < ((pending_for ms R.business_id).length : Int))
    (hrun : process_end_of_day sort ms = some ms1) :
    0 ≤ R.actual_bags ∧
    (∀ p, p ∈ (settlement_order sort ms R.business_id).take R.actual_bags.toNat →
      ms1.reservations[p]? =
        (ms.reservations[p]?).map (apply_bags (if reg_at ms p then some 1 else none))) ∧
    (∀ p, p ∈ (settlement_order sort ms R.business_id).drop R.actual_bags.toNat →
      ms1.reservations[p]? = (ms.reservations[p]?).map (apply_cancel (reg_at ms p))) := by
  obtain ⟨msi, ms2, hst, hp, ho, hview⟩ := first_store_view hs ms ms1 i R hR hfirst hrun
  have hperm := settlement_order_perm hs ms R.business_id
  obtain ⟨h0, _, _, h3, h4⟩ := settle_store_scarcity hs msi ms2 R (by rw [hp]; exact hk)
    (by rw [hp]; exact ha) hst
  rw [ho] at h3 h4
  refine ⟨h0, ?_, ?_⟩
  · intro p hpt
    obtain ⟨v1, v2, v3⟩ := hview p (hperm.mem_iff.mp (List.mem_of_mem_take hpt))
    rw [v3, h3 p hpt, v1, v2]
  · intro p hpd
    obtain ⟨v1, v2, v3⟩ := hview p (hperm.mem_iff.mp (List.mem_of_mem_drop hpd))
    rw [v3, h4 p hpd, v1, v2]

theorem process_end_of_day_total {sort : StdSort} (hs : SortContract sort) (ms : MarketState)
    (hbags : ∀ R ∈ ms.restaurants, 0 ≤ R.actual_bags) :
    ∃ ms1, process_end_of_day sort ms = some ms1 :=
  settle_stores_total hs _ ms hbags

/-! ## Settlement: the claims -/

theorem length_filter_split {α : Type} (l : List α) (p1 p2 : α → Bool)
    (h : ∀ a ∈ l, (p1 a = true ∧ p2 a = false) ∨ (p1 a = false ∧ p2 a = true)) :
    l.length = (l.filter p1).length + (l.filter p2).length := by
  induction l with
  | nil => rfl
  | cons a rest ih =>
    have ih1 := ih (fun b hb => h b (List.mem_cons_of_mem _ hb))
    rcases h a (List.mem_cons_self _ _) with ⟨h1, h2⟩ | ⟨h1, h2⟩
    · simp [List.filter, h1, h2]; omega
    · simp [List.filter, h1, h2]; omega

theorem status_at_of_get {ms : MarketState} {q : Nat} {r : Reservation}
    (h : ms.reservations[q]? = some r) : status_at ms q = some r.status := by
  simp [status_at, h]

/-- C1 (amended): when every PENDING reservation belongs to a registered
customer and no store has a negative `actual_bags`, `process_end_of_day`
returns, every reservation that was PENDING for a store of the store list is
CONFIRMED or CANCELLED afterwards, and per store the number of previously
pending reservations is the number now CONFIRMED plus the number now CANCELLED. -/
theorem settlement_resolves_registered_pending (sort : StdSort) (hs : SortContract sort)
    (ms : MarketState)
    (hreg : ∀ r ∈ ms.reservations, r.status = Status.PENDING →
      (ms.get_customer r.customer_id).isSome = true)
    (hbags : ∀ R ∈ ms.restaurants, 0 ≤ R.actual_bags) :
    ∃ ms1, process_end_of_day sort ms = some ms1 ∧
      (∀ R ∈ ms.restaurants, ∀ q ∈ pending_for ms R.business_id,
        status_at ms1 q = some Status.CONFIRMED ∨ status_at ms1 q = some Status.CANCELLED) ∧
      (∀ R ∈ ms.restaurants,
        (pending_for ms R.business_id).length =
          ((pending_for ms R.business_id).filter
            (fun q => decide (status_at ms1 q = some Status.CONFIRMED))).length +
          ((pending_for ms R.business_id).filter
            (fun q => decide (status_at ms1 q = some Status.CANCELLED))).length) := by
  obtain ⟨ms1, hrun⟩ := process_end_of_day_total hs ms hbags
  have point : ∀ R ∈ ms.restaurants, ∀ q ∈ pending_for ms R.business_id,
      status_at ms1 q = some Status.CONFIRMED ∨ status_at ms1 q = some Status.CANCELLED := by
    intro R hR q hq
    obtain ⟨r, hr, hid, hpend⟩ := (mem_pending_for ms _ q).mp hq
    obtain ⟨i, hi⟩ := List.getElem?_of_mem hR
    have hilt : i < ms.restaurants.length := by
      rcases Nat.lt_or_ge i ms.restaurants.length with h | h
      · exact h
      · rw [List.getElem?_eq_none h] at hi; cases hi
    have hregq : reg_at ms q = true := by
      simp only [reg_at, hr]
      exact hreg r (List.getElem?_mem hr) hpend
    obtain ⟨r1, hr1, hstat⟩ := settle_stores_resolves hs _ ms ms1 hrun q r hr hpend hregq
      ⟨i, List.mem_range.mpr hilt, R, hi, hid.symm⟩
    rw [status_at_of_get hr1]
    rcases hstat with h | h
    · exact Or.inl (congrArg some h)
    · exact Or.inr (congrArg some h)
  refine ⟨ms1, hrun, point, ?_⟩
  intro R hR
  apply length_filter_split
  intro q hq
  rcases point R hR q hq with h | h
  · left; rw [h]; simp
  · right; rw [h]; simp

/-- C1 (witness): the amended statement at the five-reservation scenario. -/
theorem settlement_resolves_registered_pending_witness :
    (∀ r ∈ scarcity_state.reservations, r.status = Status.PENDING →
      (scarcity_state.get_customer r.customer_id).isSome = true) ∧
    (∀ R ∈ scarcity_state.restaurants, 0 ≤ R.actual_bags) ∧
    ∃ ms1, process_end_of_day insertion_sort scarcity_state = some ms1 ∧
      (∀ R ∈ scarcity_state.restaurants, ∀ q ∈ pending_for scarcity_state R.business_id,
        status_at ms1 q = some Status.CONFIRMED ∨ status_at ms1 q = some Status.CANCELLED) ∧
      (∀ R ∈ scarcity_state.restaurants,
        (pending_for scarcity_state R.business_id).length =
          ((pending_for scarcity_state R.business_id).filter
            (fun q => decide (status_at ms1 q = some Status.CONFIRMED))).length +
          ((pending_for scarcity_state R.business_id).filter
            (fun q => decide (status_at ms1 q = some Status.CANCELLED))).length) :=
  ⟨by decide, by decide,
    settlement_resolves_registered_pending insertion_sort insertion_sort_conforms scarcity_state
      (by decide) (by decide)⟩

/-- C1 (counterexample): a reservation of an unregistered customer, PENDING for
a store of the store list, is still PENDING after `process_end_of_day`; and with
a negative `actual_bags` the cancel loop reads before the start of the sorted
vector, so the run has no defined result. -/
theorem settlement_leaves_orphan_pending :
    ((∃ R ∈ orphan_state.restaurants, 0 ∈ pending_for orphan_state R.business_id) ∧
      (process_end_of_day insertion_sort orphan_state).map (fun s => status_at s 0) =
        some (some Status.PENDING)) ∧
    process_end_of_day insertion_sort negative_state = none := by
  refine ⟨⟨?_, ?_⟩, ?_⟩
  · decide
  · decide
  · decide

theorem reg_at_get {ms : MarketState} {q : Nat} {r : Reservation}
    (h : ms.reservations[q]? = some r) :
    reg_at ms q = (ms.get_customer r.customer_id).isSome := by
  simp [reg_at, h]

theorem count_take_drop (order pending : List Nat) (n : Nat) (p : Nat → Bool)
    (hperm : order.Perm pending) (hn : n ≤ order.length)
    (ht : ∀ q ∈ order.take n, p q = true) (hd : ∀ q ∈ order.drop n, p q = false) :
    (pending.filter p).length = n := by
  rw [← (hperm.filter p).length_eq]
  conv_lhs => rw [← List.take_append_drop n order]
  rw [List.filter_append, List.length_append]
  have h1 : (order.take n).filter p = order.take n := List.filter_eq_self.mpr ht
  have h2 : (order.drop n).filter p = [] := by
    apply List.filter_eq_nil_iff.mpr
    intro q hq
    rw [hd q hq]
    simp
  rw [h1, h2, List.length_take]
  simp
  exact hn

theorem count_drop_take (order pending : List Nat) (n : Nat) (p : Nat → Bool)
    (hperm : order.Perm pending)
    (ht : ∀ q ∈ order.take n, p q = false) (hd : ∀ q ∈ order.drop n, p q = true) :
    (pending.filter p).length = pending.length - n := by
  rw [← (hperm.filter p).length_eq, ← hperm.length_eq]
  conv_lhs => rw [← List.take_append_drop n order]
  rw [List.filter_append, List.length_append]
  have h1 : (order.drop n).filter p = order.drop n := List.filter_eq_self.mpr hd
  have h2 : (order.take n).filter p = [] := by
    apply List.filter_eq_nil_iff.mpr
    intro q hq
    rw [ht q hq]
    simp
  rw [h1, h2, List.length_drop]
  simp

/-- C2 (amended): for the first store of the store list with its business id,
with `k` pending reservations whose customers are all registered and
`0 <= actual_bags < k`, after any run of `process_end_of_day` exactly
`actual_bags` of them are CONFIRMED, each with `bags_received = 1`, the other
`k - actual_bags` are CANCELLED, and no confirmed reservation has a later
reservation time than a cancelled one.  The run returns whenever no store has
a negative `actual_bags`. -/
theorem scarcity_rationing_first_store (sort : StdSort) (hs : SortContract sort)
    (ms : MarketState) (i : Nat) (R : Restaurant) (hR : ms.restaurants[i]? = some R)
    (hfirst : ∀ j Rj, j < i → ms.restaurants[j]? = some Rj → Rj.business_id ≠ R.business_id)
    (hreg : ∀ q ∈ pending_for ms R.business_id, reg_at ms q = true)
    (h0 : 0 ≤ R.actual_bags)
    (hlt : R.actual_bags < ((pending_for ms R.business_id).length : Int)) :
    (∀ ms1, process_end_of_day sort ms = some ms1 →
      ((pending_for ms R.business_id).filter
        (fun q => decide (status_at ms1 q = some Status.CONFIRMED))).length =
          R.actual_bags.toNat ∧
      ((pending_for ms R.business_id).filter
        (fun q => decide (status_at ms1 q = some Status.CANCELLED))).length =
          (pending_for ms R.business_id).length - R.actual_bags.toNat ∧
      (∀ q ∈ pending_for ms R.business_id, status_at ms1 q = some Status.CONFIRMED →
        bags_at ms1 q = some 1) ∧
      (∀ q ∈ pending_for ms R.business_id, ∀ q2 ∈ pending_for ms R.business_id,
        status_at ms1 q = some Status.CONFIRMED → status_at ms1 q2 = some Status.CANCELLED →
        minutes_at ms q ≤ minutes_at ms q2)) ∧
    ((∀ S ∈ ms.restaurants, 0 ≤ S.actual_bags) →
      ∃ ms1, process_end_of_day sort ms = some ms1) := by
  refine ⟨?_, process_end_of_day_total hs ms⟩
  intro ms1 hrun
  have hk : (pending_for ms R.business_id).length ≠ 0 := by omega
  obtain ⟨_, ht, hd⟩ := first_store_scarcity hs ms ms1 i R hR hfirst hk hlt hrun
  have hperm := settlement_order_perm hs ms R.business_id
  have hsorted := settlement_order_sorted hs ms R.business_id
  have hlen := settlement_order_length hs ms R.business_id
  -- what the two loops leave behind
  have htake : ∀ q ∈ (settlement_order sort ms R.business_id).take R.actual_bags.toNat,
      status_at ms1 q = some Status.CONFIRMED ∧ bags_at ms1 q = some 1 := by
    intro q hq
    have hqp := hperm.mem_iff.mp (List.mem_of_mem_take hq)
    obtain ⟨r, hr, _, _⟩ := (mem_pending_for ms _ q).mp hqp
    have h1 := ht q hq
    rw [hreg q hqp, hr] at h1
    simp only [status_at, bags_at, h1]
    exact ⟨rfl, rfl⟩
  have hdrop : ∀ q ∈ (settlement_order sort ms R.business_id).drop R.actual_bags.toNat,
      status_at ms1 q = some Status.CANCELLED := by
    intro q hq
    have hqp := hperm.mem_iff.mp (List.mem_of_mem_drop hq)
    obtain ⟨r, hr, _, _⟩ := (mem_pending_for ms _ q).mp hqp
    have h1 := hd q hq
    rw [hreg q hqp, hr] at h1
    simp only [status_at, h1]
    rfl
  have hsplit : ∀ q ∈ pending_for ms R.business_id,
      q ∈ (settlement_order sort ms R.business_id).take R.actual_bags.toNat ∨
      q ∈ (settlement_order sort ms R.business_id).drop R.actual_bags.toNat := by
    intro q hq
    have hm := hperm.mem_iff.mpr hq
    rw [← List.take_append_drop R.actual_bags.toNat (settlement_order sort ms R.business_id)] at hm
    exact List.mem_append.mp hm
  refine ⟨?_, ?_, ?_, ?_⟩
  · apply count_take_drop _ _ _ _ hperm
    · omega
    · intro q hq; rw [(htake q hq).1]; simp
    · intro q hq; rw [hdrop q hq]; simp
  · apply count_drop_take _ _ _ _ hperm
    · intro q hq; rw [(htake q hq).1]; simp
    · intro q hq; rw [hdrop q hq]; simp
  · intro q hq hc
    rcases hsplit q hq with h | h
    · exact (htake q h).2
    · rw [hdrop q h] at hc; cases hc
  · intro q hq q2 hq2 hc hx
    have hqt : q ∈ (settlement_order sort ms R.business_id).take R.actual_bags.toNat := by
      rcases hsplit q hq with h | h
      · exact h
      · rw [hdrop q h] at hc; cases hc
    have hqd : q2 ∈ (settlement_order sort ms R.business_id).drop R.actual_bags.toNat := by
      rcases hsplit q2 hq2 with h | h
      · rw [(htake q2 h).1] at hx; cases hx
      · exact h
    rw [← List.take_append_drop R.actual_bags.toNat (settlement_order sort ms R.business_id)]
      at hsorted
    have := (List.pairwise_append.mp hsorted).2.2 q hqt q2 hqd
    simp only [time_lt, Timestamp.lt, decide_eq_false_iff_not, not_lt] at this
    exact this

/-- C2 (witness): the scenario of the spec, `actual_bags = 3` and five pending
reservations; the three earliest (08:01, 08:02, 08:03, at log positions 1, 3, 4)
are confirmed with one bag and the two latest are cancelled. -/
theorem scarcity_rationing_first_store_witness :
    ((∀ ms1, process_end_of_day insertion_sort scarcity_state = some ms1 →
      ((pending_for scarcity_state 1).filter
        (fun q => decide (status_at ms1 q = some Status.CONFIRMED))).length = 3 ∧
      ((pending_for scarcity_state 1).filter
        (fun q => decide (status_at ms1 q = some Status.CANCELLED))).length = 5 - 3 ∧
      (∀ q ∈ pending_for scarcity_state 1, status_at ms1 q = some Status.CONFIRMED →
        bags_at ms1 q = some 1) ∧
      (∀ q ∈ pending_for scarcity_state 1, ∀ q2 ∈ pending_for scarcity_state 1,
        status_at ms1 q = some Status.CONFIRMED → status_at ms1 q2 = some Status.CANCELLED →
        minutes_at scarcity_state q ≤ minutes_at scarcity_state q2)) ∧
    ((∀ S ∈ scarcity_state.restaurants, 0 ≤ S.actual_bags) →
      ∃ ms1, process_end_of_day insertion_sort scarcity_state = some ms1)) ∧
    (process_end_of_day insertion_sort scarcity_state).map
      (fun s => s.reservations.map (fun r => (r.status, r.bags_received))) =
      some [(Status.CANCELLED, 0), (Status.CONFIRMED, 1), (Status.CANCELLED, 0),
        (Status.CONFIRMED, 1), (Status.CONFIRMED, 1)] :=
  ⟨scarcity_rationing_first_store insertion_sort insertion_sort_conforms scarcity_state 0
      (store_fixture 1 3 3) rfl (fun j _ hj => absurd hj (Nat.not_lt_zero j))
      (by decide) (by decide) (by decide),
    by decide⟩

/-- C2 (counterexample): the second of two stores with the same business id has
two pending reservations and `actual_bags = 0`, yet both reservations end
CONFIRMED, because the first store with that id settles them with its own inventory. -/
theorem scarcity_rationing_duplicate_id :
    duplicate_scarcity_state.restaurants[1]? = some (store_fixture 1 0 3) ∧
    (pending_for duplicate_scarcity_state 1).length = 2 ∧
    (∀ q ∈ pending_for duplicate_scarcity_state 1, reg_at duplicate_scarcity_state q = true) ∧
    (process_end_of_day insertion_sort duplicate_scarcity_state).map
      (fun s => (pending_for duplicate_scarcity_state 1).map (status_at s)) =
      some [some Status.CONFIRMED, some Status.CONFIRMED] := by
  refine ⟨rfl, ?_, ?_, ?_⟩
  · decide
  · decide
  · decide

theorem sum_filter_eq_sum_range (c : Reservation → Bool) (f : Reservation → Int)
    (L : List Reservation) :
    ((L.filter c).map f).sum =
      ((List.range L.length).map (fun q =>
        match L[q]? with
        | some r => if c r then f r else 0
        | none => 0)).sum := by
  induction L with
  | nil => rfl
  | cons x rest ih =>
    rw [List.length_cons, List.range_succ_eq_map, List.map_cons, List.map_map, List.sum_cons]
    have hrest : (List.map ((fun q =>
        match (x :: rest)[q]? with
        | some r => if c r = true then f r else 0
        | none => 0) ∘ Nat.succ) (List.range rest.length)) =
        (List.range rest.length).map (fun q =>
          match rest[q]? with
          | some r => if c r then f r else 0
          | none => 0) := by
      apply List.map_congr_left
      intro q _
      simp
    rw [hrest, ← ih]
    cases hc : c x <;> simp [List.filter, hc]

theorem sum_map_filter_of_zero (l : List Nat) (p : Nat → Bool) (g : Nat → Int)
    (h : ∀ q ∈ l, p q = false → g q = 0) :
    (l.map g).sum = ((l.filter p).map g).sum := by
  induction l with
  | nil => rfl
  | cons a rest ih =>
    have ih1 := ih (fun q hq => h q (List.mem_cons_of_mem _ hq))
    cases hp : p a with
    | false =>
      simp [List.filter, hp, h a (List.mem_cons_self _ _) hp, ih1]
    | true =>
      simp [List.filter, hp, ih1]

theorem alloc_sum_nonneg (M b : Int) (hb : 0 ≤ b) (fs : List Bool) :
    ∀ e : Int, 0 ≤ e → ((alloc M b fs e).map bags_of).sum ≤ b * fs.length + e := by
  induction fs with
  | nil => intro e he; simpa [alloc] using he
  | cons f rest ih =>
    intro e he
    cases f with
    | false =>
      have := ih e he
      simp only [alloc, List.map_cons, List.sum_cons, bags_of, List.length_cons]
      push_cast
      nlinarith
    | true =>
      unfold alloc
      split
      · rename_i hc
        have := ih (e - 1) (by omega)
        simp only [List.map_cons, List.sum_cons, bags_of, List.length_cons]
        push_cast
        nlinarith
      · have := ih e he
        simp only [List.map_cons, List.sum_cons, bags_of, List.length_cons]
        push_cast
        nlinarith

theorem alloc_sum_neg (M b : Int) (hb : b < 0) (fs : List Bool) :
    ∀ e : Int, ((alloc M b fs e).map bags_of).sum ≤ 0 := by
  induction fs with
  | nil => intro e; simp [alloc]
  | cons f rest ih =>
    intro e
    cases f with
    | false =>
      have := ih e
      simpa [alloc, bags_of] using this
    | true =>
      unfold alloc
      split
      · have := ih (e - 1)
        simp only [List.map_cons, List.sum_cons, bags_of]
        omega
      · have := ih e
        simp only [List.map_cons, List.sum_cons, bags_of]
        omega

theorem confirmed_bags_eq_sum_pending {ms ms1 : MarketState} (hf : Frame ms ms1) (X : Int)
    (hall : ∀ r ∈ ms.reservations, r.restaurant_id = X → r.status = Status.PENDING) :
    confirmed_bags ms1 X = ((pending_for ms X).map (confirmed_bags_at ms1 X)).sum := by
  unfold confirmed_bags
  rw [sum_filter_eq_sum_range, hf.length_eq]
  have hfun : (fun q =>
      match ms1.reservations[q]? with
      | some r =>
        if decide (r.restaurant_id = X ∧ r.status = Status.CONFIRMED) = true then r.bags_received
        else 0
      | none => 0) = confirmed_bags_at ms1 X := by
    funext q
    unfold confirmed_bags_at
    cases ms1.reservations[q]? with
    | none => rfl
    | some r => simp
  rw [hfun]
  unfold pending_for
  apply sum_map_filter_of_zero
  intro q _ hp
  cases hq : ms.reservations[q]? with
  | none =>
    have : ms1.reservations[q]? = none := by
      have hlen := hf.length_eq
      rw [List.getElem?_eq_none_iff] at hq ⊢
      omega
    simp [confirmed_bags_at, this]
  | some r =>
    rw [hq] at hp
    simp only [decide_eq_false_iff_not, not_and] at hp
    have hne : r.restaurant_id ≠ X := fun hid => hp hid (hall r (List.getElem?_mem hq) hid)
    obtain ⟨r1, hr1, hst⟩ := hf.static_at q r hq
    have hid1 : r1.restaurant_id = r.restaurant_id := congrArg (fun k => k.2.2.1) hst
    have hne1 : r1.restaurant_id ≠ X := by rw [hid1]; exact hne
    simp [confirmed_bags_at, hr1, hne1]

theorem tdiv_mul_le_self (a k : Int) (ha : 0 ≤ a) (hk : 0 < k) : Int.tdiv a k * k ≤ a := by
  rw [Int.tdiv_eq_ediv ha (le_of_lt hk)]
  exact Int.ediv_mul_le a (ne_of_gt hk)

theorem first_store_confirmed_le (sort : StdSort) (hs : SortContract sort)
    (ms : MarketState) (i : Nat) (R : Restaurant) (hR : ms.restaurants[i]? = some R)
    (hfirst : ∀ j Rj, j < i → ms.restaurants[j]? = some Rj → Rj.business_id ≠ R.business_id)
    (hall : ∀ r ∈ ms.reservations, r.restaurant_id = R.business_id → r.status = Status.PENDING)
    (h0 : 0 ≤ R.actual_bags) (ms1 : MarketState) (hrun : process_end_of_day sort ms = some ms1) :
    confirmed_bags ms1 R.business_id ≤ R.actual_bags := by
  have hf : Frame ms ms1 := settle_stores_frame hs _ ms ms1 hrun
  have hperm := settlement_order_perm hs ms R.business_id
  rw [confirmed_bags_eq_sum_pending hf R.business_id hall,
    ← (hperm.map (confirmed_bags_at ms1 R.business_id)).sum_eq]
  by_cases hk : (pending_for ms R.business_id).length = 0
  · have hnil : settlement_order sort ms R.business_id = [] :=
      List.length_eq_zero.mp ((settlement_order_length hs ms R.business_id).trans hk)
    rw [hnil]
    simpa using h0
  have hkpos : (0 : Int) < ((pending_for ms R.business_id).length : Int) := by omega
  by_cases ha : R.actual_bags ≥ ((pending_for ms R.business_id).length : Int)
  · -- abundance: the shares are the entries of `alloc`
    have h3 := first_store_abundance hs ms ms1 i R hR hfirst hk ha hrun
    have hmap : (settlement_order sort ms R.business_id).map
        (confirmed_bags_at ms1 R.business_id) =
        (alloc R.max_bags_per_customer
          (min R.max_bags_per_customer
            (Int.tdiv R.actual_bags ((pending_for ms R.business_id).length : Int)))
          ((settlement_order sort ms R.business_id).map (reg_at ms))
          (R.actual_bags - min R.max_bags_per_customer
            (Int.tdiv R.actual_bags ((pending_for ms R.business_id).length : Int)) *
              ((pending_for ms R.business_id).length : Int))).map bags_of := by
      apply List.ext_getElem?
      intro t
      rw [List.getElem?_map, List.getElem?_map]
      cases ht : (settlement_order sort ms R.business_id)[t]? with
      | none =>
        have hge : (settlement_order sort ms R.business_id).length ≤ t :=
          List.getElem?_eq_none_iff.mp ht
        rw [List.getElem?_eq_none_iff.mpr (by rw [alloc_length, List.length_map]; exact hge)]
        rfl
      | some p =>
        have hlt : t < (settlement_order sort ms R.business_id).length := by
          rcases Nat.lt_or_ge t (settlement_order sort ms R.business_id).length with h | h
          · exact h
          · rw [List.getElem?_eq_none h] at ht; cases ht
        have hal : t < (alloc R.max_bags_per_customer
            (min R.max_bags_per_customer
              (Int.tdiv R.actual_bags ((pending_for ms R.business_id).length : Int)))
            ((settlement_order sort ms R.business_id).map (reg_at ms))
            (R.actual_bags - min R.max_bags_per_customer
              (Int.tdiv R.actual_bags ((pending_for ms R.business_id).length : Int)) *
                ((pending_for ms R.business_id).length : Int))).length := by
          rw [alloc_length, List.length_map]; exact hlt
        have ho := List.getElem?_eq_getElem hal
        rw [ho]
        simp only [Option.map_some']
        congr 1
        have h1 := h3 t p _ ht ho
        obtain ⟨r, hr, hid, hpend⟩ :=
          (mem_pending_for ms _ p).mp (hperm.mem_iff.mp (List.getElem?_mem ht))
        rw [hr] at h1
        generalize (alloc R.max_bags_per_customer
            (min R.max_bags_per_customer
              (Int.tdiv R.actual_bags ((pending_for ms R.business_id).length : Int)))
            ((settlement_order sort ms R.business_id).map (reg_at ms))
            (R.actual_bags - min R.max_bags_per_customer
              (Int.tdiv R.actual_bags ((pending_for ms R.business_id).length : Int)) *
                ((pending_for ms R.business_id).length : Int)))[t] = o at h1 ⊢
        cases o with
        | none => simp [confirmed_bags_at, h1, apply_bags, hpend, bags_of]
        | some n => simp [confirmed_bags_at, h1, apply_bags, hid, bags_of]
    rw [hmap]
    by_cases hb : 0 ≤ min R.max_bags_per_customer
        (Int.tdiv R.actual_bags ((pending_for ms R.business_id).length : Int))
    · have hle : min R.max_bags_per_customer
          (Int.tdiv R.actual_bags ((pending_for ms R.business_id).length : Int)) *
            ((pending_for ms R.business_id).length : Int) ≤ R.actual_bags := by
        have h1 := tdiv_mul_le_self R.actual_bags _ h0 hkpos
        have h2 : min R.max_bags_per_customer
            (Int.tdiv R.actual_bags ((pending_for ms R.business_id).length : Int)) ≤
            Int.tdiv R.actual_bags ((pending_for ms R.business_id).length : Int) :=
          min_le_right _ _
        nlinarith
      have := alloc_sum_nonneg R.max_bags_per_customer _ hb
        ((settlement_order sort ms R.business_id).map (reg_at ms))
        (R.actual_bags - min R.max_bags_per_customer
          (Int.tdiv R.actual_bags ((pending_for ms R.business_id).length : Int)) *
            ((pending_for ms R.business_id).length : Int)) (by omega)
      rw [List.length_map, settlement_order_length hs] at this
      linarith
    · have := alloc_sum_neg R.max_bags_per_customer _ (not_le.mp hb)
        ((settlement_order sort ms R.business_id).map (reg_at ms))
        (R.actual_bags - min R.max_bags_per_customer
          (Int.tdiv R.actual_bags ((pending_for ms R.business_id).length : Int)) *
            ((pending_for ms R.business_id).length : Int))
      linarith
  · -- scarcity: at most one bag for each of the first `actual_bags` pointers
    obtain ⟨_, ht, hd⟩ := first_store_scarcity hs ms ms1 i R hR hfirst hk (not_le.mp ha) hrun
    rw [← List.take_append_drop R.actual_bags.toNat (settlement_order sort ms R.business_id),
      List.map_append, List.sum_append]
    have h1 : (((settlement_order sort ms R.business_id).take R.actual_bags.toNat).map
        (confirmed_bags_at ms1 R.business_id)).sum ≤ R.actual_bags := by
      have hb := List.sum_le_card_nsmul
        (((settlement_order sort ms R.business_id).take R.actual_bags.toNat).map
          (confirmed_bags_at ms1 R.business_id)) 1 (by
          intro x hx
          obtain ⟨p, hp, rfl⟩ := List.mem_map.mp hx
          obtain ⟨r, hr, hid, hpend⟩ :=
            (mem_pending_for ms _ p).mp (hperm.mem_iff.mp (List.mem_of_mem_take hp))
          have h2 := ht p hp
          rw [hr] at h2
          cases hreg : reg_at ms p with
          | false => simp [confirmed_bags_at, h2, hreg, apply_bags, hpend]
          | true => simp [confirmed_bags_at, h2, hreg, apply_bags, hid])
      rw [List.length_map, List.length_take] at hb
      simp only [nsmul_eq_mul, mul_one] at hb
      have : ((min R.actual_bags.toNat (settlement_order sort ms R.business_id).length : Nat) : Int)
          ≤ R.actual_bags := by
        have := Nat.min_le_left R.actual_bags.toNat (settlement_order sort ms R.business_id).length
        omega
      omega
    have h2 : (((settlement_order sort ms R.business_id).drop R.actual_bags.toNat).map
        (confirmed_bags_at ms1 R.business_id)).sum = 0 := by
      apply List.sum_eq_zero
      intro x hx
      obtain ⟨p, hp, rfl⟩ := List.mem_map.mp hx
      obtain ⟨r, hr, hid, hpend⟩ :=
        (mem_pending_for ms _ p).mp (hperm.mem_iff.mp (List.mem_of_mem_drop hp))
      have h3 := hd p hp
      rw [hr] at h3
      cases hreg : reg_at ms p with
      | false => simp [confirmed_bags_at, h3, hreg, apply_cancel, hpend]
      | true => simp [confirmed_bags_at, h3, hreg, apply_cancel]
    omega

/-- C3 (amended): for the first store of the store list with its business id,
when all reservations in the log for that id were PENDING and the store's
`actual_bags` is not negative, after any run of `process_end_of_day` the
`bags_received` of the CONFIRMED reservations of that id sum to at most the
store's `actual_bags`, which the run does not change.  The run returns whenever
no store has a negative `actual_bags`. -/
theorem confirmed_bags_within_inventory (sort : StdSort) (hs : SortContract sort)
    (ms : MarketState) (i : Nat) (R : Restaurant) (hR : ms.restaurants[i]? = some R)
    (hfirst : ∀ j Rj, j < i → ms.restaurants[j]? = some Rj → Rj.business_id ≠ R.business_id)
    (hall : ∀ r ∈ ms.reservations, r.restaurant_id = R.business_id → r.status = Status.PENDING)
    (h0 : 0 ≤ R.actual_bags) :
    (∀ ms1, process_end_of_day sort ms = some ms1 →
      confirmed_bags ms1 R.business_id ≤ R.actual_bags ∧
      (ms1.restaurants[i]?).map (fun S => S.actual_bags) = some R.actual_bags) ∧
    ((∀ S ∈ ms.restaurants, 0 ≤ S.actual_bags) →
      ∃ ms1, process_end_of_day sort ms = some ms1) := by
  refine ⟨?_, process_end_of_day_total hs ms⟩
  intro ms1 hrun
  have hf : Frame ms ms1 := settle_stores_frame hs _ ms ms1 hrun
  refine ⟨first_store_confirmed_le sort hs ms i R hR hfirst hall h0 ms1 hrun, ?_⟩
  obtain ⟨S, hS, hkey⟩ := hf.symm.store_at i R hR
  rw [hS]
  exact congrArg some (congrArg (fun k => k.2.1) hkey)

/-- C3 (witness): the scarcity scenario, where three bags are handed out of three. -/
theorem confirmed_bags_within_inventory_witness :
    ((∀ ms1, process_end_of_day insertion_sort scarcity_state = some ms1 →
      confirmed_bags ms1 1 ≤ 3 ∧
      (ms1.restaurants[0]?).map (fun S => S.actual_bags) = some 3) ∧
    ((∀ S ∈ scarcity_state.restaurants, 0 ≤ S.actual_bags) →
      ∃ ms1, process_end_of_day insertion_sort scarcity_state = some ms1)) ∧
    (process_end_of_day insertion_sort scarcity_state).map (fun s => confirmed_bags s 1) =
      some 3 :=
  ⟨confirmed_bags_within_inventory insertion_sort insertion_sort_conforms scarcity_state 0
      (store_fixture 1 3 3) rfl (fun j _ hj => absurd hj (Nat.not_lt_zero j))
      (by decide) (by decide),
    by decide⟩

/-- C3 (counterexample): the second of two stores with the same business id has
`actual_bags = 1` and all its reservations PENDING, yet its confirmed
reservations receive 5 bags in total, handed out from the first store's inventory. -/
theorem confirmed_bags_exceed_duplicate_store :
    duplicate_total_state.restaurants[1]? = some (store_fixture 1 1 3) ∧
    (∀ r ∈ duplicate_total_state.reservations, r.restaurant_id = 1 →
      r.status = Status.PENDING) ∧
    (process_end_of_day insertion_sort duplicate_total_state).map
      (fun s => confirmed_bags s 1) = some 5 := by
  refine ⟨rfl, ?_, ?_⟩
  · decide
  · decide

theorem alloc_all_true (M b : Int) (fs : List Bool) :
    ∀ (e : Int) (t : Nat), (∀ f ∈ fs, f = true) → t < fs.length →
      (alloc M b fs e)[t]? = some (some (if b < M ∧ (t : Int) < e then b + 1 else b)) := by
  induction fs with
  | nil => intro e t _ ht; simp at ht
  | cons f rest ih =>
    intro e t hall ht
    have hf : f = true := hall f (List.mem_cons_self _ _)
    have hrest : ∀ g ∈ rest, g = true := fun g hg => hall g (List.mem_cons_of_mem _ hg)
    subst hf
    unfold alloc
    split
    · rename_i hc
      cases t with
      | zero =>
        have : b < M ∧ (0 : Int) < e := ⟨hc.2, hc.1⟩
        simp [this]
      | succ t =>
        simp only [List.getElem?_cons_succ]
        rw [ih (e - 1) t hrest (by simpa using ht)]
        have : (b < M ∧ (t : Int) < e - 1) ↔ (b < M ∧ ((t + 1 : Nat) : Int) < e) := by
          push_cast; constructor <;> rintro ⟨h1, h2⟩ <;> exact ⟨h1, by omega⟩
        simp only [this]
    · rename_i hc
      cases t with
      | zero =>
        have : ¬ (b < M ∧ (0 : Int) < e) := fun h => hc ⟨h.2, h.1⟩
        simp [this]
      | succ t =>
        simp only [List.getElem?_cons_succ]
        rw [ih e t hrest (by simpa using ht)]
        have h1 : ¬ (b < M ∧ (t : Int) < e) := fun h => hc ⟨by omega, h.1⟩
        have h2 : ¬ (b < M ∧ ((t + 1 : Nat) : Int) < e) := fun h => hc ⟨by push_cast at h; omega, h.1⟩
        simp only [h1, h2]

/-- C4 (amended): for the first store of the store list with its business id,
with `k >= 1` pending reservations and `actual_bags >= k`, every one of them
that a run of `process_end_of_day` confirms has `bags_received` at most the
store's `max_bags_per_customer`.  The run returns whenever no store has a
negative `actual_bags`. -/
theorem abundance_respects_cap (sort : StdSort) (hs : SortContract sort)
    (ms : MarketState) (i : Nat) (R : Restaurant) (hR : ms.restaurants[i]? = some R)
    (hfirst : ∀ j Rj, j < i → ms.restaurants[j]? = some Rj → Rj.business_id ≠ R.business_id)
    (hk : 1 ≤ (pending_for ms R.business_id).length)
    (ha : R.actual_bags ≥ ((pending_for ms R.business_id).length : Int)) :
    (∀ ms1, process_end_of_day sort ms = some ms1 →
      ∀ q ∈ pending_for ms R.business_id, ∀ r1, ms1.reservations[q]? = some r1 →
        r1.status = Status.CONFIRMED → r1.bags_received ≤ R.max_bags_per_customer) ∧
    ((∀ S ∈ ms.restaurants, 0 ≤ S.actual_bags) →
      ∃ ms1, process_end_of_day sort ms = some ms1) := by
  refine ⟨?_, process_end_of_day_total hs ms⟩
  intro ms1 hrun q hq r1 hr1 hconf
  have hk0 : (pending_for ms R.business_id).length ≠ 0 := by omega
  have h3 := first_store_abundance hs ms ms1 i R hR hfirst hk0 ha hrun
  have hperm := settlement_order_perm hs ms R.business_id
  obtain ⟨t, ht⟩ := List.getElem?_of_mem (hperm.mem_iff.mpr hq)
  have hlt : t < (settlement_order sort ms R.business_id).length := by
    rcases Nat.lt_or_ge t (settlement_order sort ms R.business_id).length with h | h
    · exact h
    · rw [List.getElem?_eq_none h] at ht; cases ht
  have hal : t < (alloc R.max_bags_per_customer
      (min R.max_bags_per_customer
        (Int.tdiv R.actual_bags ((pending_for ms R.business_id).length : Int)))
      ((settlement_order sort ms R.business_id).map (reg_at ms))
      (R.actual_bags - min R.max_bags_per_customer
        (Int.tdiv R.actual_bags ((pending_for ms R.business_id).length : Int)) *
          ((pending_for ms R.business_id).length : Int))).length := by
    rw [alloc_length, List.length_map]; exact hlt
  have ho := List.getElem?_eq_getElem hal
  obtain ⟨f, _, hf0, hf1⟩ := alloc_get _ _ _ _ _ _ ho
  have h1 := h3 t q _ ht ho
  obtain ⟨r, hr, _, hpend⟩ := (mem_pending_for ms _ q).mp hq
  rw [hr, hr1] at h1
  cases f with
  | false =>
    rw [hf0 rfl] at h1
    simp only [Option.map_some', apply_bags, Option.some.injEq] at h1
    rw [h1, hpend] at hconf
    cases hconf
  | true =>
    obtain ⟨n, hn, hcase⟩ := hf1 rfl
    rw [hn] at h1
    simp only [Option.map_some', apply_bags, Option.some.injEq] at h1
    rw [h1]
    simp only
    have hmin : min R.max_bags_per_customer
        (Int.tdiv R.actual_bags ((pending_for ms R.business_id).length : Int)) ≤
        R.max_bags_per_customer := min_le_left _ _
    rcases hcase with h | ⟨h, hltM⟩
    · omega
    · omega

/-- C4 (witness): three pending reservations, seven bags, cap 3. -/
theorem abundance_respects_cap_witness :
    (∀ ms1, process_end_of_day insertion_sort extras_state = some ms1 →
      ∀ q ∈ pending_for extras_state 1, ∀ r1, ms1.reservations[q]? = some r1 →
        r1.status = Status.CONFIRMED → r1.bags_received ≤ 3) ∧
    ((∀ S ∈ extras_state.restaurants, 0 ≤ S.actual_bags) →
      ∃ ms1, process_end_of_day insertion_sort extras_state = some ms1) :=
  abundance_respects_cap insertion_sort insertion_sort_conforms extras_state 0
    (store_fixture 1 7 3) rfl (fun j _ hj => absurd hj (Nat.not_lt_zero j))
    (by decide) (by decide)

/-- C4 (counterexample): the second of two stores with the same business id has
one pending reservation, 3 bags and cap 1, yet the reservation is confirmed
with 3 bags, the share computed from the first store's cap. -/
theorem abundance_cap_exceeded_duplicate_store :
    duplicate_cap_state.restaurants[1]? = some (store_fixture 1 3 1) ∧
    pending_for duplicate_cap_state 1 = [0] ∧
    (process_end_of_day insertion_sort duplicate_cap_state).map
      (fun s => (status_at s 0, bags_at s 0)) = some (some Status.CONFIRMED, some 3) := by
  refine ⟨rfl, ?_, ?_⟩
  · decide
  · decide

/-- C5 (amended): for the first store of the store list with its business id,
with `k >= 1` pending reservations whose customers are all registered and
`actual_bags >= k`, after any run of `process_end_of_day` every one of them is
CONFIRMED (none CANCELLED); with `b = min(max_bags_per_customer, actual_bags div k)`,
the reservation at position `t` (0-based) of the list sorted by time receives
`b + 1` bags if `b < max_bags_per_customer` and `t < actual_bags - b*k`, and `b`
bags otherwise.  The sorted list is a permutation of the pending reservations
in ascending time order.  The run returns whenever no store has a negative
`actual_bags`. -/
theorem abundance_allocation_first_store (sort : StdSort) (hs : SortContract sort)
    (ms : MarketState) (i : Nat) (R : Restaurant) (hR : ms.restaurants[i]? = some R)
    (hfirst : ∀ j Rj, j < i → ms.restaurants[j]? = some Rj → Rj.business_id ≠ R.business_id)
    (hk : 1 ≤ (pending_for ms R.business_id).length)
    (ha : R.actual_bags ≥ ((pending_for ms R.business_id).length : Int))
    (hreg : ∀ q ∈ pending_for ms R.business_id, reg_at ms q = true) :
    (∀ ms1, process_end_of_day sort ms = some ms1 →
      (∀ q ∈ pending_for ms R.business_id, status_at ms1 q = some Status.CONFIRMED) ∧
      (∀ (t q : Nat), (settlement_order sort ms R.business_id)[t]? = some q →
        bags_at ms1 q = some
          (if min R.max_bags_per_customer
                (R.actual_bags / ((pending_for ms R.business_id).length : Int)) <
                R.max_bags_per_customer ∧
              (t : Int) < R.actual_bags -
                min R.max_bags_per_customer
                  (R.actual_bags / ((pending_for ms R.business_id).length : Int)) *
                  ((pending_for ms R.business_id).length : Int)
           then min R.max_bags_per_customer
                (R.actual_bags / ((pending_for ms R.business_id).length : Int)) + 1
           else min R.max_bags_per_customer
                (R.actual_bags / ((pending_for ms R.business_id).length : Int))))) ∧
    (settlement_order sort ms R.business_id).Perm (pending_for ms R.business_id) ∧
    (settlement_order sort ms R.business_id).Pairwise
      (fun a b => minutes_at ms a ≤ minutes_at ms b) ∧
    ((∀ S ∈ ms.restaurants, 0 ≤ S.actual_bags) →
      ∃ ms1, process_end_of_day sort ms = some ms1) := by
  have hperm := settlement_order_perm hs ms R.business_id
  have hk0 : (pending_for ms R.business_id).length ≠ 0 := by omega
  have hdiv : Int.tdiv R.actual_bags ((pending_for ms R.business_id).length : Int) =
      R.actual_bags / ((pending_for ms R.business_id).length : Int) :=
    Int.tdiv_eq_ediv (by omega) (by omega)
  refine ⟨?_, hperm, ?_, process_end_of_day_total hs ms⟩
  · intro ms1 hrun
    have h3 := first_store_abundance hs ms ms1 i R hR hfirst hk0 ha hrun
    rw [hdiv] at h3
    have hflags : ∀ f ∈ (settlement_order sort ms R.business_id).map (reg_at ms), f = true := by
      intro f hf
      obtain ⟨p, hp, rfl⟩ := List.mem_map.mp hf
      exact hreg p (hperm.mem_iff.mp hp)
    have pos : ∀ (t q : Nat), (settlement_order sort ms R.business_id)[t]? = some q →
        ∃ r, ms.reservations[q]? = some r ∧
          ms1.reservations[q]? = some (apply_bags (some
            (if min R.max_bags_per_customer
                  (R.actual_bags / ((pending_for ms R.business_id).length : Int)) <
                  R.max_bags_per_customer ∧
                (t : Int) < R.actual_bags -
                  min R.max_bags_per_customer
                    (R.actual_bags / ((pending_for ms R.business_id).length : Int)) *
                    ((pending_for ms R.business_id).length : Int)
             then min R.max_bags_per_customer
                  (R.actual_bags / ((pending_for ms R.business_id).length : Int)) + 1
             else min R.max_bags_per_customer
                  (R.actual_bags / ((pending_for ms R.business_id).length : Int)))) r) := by
      intro t q ht
      have hlt : t < (settlement_order sort ms R.business_id).length := by
        rcases Nat.lt_or_ge t (settlement_order sort ms R.business_id).length with h | h
        · exact h
        · rw [List.getElem?_eq_none h] at ht; cases ht
      obtain ⟨r, hr, _, _⟩ :=
        (mem_pending_for ms _ q).mp (hperm.mem_iff.mp (List.getElem?_mem ht))
      refine ⟨r, hr, ?_⟩
      rw [h3 t q _ ht (alloc_all_true _ _ _ _ t hflags (by rw [List.length_map]; exact hlt)), hr]
      rfl
    constructor
    · intro q hq
      obtain ⟨t, ht⟩ := List.getElem?_of_mem (hperm.mem_iff.mpr hq)
      obtain ⟨r, _, h1⟩ := pos t q ht
      simp only [status_at, h1]
      rfl
    · intro t q ht
      obtain ⟨r, _, h1⟩ := pos t q ht
      simp only [bags_at, h1]
      rfl
  · have hsorted := settlement_order_sorted hs ms R.business_id
    apply hsorted.imp
    intro a b hab
    simp only [time_lt, Timestamp.lt, decide_eq_false_iff_not, not_lt] at hab
    exact hab

/-- C5 (witness): the scenario of the spec, `actual_bags = 10`, ten pending
reservations and cap 3: everyone is confirmed with exactly one bag and there
are no extras. -/
theorem abundance_allocation_first_store_witness :
    ((∀ ms1, process_end_of_day insertion_sort abundance_state = some ms1 →
      (∀ q ∈ pending_for abundance_state 1, status_at ms1 q = some Status.CONFIRMED) ∧
      (∀ (t q : Nat), (settlement_order insertion_sort abundance_state 1)[t]? = some q →
        bags_at ms1 q = some
          (if min (3 : Int) (10 / ((pending_for abundance_state 1).length : Int)) < 3 ∧
              (t : Int) < 10 - min (3 : Int) (10 / ((pending_for abundance_state 1).length : Int)) *
                ((pending_for abundance_state 1).length : Int)
           then min (3 : Int) (10 / ((pending_for abundance_state 1).length : Int)) + 1
           else min (3 : Int) (10 / ((pending_for abundance_state 1).length : Int))))) ∧
    (settlement_order insertion_sort abundance_state 1).Perm (pending_for abundance_state 1) ∧
    (settlement_order insertion_sort abundance_state 1).Pairwise
      (fun a b => minutes_at abundance_state a ≤ minutes_at abundance_state b) ∧
    ((∀ S ∈ abundance_state.restaurants, 0 ≤ S.actual_bags) →
      ∃ ms1, process_end_of_day insertion_sort abundance_state = some ms1)) ∧
    (pending_for abundance_state 1).length = 10 ∧
    (process_end_of_day insertion_sort abundance_state).map
      (fun s => s.reservations.map (fun r => (r.status, r.bags_received))) =
      some (List.replicate 10 (Status.CONFIRMED, 1)) ∧
    (process_end_of_day insertion_sort extras_state).map
      (fun s => s.reservations.map (fun r => (r.status, r.bags_received))) =
      some [(Status.CONFIRMED, 2), (Status.CONFIRMED, 3), (Status.CONFIRMED, 2)] :=
  ⟨abundance_allocation_first_store insertion_sort insertion_sort_conforms abundance_state 0
      (store_fixture 1 10 3) rfl (fun j _ hj => absurd hj (Nat.not_lt_zero j))
      (by decide) (by decide) (by decide),
    by decide, by decide, by decide⟩

/-- C5 (counterexample): the second of two stores with the same business id has
two pending reservations of registered customers, 4 bags and cap 3, so the
reference rule gives `b = min(3, 4 div 2) = 2` bags each; both reservations
receive 1 bag, the share computed from the first store's 2 bags. -/
theorem abundance_allocation_duplicate_store :
    duplicate_allocation_state.restaurants[1]? = some (store_fixture 1 4 3) ∧
    pending_for duplicate_allocation_state 1 = [0, 1] ∧
    (∀ q ∈ pending_for duplicate_allocation_state 1,
      reg_at duplicate_allocation_state q = true) ∧
    min (3 : Int) (4 / 2) = 2 ∧
    (process_end_of_day insertion_sort duplicate_allocation_state).map
      (fun s => (bags_at s 0, bags_at s 1)) = some (some 1, some 1) := by
  refine ⟨rfl, ?_, ?_, ?_, ?_⟩
  · decide
  · decide
  · decide
  · decide

/-- C6 (code): seventeen pending reservations of one store carry the same
reservation time and the store has a single bag.  Under a `std::sort` that
meets the standard's contract and does not keep equivalent elements in their
input order, the reservation created first (log position 0) is CANCELLED and
the one created last (log position 16) is CONFIRMED: the tie is not broken by
creation order.  Under a stable sort the same input confirms log position 0. -/
theorem settlement_tie_break_not_stable :
    SortContract reversing_sort ∧
    (∀ q ∈ pending_for tie_state 1, minutes_at tie_state q = minutes_at tie_state 0) ∧
    pending_for tie_state 1 = List.range 17 ∧
    (∀ q ∈ pending_for tie_state 1, reg_at tie_state q = true) ∧
    (process_end_of_day reversing_sort tie_state).map
      (fun s => (status_at s 0, status_at s 16)) =
      some (some Status.CANCELLED, some Status.CONFIRMED) ∧
    (process_end_of_day insertion_sort tie_state).map
      (fun s => (status_at s 0, status_at s 16)) =
      some (some Status.CONFIRMED, some Status.CANCELLED) := by
  refine ⟨reversing_sort_conforms, ?_, ?_, ?_, ?_, ?_⟩
  · decide
  · decide
  · decide
  · decide
  · decide

/-! ## Display and decision: the claims -/

/-- C7 (code): with display width `n_displayed = 0` and one available store at
the customer's position, the nearest-first strategy still returns that store:
a sequence of length 1, longer than `n_displayed`. -/
theorem amer_exceeds_zero_width :
    (get_displayed_stores reference_math insertion_sort (customer_fixture 1) single_store_state 0
      RankingAlgorithm.AMER).map (fun r => r.1) = some [1] := by
  simp [get_displayed_stores, get_displayed_stores_amer, single_store_state, market_fixture,
    MarketState.get_available_restaurant_ids, store_fixture, Restaurant.can_accept_reservation,
    amer_closest, MarketState.get_restaurant, calculate_distance, customer_fixture, reference_math,
    MAX_TRAVEL_DISTANCE, FLT_MAX, amer_scores, insertion_sort]
  norm_num

theorem size_lt_mono (i j : Nat) (n : Int) (hij : i ≤ j) (h : size_lt j n = true) :
    size_lt i n = true := by
  simp only [size_lt, decide_eq_true_eq] at h ⊢
  omega

theorem sama_select1_fault (store_scores : List (Int × ℚ)) (n_displayed : Int)
    (hlen : store_scores.length < 3) (hn : size_lt store_scores.length n_displayed = true) :
    ∀ (d fuel i : Nat) (result : List Int), result.length = i → i + d = store_scores.length →
      d < fuel → i + fuel ≤ 3 →
      sama_select1 store_scores 3 n_displayed fuel i result = none := by
  intro d
  induction d with
  | zero =>
    intro fuel i result hres hi hfuel _
    cases fuel with
    | zero => omega
    | succ fuel =>
      have hcond : (i : Int) < 3 ∧ size_lt result.length n_displayed = true := by
        refine ⟨by omega, ?_⟩
        rw [hres]
        have : i = store_scores.length := by omega
        rw [this]; exact hn
      have hnone : store_scores[i]? = none := List.getElem?_eq_none (by omega)
      simp only [sama_select1, hcond, and_self, if_true, hnone]
  | succ d ih =>
    intro fuel i result hres hi hfuel h3
    cases fuel with
    | zero => omega
    | succ fuel =>
      have hcond : (i : Int) < 3 ∧ size_lt result.length n_displayed = true := by
        refine ⟨by omega, ?_⟩
        rw [hres]
        exact size_lt_mono i store_scores.length n_displayed (by omega) hn
      have hlt : i < store_scores.length := by omega
      have hsome : store_scores[i]? = some store_scores[i] := List.getElem?_eq_getElem hlt
      simp only [sama_select1, hcond, and_self, if_true, hsome]
      exact ih fuel (i + 1) _ (by simp [hres]) (by omega) (by omega) (by omega)

theorem sama_scores_length_le (fm : FloatMath) (customer : Customer) (ms : MarketState)
    (ids : List Int) : (sama_scores fm customer ms ids).length ≤ ids.length := by
  induction ids with
  | nil => simp [sama_scores]
  | cons a rest ih =>
    unfold sama_scores
    split
    · exact Nat.le_succ_of_le ih
    · simp only [List.length_cons]; omega

theorem get_restaurant_of_available (ms : MarketState) (id : Int)
    (h : id ∈ ms.get_available_restaurant_ids) : ∃ store, ms.get_restaurant id = some store := by
  unfold MarketState.get_available_restaurant_ids at h
  obtain ⟨r, hr, hid⟩ := List.mem_map.mp h
  have hr1 : r ∈ ms.restaurants := (List.mem_filter.mp hr).1
  unfold MarketState.get_restaurant
  cases hf : ms.restaurants.find? (fun r => decide (r.business_id = id)) with
  | some s => exact ⟨s, rfl⟩
  | none =>
    rw [List.find?_eq_none] at hf
    have := hf r hr1
    simp [hid] at this

theorem sama_scores_length_available (fm : FloatMath) (customer : Customer) (ms : MarketState)
    (ids : List Int) (h : ∀ id ∈ ids, id ∈ ms.get_available_restaurant_ids) :
    (sama_scores fm customer ms ids).length = ids.length := by
  induction ids with
  | nil => simp [sama_scores]
  | cons a rest ih =>
    obtain ⟨store, hs⟩ := get_restaurant_of_available ms a (h a (List.mem_cons_self _ _))
    simp only [sama_scores, hs, List.length_cons]
    rw [ih (fun id hid => h id (List.mem_cons_of_mem _ hid))]

/-- The out-of-bounds read of the multi-objective strategy: with one or two
available stores and a display width above their number, SELECT 1 reads
`store_scores` past its end. -/
theorem sama_reads_past_end (fm : FloatMath) (sort : StdSort) (hs : SortContract sort)
    (customer : Customer) (ms : MarketState) (n_displayed : Int)
    (h1 : 1 ≤ ms.get_available_restaurant_ids.length)
    (h3 : ms.get_available_restaurant_ids.length < 3)
    (hn : (ms.get_available_restaurant_ids.length : Int) < n_displayed)
    (hmax : n_displayed < 2 ^ 64) :
    get_displayed_stores_sama fm sort customer ms n_displayed = none := by
  have hne : ms.get_available_restaurant_ids ≠ [] := by
    intro h; rw [h] at h1; simp at h1
  have hswo : StrictWeakOrder score_gt := by
    constructor
    · intro a; simp [score_gt]
    · intro a b c; simp only [score_gt, decide_eq_true_eq]; exact fun h1 h2 => lt_trans h2 h1
    · intro a b c; simp only [score_gt, decide_eq_false_iff_not, not_lt]
      intro h1 h2 h3 h4
      exact ⟨le_trans h1 h3, le_trans h4 h2⟩
  have hlen : (sort (Int × ℚ) score_gt
      (sama_scores fm customer ms ms.get_available_restaurant_ids)).length =
      ms.get_available_restaurant_ids.length := by
    rw [(hs _ score_gt _ hswo).1.length_eq]
    exact sama_scores_length_available fm customer ms _ (fun _ h => h)
  have hcount : max 3 (min (float_to_int ((n_displayed : ℚ) * sama_personalization customer ms))
      ((sort (Int × ℚ) score_gt
        (sama_scores fm customer ms ms.get_available_restaurant_ids)).length : Int)) = 3 := by
    rw [hlen]
    have := min_le_right (float_to_int ((n_displayed : ℚ) * sama_personalization customer ms))
      (ms.get_available_restaurant_ids.length : Int)
    omega
  unfold get_displayed_stores_sama
  simp only [hne, if_false, hcount]
  have hsz : size_lt (sort (Int × ℚ) score_gt
      (sama_scores fm customer ms ms.get_available_restaurant_ids)).length n_displayed = true := by
    rw [hlen]
    simp only [size_lt, to_size_t, decide_eq_true_eq]
    rw [Int.emod_eq_of_lt (by omega) hmax]
    exact hn
  have := sama_select1_fault (sort (Int × ℚ) score_gt
      (sama_scores fm customer ms ms.get_available_restaurant_ids)) n_displayed
    (by rw [hlen]; exact h3) hsz
    (sort (Int × ℚ) score_gt
      (sama_scores fm customer ms ms.get_available_restaurant_ids)).length 3 0 [] rfl
    (by simp) (by rw [hlen]; exact h3) (by simp)
  simp only [Int.toNat_ofNat, show (3 : Int).toNat = 3 from rfl]
  rw [this]

/-- C8 (code): with a single available store and `n_displayed = 2` the
multi-objective strategy reads `store_scores[1]` on a one-element vector and
pushes what it finds: the call has no defined result, so the returned
sequence is not drawn from the available stores. -/
theorem sama_display_out_of_bounds :
    single_store_state.get_available_restaurant_ids = [1] ∧
    get_displayed_stores reference_math insertion_sort (customer_fixture 1) single_store_state 2
      RankingAlgorithm.SAMA = none := by
  have hav : single_store_state.get_available_restaurant_ids = [1] := by decide
  refine ⟨hav, ?_⟩
  simp only [get_displayed_stores]
  rw [sama_reads_past_end reference_math insertion_sort insertion_sort_conforms
    (customer_fixture 1) single_store_state 2 (by rw [hav]; decide) (by rw [hav]; decide)
    (by rw [hav]; decide) (by decide)]
  rfl

theorem float_to_int_seven_tenths : float_to_int (7 / 10) = 0 := by
  unfold float_to_int
  have h1 : (7 / 10 : ℚ).num = 7 := by norm_num
  have h2 : (7 / 10 : ℚ).den = 10 := by norm_num
  rw [h1, h2]
  decide

theorem harmony_first_call :
    get_displayed_stores reference_math insertion_sort (customer_fixture 1) rivalry_state 1
      RankingAlgorithm.HARMONY = some ([1], rivalry_state_after) := by
  simp [get_displayed_stores, get_displayed_stores_harmony, rivalry_state, rivalry_state_after,
    market_fixture, MarketState.get_available_restaurant_ids, store_fixture,
    Restaurant.can_accept_reservation, harmony_avg_impressions, harmony_scores, harmony_score,
    MarketState.get_restaurant, calculate_distance, customer_fixture, reference_math,
    Customer.calculate_store_score, MAX_TRAVEL_DISTANCE, insertion_sort, map_read, map_find,
    map_update, CustomerHistory.fresh, Restaurant.get_rating, unsold_bags, score_gt,
    float_to_int_seven_tenths, size_lt, to_size_t, harmony_high_waste, harmony_discovery,
    fill_remaining, track_impressions, is_new_store]
  norm_num [fill_remaining, size_lt, to_size_t, map_update]

theorem harmony_second_call :
    get_displayed_stores reference_math insertion_sort (customer_fixture 1) rivalry_state_after 1
      RankingAlgorithm.HARMONY =
      some ([2], { rivalry_state with impression_counts := [(1, 1), (2, 1)] }) := by
  simp [get_displayed_stores, get_displayed_stores_harmony, rivalry_state, rivalry_state_after,
    market_fixture, MarketState.get_available_restaurant_ids, store_fixture,
    Restaurant.can_accept_reservation, harmony_avg_impressions, harmony_scores, harmony_score,
    MarketState.get_restaurant, calculate_distance, customer_fixture, reference_math,
    Customer.calculate_store_score, MAX_TRAVEL_DISTANCE, insertion_sort, map_read, map_find,
    map_update, CustomerHistory.fresh, Restaurant.get_rating, unsold_bags, score_gt,
    float_to_int_seven_tenths, size_lt, to_size_t, harmony_high_waste, harmony_discovery,
    fill_remaining, track_impressions, is_new_store]
  norm_num [fill_remaining, size_lt, to_size_t, map_update]

theorem amer_single_store_call :
    get_displayed_stores reference_math insertion_sort (customer_fixture 1) single_store_state 1
      RankingAlgorithm.AMER = some ([1], single_store_state) := by
  simp [get_displayed_stores, get_displayed_stores_amer, single_store_state, market_fixture,
    MarketState.get_available_restaurant_ids, store_fixture, Restaurant.can_accept_reservation,
    amer_closest, MarketState.get_restaurant, calculate_distance, customer_fixture, reference_math,
    MAX_TRAVEL_DISTANCE, FLT_MAX, amer_scores, insertion_sort]
  norm_num

theorem map_read_update_id (m : List (Int × Int)) (k j : Int) :
    map_read (map_update m k 0 id) j 0 = map_read m j 0 := by
  induction m with
  | nil =>
    simp only [map_update, map_read, map_find, id]
    split <;> rfl
  | cons e rest ih =>
    obtain ⟨k1, v⟩ := e
    simp only [map_update]
    split
    · simp only [map_read, map_find, id]
    · simp only [map_read, map_find] at ih ⊢
      split
      · rfl
      · exact ih

theorem get_restaurant_congr {ms ms1 : MarketState} (h : ms1.restaurants = ms.restaurants)
    (id : Int) : ms1.get_restaurant id = ms.get_restaurant id := by
  unfold MarketState.get_restaurant
  rw [h]

theorem available_congr {ms ms1 : MarketState} (h : ms1.restaurants = ms.restaurants) :
    ms1.get_available_restaurant_ids = ms.get_available_restaurant_ids := by
  unfold MarketState.get_available_restaurant_ids
  rw [h]

theorem andrew_scores_congr (fm : FloatMath) (customer : Customer) (ids : List Int) :
    ∀ (ms ms1 : MarketState) (acc : List (Int × ℚ)), ms1.restaurants = ms.restaurants →
      (∀ k, map_read ms1.impression_counts k 0 = map_read ms.impression_counts k 0) →
      (andrew_scores fm customer ids ms1 acc).1 = (andrew_scores fm customer ids ms acc).1 := by
  induction ids with
  | nil => intro ms ms1 acc _ _; rfl
  | cons a rest ih =>
    intro ms ms1 acc hr hc
    unfold andrew_scores
    rw [get_restaurant_congr hr a]
    cases ms.get_restaurant a with
    | none => exact ih ms ms1 acc hr hc
    | some store =>
      simp only [hc a]
      apply ih
      · exact hr
      · intro k
        simp only [map_read_update_id]
        exact hc k

theorem andrew_scores_state (fm : FloatMath) (customer : Customer) (ids : List Int) :
    ∀ (ms : MarketState) (acc : List (Int × ℚ)),
      (andrew_scores fm customer ids ms acc).2.restaurants = ms.restaurants ∧
      ∀ k, map_read (andrew_scores fm customer ids ms acc).2.impression_counts k 0 =
        map_read ms.impression_counts k 0 := by
  induction ids with
  | nil => intro ms acc; exact ⟨rfl, fun _ => rfl⟩
  | cons a rest ih =>
    intro ms acc
    unfold andrew_scores
    cases ms.get_restaurant a with
    | none => exact ih ms acc
    | some store =>
      simp only
      obtain ⟨h1, h2⟩ := ih
        { ms with impression_counts := map_update ms.impression_counts a 0 id }
        (acc ++ [(a, customer.calculate_store_score fm store /
          (fm.log (((map_read ms.impression_counts a 0 : Int) : ℚ) + 1) + 1))])
      refine ⟨h1, ?_⟩
      intro k
      rw [h2 k]
      exact map_read_update_id _ _ _

theorem andrew_idempotent (fm : FloatMath) (sort : StdSort) (customer : Customer)
    (ms : MarketState) (n_displayed : Int) :
    (get_displayed_stores_andrew fm sort customer
      (get_displayed_stores_andrew fm sort customer ms n_displayed).2 n_displayed).1 =
      (get_displayed_stores_andrew fm sort customer ms n_displayed).1 := by
  by_cases hav : ms.get_available_restaurant_ids = []
  · simp [get_displayed_stores_andrew, hav]
  · obtain ⟨h1, h2⟩ := andrew_scores_state fm customer ms.get_available_restaurant_ids ms []
    have hav1 : (andrew_scores fm customer ms.get_available_restaurant_ids ms
        []).2.get_available_restaurant_ids = ms.get_available_restaurant_ids :=
      available_congr h1
    have hsc := andrew_scores_congr fm customer ms.get_available_restaurant_ids ms
      (andrew_scores fm customer ms.get_available_restaurant_ids ms []).2 [] h1 h2
    simp only [get_displayed_stores_andrew, hav, if_false, hav1, hsc]

/-- C9 (amended): for every strategy other than HARMONY, every customer,
market state and `n_displayed`, when a call of `get_displayed_stores` returns
a sequence, a second call with the same arguments on the market state the
first call left behind returns the same sequence. -/
theorem display_idempotent_except_harmony (fm : FloatMath) (sort : StdSort)
    (customer : Customer) (ms : MarketState) (n_displayed : Int)
    (algorithm : RankingAlgorithm) (hne : algorithm ≠ RankingAlgorithm.HARMONY)
    (displayed : List Int) (ms1 : MarketState)
    (hcall : get_displayed_stores fm sort customer ms n_displayed algorithm =
      some (displayed, ms1)) :
    (get_displayed_stores fm sort customer ms1 n_displayed algorithm).map (fun r => r.1) =
      some displayed := by
  cases algorithm with
  | HARMONY => exact absurd rfl hne
  | BASELINE =>
    simp only [get_displayed_stores] at hcall ⊢
    cases hb : get_displayed_stores_baseline sort ms n_displayed with
    | none => rw [hb] at hcall; cases hcall
    | some r =>
      rw [hb] at hcall
      simp only [Option.map_some', Option.some.injEq, Prod.mk.injEq] at hcall
      obtain ⟨h1, h2⟩ := hcall
      subst h1; subst h2
      rw [hb]; rfl
  | SAMA =>
    simp only [get_displayed_stores] at hcall ⊢
    cases hb : get_displayed_stores_sama fm sort customer ms n_displayed with
    | none => rw [hb] at hcall; cases hcall
    | some r =>
      rw [hb] at hcall
      simp only [Option.map_some', Option.some.injEq, Prod.mk.injEq] at hcall
      obtain ⟨h1, h2⟩ := hcall
      subst h1; subst h2
      rw [hb]; rfl
  | AMER =>
    simp only [get_displayed_stores, Option.some.injEq, Prod.mk.injEq] at hcall ⊢
    obtain ⟨h1, h2⟩ := hcall
    subst h1; subst h2
    rfl
  | ZIAD =>
    simp only [get_displayed_stores, Option.some.injEq, Prod.mk.injEq] at hcall ⊢
    obtain ⟨h1, h2⟩ := hcall
    subst h1; subst h2
    rfl
  | ANDREW =>
    simp only [get_displayed_stores, Option.some.injEq] at hcall ⊢
    have h1 : displayed = (get_displayed_stores_andrew fm sort customer ms n_displayed).1 := by
      rw [hcall]
    have h2 : ms1 = (get_displayed_stores_andrew fm sort customer ms n_displayed).2 := by
      rw [hcall]
    rw [h1, h2]
    simp only [Option.map_some']
    exact congrArg some (andrew_idempotent fm sort customer ms n_displayed)

/-- C9 (witness): the nearest-first strategy on one available store, called twice. -/
theorem display_idempotent_except_harmony_witness :
    get_displayed_stores reference_math insertion_sort (customer_fixture 1) single_store_state 1
      RankingAlgorithm.AMER = some ([1], single_store_state) ∧
    (get_displayed_stores reference_math insertion_sort (customer_fixture 1) single_store_state 1
      RankingAlgorithm.AMER).map (fun r => r.1) = some [1] :=
  ⟨amer_single_store_call,
    display_idempotent_except_harmony reference_math insertion_sort (customer_fixture 1)
      single_store_state 1 RankingAlgorithm.AMER (by decide) [1] single_store_state
      amer_single_store_call⟩

/-- C9 (counterexample): two calls of the HARMONY strategy in succession, with
the same customer and `n_displayed = 1` and nothing else touching the market
state, return `[1]` and then `[2]`: the first call raises the impression
count of store 1, which the second call reads. -/
theorem harmony_not_idempotent :
    ∃ ms1,
      get_displayed_stores reference_math insertion_sort (customer_fixture 1) rivalry_state 1
        RankingAlgorithm.HARMONY = some ([1], ms1) ∧
      (get_displayed_stores reference_math insertion_sort (customer_fixture 1) ms1 1
        RankingAlgorithm.HARMONY).map (fun r => r.1) = some [2] := by
  refine ⟨rivalry_state_after, harmony_first_call, ?_⟩
  rw [harmony_second_call]
  rfl

/-- C10: whenever `process_customer_arrival` returns NONE (`-1`), the customer
it leaves behind has `churned = true`, for every customer, market state,
`n_displayed`, strategy and random draw. -/
theorem churned_when_none (fm : FloatMath) (sort : StdSort) (random_val : ℚ)
    (customer : Customer) (ms : MarketState) (n_displayed : Int)
    (algorithm : RankingAlgorithm) (customer1 : Customer) (ms1 : MarketState)
    (h : process_customer_arrival fm sort random_val customer ms n_displayed algorithm =
      some (-1, customer1, ms1)) :
    customer1.churned = true := by
  unfold process_customer_arrival at h
  simp only at h
  split at h
  · cases h
  · split at h
    · simp only [Option.some.injEq, Prod.mk.injEq] at h
      rw [← h.2.1]
    · split at h
      · cases h
      · split at h
        · simp only [Option.some.injEq, Prod.mk.injEq] at h
          rw [← h.2.1]
        · split at h
          · simp only [Option.some.injEq, Prod.mk.injEq] at h
            rw [← h.2.1]
          · rename_i hsel _ _ _ _
            simp only [Option.some.injEq, Prod.mk.injEq] at h
            exact absurd h.1 hsel

/-- C10 (witness): with no store at all the display is empty, the arrival
returns NONE and the customer is marked churned. -/
theorem churned_when_none_witness :
    process_customer_arrival reference_math insertion_sort 0 (customer_fixture 1)
      (market_fixture [] [] []) 5 RankingAlgorithm.BASELINE =
      some (-1, { (customer_fixture 1).record_visit with churned := true },
        market_fixture [] [] []) ∧
    ({ (customer_fixture 1).record_visit with churned := true } : Customer).churned = true :=
  ⟨by rfl,
    churned_when_none reference_math insertion_sort 0 (customer_fixture 1)
      (market_fixture [] [] []) 5 RankingAlgorithm.BASELINE _ _ (by rfl)⟩

/-! ## std::map reads after writes -/

theorem map_find_update_self {K V : Type} [DecidableEq K] (m : List (K × V)) (k : K) (d : V)
    (f : V → V) : map_find (map_update m k d f) k = some (f (map_read m k d)) := by
  induction m with
  | nil => simp [map_update, map_find, map_read]
  | cons e rest ih =>
    obtain ⟨k1, v⟩ := e
    by_cases h : k1 = k
    · simp [map_update, map_find, map_read, h]
    · simp only [map_update, map_find, map_read, h, if_false] at ih ⊢
      exact ih

theorem map_find_update_ne {K V : Type} [DecidableEq K] (m : List (K × V)) (k j : K) (d : V)
    (f : V → V) (h : j ≠ k) : map_find (map_update m k d f) j = map_find m j := by
  induction m with
  | nil =>
    simp only [map_update, map_find]
    rw [if_neg (fun h1 => h h1.symm)]
  | cons e rest ih =>
    obtain ⟨k1, v⟩ := e
    by_cases h1 : k1 = k
    · subst h1
      simp only [map_update, if_true, map_find]
      rw [if_neg (fun h2 => h h2.symm), if_neg (fun h2 => h h2.symm)]
    · simp only [map_update, h1, if_false, map_find]
      by_cases h2 : k1 = j
      · simp [h2]
      · simp only [h2, if_false]
        exact ih

theorem map_read_update_self {K V : Type} [DecidableEq K] (m : List (K × V)) (k : K) (d : V)
    (f : V → V) : map_read (map_update m k d f) k d = f (map_read m k d) := by
  unfold map_read
  rw [map_find_update_self]
  rfl

theorem map_read_update_ne {K V : Type} [DecidableEq K] (m : List (K × V)) (k j : K) (d : V)
    (f : V → V) (h : j ≠ k) : map_read (map_update m k d f) j d = map_read m j d := by
  unfold map_read
  rw [map_find_update_ne m k j d f h]

/-! ## Customer: utility and loyalty -/

/-- C14: for a customer with non-zero willingness to pay,
`Customer::calculate_store_score` equals the reference utility over exact
arithmetic: `-100` when the Euclidean distance `d` exceeds `T = 0.05`, and
otherwise `rating_w * rating + price_w * (wtp - price) / wtp + novelty_w * n +
1.5 * (1 - d / T)` with `n = 1` for a category never reserved and
`n = 1 / (1 + count)` otherwise. -/
theorem calculate_store_score_eq_reference (fm : FloatMath) (c : Customer) (store : Restaurant)
    (hw : c.willingness_to_pay ≠ 0) :
    c.calculate_store_score fm store = reference_utility fm c store := by
  have hd : calculate_distance fm c.latitude c.longitude store.latitude store.longitude =
      fm.sqrt ((c.latitude - store.latitude) ^ 2 + (c.longitude - store.longitude) ^ 2) := by
    show fm.sqrt ((store.latitude - c.latitude) * (store.latitude - c.latitude) +
      (store.longitude - c.longitude) * (store.longitude - c.longitude)) = _
    congr 1
    ring
  unfold Customer.calculate_store_score reference_utility
  simp only [hd, MAX_TRAVEL_DISTANCE, Restaurant.get_rating]
  split
  · rfl
  · cases map_find c.history.categories_reserved store.business_type with
    | none => simp only; field_simp; ring
    | some count => simp only; field_simp; ring

/-- C14 (witness): the fixture customer (willingness to pay 200) and the
fixture store at the same position score `4 + 150/200 + 1/2 + 3/2`. -/
theorem calculate_store_score_eq_reference_witness :
    (customer_fixture 1).willingness_to_pay ≠ 0 ∧
    (customer_fixture 1).calculate_store_score reference_math (store_fixture 1 5 3) =
      reference_utility reference_math (customer_fixture 1) (store_fixture 1 5 3) ∧
    reference_utility reference_math (customer_fixture 1) (store_fixture 1 5 3) = 27 / 4 :=
  ⟨by norm_num [customer_fixture],
    calculate_store_score_eq_reference reference_math (customer_fixture 1) (store_fixture 1 5 3)
      (by norm_num [customer_fixture]),
    by
      simp [reference_utility, customer_fixture, store_fixture, reference_math, map_find,
        CustomerHistory.fresh]
      norm_num⟩

theorem update_loyalty_bounds (c : Customer) (b : Bool) (h0 : 0 ≤ c.loyalty)
    (h1 : c.loyalty ≤ 1) : 0 ≤ (c.update_loyalty b).loyalty ∧ (c.update_loyalty b).loyalty ≤ 1 := by
  unfold Customer.update_loyalty
  cases b with
  | true =>
    simp only [if_true]
    exact ⟨le_max_left _ _, max_le (by norm_num) (by linarith)⟩
  | false =>
    simp only [Bool.false_eq_true, if_false]
    exact ⟨le_min (by norm_num) (by linarith), min_le_left _ _⟩

theorem call_loyalty_bounds (c : Customer) (k : CustomerCall) (h0 : 0 ≤ c.loyalty)
    (h1 : c.loyalty ≤ 1) : 0 ≤ (c.call k).loyalty ∧ (c.call k).loyalty ≤ 1 := by
  cases k with
  | update_loyalty b => exact update_loyalty_bounds c b h0 h1
  | record_reservation_cancellation s =>
    exact update_loyalty_bounds _ true h0 h1
  | record_reservation_success s cat => exact ⟨h0, h1⟩

/-- C15: for every customer with loyalty in `[0, 1]`, after any finite sequence
of `update_loyalty(true)`, `update_loyalty(false)`,
`record_reservation_cancellation` and `record_reservation_success` calls the
loyalty is still in `[0, 1]`. -/
theorem loyalty_stays_in_unit_interval (c : Customer) (l : List CustomerCall)
    (h0 : 0 ≤ c.loyalty) (h1 : c.loyalty ≤ 1) :
    0 ≤ (c.calls l).loyalty ∧ (c.calls l).loyalty ≤ 1 := by
  induction l generalizing c with
  | nil => exact ⟨h0, h1⟩
  | cons k rest ih =>
    obtain ⟨h2, h3⟩ := call_loyalty_bounds c k h0 h1
    exact ih (c.call k) h2 h3

/-- C15 (witness): the fixture customer (loyalty 0.8) after a cancellation, a
loyalty reward, a confirmed purchase and eight more cancellations, which drive
the loyalty to the lower bound. -/
theorem loyalty_stays_in_unit_interval_witness :
    (0 ≤ ((customer_fixture 1).calls
        ([CustomerCall.record_reservation_cancellation 1, CustomerCall.update_loyalty false,
          CustomerCall.record_reservation_success 1 "bakery"] ++
          List.replicate 8 (CustomerCall.update_loyalty true))).loyalty ∧
      ((customer_fixture 1).calls
        ([CustomerCall.record_reservation_cancellation 1, CustomerCall.update_loyalty false,
          CustomerCall.record_reservation_success 1 "bakery"] ++
          List.replicate 8 (CustomerCall.update_loyalty true))).loyalty ≤ 1) ∧
    ((customer_fixture 1).calls
        ([CustomerCall.record_reservation_cancellation 1, CustomerCall.update_loyalty false,
          CustomerCall.record_reservation_success 1 "bakery"] ++
          List.replicate 8 (CustomerCall.update_loyalty true))).loyalty = 0 :=
  ⟨loyalty_stays_in_unit_interval (customer_fixture 1) _ (by norm_num [customer_fixture])
      (by norm_num [customer_fixture]),
    by
      simp [Customer.calls, Customer.call, Customer.record_reservation_cancellation,
        Customer.update_loyalty, Customer.record_reservation_success,
        Customer.update_category_preference, customer_fixture, List.replicate]
      norm_num⟩

/-! ## Settlement: invariants of the writes -/

theorem confirm_all_induct (P : MarketState → Prop) (M b : Int) (ps : List Nat)
    (hstep : ∀ (ms : MarketState) (p : Nat) (res : Reservation) (n : Int), p ∈ ps →
      ms.reservations[p]? = some res → P ms → P (handle_confirmation ms p res.customer_id n)) :
    ∀ (e : Int) (ms : MarketState), P ms → P (confirm_all M b ps e ms) := by
  induction ps with
  | nil => intro e ms h; exact h
  | cons p rest ih =>
    intro e ms h
    have ih1 := ih (fun ms q res n hq => hstep ms q res n (List.mem_cons_of_mem _ hq))
    unfold confirm_all
    split
    · exact ih1 e ms h
    · rename_i res hres
      split
      · exact ih1 e ms h
      · split
        · exact ih1 _ _ (hstep ms p res _ (List.mem_cons_self _ _) hres h)
        · exact ih1 _ _ (hstep ms p res _ (List.mem_cons_self _ _) hres h)

theorem cancel_rest_induct (P : MarketState → Prop) (ps : List Nat)
    (hstep : ∀ (ms : MarketState) (p : Nat) (res : Reservation), p ∈ ps →
      ms.reservations[p]? = some res → P ms → P (handle_cancellation ms p res.customer_id)) :
    ∀ ms : MarketState, P ms → P (cancel_rest ps ms) := by
  induction ps with
  | nil => intro ms h; exact h
  | cons p rest ih =>
    intro ms h
    have ih1 := ih (fun ms q res hq => hstep ms q res (List.mem_cons_of_mem _ hq))
    unfold cancel_rest
    split
    · exact ih1 ms h
    · rename_i res hres
      split
      · exact ih1 ms h
      · exact ih1 _ (hstep ms p res (List.mem_cons_self _ _) hres h)

theorem settle_store_induct (sort : StdSort) (P : MarketState → Prop) (ms ms1 : MarketState)
    (R : Restaurant)
    (hconf : ∀ (msc : MarketState) (p : Nat) (res : Reservation) (n : Int),
      p ∈ settlement_order sort ms R.business_id → msc.reservations[p]? = some res → P msc →
      P (handle_confirmation msc p res.customer_id n))
    (hcanc : ∀ (msc : MarketState) (p : Nat) (res : Reservation),
      p ∈ settlement_order sort ms R.business_id → msc.reservations[p]? = some res → P msc →
      P (handle_cancellation msc p res.customer_id))
    (h0 : P ms) (h : settle_store sort ms R = some ms1) : P ms1 := by
  unfold settle_store at h
  simp only at h
  split at h
  · cases h; exact h0
  · split at h
    · cases h
      exact confirm_all_induct P _ _ _ hconf _ ms h0
    · split at h
      · cases h
      · cases h
        apply cancel_rest_induct P _
          (fun msc p res hp => hcanc msc p res (List.mem_of_mem_drop hp))
        rw [confirm_first_eq 0]
        exact confirm_all_induct P _ _ _
          (fun msc p res n hp => hconf msc p res n (List.mem_of_mem_take hp)) _ ms h0

theorem settle_stores_induct (sort : StdSort) (P : MarketState → Prop)
    (hconf : ∀ (ms : MarketState) (p : Nat) (cid n : Int), P ms →
      P (handle_confirmation ms p cid n))
    (hcanc : ∀ (ms : MarketState) (p : Nat) (cid : Int), P ms → P (handle_cancellation ms p cid))
    (is : List Nat) :
    ∀ ms ms1 : MarketState, P ms → settle_stores sort is ms = some ms1 → P ms1 := by
  induction is with
  | nil => intro ms ms1 h0 h; cases h; exact h0
  | cons i rest ih =>
    intro ms ms1 h0 h
    cases hR : ms.restaurants[i]? with
    | none =>
      rw [settle_stores_cons_none sort i rest ms hR] at h
      exact ih ms ms1 h0 h
    | some R =>
      rw [settle_stores_cons_some sort i rest ms R hR] at h
      cases hst : settle_store sort ms R with
      | none => rw [hst] at h; cases h
      | some ms2 =>
        rw [hst] at h
        simp only [Option.bind] at h
        exact ih ms2 ms1
          (settle_store_induct sort P ms ms2 R (fun msc p res n _ _ => hconf msc p _ n)
            (fun msc p res _ _ => hcanc msc p _) h0 hst) h

theorem update_restaurant_mem (f : Restaurant → Restaurant) (id : Int) (rs : List Restaurant)
    (R : Restaurant) (h : R ∈ update_restaurant f id rs) :
    R ∈ rs ∨ ∃ R0, R0 ∈ rs ∧ R0.business_id = id ∧ R = f R0 := by
  induction rs with
  | nil => simp [update_restaurant] at h
  | cons r rest ih =>
    unfold update_restaurant at h
    split at h
    · rename_i hid
      rcases List.mem_cons.mp h with h1 | h1
      · exact Or.inr ⟨r, List.mem_cons_self _ _, hid, h1⟩
      · exact Or.inl (List.mem_cons_of_mem _ h1)
    · rcases List.mem_cons.mp h with h1 | h1
      · exact Or.inl (h1 ▸ List.mem_cons_self _ _)
      · rcases ih h1 with h2 | ⟨R0, h2, h3, h4⟩
        · exact Or.inl (List.mem_cons_of_mem _ h2)
        · exact Or.inr ⟨R0, List.mem_cons_of_mem _ h2, h3, h4⟩

theorem update_restaurant_get_ne (f : Restaurant → Restaurant) (id : Int)
    (rs : List Restaurant) (i : Nat) (X : Restaurant) (hX : rs[i]? = some X)
    (hne : X.business_id ≠ id) : (update_restaurant f id rs)[i]? = some X := by
  induction rs generalizing i with
  | nil => simp at hX
  | cons r rest ih =>
    unfold update_restaurant
    cases i with
    | zero =>
      simp only [List.getElem?_cons_zero, Option.some.injEq] at hX
      subst hX
      rw [if_neg hne]
      exact List.getElem?_cons_zero
    | succ j =>
      simp only [List.getElem?_cons_succ] at hX
      split
      · simp only [List.getElem?_cons_succ]; exact hX
      · simp only [List.getElem?_cons_succ]; exact ih j hX

theorem handle_confirmation_stores (ms : MarketState) (p : Nat) (cid n : Int) :
    (handle_confirmation ms p cid n).restaurants = ms.restaurants ∨
    ∃ res, ms.reservations[p]? = some res ∧
      (handle_confirmation ms p cid n).restaurants =
        update_restaurant Restaurant.update_rating_on_confirmation res.restaurant_id
          ms.restaurants := by
  unfold handle_confirmation
  cases h : ms.reservations[p]? with
  | none => exact Or.inl rfl
  | some res => exact Or.inr ⟨res, rfl, rfl⟩

theorem handle_cancellation_stores (ms : MarketState) (p : Nat) (cid : Int) :
    (handle_cancellation ms p cid).restaurants = ms.restaurants ∨
    ∃ res, ms.reservations[p]? = some res ∧
      (handle_cancellation ms p cid).restaurants =
        update_restaurant Restaurant.update_rating_on_cancellation res.restaurant_id
          ms.restaurants := by
  unfold handle_cancellation
  cases h : ms.reservations[p]? with
  | none => exact Or.inl rfl
  | some res => exact Or.inr ⟨res, rfl, rfl⟩

theorem rating_call_in_range (r : Restaurant) (k : RatingCall) (h : r.rating_in_range) :
    (r.rating_call k).rating_in_range := by
  obtain ⟨h1, h5⟩ := h
  cases k with
  | update_rating_on_confirmation =>
    exact ⟨le_min (by norm_num) (by linarith), min_le_left _ _⟩
  | update_rating_on_cancellation =>
    exact ⟨le_max_left _ _, max_le (by norm_num) (by linarith)⟩

theorem rating_calls_in_range (r : Restaurant) (l : List RatingCall) (h : r.rating_in_range) :
    (r.rating_calls l).rating_in_range := by
  induction l generalizing r with
  | nil => exact h
  | cons k rest ih => exact ih (r.rating_call k) (rating_call_in_range r k h)

theorem settlement_keeps_ratings_in_range (sort : StdSort) (ms ms1 : MarketState)
    (hall : ∀ R ∈ ms.restaurants, R.rating_in_range)
    (hrun : process_end_of_day sort ms = some ms1) :
    ∀ R ∈ ms1.restaurants, R.rating_in_range := by
  refine settle_stores_induct sort (fun s => ∀ R ∈ s.restaurants, R.rating_in_range) ?_ ?_ _ ms ms1
    hall hrun
  · intro s p cid n hs R hR
    rcases handle_confirmation_stores s p cid n with h | ⟨res, _, h⟩
    · rw [h] at hR; exact hs R hR
    · rw [h] at hR
      rcases update_restaurant_mem _ _ _ R hR with h1 | ⟨R0, h1, _, h2⟩
      · exact hs R h1
      · rw [h2]
        exact rating_call_in_range R0 RatingCall.update_rating_on_confirmation (hs R0 h1)
  · intro s p cid hs R hR
    rcases handle_cancellation_stores s p cid with h | ⟨res, _, h⟩
    · rw [h] at hR; exact hs R hR
    · rw [h] at hR
      rcases update_restaurant_mem _ _ _ R hR with h1 | ⟨R0, h1, _, h2⟩
      · exact hs R h1
      · rw [h2]
        exact rating_call_in_range R0 RatingCall.update_rating_on_cancellation (hs R0 h1)

/-- C16: for every store with `general_ranking` in `[1, 5]`, after any finite
sequence of `update_rating_on_confirmation` and `update_rating_on_cancellation`
calls the rating is still in `[1, 5]`; a confirmation changes it to
`min(5, r + 0.01)` and a cancellation to `max(1, r - 0.05)`; and when every
store of a market state has its rating in `[1, 5]`, so has every store after
`process_end_of_day`, which returns whenever `std::sort` meets its contract and
no store has a negative `actual_bags`. -/
theorem rating_stays_in_range (r : Restaurant) (l : List RatingCall) (sort : StdSort)
    (ms : MarketState) (h1 : 1 ≤ r.general_ranking) (h5 : r.general_ranking ≤ 5)
    (hall : ∀ R ∈ ms.restaurants, 1 ≤ R.general_ranking ∧ R.general_ranking ≤ 5) :
    (1 ≤ (r.rating_calls l).general_ranking ∧ (r.rating_calls l).general_ranking ≤ 5) ∧
    r.update_rating_on_confirmation.general_ranking = min 5 (r.general_ranking + 1 / 100) ∧
    r.update_rating_on_cancellation.general_ranking = max 1 (r.general_ranking - 5 / 100) ∧
    (∀ ms1, process_end_of_day sort ms = some ms1 →
      ∀ R ∈ ms1.restaurants, 1 ≤ R.general_ranking ∧ R.general_ranking ≤ 5) ∧
    (SortContract sort → (∀ S ∈ ms.restaurants, 0 ≤ S.actual_bags) →
      ∃ ms1, process_end_of_day sort ms = some ms1) :=
  ⟨rating_calls_in_range r l ⟨h1, h5⟩, rfl, rfl,
    fun ms1 hrun => settlement_keeps_ratings_in_range sort ms ms1 hall hrun,
    fun hs hbags => process_end_of_day_total hs ms hbags⟩

/-- C16 (witness): the fixture store (rating 4) under a confirmation followed
by a cancellation ends at 3.96, and the scarcity scenario (one store, rating 4). -/
theorem rating_stays_in_range_witness :
    ((1 ≤ ((store_fixture 1 5 3).rating_calls [RatingCall.update_rating_on_confirmation,
        RatingCall.update_rating_on_cancellation]).general_ranking ∧
      ((store_fixture 1 5 3).rating_calls [RatingCall.update_rating_on_confirmation,
        RatingCall.update_rating_on_cancellation]).general_ranking ≤ 5) ∧
    (store_fixture 1 5 3).update_rating_on_confirmation.general_ranking =
      min 5 ((store_fixture 1 5 3).general_ranking + 1 / 100) ∧
    (store_fixture 1 5 3).update_rating_on_cancellation.general_ranking =
      max 1 ((store_fixture 1 5 3).general_ranking - 5 / 100) ∧
    (∀ ms1, process_end_of_day insertion_sort scarcity_state = some ms1 →
      ∀ R ∈ ms1.restaurants, 1 ≤ R.general_ranking ∧ R.general_ranking ≤ 5) ∧
    (SortContract insertion_sort → (∀ S ∈ scarcity_state.restaurants, 0 ≤ S.actual_bags) →
      ∃ ms1, process_end_of_day insertion_sort scarcity_state = some ms1)) ∧
    ((store_fixture 1 5 3).rating_calls [RatingCall.update_rating_on_confirmation,
        RatingCall.update_rating_on_cancellation]).general_ranking = 99 / 25 ∧
    (process_end_of_day insertion_sort scarcity_state).map
      (fun s => s.restaurants.map (fun R => R.general_ranking)) = some [393 / 100] :=
  ⟨rating_stays_in_range (store_fixture 1 5 3)
      [RatingCall.update_rating_on_confirmation, RatingCall.update_rating_on_cancellation]
      insertion_sort scarcity_state (by norm_num [store_fixture]) (by norm_num [store_fixture])
      (by
        intro R hR
        simp only [scarcity_state, market_fixture, List.mem_singleton] at hR
        subst hR
        norm_num [store_fixture]),
    by
      simp [Restaurant.rating_calls, Restaurant.rating_call,
        Restaurant.update_rating_on_confirmation, Restaurant.update_rating_on_cancellation,
        store_fixture]
      norm_num,
    by
      simp [process_end_of_day, scarcity_state, market_fixture, settle_stores, settle_store,
        pending_for, insertion_sort, store_fixture, Reservation.create, confirm_all,
        confirm_first, cancel_rest, time_lt, Timestamp.lt, Timestamp.to_minutes,
        MarketState.get_customer, map_find, handle_confirmation, handle_cancellation,
        update_customer, update_restaurant, Restaurant.update_rating_on_confirmation,
        Restaurant.update_rating_on_cancellation, List.range, List.range.loop,
        List.orderedInsert]
      norm_num⟩

theorem handle_confirmation_store_at (ms : MarketState) (p : Nat) (res : Reservation) (n : Int)
    (i : Nat) (X : Restaurant) (hres : ms.reservations[p]? = some res)
    (hX : ms.restaurants[i]? = some X) (hne : X.business_id ≠ res.restaurant_id) :
    (handle_confirmation ms p res.customer_id n).restaurants[i]? = some X := by
  unfold handle_confirmation
  simp only [hres]
  exact update_restaurant_get_ne _ _ _ i X hX hne

theorem handle_cancellation_store_at (ms : MarketState) (p : Nat) (res : Reservation)
    (i : Nat) (X : Restaurant) (hres : ms.reservations[p]? = some res)
    (hX : ms.restaurants[i]? = some X) (hne : X.business_id ≠ res.restaurant_id) :
    (handle_cancellation ms p res.customer_id).restaurants[i]? = some X := by
  unfold handle_cancellation
  simp only [hres]
  exact update_restaurant_get_ne _ _ _ i X hX hne

theorem settle_store_other_store {sort : StdSort} (hs : SortContract sort)
    (ms ms1 : MarketState) (R : Restaurant) (i : Nat) (X : Restaurant)
    (hX : ms.restaurants[i]? = some X) (hidle : pending_for ms X.business_id = [])
    (h : settle_store sort ms R = some ms1) :
    ms1.restaurants[i]? = some X ∧ pending_for ms1 X.business_id = [] := by
  by_cases hk : (pending_for ms R.business_id).length = 0
  · rw [settle_store_idle hs ms R hk] at h
    cases h
    exact ⟨hX, hidle⟩
  · have hne : X.business_id ≠ R.business_id := by
      intro heq
      rw [← heq, hidle] at hk
      exact hk rfl
    have hid : ∀ (msc : MarketState) (p : Nat) (res : Reservation),
        p ∈ settlement_order sort ms R.business_id → Frame ms msc →
        msc.reservations[p]? = some res → res.restaurant_id = R.business_id := by
      intro msc p res hp hf hres
      obtain ⟨r0, hr0, hrid, _⟩ :=
        (mem_pending_for ms _ p).mp ((settlement_order_perm hs ms R.business_id).mem_iff.mp hp)
      obtain ⟨r1, hr1, hst⟩ := hf.static_at p r0 hr0
      rw [hres] at hr1
      cases hr1
      have : res.restaurant_id = r0.restaurant_id := by
        have := congrArg (fun t => t.2.2.1) hst
        exact this
      rw [this, hrid]
    have hmain := settle_store_induct sort
      (fun msc => Frame ms msc ∧ msc.restaurants[i]? = some X) ms ms1 R
      (fun msc p res n hp hres hP =>
        ⟨hP.1.trans (handle_confirmation_frame msc p res.customer_id n),
          handle_confirmation_store_at msc p res n i X hres hP.2
            (by rw [hid msc p res hp hP.1 hres]; exact hne)⟩)
      (fun msc p res hp hres hP =>
        ⟨hP.1.trans (handle_cancellation_frame msc p res.customer_id),
          handle_cancellation_store_at msc p res i X hres hP.2
            (by rw [hid msc p res hp hP.1 hres]; exact hne)⟩)
      ⟨Frame.refl ms, hX⟩ h
    refine ⟨hmain.2, ?_⟩
    rw [pending_for_congr hmain.1 X.business_id ?_]
    · exact hidle
    · intro q r hr hrid
      have hnot : q ∉ pending_for ms R.business_id := by
        intro hq
        obtain ⟨r0, hr0, hrid0, _⟩ := (mem_pending_for ms _ q).mp hq
        rw [hr] at hr0
        cases hr0
        exact hne (hrid.symm.trans hrid0)
      rw [(settle_store_effect hs ms ms1 R h).2.1 q hnot]
      exact hr

theorem settle_stores_other_store {sort : StdSort} (hs : SortContract sort) (i : Nat)
    (X : Restaurant) (is : List Nat) :
    ∀ ms ms1 : MarketState, ms.restaurants[i]? = some X → pending_for ms X.business_id = [] →
      settle_stores sort is ms = some ms1 → ms1.restaurants[i]? = some X := by
  induction is with
  | nil => intro ms ms1 hX _ h; cases h; exact hX
  | cons j rest ih =>
    intro ms ms1 hX hidle h
    cases hR : ms.restaurants[j]? with
    | none =>
      rw [settle_stores_cons_none sort j rest ms hR] at h
      exact ih ms ms1 hX hidle h
    | some R =>
      rw [settle_stores_cons_some sort j rest ms R hR] at h
      cases hst : settle_store sort ms R with
      | none => rw [hst] at h; cases h
      | some ms2 =>
        rw [hst] at h
        simp only [Option.bind] at h
        obtain ⟨h1, h2⟩ := settle_store_other_store hs ms ms2 R i X hX hidle hst
        exact ih ms2 ms1 h1 h2 h

/-- C19: a store that has no PENDING reservation in the log is left unchanged
in every field by `process_end_of_day`, for every market state (with distinct
business ids or not) and every `std::sort` that meets its contract; the run
returns whenever no store has a negative `actual_bags`. -/
theorem idle_store_untouched (sort : StdSort) (hs : SortContract sort) (ms : MarketState)
    (i : Nat) (X : Restaurant) (hX : ms.restaurants[i]? = some X)
    (hidle : pending_for ms X.business_id = []) :
    (∀ ms1, process_end_of_day sort ms = some ms1 → ms1.restaurants[i]? = some X) ∧
    ((∀ S ∈ ms.restaurants, 0 ≤ S.actual_bags) →
      ∃ ms1, process_end_of_day sort ms = some ms1) :=
  ⟨fun ms1 hrun => settle_stores_other_store hs i X _ ms ms1 hX hidle hrun,
    fun hbags => process_end_of_day_total hs ms hbags⟩

/-- C19 (witness): of two stores with distinct ids, store 2 has no
reservation; settlement confirms the reservation of store 1 and leaves
store 2 as it was. -/
theorem idle_store_untouched_witness :
    (idle_store_state.restaurants.map (fun r => r.business_id)).Nodup ∧
    idle_store_state.restaurants[1]? = some (store_fixture 2 4 3) ∧
    pending_for idle_store_state 2 = [] ∧
    ((∀ ms1, process_end_of_day insertion_sort idle_store_state = some ms1 →
      ms1.restaurants[1]? = some (store_fixture 2 4 3)) ∧
    ((∀ S ∈ idle_store_state.restaurants, 0 ≤ S.actual_bags) →
      ∃ ms1, process_end_of_day insertion_sort idle_store_state = some ms1)) ∧
    (process_end_of_day insertion_sort idle_store_state).map (fun s => status_at s 0) =
      some (some Status.CONFIRMED) :=
  ⟨by decide, rfl, by decide,
    idle_store_untouched insertion_sort insertion_sort_conforms idle_store_state 1
      (store_fixture 2 4 3) rfl (by decide),
    by decide⟩

theorem update_customer_find_eq (f : Customer → Customer) (id : Int) (m : List (Int × Customer))
    (k : Int) :
    map_find (update_customer f id m) k =
      if k = id then (map_find m k).map f else map_find m k := by
  induction m with
  | nil => simp [update_customer, map_find]
  | cons e rest ih =>
    obtain ⟨k1, c⟩ := e
    unfold update_customer
    by_cases h1 : k1 = id
    · subst h1
      simp only [if_true, map_find]
      by_cases h2 : k1 = k
      · subst h2; simp
      · simp only [h2, if_false]
        rw [if_neg (fun h => h2 h.symm)]
    · simp only [h1, if_false, map_find]
      by_cases h2 : k1 = k
      · subst h2; simp [h1]
      · simp only [h2, if_false]
        exact ih

theorem settlement_keeps_named_categories (sort : StdSort) (ms ms1 : MarketState)
    (hrun : process_end_of_day sort ms = some ms1) (id : Int) (c : Customer)
    (hc : ms.get_customer id = some c) :
    ∃ c1, ms1.get_customer id = some c1 ∧
      ∀ k : String, k ≠ "" →
        map_find c1.category_preference k = map_find c.category_preference k := by
  refine settle_stores_induct sort
    (fun s => ∃ c1, s.get_customer id = some c1 ∧
      ∀ k : String, k ≠ "" →
        map_find c1.category_preference k = map_find c.category_preference k) ?_ ?_ _ ms ms1
    ⟨c, hc, fun _ _ => rfl⟩ hrun
  · intro s p cid n ⟨c1, h1, h2⟩
    unfold handle_confirmation
    cases s.reservations[p]? with
    | none => exact ⟨c1, h1, h2⟩
    | some res =>
      simp only [MarketState.get_customer] at h1 ⊢
      rw [update_customer_find_eq, h1]
      by_cases hid : id = cid
      · refine ⟨c1.record_reservation_success res.restaurant_id "",
          by simp only [hid, if_true, Option.map_some'], ?_⟩
        intro k hk
        rw [← h2 k hk]
        exact map_find_update_ne _ _ _ _ _ hk
      · exact ⟨c1, by simp only [hid, if_false], h2⟩
  · intro s p cid ⟨c1, h1, h2⟩
    unfold handle_cancellation
    cases s.reservations[p]? with
    | none => exact ⟨c1, h1, h2⟩
    | some res =>
      simp only [MarketState.get_customer] at h1 ⊢
      rw [update_customer_find_eq, h1]
      by_cases hid : id = cid
      · exact ⟨c1.record_reservation_cancellation res.restaurant_id,
          by simp only [hid, if_true, Option.map_some'], h2⟩
      · exact ⟨c1, by simp only [hid, if_false], h2⟩

/-- C18 (code): `handle_confirmation` passes the empty string, not the store's
`business_type`, to `record_reservation_success`.  So no run of
`process_end_of_day` changes a registered customer's `category_preference`
entry for any non-empty category; in the scenario of one bakery with 5 bags
and one pending reservation of the registered customer 7, the reservation is
CONFIRMED, the customer's entry for "bakery" is still 1.0, and an entry for
the empty category has been created with 0.1. -/
theorem confirmation_misses_store_category :
    (∀ (sort : StdSort) (ms ms1 : MarketState) (id : Int) (c : Customer),
      process_end_of_day sort ms = some ms1 → ms.get_customer id = some c →
      ∃ c1, ms1.get_customer id = some c1 ∧
        ∀ k : String, k ≠ "" →
          map_find c1.category_preference k = map_find c.category_preference k) ∧
    (purchase_state.get_restaurant 1).map (fun r => r.business_type) = some "bakery" ∧
    (purchase_state.get_customer 7).map (fun c => map_find c.category_preference "bakery") =
      some (some 1) ∧
    (purchase_state.get_customer 7).map (fun c => map_find c.category_preference "") =
      some none ∧
    (process_end_of_day insertion_sort purchase_state).map
      (fun s => (status_at s 0, bags_at s 0)) = some (some Status.CONFIRMED, some 3) ∧
    (process_end_of_day insertion_sort purchase_state).map
      (fun s => (s.get_customer 7).map
        (fun c => (map_find c.category_preference "bakery", map_find c.category_preference ""))) =
      some (some (some 1, some (1 / 10))) := by
  refine ⟨fun sort ms ms1 id c hrun hc =>
    settlement_keeps_named_categories sort ms ms1 hrun id c hc, ?_, ?_, ?_, ?_, ?_⟩
  · rfl
  · rfl
  · rfl
  · decide
  · simp [process_end_of_day, purchase_state, market_fixture, settle_stores, settle_store,
      pending_for, insertion_sort, store_fixture, Reservation.create, confirm_all,
      MarketState.get_customer, map_find, handle_confirmation, update_customer,
      Customer.record_reservation_success, Customer.update_category_preference, map_update,
      customer_fixture, List.range, List.range.loop]

/-! ## Display: what a strategy writes -/

theorem andrew_scores_fields (fm : FloatMath) (customer : Customer) (ids : List Int) :
    ∀ (ms : MarketState) (acc : List (Int × ℚ)),
      (andrew_scores fm customer ids ms acc).2 =
        { ms with impression_counts :=
            (andrew_scores fm customer ids ms acc).2.impression_counts } := by
  induction ids with
  | nil => intro ms acc; rfl
  | cons a rest ih =>
    intro ms acc
    unfold andrew_scores
    cases ms.get_restaurant a with
    | none => exact ih ms acc
    | some store => exact ih _ _

theorem harmony_scores_fields (fm : FloatMath) (customer : Customer) (avg : ℚ)
    (ids : List Int) :
    ∀ (ms : MarketState) (acc : List (Int × ℚ)),
      (harmony_scores fm customer avg ids ms acc).2 =
        { ms with impression_counts :=
            (harmony_scores fm customer avg ids ms acc).2.impression_counts } := by
  induction ids with
  | nil => intro ms acc; rfl
  | cons a rest ih =>
    intro ms acc
    unfold harmony_scores
    cases ms.get_restaurant a with
    | none => exact ih ms acc
    | some store =>
      simp only
      split
      · exact ih ms acc
      · exact ih _ _

theorem get_displayed_stores_fields (fm : FloatMath) (sort : StdSort) (customer : Customer)
    (ms : MarketState) (n_displayed : Int) (algorithm : RankingAlgorithm)
    (displayed : List Int) (msd : MarketState)
    (h : get_displayed_stores fm sort customer ms n_displayed algorithm = some (displayed, msd)) :
    msd = { ms with impression_counts := msd.impression_counts } := by
  cases algorithm with
  | BASELINE =>
    simp only [get_displayed_stores] at h
    cases hb : get_displayed_stores_baseline sort ms n_displayed with
    | none => rw [hb] at h; cases h
    | some r =>
      rw [hb] at h
      simp only [Option.map_some', Option.some.injEq, Prod.mk.injEq] at h
      rw [← h.2]
  | SAMA =>
    simp only [get_displayed_stores] at h
    cases hb : get_displayed_stores_sama fm sort customer ms n_displayed with
    | none => rw [hb] at h; cases h
    | some r =>
      rw [hb] at h
      simp only [Option.map_some', Option.some.injEq, Prod.mk.injEq] at h
      rw [← h.2]
  | AMER =>
    simp only [get_displayed_stores, Option.some.injEq, Prod.mk.injEq] at h
    rw [← h.2]
  | ZIAD =>
    simp only [get_displayed_stores, Option.some.injEq, Prod.mk.injEq] at h
    rw [← h.2]
  | ANDREW =>
    simp only [get_displayed_stores, Option.some.injEq] at h
    have h2 : msd = (get_displayed_stores_andrew fm sort customer ms n_displayed).2 := by rw [h]
    rw [h2]
    by_cases hav : ms.get_available_restaurant_ids = []
    · simp only [get_displayed_stores_andrew, hav, if_true]
    · simp only [get_displayed_stores_andrew, hav, if_false]
      exact andrew_scores_fields fm customer _ ms []
  | HARMONY =>
    simp only [get_displayed_stores, Option.some.injEq] at h
    have h2 : msd = (get_displayed_stores_harmony fm sort customer ms n_displayed).2 := by rw [h]
    rw [h2]
    by_cases hav : ms.get_available_restaurant_ids = []
    · simp only [get_displayed_stores_harmony, hav, if_true]
    · simp only [get_displayed_stores_harmony, hav, if_false]
      have := harmony_scores_fields fm customer (harmony_avg_impressions ms)
        ms.get_available_restaurant_ids ms []
      rw [this]

theorem get_displayed_stores_reads (fm : FloatMath) (sort : StdSort) (customer : Customer)
    (ms : MarketState) (n_displayed : Int) (algorithm : RankingAlgorithm)
    (hne : algorithm ≠ RankingAlgorithm.HARMONY) (displayed : List Int) (msd : MarketState)
    (h : get_displayed_stores fm sort customer ms n_displayed algorithm = some (displayed, msd))
    (k : Int) : map_read msd.impression_counts k 0 = map_read ms.impression_counts k 0 := by
  cases algorithm with
  | HARMONY => exact absurd rfl hne
  | BASELINE =>
    simp only [get_displayed_stores] at h
    cases hb : get_displayed_stores_baseline sort ms n_displayed with
    | none => rw [hb] at h; cases h
    | some r =>
      rw [hb] at h
      simp only [Option.map_some', Option.some.injEq, Prod.mk.injEq] at h
      rw [← h.2]
  | SAMA =>
    simp only [get_displayed_stores] at h
    cases hb : get_displayed_stores_sama fm sort customer ms n_displayed with
    | none => rw [hb] at h; cases h
    | some r =>
      rw [hb] at h
      simp only [Option.map_some', Option.some.injEq, Prod.mk.injEq] at h
      rw [← h.2]
  | AMER =>
    simp only [get_displayed_stores, Option.some.injEq, Prod.mk.injEq] at h
    rw [← h.2]
  | ZIAD =>
    simp only [get_displayed_stores, Option.some.injEq, Prod.mk.injEq] at h
    rw [← h.2]
  | ANDREW =>
    simp only [get_displayed_stores, Option.some.injEq] at h
    have h2 : msd = (get_displayed_stores_andrew fm sort customer ms n_displayed).2 := by rw [h]
    rw [h2]
    by_cases hav : ms.get_available_restaurant_ids = []
    · simp only [get_displayed_stores_andrew, hav, if_true]
    · simp only [get_displayed_stores_andrew, hav, if_false]
      exact (andrew_scores_state fm customer _ ms []).2 k

theorem map_read_track (l : List Int) :
    ∀ (m : List (Int × Int)) (k : Int),
      map_read (track_impressions m l) k 0 = map_read m k 0 + (l.count k : Int) := by
  induction l with
  | nil => intro m k; simp [track_impressions]
  | cons a rest ih =>
    intro m k
    have hstep : track_impressions m (a :: rest) =
        track_impressions (map_update m a 0 (fun v => v + 1)) rest := rfl
    rw [hstep, ih]
    by_cases hk : k = a
    · subst hk
      rw [map_read_update_self, List.count_cons_self]
      push_cast
      ring
    · rw [map_read_update_ne _ _ _ _ _ hk, List.count_cons_of_ne (fun h => hk h)]

/-! ## Arrival: the paths of `process_customer_arrival` -/

theorem create_reservation_spec (customer : Customer) (id : Int) (ms : MarketState) :
    create_reservation customer id ms = (false, customer, ms) ∨
    ∃ R, ms.get_restaurant id = some R ∧ R.can_accept_reservation = true ∧
      create_reservation customer id ms =
        (true, customer.record_reservation_attempt id R.business_type ms.current_time,
          { ms with
            next_reservation_id := ms.next_reservation_id + 1,
            restaurants := update_restaurant
              (fun r => { r with reserved_count := r.reserved_count + 1 }) id ms.restaurants,
            reservations := ms.reservations ++
              [Reservation.create ms.next_reservation_id customer.id id ms.current_time] }) := by
  unfold create_reservation
  cases hR : ms.get_restaurant id with
  | none => exact Or.inl rfl
  | some R =>
    by_cases hc : R.can_accept_reservation = false
    · simp only [hc, if_true]
      exact Or.inl trivial
    · simp only [hc, if_false]
      refine Or.inr ⟨R, rfl, ?_, rfl⟩
      cases h : R.can_accept_reservation with
      | true => rfl
      | false => exact absurd h hc

theorem process_customer_arrival_cases (fm : FloatMath) (sort : StdSort) (random_val : ℚ)
    (customer : Customer) (ms : MarketState) (n_displayed : Int) (algorithm : RankingAlgorithm)
    (sel : Int) (c1 : Customer) (ms1 : MarketState)
    (h : process_customer_arrival fm sort random_val customer ms n_displayed algorithm =
      some (sel, c1, ms1)) :
    ∃ displayed msd,
      get_displayed_stores fm sort customer.record_visit ms n_displayed algorithm =
        some (displayed, msd) ∧
      ((sel = -1 ∧ c1 = { customer.record_visit with churned := true } ∧
        ms1 = { msd with
          impression_counts := track_impressions msd.impression_counts displayed }) ∨
       (sel ≠ -1 ∧ displayed ≠ [] ∧
        create_reservation customer.record_visit sel
          { msd with impression_counts := track_impressions msd.impression_counts displayed } =
          (true, c1, ms1))) := by
  unfold process_customer_arrival at h
  simp only at h
  cases hd : get_displayed_stores fm sort customer.record_visit ms n_displayed algorithm with
  | none => rw [hd] at h; cases h
  | some r =>
    obtain ⟨displayed, msd⟩ := r
    rw [hd] at h
    simp only at h
    refine ⟨displayed, msd, rfl, ?_⟩
    by_cases hemp : displayed = []
    · simp only [hemp, if_true, Option.some.injEq, Prod.mk.injEq] at h
      obtain ⟨h1, h2, h3⟩ := h
      exact Or.inl ⟨h1.symm, h2.symm, by rw [← h3, hemp]⟩
    · simp only [hemp, if_false] at h
      cases hsel : select_store fm random_val customer.record_visit displayed
          (calculate_store_scores fm customer.record_visit displayed
            { msd with impression_counts := track_impressions msd.impression_counts displayed })
          { msd with impression_counts := track_impressions msd.impression_counts displayed } with
      | none => rw [hsel] at h; cases h
      | some selected =>
        rw [hsel] at h
        simp only at h
        by_cases hneg : selected = -1
        · simp only [hneg, if_true, Option.some.injEq, Prod.mk.injEq] at h
          obtain ⟨h1, h2, h3⟩ := h
          exact Or.inl ⟨h1.symm, h2.symm, h3.symm⟩
        · simp only [hneg, if_false] at h
          rcases create_reservation_spec customer.record_visit selected
              { msd with impression_counts := track_impressions msd.impression_counts displayed }
            with hcr | ⟨R, _, _, hcr⟩
          · rw [hcr] at h
            simp only [Option.some.injEq, Prod.mk.injEq] at h
            obtain ⟨h1, h2, h3⟩ := h
            exact Or.inl ⟨h1.symm, h2.symm, h3.symm⟩
          · rw [hcr] at h
            simp only [Option.some.injEq, Prod.mk.injEq] at h
            obtain ⟨h1, h2, h3⟩ := h
            subst h1
            exact Or.inr ⟨hneg, hemp, by rw [hcr, h2, h3]⟩

theorem adjust_all_some (customer : Customer) (ms : MarketState) (ids : List Int) :
    ∀ scores : List ℚ, ids.length ≤ scores.length →
      ∃ adjusted, adjust_all customer ms ids scores = some adjusted ∧
        adjusted.length = scores.length := by
  induction ids with
  | nil => intro scores _; exact ⟨scores, rfl, rfl⟩
  | cons a rest ih =>
    intro scores hlen
    cases scores with
    | nil => simp at hlen
    | cons s ss =>
      obtain ⟨adj, h1, h2⟩ := ih ss (by simpa using hlen)
      refine ⟨adjust_score customer ms a s :: adj, ?_, by simp [h2]⟩
      simp only [adjust_all, h1, Option.map_some']

theorem cumulative_pick_mem (random_val : ℚ) (ps : List ℚ) :
    ∀ (is : List Nat) (c : ℚ) (i : Nat), cumulative_pick random_val ps is c = some i → i ∈ is := by
  induction ps with
  | nil => intro is c i h; simp [cumulative_pick] at h
  | cons p rest ih =>
    intro is c i h
    cases is with
    | nil => simp [cumulative_pick] at h
    | cons j js =>
      unfold cumulative_pick at h
      split at h
      · cases h; exact List.mem_cons_self _ _
      · exact List.mem_cons_of_mem _ (ih js _ i h)

theorem probabilistic_select_total (fm : FloatMath) (random_val : ℚ) (store_ids : List Int)
    (valid_indices : List Nat) (valid_scores : List ℚ) (hs : valid_scores ≠ [])
    (hi : valid_indices ≠ []) (hlt : ∀ i ∈ valid_indices, i < store_ids.length) :
    ∃ s, probabilistic_select fm random_val store_ids valid_indices valid_scores = some s := by
  cases valid_scores with
  | nil => exact absurd rfl hs
  | cons first others =>
    simp only [probabilistic_select]
    split
    · rename_i i hpick
      have := hlt i (cumulative_pick_mem _ _ _ _ i hpick)
      exact ⟨store_ids[i], List.getElem?_eq_getElem this⟩
    · cases hl : valid_indices.getLast? with
      | none =>
        rw [List.getLast?_eq_none_iff] at hl
        exact absurd hl hi
      | some i =>
        have := hlt i (List.mem_of_getLast?_eq_some hl)
        exact ⟨store_ids[i], List.getElem?_eq_getElem this⟩

theorem indexed_fst_lt {α : Type} (l : List α) (e : Nat × α) (h : e ∈ indexed l) :
    e.1 < l.length := by
  unfold indexed at h
  have := (List.of_mem_zip (a := e.1) (b := e.2) h).1
  exact List.mem_range.mp this

theorem select_store_total (fm : FloatMath) (random_val : ℚ) (customer : Customer)
    (displayed : List Int) (scores : List ℚ) (ms : MarketState)
    (hlen : scores.length = displayed.length) :
    ∃ s, select_store fm random_val customer displayed scores ms = some s := by
  cases scores with
  | nil => exact ⟨-1, rfl⟩
  | cons first others =>
    simp only [select_store]
    split
    · exact ⟨-1, rfl⟩
    · obtain ⟨adj, h1, h2⟩ := adjust_all_some customer ms displayed (first :: others)
        (by rw [hlen])
      rw [h1]
      simp only
      split
      · exact ⟨-1, rfl⟩
      · rename_i hvalid
        apply probabilistic_select_total
        · intro h
          exact hvalid (List.map_eq_nil_iff.mp h)
        · intro h
          exact hvalid (List.map_eq_nil_iff.mp h)
        · intro i hi
          obtain ⟨e, he, rfl⟩ := List.mem_map.mp hi
          have := indexed_fst_lt adj e (List.mem_of_mem_filter he)
          rw [h2, hlen] at this
          exact this

theorem process_customer_arrival_total (fm : FloatMath) (sort : StdSort) (random_val : ℚ)
    (customer : Customer) (ms : MarketState) (n_displayed : Int) (algorithm : RankingAlgorithm)
    (displayed : List Int) (msd : MarketState)
    (hd : get_displayed_stores fm sort customer.record_visit ms n_displayed algorithm =
      some (displayed, msd)) :
    ∃ r, process_customer_arrival fm sort random_val customer ms n_displayed algorithm =
      some r := by
  unfold process_customer_arrival
  simp only [hd]
  split
  · exact ⟨_, rfl⟩
  · obtain ⟨s, hs⟩ := select_store_total fm random_val customer.record_visit displayed
      (calculate_store_scores fm customer.record_visit displayed
        { msd with impression_counts := track_impressions msd.impression_counts displayed })
      { msd with impression_counts := track_impressions msd.impression_counts displayed }
      (by simp [calculate_store_scores])
    rw [hs]
    simp only
    split
    · exact ⟨_, rfl⟩
    · split
      · exact ⟨_, rfl⟩
      · exact ⟨_, rfl⟩

theorem foldl_max_lt (t : ℚ) (others : List ℚ) :
    ∀ first : ℚ, first < t → (∀ s ∈ others, s < t) → others.foldl max first < t := by
  induction others with
  | nil => intro first h _; exact h
  | cons a rest ih =>
    intro first h hall
    exact ih (max first a) (max_lt h (hall a (List.mem_cons_self _ _)))
      (fun s hs => hall s (List.mem_cons_of_mem _ hs))

theorem select_store_below (fm : FloatMath) (random_val : ℚ) (customer : Customer)
    (displayed : List Int) (scores : List ℚ) (ms : MarketState)
    (hlow : ∀ s ∈ scores, s < customer.leaving_threshold + (1 - customer.loyalty) * 2) :
    select_store fm random_val customer displayed scores ms = some (-1) := by
  cases scores with
  | nil => rfl
  | cons first others =>
    simp only [select_store]
    rw [if_pos]
    exact foldl_max_lt _ others first (hlow first (List.mem_cons_self _ _))
      (fun s hs => hlow s (List.mem_cons_of_mem _ hs))

theorem get_restaurant_update (f : Restaurant → Restaurant)
    (hf : ∀ r, (f r).business_id = r.business_id) (id : Int) (rs : List Restaurant) :
    (update_restaurant f id rs).find? (fun r => decide (r.business_id = id)) =
      (rs.find? (fun r => decide (r.business_id = id))).map f := by
  induction rs with
  | nil => rfl
  | cons r rest ih =>
    unfold update_restaurant
    by_cases h : r.business_id = id
    · simp [h, hf]
    · simp only [h, if_false]
      rw [List.find?_cons_of_neg _ (by simpa using h), List.find?_cons_of_neg _ (by simpa using h)]
      exact ih

theorem update_restaurant_mem_first (f : Restaurant → Restaurant) (id : Int)
    (rs : List Restaurant) (R : Restaurant) (h : R ∈ update_restaurant f id rs) :
    R ∈ rs ∨ ∃ R0, rs.find? (fun r => decide (r.business_id = id)) = some R0 ∧ R = f R0 := by
  induction rs with
  | nil => simp [update_restaurant] at h
  | cons r rest ih =>
    unfold update_restaurant at h
    by_cases hid : r.business_id = id
    · simp only [hid, if_true] at h
      rcases List.mem_cons.mp h with h1 | h1
      · exact Or.inr ⟨r, by simp [hid], h1⟩
      · exact Or.inl (List.mem_cons_of_mem _ h1)
    · simp only [hid, if_false] at h
      rcases List.mem_cons.mp h with h1 | h1
      · exact Or.inl (h1 ▸ List.mem_cons_self _ _)
      · rcases ih h1 with h2 | ⟨R0, h2, h3⟩
        · exact Or.inl (List.mem_cons_of_mem _ h2)
        · refine Or.inr ⟨R0, ?_, h3⟩
          rw [List.find?_cons_of_neg _ (by simpa using hid)]
          exact h2

theorem harmony_scores_reads (fm : FloatMath) (customer : Customer) (avg : ℚ)
    (ids : List Int) :
    ∀ (ms : MarketState) (acc : List (Int × ℚ)) (k : Int),
      map_read (harmony_scores fm customer avg ids ms acc).2.impression_counts k 0 =
        map_read ms.impression_counts k 0 := by
  induction ids with
  | nil => intro ms acc k; rfl
  | cons a rest ih =>
    intro ms acc k
    unfold harmony_scores
    cases ms.get_restaurant a with
    | none => exact ih ms acc k
    | some store =>
      simp only
      split
      · exact ih ms acc k
      · rw [ih]
        exact map_read_update_id _ _ _

theorem harmony_display_reads (fm : FloatMath) (sort : StdSort) (customer : Customer)
    (ms : MarketState) (n_displayed : Int) (k : Int) :
    map_read (get_displayed_stores_harmony fm sort customer ms n_displayed).2.impression_counts
        k 0 =
      map_read ms.impression_counts k 0 +
        ((get_displayed_stores_harmony fm sort customer ms n_displayed).1.count k : Int) := by
  by_cases hav : ms.get_available_restaurant_ids = []
  · simp [get_displayed_stores_harmony, hav]
  · simp only [get_displayed_stores_harmony, hav, if_false]
    rw [map_read_track, harmony_scores_reads]

theorem arrival_impressions (fm : FloatMath) (sort : StdSort) (random_val : ℚ)
    (customer : Customer) (ms : MarketState) (n_displayed : Int) (algorithm : RankingAlgorithm)
    (sel : Int) (c1 : Customer) (ms1 : MarketState)
    (h : process_customer_arrival fm sort random_val customer ms n_displayed algorithm =
      some (sel, c1, ms1)) :
    ∃ displayed msd,
      get_displayed_stores fm sort customer.record_visit ms n_displayed algorithm =
        some (displayed, msd) ∧
      ms1.impression_counts = track_impressions msd.impression_counts displayed := by
  obtain ⟨displayed, msd, hd, hcase⟩ := process_customer_arrival_cases fm sort random_val
    customer ms n_displayed algorithm sel c1 ms1 h
  refine ⟨displayed, msd, hd, ?_⟩
  rcases hcase with ⟨_, _, h3⟩ | ⟨_, _, hcr⟩
  · rw [h3]
  · rcases create_reservation_spec customer.record_visit sel
        { msd with impression_counts := track_impressions msd.impression_counts displayed }
      with h1 | ⟨R, _, _, h1⟩
    · rw [h1] at hcr; cases hcr
    · rw [h1] at hcr
      simp only [Prod.mk.injEq, true_and] at hcr
      rw [← hcr.2]

/-! ## Arrival: the claims -/

theorem baseline_single_store_call :
    get_displayed_stores reference_math insertion_sort (customer_fixture 1).record_visit
      single_store_state 5 RankingAlgorithm.BASELINE = some ([1], single_store_state) := by
  rfl

theorem arrival_single_store_call :
    process_customer_arrival reference_math insertion_sort 0 (customer_fixture 1)
      single_store_state 5 RankingAlgorithm.BASELINE =
      some (1,
        (customer_fixture 1).record_visit.record_reservation_attempt 1 "bakery"
          { hour := 8, minute := 0 },
        single_store_state_reserved) := by
  unfold process_customer_arrival
  simp only [baseline_single_store_call]
  simp [track_impressions, single_store_state_reserved,
    calculate_store_scores, single_store_state, market_fixture, MarketState.get_restaurant,
    store_fixture, Customer.calculate_store_score, calculate_distance, customer_fixture,
    Customer.record_visit, reference_math, MAX_TRAVEL_DISTANCE, Restaurant.get_rating,
    map_find, CustomerHistory.fresh, select_store, adjust_all, adjust_score, indexed,
    probabilistic_select, cumulative_pick, create_reservation,
    Restaurant.can_accept_reservation, map_update, Customer.record_reservation_attempt,
    update_restaurant, Reservation.create, List.range, List.range.loop]
  norm_num [cumulative_pick]

theorem baseline_modest_store_call :
    get_displayed_stores reference_math insertion_sort picky_customer.record_visit
      modest_store_state 5 RankingAlgorithm.BASELINE = some ([1], modest_store_state) := by
  rfl

theorem modest_store_utility :
    picky_customer.calculate_store_score reference_math
      { store_fixture 1 5 3 with general_ranking := 5 / 4 } = 4 := by
  simp [Customer.calculate_store_score, picky_customer, customer_fixture, store_fixture,
    calculate_distance, reference_math, MAX_TRAVEL_DISTANCE, Restaurant.get_rating, map_find,
    CustomerHistory.fresh]
  norm_num

/-- C11: for every customer and market state whose displayed set is non-empty
and whose displayed stores all have a personal utility below
`leaving_threshold + (1 - loyalty) * 2`, `process_customer_arrival` returns
NONE (`-1`); the reservation log, `next_reservation_id` and the store records
are unchanged, and the customer's history is unchanged except that `visits`
is one higher. -/
theorem below_threshold_churn (fm : FloatMath) (sort : StdSort) (random_val : ℚ)
    (customer : Customer) (ms : MarketState) (n_displayed : Int) (algorithm : RankingAlgorithm)
    (displayed : List Int) (msd : MarketState)
    (hd : get_displayed_stores fm sort customer.record_visit ms n_displayed algorithm =
      some (displayed, msd))
    (hne : displayed ≠ [])
    (hlow : ∀ id ∈ displayed, ∃ store, ms.get_restaurant id = some store ∧
      customer.calculate_store_score fm store <
        customer.leaving_threshold + (1 - customer.loyalty) * 2) :
    ∃ c1 ms1,
      process_customer_arrival fm sort random_val customer ms n_displayed algorithm =
        some (-1, c1, ms1) ∧
      ms1.reservations = ms.reservations ∧
      ms1.next_reservation_id = ms.next_reservation_id ∧
      ms1.restaurants = ms.restaurants ∧
      c1.history = { customer.history with visits := customer.history.visits + 1 } := by
  have hf := get_displayed_stores_fields fm sort customer.record_visit ms n_displayed algorithm
    displayed msd hd
  have hres : msd.restaurants = ms.restaurants := by rw [hf]
  have hsel : select_store fm random_val customer.record_visit displayed
      (calculate_store_scores fm customer.record_visit displayed
        { msd with impression_counts := track_impressions msd.impression_counts displayed })
      { msd with impression_counts := track_impressions msd.impression_counts displayed } =
      some (-1) := by
    apply select_store_below
    intro s hs
    unfold calculate_store_scores at hs
    obtain ⟨id, hid, rfl⟩ := List.mem_map.mp hs
    obtain ⟨store, hst, hlt⟩ := hlow id hid
    have hget : MarketState.get_restaurant
        { msd with impression_counts := track_impressions msd.impression_counts displayed } id =
        some store := by
      rw [← hst]
      exact get_restaurant_congr hres id
    rw [hget]
    exact hlt
  refine ⟨{ customer.record_visit with churned := true },
    { msd with impression_counts := track_impressions msd.impression_counts displayed },
    ?_, by rw [hf], by rw [hf], hres, rfl⟩
  unfold process_customer_arrival
  simp only [hd, hne, if_false, hsel, if_true]

/-- C11 (witness): the scenario of the spec: `leaving_threshold = 5`,
`loyalty = 0.8` (threshold 5.4) and a single displayed store of utility 4.0. -/
theorem below_threshold_churn_witness :
    picky_customer.leaving_threshold + (1 - picky_customer.loyalty) * 2 = 27 / 5 ∧
    picky_customer.calculate_store_score reference_math
      { store_fixture 1 5 3 with general_ranking := 5 / 4 } = 4 ∧
    ∃ c1 ms1,
      process_customer_arrival reference_math insertion_sort 0 picky_customer modest_store_state
        5 RankingAlgorithm.BASELINE = some (-1, c1, ms1) ∧
      ms1.reservations = modest_store_state.reservations ∧
      ms1.next_reservation_id = modest_store_state.next_reservation_id ∧
      ms1.restaurants = modest_store_state.restaurants ∧
      c1.history =
        { picky_customer.history with visits := picky_customer.history.visits + 1 } :=
  ⟨by norm_num [picky_customer, customer_fixture], modest_store_utility,
    below_threshold_churn reference_math insertion_sort 0 picky_customer modest_store_state 5
      RankingAlgorithm.BASELINE [1] modest_store_state baseline_modest_store_call (by decide)
      (by
        intro id hid
        rw [List.mem_singleton] at hid
        subst hid
        refine ⟨{ store_fixture 1 5 3 with general_ranking := 5 / 4 }, rfl, ?_⟩
        rw [modest_store_utility]
        norm_num [picky_customer, customer_fixture])⟩

/-- C12: whenever `process_customer_arrival` returns a store id `s` (a value
other than `-1`), the reservation log afterwards is the old log with exactly
one reservation appended, whose `reservation_id` is the old
`next_reservation_id`, `customer_id` the customer's id, `restaurant_id` is
`s`, `reservation_time` is `current_time`, status PENDING and
`bags_received` 0; `next_reservation_id` is one higher; the store found under
`s` has `reserved_count` one higher and is otherwise unchanged; and the
customer's history has `reservations`, `categories_reserved[business_type]`
and `store_interactions[s].reservations` each one higher (a missing entry
counting as 0) and `last_reservation_time = current_time`. -/
theorem reservation_postcondition (fm : FloatMath) (sort : StdSort) (random_val : ℚ)
    (customer : Customer) (ms : MarketState) (n_displayed : Int) (algorithm : RankingAlgorithm)
    (s : Int) (c1 : Customer) (ms1 : MarketState)
    (h : process_customer_arrival fm sort random_val customer ms n_displayed algorithm =
      some (s, c1, ms1))
    (hs : s ≠ -1) :
    ms1.reservations = ms.reservations ++
      [{ reservation_id := ms.next_reservation_id, customer_id := customer.id,
         restaurant_id := s, reservation_time := ms.current_time, status := Status.PENDING,
         bags_received := 0 }] ∧
    ms1.next_reservation_id = ms.next_reservation_id + 1 ∧
    ∃ R, ms.get_restaurant s = some R ∧
      ms1.get_restaurant s = some { R with reserved_count := R.reserved_count + 1 } ∧
      c1.history.reservations = customer.history.reservations + 1 ∧
      map_read c1.history.categories_reserved R.business_type 0 =
        map_read customer.history.categories_reserved R.business_type 0 + 1 ∧
      (map_read c1.history.store_interactions s StoreInteraction.zero).reservations =
        (map_read customer.history.store_interactions s StoreInteraction.zero).reservations + 1 ∧
      c1.history.last_reservation_time = ms.current_time := by
  obtain ⟨displayed, msd, hd, hcase⟩ := process_customer_arrival_cases fm sort random_val
    customer ms n_displayed algorithm s c1 ms1 h
  have hf := get_displayed_stores_fields fm sort customer.record_visit ms n_displayed algorithm
    displayed msd hd
  rcases hcase with ⟨h1, _, _⟩ | ⟨_, _, hcr⟩
  · exact absurd h1 hs
  · rcases create_reservation_spec customer.record_visit s
        { msd with impression_counts := track_impressions msd.impression_counts displayed }
      with h1 | ⟨R, hR, _, h1⟩
    · rw [h1] at hcr; cases hcr
    · rw [h1] at hcr
      simp only [Prod.mk.injEq, true_and] at hcr
      obtain ⟨hc, hm⟩ := hcr
      have hR0 : ms.get_restaurant s = some R := by
        rw [← hR]
        exact (get_restaurant_congr (by rw [hf]) s).symm
      subst hc
      subst hm
      refine ⟨by rw [hf]; rfl, by rw [hf], R, hR0, ?_, rfl, ?_, ?_, by rw [hf]; rfl⟩
      · simp only [MarketState.get_restaurant] at hR ⊢
        rw [get_restaurant_update (fun r => { r with reserved_count := r.reserved_count + 1 })
          (fun _ => rfl), hR]
        rfl
      · exact map_read_update_self _ _ _ _
      · simp only [Customer.record_reservation_attempt, Customer.record_visit]
        rw [map_read_update_self]

/-- C12 (witness): the fixture customer arrives at one available store and reserves it. -/
theorem reservation_postcondition_witness :
    process_customer_arrival reference_math insertion_sort 0 (customer_fixture 1)
      single_store_state 5 RankingAlgorithm.BASELINE =
      some (1,
        (customer_fixture 1).record_visit.record_reservation_attempt 1 "bakery"
          { hour := 8, minute := 0 },
        single_store_state_reserved) ∧
    (single_store_state_reserved.reservations = single_store_state.reservations ++
      [{ reservation_id := single_store_state.next_reservation_id,
         customer_id := (customer_fixture 1).id, restaurant_id := 1,
         reservation_time := single_store_state.current_time, status := Status.PENDING,
         bags_received := 0 }] ∧
    single_store_state_reserved.next_reservation_id =
      single_store_state.next_reservation_id + 1 ∧
    ∃ R, single_store_state.get_restaurant 1 = some R ∧
      single_store_state_reserved.get_restaurant 1 =
        some { R with reserved_count := R.reserved_count + 1 } ∧
      ((customer_fixture 1).record_visit.record_reservation_attempt 1 "bakery"
          { hour := 8, minute := 0 }).history.reservations =
        (customer_fixture 1).history.reservations + 1 ∧
      map_read ((customer_fixture 1).record_visit.record_reservation_attempt 1 "bakery"
          { hour := 8, minute := 0 }).history.categories_reserved R.business_type 0 =
        map_read (customer_fixture 1).history.categories_reserved R.business_type 0 + 1 ∧
      (map_read ((customer_fixture 1).record_visit.record_reservation_attempt 1 "bakery"
          { hour := 8, minute := 0 }).history.store_interactions 1
          StoreInteraction.zero).reservations =
        (map_read (customer_fixture 1).history.store_interactions 1
          StoreInteraction.zero).reservations + 1 ∧
      ((customer_fixture 1).record_visit.record_reservation_attempt 1 "bakery"
          { hour := 8, minute := 0 }).history.last_reservation_time =
        single_store_state.current_time) :=
  ⟨arrival_single_store_call,
    reservation_postcondition reference_math insertion_sort 0 (customer_fixture 1)
      single_store_state 5 RankingAlgorithm.BASELINE 1 _ _ arrival_single_store_call
      (by decide)⟩

/-- C13: if every store satisfies `reserved_count <= estimated_bags` before a
call of `create_reservation` or of `process_customer_arrival` (any strategy,
any random draw), every store satisfies it after the call.
`create_reservation` always returns; `process_customer_arrival` returns
whenever the display strategy does. -/
theorem reserved_within_estimate (fm : FloatMath) (sort : StdSort) (random_val : ℚ)
    (customer : Customer) (ms : MarketState) (n_displayed : Int) (algorithm : RankingAlgorithm)
    (restaurant_id : Int)
    (hinv : ∀ R ∈ ms.restaurants, R.reserved_count ≤ R.estimated_bags) :
    (∀ R ∈ (create_reservation customer restaurant_id ms).2.2.restaurants,
      R.reserved_count ≤ R.estimated_bags) ∧
    (∀ (s : Int) (c1 : Customer) (ms1 : MarketState),
      process_customer_arrival fm sort random_val customer ms n_displayed algorithm =
        some (s, c1, ms1) →
      ∀ R ∈ ms1.restaurants, R.reserved_count ≤ R.estimated_bags) ∧
    (∀ (displayed : List Int) (msd : MarketState),
      get_displayed_stores fm sort customer.record_visit ms n_displayed algorithm =
        some (displayed, msd) →
      ∃ r, process_customer_arrival fm sort random_val customer ms n_displayed algorithm =
        some r) := by
  have hcreate : ∀ (c : Customer) (id : Int) (m : MarketState),
      (∀ R ∈ m.restaurants, R.reserved_count ≤ R.estimated_bags) →
      ∀ R ∈ (create_reservation c id m).2.2.restaurants,
        R.reserved_count ≤ R.estimated_bags := by
    intro c id m hm R hR
    rcases create_reservation_spec c id m with h1 | ⟨R0, hR0, hacc, h1⟩
    · rw [h1] at hR
      exact hm R hR
    · rw [h1] at hR
      rcases update_restaurant_mem_first _ _ _ R hR with h2 | ⟨R1, h2, h3⟩
      · exact hm R h2
      · have : R1 = R0 := by
          unfold MarketState.get_restaurant at hR0
          rw [h2] at hR0
          exact Option.some.inj hR0
        subst this
        subst h3
        simp only [Restaurant.can_accept_reservation, Bool.and_eq_true, decide_eq_true_eq]
          at hacc
        show R1.reserved_count + 1 ≤ R1.estimated_bags
        omega
  refine ⟨hcreate customer restaurant_id ms hinv, ?_, ?_⟩
  · intro s c1 ms1 h
    obtain ⟨displayed, msd, hd, hcase⟩ := process_customer_arrival_cases fm sort random_val
      customer ms n_displayed algorithm s c1 ms1 h
    have hf := get_displayed_stores_fields fm sort customer.record_visit ms n_displayed
      algorithm displayed msd hd
    have hres : msd.restaurants = ms.restaurants := by rw [hf]
    rcases hcase with ⟨_, _, h3⟩ | ⟨_, _, hcr⟩
    · intro R hR
      rw [h3] at hR
      exact hinv R (hres ▸ hR)
    · have := hcreate customer.record_visit s
        { msd with impression_counts := track_impressions msd.impression_counts displayed }
        (fun R hR => hinv R (hres ▸ hR))
      rw [hcr] at this
      exact this
  · intro displayed msd hd
    exact process_customer_arrival_total fm sort random_val customer ms n_displayed algorithm
      displayed msd hd

/-- C13 (witness): the fixture customer reserves at a store with
`reserved_count = 0` and `estimated_bags = 10`; afterwards `reserved_count = 1`. -/
theorem reserved_within_estimate_witness :
    ((∀ R ∈ (create_reservation (customer_fixture 1) 1 single_store_state).2.2.restaurants,
      R.reserved_count ≤ R.estimated_bags) ∧
    (∀ (s : Int) (c1 : Customer) (ms1 : MarketState),
      process_customer_arrival reference_math insertion_sort 0 (customer_fixture 1)
        single_store_state 5 RankingAlgorithm.BASELINE = some (s, c1, ms1) →
      ∀ R ∈ ms1.restaurants, R.reserved_count ≤ R.estimated_bags) ∧
    (∀ (displayed : List Int) (msd : MarketState),
      get_displayed_stores reference_math insertion_sort (customer_fixture 1).record_visit
        single_store_state 5 RankingAlgorithm.BASELINE = some (displayed, msd) →
      ∃ r, process_customer_arrival reference_math insertion_sort 0 (customer_fixture 1)
        single_store_state 5 RankingAlgorithm.BASELINE = some r)) ∧
    (process_customer_arrival reference_math insertion_sort 0 (customer_fixture 1)
      single_store_state 5 RankingAlgorithm.BASELINE).map
      (fun r => r.2.2.restaurants.map (fun R => (R.reserved_count, R.estimated_bags))) =
      some [(1, 10)] :=
  ⟨reserved_within_estimate reference_math insertion_sort 0 (customer_fixture 1)
      single_store_state 5 RankingAlgorithm.BASELINE 1
      (by
        intro R hR
        simp only [single_store_state, market_fixture, List.mem_singleton] at hR
        subst hR
        decide),
    by rw [arrival_single_store_call]; rfl⟩

theorem harmony_arrival_display :
    get_displayed_stores reference_math insertion_sort (customer_fixture 1).record_visit
      rivalry_state 1 RankingAlgorithm.HARMONY = some ([1], rivalry_state_after) := by
  simp [get_displayed_stores, get_displayed_stores_harmony, rivalry_state, rivalry_state_after,
    market_fixture, MarketState.get_available_restaurant_ids, store_fixture,
    Restaurant.can_accept_reservation, harmony_avg_impressions, harmony_scores, harmony_score,
    MarketState.get_restaurant, calculate_distance, customer_fixture, reference_math,
    Customer.calculate_store_score, MAX_TRAVEL_DISTANCE, insertion_sort, map_read, map_find,
    map_update, CustomerHistory.fresh, Restaurant.get_rating, unsold_bags, score_gt,
    float_to_int_seven_tenths, size_lt, to_size_t, harmony_high_waste, harmony_discovery,
    fill_remaining, track_impressions, is_new_store, Customer.record_visit]
  norm_num [fill_remaining, size_lt, to_size_t, map_update]

theorem arrival_impression_counts (fm : FloatMath) (sort : StdSort) (random_val : ℚ)
    (customer : Customer) (ms : MarketState) (n_displayed : Int) (algorithm : RankingAlgorithm)
    (sel : Int) (c1 : Customer) (ms1 : MarketState) (displayed : List Int) (msd : MarketState)
    (hd : get_displayed_stores fm sort customer.record_visit ms n_displayed algorithm =
      some (displayed, msd))
    (h : process_customer_arrival fm sort random_val customer ms n_displayed algorithm =
      some (sel, c1, ms1))
    (k : Int) :
    map_read ms1.impression_counts k 0 =
      map_read ms.impression_counts k 0 +
        (if algorithm = RankingAlgorithm.HARMONY then 2 else 1) * (displayed.count k : Int) := by
  obtain ⟨displayed1, msd1, hd1, hic⟩ := arrival_impressions fm sort random_val customer ms
    n_displayed algorithm sel c1 ms1 h
  rw [hd] at hd1
  simp only [Option.some.injEq, Prod.mk.injEq] at hd1
  obtain ⟨h1, h2⟩ := hd1
  subst h1
  subst h2
  rw [hic, map_read_track]
  by_cases halg : algorithm = RankingAlgorithm.HARMONY
  · subst halg
    simp only [get_displayed_stores, Option.some.injEq] at hd
    have hr := harmony_display_reads fm sort customer.record_visit ms n_displayed k
    rw [hd] at hr
    simp only at hr
    rw [hr, if_pos rfl]
    ring
  · rw [get_displayed_stores_reads fm sort customer.record_visit ms n_displayed algorithm halg
      displayed msd hd k, if_neg halg]
    ring

/-- C17 (code): one call of `process_customer_arrival` raises the impression
count of a store by the number of times its id occurs in the displayed set
for every strategy but HARMONY, and by twice that number for HARMONY, whose
display function has already counted the impression when
`process_customer_arrival` counts it again.  With the HARMONY strategy,
`n_displayed = 1` and two available stores never displayed before, store 1 is
displayed once and its count goes from 0 to 2, for every random draw. -/
theorem harmony_counts_impressions_twice :
    (∀ (fm : FloatMath) (sort : StdSort) (random_val : ℚ) (customer : Customer)
      (ms : MarketState) (n_displayed : Int) (algorithm : RankingAlgorithm) (sel : Int)
      (c1 : Customer) (ms1 : MarketState) (displayed : List Int) (msd : MarketState),
      get_displayed_stores fm sort customer.record_visit ms n_displayed algorithm =
        some (displayed, msd) →
      process_customer_arrival fm sort random_val customer ms n_displayed algorithm =
        some (sel, c1, ms1) →
      ∀ k : Int, map_read ms1.impression_counts k 0 =
        map_read ms.impression_counts k 0 +
          (if algorithm = RankingAlgorithm.HARMONY then 2 else 1) * (displayed.count k : Int)) ∧
    (get_displayed_stores reference_math insertion_sort (customer_fixture 1).record_visit
      rivalry_state 1 RankingAlgorithm.HARMONY).map (fun r => r.1) = some [1] ∧
    map_read rivalry_state.impression_counts 1 0 = 0 ∧
    (∀ random_val : ℚ, ∃ r,
      process_customer_arrival reference_math insertion_sort random_val (customer_fixture 1)
        rivalry_state 1 RankingAlgorithm.HARMONY = some r ∧
      map_read r.2.2.impression_counts 1 0 = 2 ∧
      map_read r.2.2.impression_counts 2 0 = 0) := by
  refine ⟨fun fm sort random_val customer ms n_displayed algorithm sel c1 ms1 displayed msd hd h =>
    arrival_impression_counts fm sort random_val customer ms n_displayed algorithm sel c1 ms1
      displayed msd hd h, ?_, rfl, ?_⟩
  · rw [harmony_arrival_display]
    rfl
  · intro random_val
    obtain ⟨r, hr⟩ := process_customer_arrival_total reference_math insertion_sort random_val
      (customer_fixture 1) rivalry_state 1 RankingAlgorithm.HARMONY [1] rivalry_state_after
      harmony_arrival_display
    obtain ⟨sel, c1, ms1⟩ := r
    have h1 := arrival_impression_counts reference_math insertion_sort random_val
      (customer_fixture 1) rivalry_state 1 RankingAlgorithm.HARMONY sel c1 ms1 [1]
      rivalry_state_after harmony_arrival_display hr
    refine ⟨(sel, c1, ms1), hr, ?_, ?_⟩
    · rw [h1 1]
      rfl
    · rw [h1 2]
      rfl

theorem arrival_keeps_log (fm : FloatMath) (sort : StdSort) (random_val : ℚ)
    (customer : Customer) (ms : MarketState) (n_displayed : Int) (algorithm : RankingAlgorithm)
    (sel : Int) (c1 : Customer) (ms1 : MarketState)
    (h : process_customer_arrival fm sort random_val customer ms n_displayed algorithm =
      some (sel, c1, ms1)) :
    ∃ extra, ms1.reservations = ms.reservations ++ extra := by
  obtain ⟨displayed, msd, hd, hcase⟩ := process_customer_arrival_cases fm sort random_val
    customer ms n_displayed algorithm sel c1 ms1 h
  have hf := get_displayed_stores_fields fm sort customer.record_visit ms n_displayed algorithm
    displayed msd hd
  rcases hcase with ⟨_, _, h3⟩ | ⟨_, _, hcr⟩
  · exact ⟨[], by rw [h3, hf]; simp⟩
  · rcases create_reservation_spec customer.record_visit sel
        { msd with impression_counts := track_impressions msd.impression_counts displayed }
      with h1 | ⟨R, _, _, h1⟩
    · rw [h1] at hcr; cases hcr
    · rw [h1] at hcr
      simp only [Prod.mk.injEq, true_and] at hcr
      refine ⟨[Reservation.create ms.next_reservation_id customer.record_visit.id sel
        ms.current_time], ?_⟩
      rw [← hcr.2, hf]

/-- C20: `process_end_of_day` leaves every reservation whose status is already
CONFIRMED or CANCELLED unchanged in every field, keeps the length of the log,
and changes a status only from PENDING to CONFIRMED or from PENDING to
CANCELLED; `process_customer_arrival` leaves every reservation already in the
log unchanged.  The settlement returns whenever no store has a negative
`actual_bags`, the arrival whenever the display strategy returns. -/
theorem status_never_reverts (fm : FloatMath) (sort : StdSort) (hs : SortContract sort)
    (random_val : ℚ) (customer : Customer) (ms : MarketState) (n_displayed : Int)
    (algorithm : RankingAlgorithm) :
    (∀ ms1, process_end_of_day sort ms = some ms1 →
      ms1.reservations.length = ms.reservations.length ∧
      ∀ (q : Nat) (r : Reservation), ms.reservations[q]? = some r →
        ∃ r1, ms1.reservations[q]? = some r1 ∧
          (r.status ≠ Status.PENDING → r1 = r) ∧
          (r1.status = r.status ∨
            (r.status = Status.PENDING ∧
              (r1.status = Status.CONFIRMED ∨ r1.status = Status.CANCELLED)))) ∧
    (∀ (s : Int) (c1 : Customer) (ms1 : MarketState),
      process_customer_arrival fm sort random_val customer ms n_displayed algorithm =
        some (s, c1, ms1) →
      ∀ (q : Nat) (r : Reservation), ms.reservations[q]? = some r →
        ms1.reservations[q]? = some r) ∧
    ((∀ S ∈ ms.restaurants, 0 ≤ S.actual_bags) →
      ∃ ms1, process_end_of_day sort ms = some ms1) ∧
    (∀ (displayed : List Int) (msd : MarketState),
      get_displayed_stores fm sort customer.record_visit ms n_displayed algorithm =
        some (displayed, msd) →
      ∃ r, process_customer_arrival fm sort random_val customer ms n_displayed algorithm =
        some r) := by
  refine ⟨?_, ?_, fun hbags => process_end_of_day_total hs ms hbags,
    fun displayed msd hd => process_customer_arrival_total fm sort random_val customer ms
      n_displayed algorithm displayed msd hd⟩
  · intro ms1 hrun
    have hf := settle_stores_frame hs _ ms ms1 hrun
    refine ⟨hf.length_eq, ?_⟩
    intro q r hr
    by_cases hp : r.status = Status.PENDING
    · obtain ⟨r1, hr1, _⟩ := hf.static_at q r hr
      refine ⟨r1, hr1, fun h => absurd hp h, ?_⟩
      cases hst : r1.status with
      | PENDING => exact Or.inl (by rw [hp])
      | CONFIRMED => exact Or.inr ⟨hp, Or.inl rfl⟩
      | CANCELLED => exact Or.inr ⟨hp, Or.inr rfl⟩
    · exact ⟨r, settle_stores_frozen hs _ ms ms1 hrun q r hr (Or.inl hp), fun _ => rfl,
        Or.inl rfl⟩
  · intro s c1 ms1 h q r hr
    obtain ⟨extra, hex⟩ := arrival_keeps_log fm sort random_val customer ms n_displayed
      algorithm s c1 ms1 h
    rw [hex]
    have hlt : q < ms.reservations.length := by
      rcases Nat.lt_or_ge q ms.reservations.length with h1 | h1
      · exact h1
      · rw [List.getElem?_eq_none h1] at hr; cases hr
    rw [List.getElem?_append_left hlt]
    exact hr

/-- C20 (witness): a log with a CANCELLED, a CONFIRMED (2 bags) and a PENDING
reservation: settlement confirms the PENDING one and leaves the other two as
they were. -/
theorem status_never_reverts_witness :
    ((∀ ms1, process_end_of_day insertion_sort settled_state = some ms1 →
      ms1.reservations.length = settled_state.reservations.length ∧
      ∀ (q : Nat) (r : Reservation), settled_state.reservations[q]? = some r →
        ∃ r1, ms1.reservations[q]? = some r1 ∧
          (r.status ≠ Status.PENDING → r1 = r) ∧
          (r1.status = r.status ∨
            (r.status = Status.PENDING ∧
              (r1.status = Status.CONFIRMED ∨ r1.status = Status.CANCELLED)))) ∧
    (∀ (s : Int) (c1 : Customer) (ms1 : MarketState),
      process_customer_arrival reference_math insertion_sort 0 (customer_fixture 1)
        settled_state 5 RankingAlgorithm.BASELINE = some (s, c1, ms1) →
      ∀ (q : Nat) (r : Reservation), settled_state.reservations[q]? = some r →
        ms1.reservations[q]? = some r) ∧
    ((∀ S ∈ settled_state.restaurants, 0 ≤ S.actual_bags) →
      ∃ ms1, process_end_of_day insertion_sort settled_state = some ms1) ∧
    (∀ (displayed : List Int) (msd : MarketState),
      get_displayed_stores reference_math insertion_sort (customer_fixture 1).record_visit
        settled_state 5 RankingAlgorithm.BASELINE = some (displayed, msd) →
      ∃ r, process_customer_arrival reference_math insertion_sort 0 (customer_fixture 1)
        settled_state 5 RankingAlgorithm.BASELINE = some r)) ∧
    (process_end_of_day insertion_sort settled_state).map
      (fun s => s.reservations.map (fun r => (r.status, r.bags_received))) =
      some [(Status.CANCELLED, 0), (Status.CONFIRMED, 2), (Status.CONFIRMED, 3)] :=
  ⟨status_never_reverts reference_math insertion_sort insertion_sort_conforms 0
      (customer_fixture 1) settled_state 5 RankingAlgorithm.BASELINE,
    by decide⟩

/-! ## Timestamp -/

/-- C30: `a < b` holds exactly when `60*a.hour + a.minute < 60*b.hour + b.minute`,
and on time-of-day values (`0 <= hour <= 23`, `0 <= minute <= 59`) this is a
strict total order: irreflexive, transitive, and for two distinct timestamps
exactly one of `a < b` and `b < a` holds. -/
theorem timestamp_strict_total_order (a b c : Timestamp) (ha : a.time_of_day)
    (hb : b.time_of_day) :
    (a.lt b = true ↔ 60 * a.hour + a.minute < 60 * b.hour + b.minute) ∧
    a.lt a = false ∧
    (a.lt b = true → b.lt c = true → a.lt c = true) ∧
    (a ≠ b → (a.lt b = true ∧ b.lt a = false) ∨ (a.lt b = false ∧ b.lt a = true)) := by
  obtain ⟨ha1, ha2, ha3, ha4⟩ := ha
  obtain ⟨hb1, hb2, hb3, hb4⟩ := hb
  refine ⟨?_, ?_, ?_, ?_⟩
  · simp only [Timestamp.lt, Timestamp.to_minutes, decide_eq_true_eq]
    omega
  · simp [Timestamp.lt]
  · simp only [Timestamp.lt, Timestamp.to_minutes, decide_eq_true_eq]
    omega
  · intro hne
    have hmin : a.to_minutes ≠ b.to_minutes := by
      intro heq
      apply hne
      simp only [Timestamp.to_minutes] at heq
      have h1 : a.hour = b.hour := by omega
      have h2 : a.minute = b.minute := by omega
      cases a
      cases b
      simp only at h1 h2
      rw [h1, h2]
    simp only [Timestamp.lt, decide_eq_true_eq, decide_eq_false_iff_not]
    omega

/-- C30 (witness): 08:00, 08:30 and 09:15. -/
theorem timestamp_strict_total_order_witness :
    (({ hour := 8, minute := 0 } : Timestamp).lt { hour := 8, minute := 30 } = true ↔
      60 * (8 : Int) + 0 < 60 * 8 + 30) ∧
    ({ hour := 8, minute := 0 } : Timestamp).lt { hour := 8, minute := 0 } = false ∧
    (({ hour := 8, minute := 0 } : Timestamp).lt { hour := 8, minute := 30 } = true →
      ({ hour := 8, minute := 30 } : Timestamp).lt { hour := 9, minute := 15 } = true →
      ({ hour := 8, minute := 0 } : Timestamp).lt { hour := 9, minute := 15 } = true) ∧
    (({ hour := 8, minute := 0 } : Timestamp) ≠ { hour := 8, minute := 30 } →
      (({ hour := 8, minute := 0 } : Timestamp).lt { hour := 8, minute := 30 } = true ∧
        ({ hour := 8, minute := 30 } : Timestamp).lt { hour := 8, minute := 0 } = false) ∨
      (({ hour := 8, minute := 0 } : Timestamp).lt { hour := 8, minute := 30 } = false ∧
        ({ hour := 8, minute := 30 } : Timestamp).lt { hour := 8, minute := 0 } = true)) :=
  timestamp_strict_total_order { hour := 8, minute := 0 } { hour := 8, minute := 30 }
    { hour := 9, minute := 15 } (by decide) (by decide)

/-! ## std::sort: comparators that order the range only -/

theorem StrictWeakOrder.on {α : Type} {lt : α → α → Bool} (h : StrictWeakOrder lt)
    (l : List α) : StrictWeakOrderOn lt l :=
  ⟨fun a _ => h.irrefl a, fun a _ b _ c _ => h.trans a b c,
    fun a _ b _ c _ => h.incomp_trans a b c⟩

theorem SortContractOn.contract {sort : StdSort} (hs : SortContractOn sort) :
    SortContract sort :=
  fun α lt l h => hs α lt l (h.on l)

theorem swo_on_total {α : Type} {lt : α → α → Bool} {l : List α} (h : StrictWeakOrderOn lt l)
    (a b : α) (ha : a ∈ l) (hb : b ∈ l) : lt b a = false ∨ lt a b = false := by
  cases hab : lt a b
  · exact Or.inr rfl
  · left
    cases hba : lt b a
    · rfl
    · have := h.trans a ha b hb a ha hab hba
      rw [h.irrefl a ha] at this
      exact absurd this (by simp)

theorem swo_on_not_lt_trans {α : Type} {lt : α → α → Bool} {l : List α}
    (h : StrictWeakOrderOn lt l) (a b c : α) (ha : a ∈ l) (hb : b ∈ l) (hc : c ∈ l)
    (hab : lt b a = false) (hbc : lt c b = false) : lt c a = false := by
  cases hca : lt c a
  · rfl
  · exfalso
    cases h1 : lt a b
    · cases h2 : lt b c
      · have := (h.incomp_trans a ha b hb c hc h1 hab h2 hbc).2
        rw [hca] at this
        exact absurd this (by simp)
      · have := h.trans b hb c hc a ha h2 hca
        rw [hab] at this
        exact absurd this (by simp)
    · have := h.trans c hc a ha b hb hca h1
      rw [hbc] at this
      exact absurd this (by simp)

theorem orderedInsert_pairwise_on {α : Type} (r : α → α → Prop) [DecidableRel r] (a : α)
    (l : List α)
    (htot : ∀ x ∈ a :: l, ∀ y ∈ a :: l, r x y ∨ r y x)
    (htr : ∀ x ∈ a :: l, ∀ y ∈ a :: l, ∀ z ∈ a :: l, r x y → r y z → r x z)
    (hs : l.Pairwise r) : (l.orderedInsert r a).Pairwise r := by
  induction l with
  | nil => simp
  | cons b rest ih =>
    rw [List.orderedInsert]
    have ha : a ∈ a :: b :: rest := List.mem_cons_self _ _
    have hb : b ∈ a :: b :: rest := List.mem_cons_of_mem _ (List.mem_cons_self _ _)
    have hrest : ∀ x ∈ rest, x ∈ a :: b :: rest :=
      fun x hx => List.mem_cons_of_mem _ (List.mem_cons_of_mem _ hx)
    obtain ⟨hbr, hrr⟩ := List.pairwise_cons.mp hs
    split
    · rename_i hab
      refine List.pairwise_cons.mpr ⟨?_, hs⟩
      intro x hx
      rcases List.mem_cons.mp hx with h1 | h1
      · rw [h1]; exact hab
      · exact htr a ha b hb x (hrest x h1) hab (hbr x h1)
    · rename_i hab
      have hba : r b a := by
        rcases htot a ha b hb with h1 | h1
        · exact absurd h1 hab
        · exact h1
      refine List.pairwise_cons.mpr ⟨?_, ?_⟩
      · intro x hx
        rcases (List.mem_orderedInsert r).mp hx with h1 | h1
        · rw [h1]; exact hba
        · exact hbr x h1
      · apply ih
        · intro x hx y hy
          exact htot x (by
            rcases List.mem_cons.mp hx with h1 | h1
            · rw [h1]; exact ha
            · exact hrest x h1) y (by
            rcases List.mem_cons.mp hy with h1 | h1
            · rw [h1]; exact ha
            · exact hrest y h1)
        · intro x hx y hy z hz
          exact htr x (by
            rcases List.mem_cons.mp hx with h1 | h1
            · rw [h1]; exact ha
            · exact hrest x h1) y (by
            rcases List.mem_cons.mp hy with h1 | h1
            · rw [h1]; exact ha
            · exact hrest y h1) z (by
            rcases List.mem_cons.mp hz with h1 | h1
            · rw [h1]; exact ha
            · exact hrest z h1)
        · exact hrr

theorem insertionSort_pairwise_on {α : Type} (r : α → α → Prop) [DecidableRel r] (l : List α)
    (htot : ∀ x ∈ l, ∀ y ∈ l, r x y ∨ r y x)
    (htr : ∀ x ∈ l, ∀ y ∈ l, ∀ z ∈ l, r x y → r y z → r x z) :
    (l.insertionSort r).Pairwise r := by
  induction l with
  | nil => simp
  | cons a rest ih =>
    rw [List.insertionSort]
    have hmem : ∀ x, x ∈ a :: rest.insertionSort r → x ∈ a :: rest := by
      intro x hx
      rcases List.mem_cons.mp hx with h1 | h1
      · rw [h1]; exact List.mem_cons_self _ _
      · exact List.mem_cons_of_mem _ ((List.perm_insertionSort r rest).mem_iff.mp h1)
    apply orderedInsert_pairwise_on
    · intro x hx y hy
      exact htot x (hmem x hx) y (hmem y hy)
    · intro x hx y hy z hz
      exact htr x (hmem x hx) y (hmem y hy) z (hmem z hz)
    · exact ih (fun x hx y hy => htot x (List.mem_cons_of_mem _ hx) y (List.mem_cons_of_mem _ hy))
        (fun x hx y hy z hz => htr x (List.mem_cons_of_mem _ hx) y (List.mem_cons_of_mem _ hy)
          z (List.mem_cons_of_mem _ hz))

theorem insertion_sort_conforms_on : SortContractOn insertion_sort := by
  intro α lt l h
  refine ⟨List.perm_insertionSort _ l, ?_⟩
  exact insertionSort_pairwise_on (fun a b => lt b a = false) l
    (fun x hx y hy => swo_on_total h x y hx hy)
    (fun x hx y hy z hz hxy hyz => swo_on_not_lt_trans h x y z hx hy hz hxy hyz)

/-! ## Display: the claims on the single strategies -/

theorem last_restaurant_eq_get (ms : MarketState)
    (hdist : (ms.restaurants.map (fun r => r.business_id)).Nodup) (id : Int) :
    last_restaurant ms id = ms.get_restaurant id := by
  unfold last_restaurant MarketState.get_restaurant
  generalize ms.restaurants = rs at hdist
  induction rs with
  | nil => rfl
  | cons r rest ih =>
    rw [List.map_cons, List.nodup_cons] at hdist
    rw [List.reverse_cons, List.find?_append, ih hdist.2]
    by_cases hid : r.business_id = id
    · have hnone : rest.find? (fun r => decide (r.business_id = id)) = none := by
        rw [List.find?_eq_none]
        intro x hx hxid
        simp only [decide_eq_true_eq] at hxid
        apply hdist.1
        rw [hid, ← hxid]
        exact List.mem_map_of_mem _ hx
      rw [hnone]
      simp [hid]
    · simp [hid]

theorem rating_of_available (ms : MarketState) (id : Int)
    (h : id ∈ ms.get_available_restaurant_ids) :
    ∃ store, ms.get_restaurant id = some store ∧ rating_of ms id = store.get_rating := by
  obtain ⟨store, hs⟩ := get_restaurant_of_available ms id h
  exact ⟨store, hs, by simp only [rating_of, hs]⟩

theorem baseline_gt_available (ms : MarketState)
    (hdist : (ms.restaurants.map (fun r => r.business_id)).Nodup) (a b : Int)
    (ha : a ∈ ms.get_available_restaurant_ids) (hb : b ∈ ms.get_available_restaurant_ids) :
    baseline_gt ms a b = decide (rating_of ms a > rating_of ms b) := by
  obtain ⟨sa, hsa, hra⟩ := rating_of_available ms a ha
  obtain ⟨sb, hsb, hrb⟩ := rating_of_available ms b hb
  unfold baseline_gt
  rw [last_restaurant_eq_get ms hdist a, last_restaurant_eq_get ms hdist b, hsa, hsb, hra, hrb]

theorem baseline_gt_orders_available (ms : MarketState)
    (hdist : (ms.restaurants.map (fun r => r.business_id)).Nodup) :
    StrictWeakOrderOn (baseline_gt ms) ms.get_available_restaurant_ids := by
  constructor
  · intro a ha
    rw [baseline_gt_available ms hdist a a ha ha]
    simp
  · intro a ha b hb c hc
    rw [baseline_gt_available ms hdist a b ha hb, baseline_gt_available ms hdist b c hb hc,
      baseline_gt_available ms hdist a c ha hc]
    simp only [decide_eq_true_eq]
    exact fun h1 h2 => lt_trans h2 h1
  · intro a ha b hb c hc
    rw [baseline_gt_available ms hdist a b ha hb, baseline_gt_available ms hdist b c hb hc,
      baseline_gt_available ms hdist a c ha hc, baseline_gt_available ms hdist b a hb ha,
      baseline_gt_available ms hdist c b hc hb, baseline_gt_available ms hdist c a hc ha]
    simp only [decide_eq_false_iff_not, not_lt]
    intro h1 h2 h3 h4
    exact ⟨le_trans h1 h3, le_trans h4 h2⟩

theorem take_length_min (l : List Int) (n : Int) (hn : 0 ≤ n) :
    ((l.take (min n (l.length : Int)).toNat).length : Int) = min n (l.length : Int) := by
  rw [List.length_take]
  omega

theorem sorted_prefix_dominates {α : Type} (R : α → α → Prop) (l : List α) (k : Nat)
    (h : l.Pairwise R) (x y : α) (hx : x ∈ l.take k) (hy : y ∈ l.drop k) : R x y := by
  rw [← List.take_append_drop k l] at h
  exact (List.pairwise_append.mp h).2.2 x hx y hy

theorem mem_take_or_drop {α : Type} (l : List α) (k : Nat) (x : α) (h : x ∈ l) :
    x ∈ l.take k ∨ x ∈ l.drop k := by
  rw [← List.take_append_drop k l] at h
  exact List.mem_append.mp h

/-- C21: for every market state with distinct business ids and every
`n_displayed >= 0`, under a `std::sort` that meets its contract,
`get_displayed_stores_baseline` returns exactly
`min(n_displayed, number of available stores)` ids, all of available stores,
listed in non-increasing order of store rating, and every available store
that is not returned has a rating `<=` the rating of every returned store. -/
theorem baseline_top_rated (sort : StdSort) (hs : SortContractOn sort) (ms : MarketState)
    (n_displayed : Int)
    (hdist : (ms.restaurants.map (fun r => r.business_id)).Nodup) (hn : 0 ≤ n_displayed) :
    ∃ result, get_displayed_stores_baseline sort ms n_displayed = some result ∧
      (result.length : Int) = min n_displayed (ms.get_available_restaurant_ids.length : Int) ∧
      result.Pairwise (fun a b => rating_of ms a ≥ rating_of ms b) ∧
      (∀ id ∈ result, id ∈ ms.get_available_restaurant_ids) ∧
      (∀ id ∈ ms.get_available_restaurant_ids, id ∉ result →
        ∀ r ∈ result, rating_of ms id ≤ rating_of ms r) := by
  obtain ⟨hperm, hsorted⟩ := hs Int (baseline_gt ms) ms.get_available_restaurant_ids
    (baseline_gt_orders_available ms hdist)
  have hrate : (sort Int (baseline_gt ms) ms.get_available_restaurant_ids).Pairwise
      (fun a b => rating_of ms a ≥ rating_of ms b) := by
    apply hsorted.imp_of_mem
    intro a b ha hb hab
    rw [baseline_gt_available ms hdist b a (hperm.mem_iff.mp hb) (hperm.mem_iff.mp ha)] at hab
    simpa using hab
  have hlen : (sort Int (baseline_gt ms) ms.get_available_restaurant_ids).length =
      ms.get_available_restaurant_ids.length := hperm.length_eq
  have hnum : ¬ min n_displayed
      ((sort Int (baseline_gt ms) ms.get_available_restaurant_ids).length : Int) < 0 := by
    omega
  refine ⟨(sort Int (baseline_gt ms) ms.get_available_restaurant_ids).take
    (min n_displayed
      ((sort Int (baseline_gt ms) ms.get_available_restaurant_ids).length : Int)).toNat,
    ?_, ?_, ?_, ?_, ?_⟩
  · simp only [get_displayed_stores_baseline, hnum, if_false]
  · rw [take_length_min _ _ hn, hlen]
  · exact hrate.sublist (List.take_sublist _ _)
  · intro id hid
    exact hperm.mem_iff.mp (List.mem_of_mem_take hid)
  · intro id hid hnot r hr
    rcases mem_take_or_drop _ (min n_displayed
        ((sort Int (baseline_gt ms) ms.get_available_restaurant_ids).length : Int)).toNat id
        (hperm.mem_iff.mpr hid) with h1 | h1
    · exact absurd h1 hnot
    · exact sorted_prefix_dominates _ _ _ hrate r id hr h1

/-- C21 (witness): three available stores rated 3.5, 4.5 and 4.0 and
`n_displayed = 2`: the display is `[2, 3]`. -/
theorem baseline_top_rated_witness :
    (∃ result, get_displayed_stores_baseline insertion_sort three_ratings_state 2 = some result ∧
      (result.length : Int) =
        min 2 (three_ratings_state.get_available_restaurant_ids.length : Int) ∧
      result.Pairwise (fun a b => rating_of three_ratings_state a ≥
        rating_of three_ratings_state b) ∧
      (∀ id ∈ result, id ∈ three_ratings_state.get_available_restaurant_ids) ∧
      (∀ id ∈ three_ratings_state.get_available_restaurant_ids, id ∉ result →
        ∀ r ∈ result, rating_of three_ratings_state id ≤ rating_of three_ratings_state r)) ∧
    three_ratings_state.get_available_restaurant_ids = [1, 2, 3] ∧
    get_displayed_stores_baseline insertion_sort three_ratings_state 2 = some [2, 3] :=
  ⟨baseline_top_rated insertion_sort insertion_sort_conforms_on three_ratings_state 2
      (by decide) (by decide),
    by decide,
    by
      norm_num [get_displayed_stores_baseline, three_ratings_state, market_fixture,
        MarketState.get_available_restaurant_ids, store_fixture,
        Restaurant.can_accept_reservation, insertion_sort, baseline_gt, last_restaurant,
        Restaurant.get_rating, List.orderedInsert]
      rfl⟩

theorem score_gt_swo : StrictWeakOrder score_gt := by
  constructor
  · intro a; simp [score_gt]
  · intro a b c; simp only [score_gt, decide_eq_true_eq]; exact fun h1 h2 => lt_trans h2 h1
  · intro a b c; simp only [score_gt, decide_eq_false_iff_not, not_lt]
    intro h1 h2 h3 h4
    exact ⟨le_trans h1 h3, le_trans h4 h2⟩

theorem ziad_scores_sound (fm : FloatMath) (customer : Customer) (ms : MarketState)
    (ids : List Int) (e : Int × ℚ) (h : e ∈ ziad_scores fm customer ms ids) :
    e.1 ∈ ids ∧ within_radius fm customer ms e.1 = true ∧ e.2 = linear_score_of ms e.1 := by
  induction ids with
  | nil => simp [ziad_scores] at h
  | cons a rest ih =>
    unfold ziad_scores at h
    cases hst : ms.get_restaurant a with
    | none =>
      simp only [hst] at h
      obtain ⟨h1, h2⟩ := ih h
      exact ⟨List.mem_cons_of_mem _ h1, h2⟩
    | some store =>
      simp only [hst] at h
      split at h
      · obtain ⟨h1, h2⟩ := ih h
        exact ⟨List.mem_cons_of_mem _ h1, h2⟩
      · rename_i hfar
        rcases List.mem_cons.mp h with h1 | h1
        · subst h1
          refine ⟨List.mem_cons_self _ _, ?_, ?_⟩
          · simp only [within_radius, hst, decide_eq_true_eq]
            exact not_lt.mp hfar
          · simp only [linear_score_of, hst, unsold_bags, Restaurant.get_rating]
            ring
        · obtain ⟨h2, h3⟩ := ih h1
          exact ⟨List.mem_cons_of_mem _ h2, h3⟩

theorem within_radius_of_store (fm : FloatMath) (customer : Customer) (ms : MarketState)
    (id : Int) (store : Restaurant) (h : ms.get_restaurant id = some store) :
    distance_to fm customer ms id =
      calculate_distance fm customer.latitude customer.longitude store.latitude
        store.longitude ∧
    (within_radius fm customer ms id = true ↔
      calculate_distance fm customer.latitude customer.longitude store.latitude
        store.longitude ≤ MAX_TRAVEL_DISTANCE) := by
  simp only [distance_to, within_radius, h, decide_eq_true_eq, and_self]

theorem within_radius_store (fm : FloatMath) (customer : Customer) (ms : MarketState)
    (id : Int) (h : within_radius fm customer ms id = true) :
    ∃ store, ms.get_restaurant id = some store ∧
      calculate_distance fm customer.latitude customer.longitude store.latitude
        store.longitude ≤ MAX_TRAVEL_DISTANCE := by
  cases hst : ms.get_restaurant id with
  | none => simp [within_radius, hst] at h
  | some store => exact ⟨store, rfl, ((within_radius_of_store fm customer ms id store hst).2).mp h⟩

theorem amer_closest_spec (fm : FloatMath) (customer : Customer) (ms : MarketState)
    (ids : List Int) :
    ∀ (cid : Int) (md : ℚ), ∃ r, amer_closest fm customer ms ids cid md = r ∧
      ((r = cid ∧ ∀ id ∈ ids, within_radius fm customer ms id = true →
          md ≤ distance_to fm customer ms id) ∨
       (∃ k, ids[k]? = some r ∧ within_radius fm customer ms r = true ∧
          distance_to fm customer ms r < md ∧
          (∀ (j : Nat) (id : Int), j < k → ids[j]? = some id →
            within_radius fm customer ms id = true →
            distance_to fm customer ms r < distance_to fm customer ms id) ∧
          (∀ id ∈ ids, within_radius fm customer ms id = true →
            distance_to fm customer ms r ≤ distance_to fm customer ms id))) := by
  induction ids with
  | nil =>
    intro cid md
    exact ⟨cid, rfl, Or.inl ⟨rfl, fun id hid => absurd hid (List.not_mem_nil id)⟩⟩
  | cons a rest ih =>
    intro cid md
    unfold amer_closest
    cases hst : ms.get_restaurant a with
    | none =>
      have hout : within_radius fm customer ms a = false := by simp [within_radius, hst]
      simp only
      obtain ⟨r, hr, hcase⟩ := ih cid md
      refine ⟨r, hr, ?_⟩
      rcases hcase with ⟨h1, h2⟩ | ⟨k, h1, h2, h3, h4, h5⟩
      · left
        refine ⟨h1, ?_⟩
        intro id hid hin
        rcases List.mem_cons.mp hid with h | h
        · rw [h, hout] at hin; cases hin
        · exact h2 id h hin
      · right
        refine ⟨k + 1, by simpa using h1, h2, h3, ?_, ?_⟩
        · intro j id hj hget hin
          cases j with
          | zero =>
            simp only [List.getElem?_cons_zero, Option.some.injEq] at hget
            rw [← hget, hout] at hin; cases hin
          | succ j => exact h4 j id (by omega) (by simpa using hget) hin
        · intro id hid hin
          rcases List.mem_cons.mp hid with h | h
          · rw [h, hout] at hin; cases hin
          · exact h5 id h hin
    | some store =>
      obtain ⟨hd, hw⟩ := within_radius_of_store fm customer ms a store hst
      simp only
      split
      · rename_i hcond
        obtain ⟨r, hr, hcase⟩ := ih a
          (calculate_distance fm customer.latitude customer.longitude store.latitude
            store.longitude)
        refine ⟨r, hr, Or.inr ?_⟩
        rcases hcase with ⟨h1, h2⟩ | ⟨k, h1, h2, h3, h4, h5⟩
        · subst h1
          refine ⟨0, List.getElem?_cons_zero, hw.mpr hcond.2, by rw [hd]; exact hcond.1, ?_, ?_⟩
          · intro j id hj; omega
          · intro id hid hin
            rcases List.mem_cons.mp hid with h | h
            · rw [h]
            · rw [hd]; exact h2 id h hin
        · refine ⟨k + 1, by simpa using h1, h2, lt_trans h3 hcond.1, ?_, ?_⟩
          · intro j id hj hget hin
            cases j with
            | zero =>
              simp only [List.getElem?_cons_zero, Option.some.injEq] at hget
              rw [← hget, hd]; exact h3
            | succ j => exact h4 j id (by omega) (by simpa using hget) hin
          · intro id hid hin
            rcases List.mem_cons.mp hid with h | h
            · rw [h, hd]; exact le_of_lt h3
            · exact h5 id h hin
      · rename_i hcond
        have hfar : within_radius fm customer ms a = true →
            md ≤ distance_to fm customer ms a := by
          intro hin
          rw [hd]
          by_contra hlt
          exact hcond ⟨not_le.mp hlt, hw.mp hin⟩
        obtain ⟨r, hr, hcase⟩ := ih cid md
        refine ⟨r, hr, ?_⟩
        rcases hcase with ⟨h1, h2⟩ | ⟨k, h1, h2, h3, h4, h5⟩
        · left
          refine ⟨h1, ?_⟩
          intro id hid hin
          rcases List.mem_cons.mp hid with h | h
          · rw [h] at hin ⊢; exact hfar hin
          · exact h2 id h hin
        · right
          refine ⟨k + 1, by simpa using h1, h2, h3, ?_, ?_⟩
          · intro j id hj hget hin
            cases j with
            | zero =>
              simp only [List.getElem?_cons_zero, Option.some.injEq] at hget
              rw [← hget] at hin ⊢
              exact lt_of_lt_of_le h3 (hfar hin)
            | succ j => exact h4 j id (by omega) (by simpa using hget) hin
          · intro id hid hin
            rcases List.mem_cons.mp hid with h | h
            · rw [h] at hin ⊢
              exact le_of_lt (lt_of_lt_of_le h3 (hfar hin))
            · exact h5 id h hin

theorem amer_scores_sound (fm : FloatMath) (customer : Customer) (ms : MarketState)
    (selected ids : List Int) (e : Int × ℚ)
    (h : e ∈ amer_scores fm customer ms selected ids) :
    e.1 ∈ ids ∧ within_radius fm customer ms e.1 = true := by
  induction ids with
  | nil => simp [amer_scores] at h
  | cons a rest ih =>
    unfold amer_scores at h
    split at h
    · obtain ⟨h1, h2⟩ := ih h
      exact ⟨List.mem_cons_of_mem _ h1, h2⟩
    · cases hst : ms.get_restaurant a with
      | none =>
        simp only [hst] at h
        obtain ⟨h1, h2⟩ := ih h
        exact ⟨List.mem_cons_of_mem _ h1, h2⟩
      | some store =>
        simp only [hst] at h
        split at h
        · obtain ⟨h1, h2⟩ := ih h
          exact ⟨List.mem_cons_of_mem _ h1, h2⟩
        · rename_i hfar
          rcases List.mem_cons.mp h with h1 | h1
          · subst h1
            exact ⟨List.mem_cons_self _ _,
              ((within_radius_of_store fm customer ms _ store hst).2).mpr (not_lt.mp hfar)⟩
          · obtain ⟨h2, h3⟩ := ih h1
            exact ⟨List.mem_cons_of_mem _ h2, h3⟩

theorem rat_sqrt_sq (q : ℚ) (h : 0 ≤ q) : Rat.sqrt (q * q) = q := by
  rw [Rat.sqrt_eq, abs_of_nonneg h]

theorem sqrt_of_distances :
    Rat.sqrt (1 / 10000) = 1 / 100 ∧ Rat.sqrt (9 / 10000) = 3 / 100 ∧
      Rat.sqrt (4 / 625) = 2 / 25 := by
  refine ⟨?_, ?_, ?_⟩
  · have h : (1 / 10000 : ℚ) = (1 / 100) * (1 / 100) := by norm_num
    rw [h, rat_sqrt_sq _ (by norm_num)]
  · have h : (9 / 10000 : ℚ) = (3 / 100) * (3 / 100) := by norm_num
    rw [h, rat_sqrt_sq _ (by norm_num)]
  · have h : (4 / 625 : ℚ) = (2 / 25) * (2 / 25) := by norm_num
    rw [h, rat_sqrt_sq _ (by norm_num)]

theorem amer_distances_call :
    get_displayed_stores_amer reference_math insertion_sort (customer_fixture 1)
      distances_state 3 = [2, 3, 1] := by
  norm_num [get_displayed_stores_amer, distances_state, market_fixture,
    MarketState.get_available_restaurant_ids, store_fixture, Restaurant.can_accept_reservation,
    amer_closest, MarketState.get_restaurant, calculate_distance, customer_fixture, reference_math,
    MAX_TRAVEL_DISTANCE, FLT_MAX, amer_scores, insertion_sort, sqrt_of_distances,
    Customer.calculate_store_score, Restaurant.get_rating, map_find, CustomerHistory.fresh,
    score_gt, List.orderedInsert]
  rfl

theorem harmony_scores_sound (fm : FloatMath) (customer : Customer) (avg : ℚ)
    (ids : List Int) :
    ∀ (ms : MarketState) (acc : List (Int × ℚ)) (e : Int × ℚ),
      e ∈ (harmony_scores fm customer avg ids ms acc).1 →
      e ∈ acc ∨ within_radius fm customer ms e.1 = true := by
  induction ids with
  | nil => intro ms acc e h; exact Or.inl h
  | cons a rest ih =>
    intro ms acc e h
    unfold harmony_scores at h
    cases hst : ms.get_restaurant a with
    | none =>
      simp only [hst] at h
      exact ih ms acc e h
    | some store =>
      simp only [hst] at h
      split at h
      · exact ih ms acc e h
      · rename_i hfar
        rcases ih _ _ e h with h1 | h1
        · rcases List.mem_append.mp h1 with h2 | h2
          · exact Or.inl h2
          · right
            rw [List.mem_singleton] at h2
            rw [h2]
            exact ((within_radius_of_store fm customer ms a store hst).2).mpr (not_lt.mp hfar)
        · exact Or.inr h1

theorem harmony_high_waste_mem (ms : MarketState) (store_scores : List (Int × ℚ))
    (result : List Int) (id : Int) (h : id ∈ harmony_high_waste ms store_scores result) :
    id ∈ result ∨ id ∈ store_scores.map (fun s => s.1) := by
  unfold harmony_high_waste at h
  split at h
  · rename_i s hs
    rcases List.mem_append.mp h with h1 | h1
    · exact Or.inl h1
    · rw [List.mem_singleton] at h1
      exact Or.inr (List.mem_map.mpr ⟨s, List.mem_of_find?_eq_some hs, h1.symm⟩)
  · exact Or.inl h

theorem harmony_discovery_mem (customer : Customer) (ms : MarketState)
    (store_scores : List (Int × ℚ)) (result : List Int) (id : Int)
    (h : id ∈ harmony_discovery customer ms store_scores result) :
    id ∈ result ∨ id ∈ store_scores.map (fun s => s.1) := by
  unfold harmony_discovery at h
  split at h
  · rename_i s hs
    rcases List.mem_append.mp h with h1 | h1
    · exact Or.inl h1
    · rw [List.mem_singleton] at h1
      exact Or.inr (List.mem_map.mpr ⟨s, List.mem_of_find?_eq_some hs, h1.symm⟩)
  · exact Or.inl h

theorem fill_remaining_mem (n_displayed : Int) (store_scores : List (Int × ℚ)) :
    ∀ (result : List Int) (id : Int), id ∈ fill_remaining n_displayed store_scores result →
      id ∈ result ∨ id ∈ store_scores.map (fun s => s.1) := by
  induction store_scores with
  | nil => intro result id h; exact Or.inl h
  | cons s rest ih =>
    intro result id h
    unfold fill_remaining at h
    split at h
    · split at h
      · rcases ih result id h with h1 | h1
        · exact Or.inl h1
        · exact Or.inr (List.mem_cons_of_mem _ h1)
      · rcases ih _ id h with h1 | h1
        · rcases List.mem_append.mp h1 with h2 | h2
          · exact Or.inl h2
          · rw [List.mem_singleton] at h2
            exact Or.inr (by rw [h2]; exact List.mem_cons_self _ _)
        · exact Or.inr (List.mem_cons_of_mem _ h1)
    · exact Or.inl h

theorem ite_mem_cases {c : Prop} [Decidable c] {a b : List Int} {x : Int}
    (h : x ∈ if c then a else b) : x ∈ a ∨ x ∈ b := by
  split at h
  · exact Or.inl h
  · exact Or.inr h

theorem harmony_within_radius (fm : FloatMath) (sort : StdSort) (hs : SortContract sort)
    (customer : Customer) (ms : MarketState) (n_displayed : Int) (id : Int)
    (h : id ∈ (get_displayed_stores_harmony fm sort customer ms n_displayed).1) :
    within_radius fm customer ms id = true := by
  by_cases hav : ms.get_available_restaurant_ids = []
  · simp [get_displayed_stores_harmony, hav] at h
  · simp only [get_displayed_stores_harmony, hav, if_false] at h
    have hperm := (hs (Int × ℚ) score_gt
      (harmony_scores fm customer (harmony_avg_impressions ms) ms.get_available_restaurant_ids
        ms []).1 score_gt_swo).1
    have hscore : ∀ x ∈ (sort (Int × ℚ) score_gt
        (harmony_scores fm customer (harmony_avg_impressions ms)
          ms.get_available_restaurant_ids ms []).1).map (fun s => s.1),
        within_radius fm customer ms x = true := by
      intro x hx
      obtain ⟨e, he, rfl⟩ := List.mem_map.mp hx
      rcases harmony_scores_sound fm customer _ _ ms [] e (hperm.mem_iff.mp he) with h1 | h1
      · exact absurd h1 (List.not_mem_nil e)
      · exact h1
    rcases fill_remaining_mem _ _ _ id h with h1 | h1
    · have h2 : id ∈ ((sort (Int × ℚ) score_gt
          (harmony_scores fm customer (harmony_avg_impressions ms)
            ms.get_available_restaurant_ids ms []).1).take
          (float_to_int ((n_displayed : ℚ) * (7 / 10))).toNat).map (fun s => s.1) ∨
          id ∈ (sort (Int × ℚ) score_gt
            (harmony_scores fm customer (harmony_avg_impressions ms)
              ms.get_available_restaurant_ids ms []).1).map (fun s => s.1) := by
        have hstep3 : ∀ x, x ∈ (if size_lt (((sort (Int × ℚ) score_gt
            (harmony_scores fm customer (harmony_avg_impressions ms)
              ms.get_available_restaurant_ids ms []).1).take
            (float_to_int ((n_displayed : ℚ) * (7 / 10))).toNat).map (fun s => s.1)).length
            n_displayed = true then
            harmony_high_waste
              (harmony_scores fm customer (harmony_avg_impressions ms)
                ms.get_available_restaurant_ids ms []).2
              (sort (Int × ℚ) score_gt
                (harmony_scores fm customer (harmony_avg_impressions ms)
                  ms.get_available_restaurant_ids ms []).1)
              (((sort (Int × ℚ) score_gt
                (harmony_scores fm customer (harmony_avg_impressions ms)
                  ms.get_available_restaurant_ids ms []).1).take
                (float_to_int ((n_displayed : ℚ) * (7 / 10))).toNat).map (fun s => s.1))
            else ((sort (Int × ℚ) score_gt
              (harmony_scores fm customer (harmony_avg_impressions ms)
                ms.get_available_restaurant_ids ms []).1).take
              (float_to_int ((n_displayed : ℚ) * (7 / 10))).toNat).map (fun s => s.1)) →
            x ∈ ((sort (Int × ℚ) score_gt
              (harmony_scores fm customer (harmony_avg_impressions ms)
                ms.get_available_restaurant_ids ms []).1).take
              (float_to_int ((n_displayed : ℚ) * (7 / 10))).toNat).map (fun s => s.1) ∨
            x ∈ (sort (Int × ℚ) score_gt
              (harmony_scores fm customer (harmony_avg_impressions ms)
                ms.get_available_restaurant_ids ms []).1).map (fun s => s.1) := by
          intro x hx
          rcases ite_mem_cases hx with h4 | h4
          · exact harmony_high_waste_mem _ _ _ x h4
          · exact Or.inl h4
        rcases ite_mem_cases h1 with h3 | h3
        · rcases harmony_discovery_mem _ _ _ _ id h3 with h4 | h4
          · exact hstep3 id h4
          · exact Or.inr h4
        · exact hstep3 id h3
      rcases h2 with h3 | h3
      · obtain ⟨e, he, rfl⟩ := List.mem_map.mp h3
        exact hscore _ (List.mem_map.mpr ⟨e, List.mem_of_mem_take he, rfl⟩)
      · exact hscore id h3
    · exact hscore id h1

theorem amer_within_radius (fm : FloatMath) (sort : StdSort) (hs : SortContract sort)
    (customer : Customer) (ms : MarketState) (n_displayed : Int) (id : Int)
    (h : id ∈ get_displayed_stores_amer fm sort customer ms n_displayed) :
    within_radius fm customer ms id = true := by
  by_cases hav : ms.get_available_restaurant_ids = []
  · simp [get_displayed_stores_amer, hav] at h
  · simp only [get_displayed_stores_amer, hav, if_false] at h
    rcases List.mem_append.mp h with h1 | h1
    · obtain ⟨r, hr, hcase⟩ := amer_closest_spec fm customer ms
        ms.get_available_restaurant_ids (-1) FLT_MAX
      rw [hr] at h1
      split at h1
      · rw [List.mem_singleton] at h1
        rename_i hne
        rcases hcase with ⟨h2, _⟩ | ⟨k, _, h2, _⟩
        · exact absurd h2 hne
        · rw [h1]; exact h2
      · exact absurd h1 (List.not_mem_nil id)
    · obtain ⟨e, he, rfl⟩ := List.mem_map.mp h1
      exact (amer_scores_sound fm customer ms _ _ e
        (((hs (Int × ℚ) score_gt _ score_gt_swo).1).mem_iff.mp (List.mem_of_mem_take he))).2

theorem ziad_within_radius (fm : FloatMath) (sort : StdSort) (hs : SortContract sort)
    (customer : Customer) (ms : MarketState) (n_displayed : Int) (id : Int)
    (hid : id ∈ get_displayed_stores_ziad fm sort customer ms n_displayed) :
    within_radius fm customer ms id = true := by
  by_cases hav : ms.get_available_restaurant_ids = []
  · simp [get_displayed_stores_ziad, hav] at hid
  · simp only [get_displayed_stores_ziad, hav, if_false] at hid
    obtain ⟨e, he, rfl⟩ := List.mem_map.mp hid
    exact (ziad_scores_sound fm customer ms _ e
      ((hs (Int × ℚ) score_gt (ziad_scores fm customer ms ms.get_available_restaurant_ids)
        score_gt_swo).1.mem_iff.mp (List.mem_of_mem_take he))).2.1

/-- C24: for the Amer, Ziad and Harmony strategies, under a `std::sort` that
meets its contract, `get_displayed_stores` returns for every customer, market
state and `n_displayed`, and every id it returns belongs to a store whose
Euclidean distance to the customer is `<= 0.05` (`MAX_TRAVEL_DISTANCE`). -/
theorem displayed_within_radius (fm : FloatMath) (sort : StdSort) (hs : SortContract sort)
    (customer : Customer) (ms : MarketState) (n_displayed : Int) (algorithm : RankingAlgorithm)
    (halg : algorithm = RankingAlgorithm.AMER ∨ algorithm = RankingAlgorithm.ZIAD ∨
      algorithm = RankingAlgorithm.HARMONY) :
    ∃ displayed msd,
      get_displayed_stores fm sort customer ms n_displayed algorithm = some (displayed, msd) ∧
      ∀ id ∈ displayed, ∃ store, ms.get_restaurant id = some store ∧
        calculate_distance fm customer.latitude customer.longitude store.latitude
          store.longitude ≤ MAX_TRAVEL_DISTANCE := by
  rcases halg with h | h | h
  · subst h
    refine ⟨_, _, rfl, ?_⟩
    intro id hid
    exact within_radius_store fm customer ms id
      (amer_within_radius fm sort hs customer ms n_displayed id hid)
  · subst h
    refine ⟨_, _, rfl, ?_⟩
    intro id hid
    exact within_radius_store fm customer ms id
      (ziad_within_radius fm sort hs customer ms n_displayed id hid)
  · subst h
    refine ⟨(get_displayed_stores_harmony fm sort customer ms n_displayed).1,
      (get_displayed_stores_harmony fm sort customer ms n_displayed).2, rfl, ?_⟩
    intro id hid
    exact within_radius_store fm customer ms id
      (harmony_within_radius fm sort hs customer ms n_displayed id hid)

/-- C24 (witness): the Amer strategy on four stores, one of them 0.08 degrees
away: the three stores within 0.05 are displayed, the far one is not. -/
theorem displayed_within_radius_witness :
    (RankingAlgorithm.AMER = RankingAlgorithm.AMER ∨ RankingAlgorithm.AMER = RankingAlgorithm.ZIAD ∨
      RankingAlgorithm.AMER = RankingAlgorithm.HARMONY) ∧
    (∃ displayed msd,
      get_displayed_stores reference_math insertion_sort (customer_fixture 1) distances_state 3
        RankingAlgorithm.AMER = some (displayed, msd) ∧
      ∀ id ∈ displayed, ∃ store, distances_state.get_restaurant id = some store ∧
        calculate_distance reference_math (customer_fixture 1).latitude
          (customer_fixture 1).longitude store.latitude store.longitude ≤
          MAX_TRAVEL_DISTANCE) ∧
    get_displayed_stores_amer reference_math insertion_sort (customer_fixture 1)
      distances_state 3 = [2, 3, 1] :=
  ⟨Or.inl rfl,
    displayed_within_radius reference_math insertion_sort insertion_sort_conforms
      (customer_fixture 1) distances_state 3 RankingAlgorithm.AMER (Or.inl rfl),
    amer_distances_call⟩

/-! ## Selection: softmax and the cumulative scan -/

theorem probabilistic_select_eq (fm : FloatMath) (random_val : ℚ) (store_ids : List Int)
    (valid_indices : List Nat) (valid_scores : List ℚ) (hne : valid_scores ≠ []) :
    probabilistic_select fm random_val store_ids valid_indices valid_scores =
      match cumulative_pick random_val (softmax_probabilities fm.exp valid_scores)
        valid_indices 0 with
      | some i => store_ids[i]?
      | none =>
        match valid_indices.getLast? with
        | some i => store_ids[i]?
        | none => none := by
  cases valid_scores with
  | nil => exact absurd rfl hne
  | cons first others => rfl

theorem foldl_add_eq_sum {F : Type} [LinearOrderedField F] (l : List F) :
    ∀ a : F, l.foldl (fun acc e => acc + e) a = a + l.sum := by
  induction l with
  | nil => intro a; simp
  | cons x rest ih =>
    intro a
    rw [List.foldl_cons, ih, List.sum_cons]
    ring

theorem softmax_probabilities_eq {F : Type} [LinearOrderedField F] (exp : F → F)
    (hadd : ∀ x y, exp (x + y) = exp x * exp y) (hpos : ∀ x, 0 < exp x)
    (scores : List F) (hne : scores ≠ []) :
    softmax_probabilities exp scores =
      scores.map (fun s => exp (s / 2) / (scores.map (fun t => exp (t / 2))).sum) ∧
    0 < (scores.map (fun t => exp (t / 2))).sum := by
  have hsum : 0 < (scores.map (fun t => exp (t / 2))).sum := by
    cases scores with
    | nil => exact absurd rfl hne
    | cons a rest =>
      rw [List.map_cons, List.sum_cons]
      have : 0 ≤ (rest.map (fun t => exp (t / 2))).sum :=
        List.sum_nonneg (fun x hx => by
          obtain ⟨t, _, rfl⟩ := List.mem_map.mp hx
          exact le_of_lt (hpos _))
      have := hpos (a / 2)
      linarith
  refine ⟨?_, hsum⟩
  cases scores with
  | nil => exact absurd rfl hne
  | cons first others =>
    have hexps : ∀ m : F, (first :: others).map (fun score => exp ((score - m + 1) / 2)) =
        ((first :: others).map (fun t => exp (t / 2))).map (fun e => e * exp ((1 - m) / 2)) := by
      intro m
      rw [List.map_map]
      apply List.map_congr_left
      intro s _
      simp only [Function.comp]
      rw [← hadd]
      congr 1
      ring
    simp only [softmax_probabilities]
    rw [hexps, foldl_add_eq_sum, zero_add, List.sum_map_mul_right, List.map_map, List.map_map]
    apply List.map_congr_left
    intro s _
    simp only [Function.comp]
    have hK := hpos ((1 - others.foldl min first) / 2)
    rw [List.map_id']
    exact mul_div_mul_right _ _ (ne_of_gt hK)

/-- C26: over any ordered field of numbers with an `exp` that turns sums into
products and is positive (the real numbers with the real exponential), for
every non-empty list of retained scores the probabilities `probabilistic_select`
computes, `exp((s_i - min + 1) / 2)` divided by the sum of
`exp((s_j - min + 1) / 2)`, equal `exp(s_i / 2)` divided by the sum of
`exp(s_j / 2)`; they are positive and sum to 1. -/
theorem softmax_shift_invariant {F : Type} [LinearOrderedField F] (exp : F → F)
    (hadd : ∀ x y, exp (x + y) = exp x * exp y) (hpos : ∀ x, 0 < exp x)
    (scores : List F) (hne : scores ≠ []) :
    softmax_probabilities exp scores =
      scores.map (fun s => exp (s / 2) / (scores.map (fun t => exp (t / 2))).sum) ∧
    (∀ p ∈ softmax_probabilities exp scores, 0 < p) ∧
    (softmax_probabilities exp scores).sum = 1 ∧
    (∀ (fm : FloatMath) (random_val : ℚ) (store_ids : List Int) (valid_indices : List Nat)
      (valid_scores : List ℚ), valid_scores ≠ [] →
      probabilistic_select fm random_val store_ids valid_indices valid_scores =
        match cumulative_pick random_val (softmax_probabilities fm.exp valid_scores)
          valid_indices 0 with
        | some i => store_ids[i]?
        | none =>
          match valid_indices.getLast? with
          | some i => store_ids[i]?
          | none => none) := by
  obtain ⟨heq, hsum⟩ := softmax_probabilities_eq exp hadd hpos scores hne
  refine ⟨heq, ?_, ?_, fun fm random_val store_ids valid_indices valid_scores h =>
    probabilistic_select_eq fm random_val store_ids valid_indices valid_scores h⟩
  · intro p hp
    rw [heq] at hp
    obtain ⟨s, _, rfl⟩ := List.mem_map.mp hp
    exact div_pos (hpos _) hsum
  · rw [heq]
    have : scores.map (fun s => exp (s / 2) / (scores.map (fun t => exp (t / 2))).sum) =
        (scores.map (fun t => exp (t / 2))).map
          (fun e => e * ((scores.map (fun t => exp (t / 2))).sum)⁻¹) := by
      rw [List.map_map]
      apply List.map_congr_left
      intro s _
      simp only [Function.comp, div_eq_mul_inv]
    rw [this, List.sum_map_mul_right]
    simp only [List.map_id']
    exact mul_inv_cancel₀ (ne_of_gt hsum)

/-- C26 (witness): the real numbers with the real exponential and the retained scores 1 and 3. -/
theorem softmax_shift_invariant_witness :
    softmax_probabilities Real.exp [1, 3] =
      [1, 3].map (fun s => Real.exp (s / 2) / ([1, 3].map (fun t => Real.exp (t / 2))).sum) ∧
    (∀ p ∈ softmax_probabilities Real.exp [1, 3], 0 < p) ∧
    (softmax_probabilities Real.exp [1, 3]).sum = 1 ∧
    (∀ (fm : FloatMath) (random_val : ℚ) (store_ids : List Int) (valid_indices : List Nat)
      (valid_scores : List ℚ), valid_scores ≠ [] →
      probabilistic_select fm random_val store_ids valid_indices valid_scores =
        match cumulative_pick random_val (softmax_probabilities fm.exp valid_scores)
          valid_indices 0 with
        | some i => store_ids[i]?
        | none =>
          match valid_indices.getLast? with
          | some i => store_ids[i]?
          | none => none) :=
  softmax_shift_invariant Real.exp Real.exp_add Real.exp_pos [1, 3] (by simp)

theorem softmax_probabilities_length {F : Type} [LinearOrderedField F] (exp : F → F)
    (scores : List F) : (softmax_probabilities exp scores).length = scores.length := by
  cases scores with
  | nil => rfl
  | cons first others => simp [softmax_probabilities]

theorem cumulative_pick_first (random_val : ℚ) (ps : List ℚ) :
    ∀ (is : List Nat) (c : ℚ) (i : Nat), is.length = ps.length → i < ps.length →
      random_val ≤ c + (ps.take (i + 1)).sum →
      (∀ j, j < i → c + (ps.take (j + 1)).sum < random_val) →
      cumulative_pick random_val ps is c = is[i]? := by
  induction ps with
  | nil => intro is c i _ hi; simp at hi
  | cons p rest ih =>
    intro is c i hlen hi hreach hbefore
    cases is with
    | nil => simp at hlen
    | cons k ks =>
      unfold cumulative_pick
      cases i with
      | zero =>
        have : random_val ≤ c + p := by simpa using hreach
        rw [if_pos this]
        exact List.getElem?_cons_zero.symm
      | succ i =>
        have h0 := hbefore 0 (by omega)
        have : ¬ random_val ≤ c + p := by
          simp only [zero_add, List.take_succ_cons, List.take_zero, List.sum_cons,
            List.sum_nil, add_zero] at h0
          exact not_le.mpr h0
        rw [if_neg this, List.getElem?_cons_succ]
        apply ih ks (c + p) i (by simpa using hlen) (by simpa using hi)
        · rw [List.take_succ_cons, List.sum_cons] at hreach
          linarith
        · intro j hj
          have := hbefore (j + 1) (by omega)
          rw [List.take_succ_cons, List.sum_cons] at this
          linarith

theorem cumulative_pick_none (random_val : ℚ) (ps : List ℚ) :
    ∀ (is : List Nat) (c : ℚ),
      (∀ j, j < ps.length → c + (ps.take (j + 1)).sum < random_val) →
      cumulative_pick random_val ps is c = none := by
  induction ps with
  | nil => intro is c _; rfl
  | cons p rest ih =>
    intro is c hall
    cases is with
    | nil => rfl
    | cons k ks =>
      unfold cumulative_pick
      have h0 := hall 0 (by simp)
      have : ¬ random_val ≤ c + p := by
        simp only [zero_add, List.take_succ_cons, List.take_zero, List.sum_cons,
          List.sum_nil, add_zero] at h0
        exact not_le.mpr h0
      rw [if_neg this]
      apply ih ks (c + p)
      intro j hj
      have := hall (j + 1) (by simpa using hj)
      rw [List.take_succ_cons, List.sum_cons] at this
      linarith

theorem indexed_get {α : Type} (l : List α) (e : Nat × α) (h : e ∈ indexed l) :
    l[e.1]? = some e.2 := by
  unfold indexed at h
  obtain ⟨i, hi⟩ := List.getElem?_of_mem h
  rw [List.getElem?_zip_eq_some] at hi
  obtain ⟨h1, h2⟩ := hi
  have hlt : i < (List.range l.length).length := by
    rcases Nat.lt_or_ge i (List.range l.length).length with h3 | h3
    · exact h3
    · rw [List.getElem?_eq_none h3] at h1; cases h1
  rw [List.getElem?_eq_getElem hlt, List.getElem_range] at h1
  have : e.1 = i := (Option.some.inj h1).symm
  rw [this]
  exact h2

theorem probabilistic_select_mem (fm : FloatMath) (random_val : ℚ) (store_ids : List Int)
    (valid_indices : List Nat) (valid_scores : List ℚ) (id : Int)
    (h : probabilistic_select fm random_val store_ids valid_indices valid_scores = some id) :
    ∃ i ∈ valid_indices, store_ids[i]? = some id := by
  cases valid_scores with
  | nil => simp [probabilistic_select] at h
  | cons first others =>
    simp only [probabilistic_select] at h
    split at h
    · rename_i i hpick
      exact ⟨i, cumulative_pick_mem _ _ _ _ i hpick, h⟩
    · split at h
      · rename_i i hlast
        exact ⟨i, List.mem_of_getLast?_eq_some hlast, h⟩
      · cases h

theorem select_store_valid (fm : FloatMath) (random_val : ℚ) (customer : Customer)
    (displayed : List Int) (scores : List ℚ) (ms : MarketState) (id : Int)
    (hsel : select_store fm random_val customer displayed scores ms = some id)
    (hid : id ≠ -1) :
    ∃ (i : Nat) (adjusted : List ℚ) (a : ℚ),
      adjust_all customer ms displayed scores = some adjusted ∧
      displayed[i]? = some id ∧ adjusted[i]? = some a ∧
      a ≥ customer.leaving_threshold + (1 - customer.loyalty) * 2 ∧ a > -50 := by
  cases scores with
  | nil =>
    simp only [select_store, Option.some.injEq] at hsel
    exact absurd hsel.symm hid
  | cons first others =>
    simp only [select_store] at hsel
    split at hsel
    · simp only [Option.some.injEq] at hsel
      exact absurd hsel.symm hid
    · cases hadj : adjust_all customer ms displayed (first :: others) with
      | none => rw [hadj] at hsel; cases hsel
      | some adjusted =>
        rw [hadj] at hsel
        simp only at hsel
        split at hsel
        · simp only [Option.some.injEq] at hsel
          exact absurd hsel.symm hid
        · obtain ⟨k, hk, hget⟩ := probabilistic_select_mem fm random_val displayed _ _ id hsel
          obtain ⟨e, he, rfl⟩ := List.mem_map.mp hk
          obtain ⟨hmem, hcond⟩ := List.mem_filter.mp he
          simp only [decide_eq_true_eq] at hcond
          exact ⟨e.1, adjusted, e.2, rfl, hget, indexed_get adjusted e hmem, hcond.1, hcond.2⟩

/-- C25: with `p_1 .. p_m` the probabilities of the retained stores, in
displayed order, and a draw `u`, `probabilistic_select` returns the retained
store at the smallest position `i` with `p_1 + ... + p_i >= u`, and the last
retained store if there is no such position; and every id returned by
`select_store` other than `-1` is a displayed store whose adjusted score is
`>=` the decision threshold and `> -50`. -/
theorem selection_rule (fm : FloatMath) (random_val : ℚ) (store_ids : List Int)
    (valid_indices : List Nat) (valid_scores : List ℚ) (customer : Customer)
    (displayed : List Int) (scores : List ℚ) (ms : MarketState) (id : Int)
    (hne : valid_scores ≠ []) (hlen : valid_indices.length = valid_scores.length)
    (hsel : select_store fm random_val customer displayed scores ms = some id)
    (hid : id ≠ -1) :
    (∀ i, i < valid_scores.length →
      random_val ≤ ((softmax_probabilities fm.exp valid_scores).take (i + 1)).sum →
      (∀ j, j < i → ((softmax_probabilities fm.exp valid_scores).take (j + 1)).sum <
        random_val) →
      probabilistic_select fm random_val store_ids valid_indices valid_scores =
        (valid_indices[i]?).bind (fun k => store_ids[k]?)) ∧
    ((∀ j, j < valid_scores.length →
        ((softmax_probabilities fm.exp valid_scores).take (j + 1)).sum < random_val) →
      probabilistic_select fm random_val store_ids valid_indices valid_scores =
        (valid_indices.getLast?).bind (fun k => store_ids[k]?)) ∧
    (∃ (i : Nat) (adjusted : List ℚ) (a : ℚ),
      adjust_all customer ms displayed scores = some adjusted ∧
      displayed[i]? = some id ∧ adjusted[i]? = some a ∧
      a ≥ customer.leaving_threshold + (1 - customer.loyalty) * 2 ∧ a > -50) := by
  have hplen := softmax_probabilities_length fm.exp valid_scores
  refine ⟨?_, ?_, ?_⟩
  · intro i hi hreach hbefore
    rw [probabilistic_select_eq fm random_val store_ids valid_indices valid_scores hne,
      cumulative_pick_first random_val _ valid_indices 0 i (by rw [hplen, hlen])
        (by rw [hplen]; exact hi) (by rw [zero_add]; exact hreach)
        (fun j hj => by rw [zero_add]; exact hbefore j hj)]
    have hlt : i < valid_indices.length := by rw [hlen]; exact hi
    rw [List.getElem?_eq_getElem hlt]
    rfl
  · intro hall
    rw [probabilistic_select_eq fm random_val store_ids valid_indices valid_scores hne,
      cumulative_pick_none random_val _ valid_indices 0
        (fun j hj => by rw [zero_add]; exact hall j (by rw [← hplen]; exact hj))]
    cases valid_indices.getLast? with
    | none => rfl
    | some k => rfl
  · exact select_store_valid fm random_val customer displayed scores ms id hsel hid

theorem select_rivalry_call :
    select_store reference_math (3 / 5) (customer_fixture 1) [1, 2] [29 / 4, 27 / 4]
      rivalry_state = some 2 := by
  norm_num [select_store, adjust_all, adjust_score, rivalry_state, market_fixture,
    MarketState.get_restaurant, store_fixture, customer_fixture, CustomerHistory.fresh,
    map_find, indexed, probabilistic_select, reference_math, cumulative_pick, List.range,
    List.range.loop]
  exact List.cons_ne_nil _ _

/-- C25 (witness): two displayed stores with adjusted scores 7.5 and 7.0 and
the draw `u = 0.6`: the first probability is below `u`, so the second store is returned. -/
theorem selection_rule_witness :
    ((∀ i, i < [15 / 2, (7 : ℚ)].length →
      (3 / 5 : ℚ) ≤ ((softmax_probabilities reference_math.exp [15 / 2, 7]).take (i + 1)).sum →
      (∀ j, j < i → ((softmax_probabilities reference_math.exp [15 / 2, 7]).take (j + 1)).sum <
        3 / 5) →
      probabilistic_select reference_math (3 / 5) [1, 2] [0, 1] [15 / 2, 7] =
        ([0, 1][i]?).bind (fun k => [1, 2][k]?)) ∧
    ((∀ j, j < [15 / 2, (7 : ℚ)].length →
        ((softmax_probabilities reference_math.exp [15 / 2, 7]).take (j + 1)).sum < 3 / 5) →
      probabilistic_select reference_math (3 / 5) [1, 2] [0, 1] [15 / 2, 7] =
        ([0, 1].getLast?).bind (fun k => [1, 2][k]?)) ∧
    (∃ (i : Nat) (adjusted : List ℚ) (a : ℚ),
      adjust_all (customer_fixture 1) rivalry_state [1, 2] [29 / 4, 27 / 4] = some adjusted ∧
      [1, 2][i]? = some (2 : Int) ∧ adjusted[i]? = some a ∧
      a ≥ (customer_fixture 1).leaving_threshold + (1 - (customer_fixture 1).loyalty) * 2 ∧
      a > -50)) ∧
    softmax_probabilities reference_math.exp [15 / 2, 7] = [5 / 9, 4 / 9] ∧
    probabilistic_select reference_math (3 / 5) [1, 2] [0, 1] [15 / 2, 7] = some 2 :=
  ⟨selection_rule reference_math (3 / 5) [1, 2] [0, 1] [15 / 2, 7] (customer_fixture 1) [1, 2]
      [29 / 4, 27 / 4] rivalry_state 2 (by simp) rfl select_rivalry_call (by decide),
    by norm_num [softmax_probabilities, reference_math],
    by norm_num [probabilistic_select, reference_math, cumulative_pick]⟩

/-! ## Fairness: the Gini coefficient of the exposures -/

theorem int_lt_swo : StrictWeakOrder int_lt := by
  constructor
  · intro a; simp [int_lt]
  · intro a b c; simp only [int_lt, decide_eq_true_eq]; exact fun h1 h2 => lt_trans h1 h2
  · intro a b c; simp only [int_lt, decide_eq_false_iff_not, not_lt]
    intro h1 h2 h3 h4
    exact ⟨le_trans h3 h1, le_trans h2 h4⟩

theorem collect_exposures_fst (rs : List Restaurant) :
    ∀ table : List (Int × Int),
      (collect_exposures rs table).1 = rs.map (fun r => map_read table r.business_id 0) := by
  induction rs with
  | nil => intro table; rfl
  | cons r rest ih =>
    intro table
    simp only [collect_exposures, List.map_cons]
    rw [ih]
    congr 1
    apply List.map_congr_left
    intro r1 _
    exact map_read_update_id table r.business_id r1.business_id

theorem size_product_exact (x : Int) (k : Nat) (hx : 0 ≤ x) (hfit : x * ((k : Int) + 1) < 2 ^ 64) :
    to_size_t (to_size_t x * ((k : Int) + 1)) = x * ((k : Int) + 1) := by
  have hk : (0 : Int) ≤ (k : Int) := Int.ofNat_nonneg k
  have hx64 : x < 2 ^ 64 := by nlinarith
  unfold to_size_t
  rw [Int.emod_eq_of_lt hx hx64]
  exact Int.emod_eq_of_lt (by positivity) hfit

theorem gini_sums_eq (l : List Int) :
    ∀ (i : Nat) (sum weighted_sum : ℚ), (∀ x ∈ l, 0 ≤ x) →
      (∀ x ∈ l, x * ((i + l.length : Nat) : Int) < 2 ^ 64) →
      gini_sums l i sum weighted_sum =
        (sum + ((l.sum : Int) : ℚ), weighted_sum + ((weighted_total l i : Int) : ℚ)) := by
  induction l with
  | nil => intro i s w _ _; simp [gini_sums, weighted_total]
  | cons x rest ih =>
    intro i s w hnn hfit
    have hx : 0 ≤ x := hnn x (List.mem_cons_self _ _)
    have hfx := hfit x (List.mem_cons_self _ _)
    have hprod : x * ((i : Int) + 1) < 2 ^ 64 := by
      simp only [List.length_cons] at hfx
      push_cast at hfx
      have : (0 : Int) ≤ (rest.length : Int) := Int.ofNat_nonneg _
      nlinarith
    simp only [gini_sums, weighted_total, List.sum_cons]
    rw [size_product_exact x i hx hprod,
      ih (i + 1) _ _ (fun y hy => hnn y (List.mem_cons_of_mem _ hy)) (by
        intro y hy
        have := hfit y (List.mem_cons_of_mem _ hy)
        simp only [List.length_cons] at this
        have he : i + 1 + rest.length = i + (rest.length + 1) := by omega
        rw [he]
        exact this)]
    push_cast
    refine Prod.ext ?_ ?_ <;> simp only <;> ring

theorem weighted_total_shift (l : List Int) :
    ∀ i : Nat, weighted_total l (i + 1) = weighted_total l i + l.sum := by
  induction l with
  | nil => intro i; simp [weighted_total]
  | cons x rest ih =>
    intro i
    simp only [weighted_total, List.sum_cons]
    rw [ih (i + 1)]
    push_cast
    ring

theorem sum_ge_of_le (l : List Int) (x : Int) (h : ∀ y ∈ l, x ≤ y) :
    (l.length : Int) * x ≤ l.sum := by
  induction l with
  | nil => simp
  | cons y rest ih =>
    have h1 := h y (List.mem_cons_self _ _)
    have h2 := ih (fun z hz => h z (List.mem_cons_of_mem _ hz))
    simp only [List.length_cons, List.sum_cons]
    push_cast
    linarith

theorem weighted_total_sorted (l : List Int) (hsorted : l.Pairwise (fun a b => a ≤ b)) :
    ((l.length : Int) + 1) * l.sum ≤ 2 * weighted_total l 0 := by
  induction l with
  | nil => simp [weighted_total]
  | cons x rest ih =>
    obtain ⟨hx, hrest⟩ := List.pairwise_cons.mp hsorted
    have h1 := ih hrest
    have h2 := sum_ge_of_le rest x hx
    simp only [weighted_total, List.length_cons, List.sum_cons]
    rw [weighted_total_shift rest 0]
    push_cast
    nlinarith

theorem weighted_total_le (l : List Int) (hnn : ∀ x ∈ l, 0 ≤ x) :
    ∀ i : Nat, weighted_total l i ≤ ((i : Int) + (l.length : Int)) * l.sum := by
  induction l with
  | nil => intro i; simp [weighted_total]
  | cons x rest ih =>
    intro i
    have hx := hnn x (List.mem_cons_self _ _)
    have h1 := ih (fun y hy => hnn y (List.mem_cons_of_mem _ hy)) (i + 1)
    have hs : 0 ≤ rest.sum := List.sum_nonneg (fun y hy => hnn y (List.mem_cons_of_mem _ hy))
    have hr : (0 : Int) ≤ (rest.length : Int) := Int.ofNat_nonneg _
    simp only [weighted_total, List.length_cons, List.sum_cons]
    push_cast at h1 ⊢
    nlinarith

theorem weighted_total_equal (l : List Int) (c : Int) (h : ∀ x ∈ l, x = c) :
    ∀ i : Nat, 2 * weighted_total l i = (2 * (i : Int) + (l.length : Int) + 1) * l.sum ∧
      l.sum = c * (l.length : Int) := by
  induction l with
  | nil => intro i; simp [weighted_total]
  | cons x rest ih =>
    intro i
    have hx := h x (List.mem_cons_self _ _)
    obtain ⟨h1, h2⟩ := ih (fun y hy => h y (List.mem_cons_of_mem _ hy)) (i + 1)
    simp only [weighted_total, List.length_cons, List.sum_cons]
    push_cast at h1 ⊢
    rw [h2] at h1 ⊢
    subst hx
    constructor
    · linear_combination h1
    · ring

theorem weighted_total_single (l : List Int) (hnn : ∀ x ∈ l, 0 ≤ x)
    (hsorted : l.Pairwise (fun a b => a ≤ b))
    (hone : (l.filter (fun x => decide (x ≠ 0))).length = 1) :
    ∀ i : Nat, weighted_total l i = ((i : Int) + (l.length : Int)) * l.sum := by
  induction l with
  | nil => simp at hone
  | cons x rest ih =>
    intro i
    obtain ⟨hx, hrest⟩ := List.pairwise_cons.mp hsorted
    have hx0 := hnn x (List.mem_cons_self _ _)
    by_cases hz : x = 0
    · subst hz
      have hone1 : (rest.filter (fun x => decide (x ≠ 0))).length = 1 := by
        simpa [List.filter_cons] using hone
      have h1 := ih (fun y hy => hnn y (List.mem_cons_of_mem _ hy)) hrest hone1 (i + 1)
      simp only [weighted_total, List.length_cons, List.sum_cons]
      rw [h1]
      push_cast
      ring
    · have hall : rest.filter (fun x => decide (x ≠ 0)) = rest := by
        apply List.filter_eq_self.mpr
        intro y hy
        have := hx y hy
        simp only [ne_eq, decide_not, Bool.not_eq_true', decide_eq_false_iff_not]
        omega
      have hnil : rest = [] := by
        have : (rest.filter (fun x => decide (x ≠ 0))).length = 0 := by
          simpa [List.filter_cons, hz] using hone
        rw [hall] at this
        exact List.length_eq_zero.mp this
      subst hnil
      simp [weighted_total]
      ring

theorem sorted_ascending (sort : StdSort) (hs : SortContract sort) (l : List Int) :
    List.Perm (sort Int int_lt l) l ∧ (sort Int int_lt l).Pairwise (fun a b => a ≤ b) := by
  obtain ⟨hperm, hsorted⟩ := hs Int int_lt l int_lt_swo
  refine ⟨hperm, hsorted.imp ?_⟩
  intro a b hab
  simpa [int_lt] using hab

theorem calculate_fairness_metrics_gini (sort : StdSort) (metrics : SimulationMetrics)
    (ms : MarketState) :
    (calculate_fairness_metrics sort metrics ms).gini_coefficient_exposure =
      if exposure_counts metrics ms = [] then 0
      else if (gini_sums (sort Int int_lt (exposure_counts metrics ms)) 0 0 0).1 = 0 then 0
      else 2 * (gini_sums (sort Int int_lt (exposure_counts metrics ms)) 0 0 0).2 /
          ((((sort Int int_lt (exposure_counts metrics ms)).length : Int) : ℚ) *
            (gini_sums (sort Int int_lt (exposure_counts metrics ms)) 0 0 0).1) -
        ((((sort Int int_lt (exposure_counts metrics ms)).length : Int) : ℚ) + 1) /
          (((sort Int int_lt (exposure_counts metrics ms)).length : Int) : ℚ) := by
  unfold calculate_fairness_metrics exposure_counts
  simp only [collect_exposures_fst]
  split
  · rfl
  · split <;> rfl

theorem aggregate_fairness_gini (sort : StdSort) (metrics : SimulationMetrics)
    (ms : MarketState) :
    (aggregate_fairness sort metrics ms).gini_coefficient_exposure =
      if exposure_counts metrics ms = [] then metrics.gini_coefficient_exposure
      else if (gini_sums (sort Int int_lt (exposure_counts metrics ms)) 0 0 0).1 > 0 then
        2 * (gini_sums (sort Int int_lt (exposure_counts metrics ms)) 0 0 0).2 /
          ((((sort Int int_lt (exposure_counts metrics ms)).length : Int) : ℚ) *
            (gini_sums (sort Int int_lt (exposure_counts metrics ms)) 0 0 0).1) -
        ((((sort Int int_lt (exposure_counts metrics ms)).length : Int) : ℚ) + 1) /
          (((sort Int int_lt (exposure_counts metrics ms)).length : Int) : ℚ)
      else metrics.gini_coefficient_exposure := by
  unfold aggregate_fairness exposure_counts
  simp only [collect_exposures_fst, ne_eq, ite_not]
  split
  · rfl
  · split <;> rfl

theorem sorted_sums (sort : StdSort) (hs : SortContract sort) (l : List Int)
    (hnn : ∀ x ∈ l, 0 ≤ x) (hfit : ∀ x ∈ l, x * (l.length : Int) < 2 ^ 64) :
    gini_sums (sort Int int_lt l) 0 0 0 =
      (((l.sum : Int) : ℚ), ((weighted_total (sort Int int_lt l) 0 : Int) : ℚ)) ∧
    (sort Int int_lt l).length = l.length ∧
    (sort Int int_lt l).sum = l.sum := by
  obtain ⟨hperm, _⟩ := sorted_ascending sort hs l
  have hlen := hperm.length_eq
  refine ⟨?_, hlen, hperm.sum_eq⟩
  rw [gini_sums_eq _ 0 0 0 (fun x hx => hnn x (hperm.mem_iff.mp hx)) (by
    intro x hx
    rw [Nat.zero_add, hlen]
    exact hfit x (hperm.mem_iff.mp hx)), hperm.sum_eq]
  simp

theorem gini_formula (W S n : ℚ) (hn : 0 < n) (hS : 0 < S) :
    2 * W / (n * S) - (n + 1) / n = (2 * W - (n + 1) * S) / (n * S) := by
  have h1 : n ≠ 0 := ne_of_gt hn
  have h2 : S ≠ 0 := ne_of_gt hS
  field_simp
  ring

theorem gini_formula_upper (W S n : ℚ) (hn : 0 < n) (hS : 0 < S) :
    (n - 1) / n - (2 * W / (n * S) - (n + 1) / n) = 2 * (n * S - W) / (n * S) := by
  have h1 : n ≠ 0 := ne_of_gt hn
  have h2 : S ≠ 0 := ne_of_gt hS
  field_simp
  ring

theorem gini_value (sort : StdSort) (hs : SortContract sort) (metrics : SimulationMetrics)
    (ms : MarketState) (hnn : ∀ x ∈ exposure_counts metrics ms, 0 ≤ x)
    (hfit : ∀ x ∈ exposure_counts metrics ms, x * (ms.restaurants.length : Int) < 2 ^ 64)
    (hpos : 0 < (exposure_counts metrics ms).sum) :
    (calculate_fairness_metrics sort metrics ms).gini_coefficient_exposure =
      2 * ((weighted_total (sort Int int_lt (exposure_counts metrics ms)) 0 : Int) : ℚ) /
        ((ms.restaurants.length : ℚ) * (((exposure_counts metrics ms).sum : Int) : ℚ)) -
      ((ms.restaurants.length : ℚ) + 1) / (ms.restaurants.length : ℚ) ∧
    (aggregate_fairness sort metrics ms).gini_coefficient_exposure =
      (calculate_fairness_metrics sort metrics ms).gini_coefficient_exposure := by
  have hlen0 : (exposure_counts metrics ms).length = ms.restaurants.length := by
    simp [exposure_counts]
  have hne : exposure_counts metrics ms ≠ [] := by
    intro h
    rw [h] at hpos
    simp at hpos
  obtain ⟨hsum, hlen, _⟩ := sorted_sums sort hs (exposure_counts metrics ms) hnn (by
    rw [hlen0]; exact hfit)
  have hS : (0 : ℚ) < (((exposure_counts metrics ms).sum : Int) : ℚ) := by exact_mod_cast hpos
  rw [aggregate_fairness_gini, calculate_fairness_metrics_gini, if_neg hne, if_neg hne, hsum]
  simp only
  rw [if_neg (ne_of_gt hS), if_pos hS, hlen, hlen0]
  simp

theorem gini_zero_sum (sort : StdSort) (hs : SortContract sort) (metrics : SimulationMetrics)
    (ms : MarketState) (hnn : ∀ x ∈ exposure_counts metrics ms, 0 ≤ x)
    (hfit : ∀ x ∈ exposure_counts metrics ms, x * (ms.restaurants.length : Int) < 2 ^ 64)
    (hzero : (exposure_counts metrics ms).sum = 0) :
    (calculate_fairness_metrics sort metrics ms).gini_coefficient_exposure = 0 ∧
    (aggregate_fairness sort metrics ms).gini_coefficient_exposure =
      metrics.gini_coefficient_exposure := by
  have hlen0 : (exposure_counts metrics ms).length = ms.restaurants.length := by
    simp [exposure_counts]
  obtain ⟨hsum, _, _⟩ := sorted_sums sort hs (exposure_counts metrics ms) hnn (by
    rw [hlen0]; exact hfit)
  rw [aggregate_fairness_gini, calculate_fairness_metrics_gini, hsum, hzero]
  simp

theorem equal_exposure_counts_call :
    exposure_counts equal_exposure_metrics four_stores_state = [1, 1, 1, 1] := by
  decide

theorem single_exposure_counts_call :
    exposure_counts single_exposure_metrics four_stores_state = [0, 0, 0, 10] := by
  decide

/-- C27: when every store has the same exposure count `c >= 0` (this covers
`n >= 1` stores each displayed `c > 0` times, all counts 0, and no stores) and
the products `c * n` fit `size_t`, under a `std::sort` that meets its contract
`calculate_fairness_metrics` sets the Gini coefficient to exactly 0.  The copy
of the computation in `run_multi_day_simulation` gives 0 as well for `c > 0`
and `n >= 1`, and leaves the coefficient as it was (0 from the constructor)
when all counts are 0 or there are no stores. -/
theorem gini_equal_exposure (sort : StdSort) (hs : SortContract sort)
    (metrics : SimulationMetrics) (ms : MarketState) (c : Int) (hc : 0 ≤ c)
    (heq : ∀ x ∈ exposure_counts metrics ms, x = c)
    (hfit : c * (ms.restaurants.length : Int) < 2 ^ 64) :
    (calculate_fairness_metrics sort metrics ms).gini_coefficient_exposure = 0 ∧
    (0 < c → ms.restaurants ≠ [] →
      (aggregate_fairness sort metrics ms).gini_coefficient_exposure = 0) ∧
    ((c = 0 ∨ ms.restaurants = []) →
      (aggregate_fairness sort metrics ms).gini_coefficient_exposure =
        metrics.gini_coefficient_exposure) := by
  have hlen0 : (exposure_counts metrics ms).length = ms.restaurants.length := by
    simp [exposure_counts]
  have hnn : ∀ x ∈ exposure_counts metrics ms, 0 ≤ x := fun x hx => by rw [heq x hx]; exact hc
  have hfit1 : ∀ x ∈ exposure_counts metrics ms, x * (ms.restaurants.length : Int) < 2 ^ 64 :=
    fun x hx => by rw [heq x hx]; exact hfit
  have hsumc : (exposure_counts metrics ms).sum = c * (ms.restaurants.length : Int) := by
    rw [← hlen0]
    exact (weighted_total_equal _ c heq 0).2
  by_cases hz : c = 0 ∨ ms.restaurants = []
  · have hzero : (exposure_counts metrics ms).sum = 0 := by
      rw [hsumc]
      rcases hz with h | h
      · rw [h, Int.zero_mul]
      · rw [h]; simp
    obtain ⟨h1, h2⟩ := gini_zero_sum sort hs metrics ms hnn hfit1 hzero
    refine ⟨h1, ?_, fun _ => h2⟩
    intro hcpos hne
    rcases hz with h | h
    · omega
    · exact absurd h hne
  · have hc0 : 0 < c := by
      rcases lt_or_eq_of_le hc with h | h
      · exact h
      · exact absurd (Or.inl h.symm) hz
    have hne : ms.restaurants ≠ [] := fun h => hz (Or.inr h)
    have hnpos : 0 < ms.restaurants.length := List.length_pos.mpr hne
    have hpos : 0 < (exposure_counts metrics ms).sum := by
      rw [hsumc]
      exact Int.mul_pos hc0 (by exact_mod_cast hnpos)
    obtain ⟨h1, h2⟩ := gini_value sort hs metrics ms hnn hfit1 hpos
    obtain ⟨hperm, _⟩ := sorted_ascending sort hs (exposure_counts metrics ms)
    have hw := (weighted_total_equal (sort Int int_lt (exposure_counts metrics ms)) c
      (fun x hx => heq x (hperm.mem_iff.mp hx)) 0).1
    rw [hperm.sum_eq, hperm.length_eq, hlen0] at hw
    have hwq : 2 * ((weighted_total (sort Int int_lt (exposure_counts metrics ms)) 0 : Int) : ℚ)
        = ((ms.restaurants.length : ℚ) + 1) * (((exposure_counts metrics ms).sum : Int) : ℚ) := by
      simp only [Nat.cast_zero, mul_zero, zero_add] at hw
      have := congrArg (fun z : Int => (z : ℚ)) hw
      simp only [Int.cast_mul, Int.cast_add, Int.cast_ofNat, Int.cast_natCast,
        Int.cast_one] at this
      exact this
    have hg : (calculate_fairness_metrics sort metrics ms).gini_coefficient_exposure = 0 := by
      rw [h1, gini_formula _ _ _ (by exact_mod_cast hnpos) (by exact_mod_cast hpos), hwq]
      simp
    refine ⟨hg, fun _ _ => h2.trans hg, fun h => absurd h hz⟩

/-- C27 (witness): four stores each displayed once, exposures `[1,1,1,1]`. -/
theorem gini_equal_exposure_witness :
    exposure_counts equal_exposure_metrics four_stores_state = [1, 1, 1, 1] ∧
    ((calculate_fairness_metrics insertion_sort equal_exposure_metrics
        four_stores_state).gini_coefficient_exposure = 0 ∧
      ((0 : Int) < 1 → four_stores_state.restaurants ≠ [] →
        (aggregate_fairness insertion_sort equal_exposure_metrics
          four_stores_state).gini_coefficient_exposure = 0) ∧
      (((1 : Int) = 0 ∨ four_stores_state.restaurants = []) →
        (aggregate_fairness insertion_sort equal_exposure_metrics
          four_stores_state).gini_coefficient_exposure =
          equal_exposure_metrics.gini_coefficient_exposure)) :=
  ⟨equal_exposure_counts_call,
    gini_equal_exposure insertion_sort insertion_sort_conforms equal_exposure_metrics
      four_stores_state 1 (by decide)
      (by rw [equal_exposure_counts_call]; decide) (by decide)⟩

theorem single_exposure_gini_call :
    (calculate_fairness_metrics insertion_sort single_exposure_metrics
      four_stores_state).gini_coefficient_exposure = 3 / 4 := by
  rw [calculate_fairness_metrics_gini, single_exposure_counts_call]
  norm_num [insertion_sort, int_lt, List.orderedInsert, gini_sums, to_size_t]
  exact List.cons_ne_nil _ _

/-- C28: for non-negative exposure counts that are not all zero (so there are
`n >= 1` stores) and whose products with `n` fit `size_t`, under a `std::sort`
that meets its contract the Gini coefficient set by `calculate_fairness_metrics`
lies in `[0, (n-1)/n]`, and it equals `(n-1)/n` when exactly one store has a
non-zero count. -/
theorem gini_bounds (sort : StdSort) (hs : SortContract sort) (metrics : SimulationMetrics)
    (ms : MarketState) (hnn : ∀ x ∈ exposure_counts metrics ms, 0 ≤ x)
    (hsome : ∃ x ∈ exposure_counts metrics ms, x ≠ 0)
    (hfit : ∀ x ∈ exposure_counts metrics ms, x * (ms.restaurants.length : Int) < 2 ^ 64) :
    1 ≤ ms.restaurants.length ∧
    0 ≤ (calculate_fairness_metrics sort metrics ms).gini_coefficient_exposure ∧
    (calculate_fairness_metrics sort metrics ms).gini_coefficient_exposure ≤
      ((ms.restaurants.length : ℚ) - 1) / (ms.restaurants.length : ℚ) ∧
    (((exposure_counts metrics ms).filter (fun x => decide (x ≠ 0))).length = 1 →
      (calculate_fairness_metrics sort metrics ms).gini_coefficient_exposure =
        ((ms.restaurants.length : ℚ) - 1) / (ms.restaurants.length : ℚ)) := by
  have hlen0 : (exposure_counts metrics ms).length = ms.restaurants.length := by
    simp [exposure_counts]
  obtain ⟨x, hx, hx0⟩ := hsome
  have hpos : 0 < (exposure_counts metrics ms).sum := by
    have h1 := List.single_le_sum hnn x hx
    have h2 := hnn x hx
    omega
  have hnpos : 0 < ms.restaurants.length := by
    rw [← hlen0]
    exact List.length_pos_of_mem hx
  have hn : (0 : ℚ) < (ms.restaurants.length : ℚ) := by exact_mod_cast hnpos
  have hS : (0 : ℚ) < (((exposure_counts metrics ms).sum : Int) : ℚ) := by exact_mod_cast hpos
  obtain ⟨hperm, hsorted⟩ := sorted_ascending sort hs (exposure_counts metrics ms)
  have hnn1 : ∀ y ∈ sort Int int_lt (exposure_counts metrics ms), 0 ≤ y :=
    fun y hy => hnn y (hperm.mem_iff.mp hy)
  have hlow := weighted_total_sorted _ hsorted
  have hup := weighted_total_le _ hnn1 0
  rw [hperm.sum_eq, hperm.length_eq, hlen0] at hlow hup
  simp only [Nat.cast_zero, zero_add] at hup
  have hlowq : ((ms.restaurants.length : ℚ) + 1) * (((exposure_counts metrics ms).sum : Int) : ℚ)
      ≤ 2 * ((weighted_total (sort Int int_lt (exposure_counts metrics ms)) 0 : Int) : ℚ) := by
    have := (Int.cast_le (R := ℚ)).mpr hlow
    simpa only [Int.cast_mul, Int.cast_add, Int.cast_ofNat, Int.cast_natCast,
      Int.cast_one] using this
  have hupq : ((weighted_total (sort Int int_lt (exposure_counts metrics ms)) 0 : Int) : ℚ) ≤
      (ms.restaurants.length : ℚ) * (((exposure_counts metrics ms).sum : Int) : ℚ) := by
    have := (Int.cast_le (R := ℚ)).mpr hup
    simpa only [Int.cast_mul, Int.cast_natCast] using this
  have hval := (gini_value sort hs metrics ms hnn hfit hpos).1
  refine ⟨hnpos, ?_, ?_, ?_⟩
  · rw [hval, gini_formula _ _ _ hn hS]
    exact div_nonneg (by linarith) (le_of_lt (mul_pos hn hS))
  · rw [hval]
    have h := gini_formula_upper
      ((weighted_total (sort Int int_lt (exposure_counts metrics ms)) 0 : Int) : ℚ)
      (((exposure_counts metrics ms).sum : Int) : ℚ) (ms.restaurants.length : ℚ) hn hS
    have h2 : 0 ≤ 2 * ((ms.restaurants.length : ℚ) *
        (((exposure_counts metrics ms).sum : Int) : ℚ) -
        ((weighted_total (sort Int int_lt (exposure_counts metrics ms)) 0 : Int) : ℚ)) /
        ((ms.restaurants.length : ℚ) * (((exposure_counts metrics ms).sum : Int) : ℚ)) :=
      div_nonneg (by linarith) (le_of_lt (mul_pos hn hS))
    linarith
  · intro hone
    have hone1 : ((sort Int int_lt (exposure_counts metrics ms)).filter
        (fun x => decide (x ≠ 0))).length = 1 := by
      rw [(hperm.filter _).length_eq]
      exact hone
    have hw := weighted_total_single _ hnn1 hsorted hone1 0
    rw [hperm.sum_eq, hperm.length_eq, hlen0] at hw
    simp only [Nat.cast_zero, zero_add] at hw
    have hwq : ((weighted_total (sort Int int_lt (exposure_counts metrics ms)) 0 : Int) : ℚ) =
        (ms.restaurants.length : ℚ) * (((exposure_counts metrics ms).sum : Int) : ℚ) := by
      have := congrArg (fun z : Int => (z : ℚ)) hw
      simpa only [Int.cast_mul, Int.cast_natCast] using this
    rw [hval]
    have h := gini_formula_upper
      ((weighted_total (sort Int int_lt (exposure_counts metrics ms)) 0 : Int) : ℚ)
      (((exposure_counts metrics ms).sum : Int) : ℚ) (ms.restaurants.length : ℚ) hn hS
    rw [hwq] at h ⊢
    simp only [sub_self, mul_zero, zero_div] at h
    linarith

/-- C28 (witness): four stores, only store 4 displayed (ten times): exposures
`[0,0,0,10]` and a Gini coefficient of `3/4 = (4-1)/4`. -/
theorem gini_bounds_witness :
    exposure_counts single_exposure_metrics four_stores_state = [0, 0, 0, 10] ∧
    (1 ≤ four_stores_state.restaurants.length ∧
      0 ≤ (calculate_fairness_metrics insertion_sort single_exposure_metrics
        four_stores_state).gini_coefficient_exposure ∧
      (calculate_fairness_metrics insertion_sort single_exposure_metrics
        four_stores_state).gini_coefficient_exposure ≤
        ((four_stores_state.restaurants.length : ℚ) - 1) /
          (four_stores_state.restaurants.length : ℚ) ∧
      (((exposure_counts single_exposure_metrics four_stores_state).filter
          (fun x => decide (x ≠ 0))).length = 1 →
        (calculate_fairness_metrics insertion_sort single_exposure_metrics
          four_stores_state).gini_coefficient_exposure =
          ((four_stores_state.restaurants.length : ℚ) - 1) /
            (four_stores_state.restaurants.length : ℚ))) ∧
    (calculate_fairness_metrics insertion_sort single_exposure_metrics
      four_stores_state).gini_coefficient_exposure = 3 / 4 :=
  ⟨single_exposure_counts_call,
    gini_bounds insertion_sort insertion_sort_conforms single_exposure_metrics four_stores_state
      (by rw [single_exposure_counts_call]; decide)
      (by rw [single_exposure_counts_call]; decide)
      (by rw [single_exposure_counts_call]; decide),
    single_exposure_gini_call⟩

/-! ## Waste: the daily totals after settlement -/

theorem tally_fold (restaurant : Restaurant) (l : List Reservation) :
    ∀ t : StoreTally,
      (l.foldl (tally_reservation restaurant) t).bags_sold = t.bags_sold +
        ((l.filter (fun r => decide (r.restaurant_id = restaurant.business_id ∧
          r.status = Status.CONFIRMED))).map (fun r => r.bags_received)).sum ∧
      (l.foldl (tally_reservation restaurant) t).total_bags_given = t.total_bags_given +
        ((l.filter (fun r => decide (r.restaurant_id = restaurant.business_id ∧
          r.status = Status.CONFIRMED))).map (fun r => r.bags_received)).sum ∧
      (l.foldl (tally_reservation restaurant) t).metrics.bags_sold_per_store =
        t.metrics.bags_sold_per_store ∧
      (l.foldl (tally_reservation restaurant) t).metrics.waste_per_store =
        t.metrics.waste_per_store := by
  induction l with
  | nil => intro t; simp
  | cons r rest ih =>
    intro t
    obtain ⟨h1, h2, h3, h4⟩ := ih (tally_reservation restaurant t r)
    rw [List.foldl_cons, h1, h2, h3, h4]
    unfold tally_reservation
    by_cases hid : r.restaurant_id = restaurant.business_id
    · by_cases hc : r.status = Status.CONFIRMED
      · simp [hid, hc, List.filter_cons, add_assoc]
      · by_cases hx : r.status = Status.CANCELLED
        · simp [hid, hc, hx, List.filter_cons]
        · simp [hid, hc, hx, List.filter_cons]
    · simp [hid, List.filter_cons]

theorem log_store_maps (ms : MarketState) (metrics : SimulationMetrics) (restaurant : Restaurant) :
    (log_store ms metrics restaurant).bags_sold_per_store =
      map_update metrics.bags_sold_per_store restaurant.business_id 0
        (fun _ => confirmed_bags ms restaurant.business_id) ∧
    (log_store ms metrics restaurant).waste_per_store =
      map_update metrics.waste_per_store restaurant.business_id 0
        (fun _ => max 0 (restaurant.actual_bags - confirmed_bags ms restaurant.business_id)) := by
  obtain ⟨h1, h2, h3, h4⟩ := tally_fold restaurant ms.reservations
    { bags_sold := 0, bags_cancelled := 0, total_bags_given := 0, metrics := metrics }
  simp only [Int.zero_add] at h1 h2 h3 h4
  unfold log_store
  simp only [h1, h2, h3, h4]
  split
  · exact ⟨rfl, rfl⟩
  · rename_i hle
    refine ⟨rfl, ?_⟩
    have h0 : max 0 (restaurant.actual_bags - confirmed_bags ms restaurant.business_id) = 0 := by
      have hge : (0 : Int) ≤ max 0 (restaurant.actual_bags -
        ((ms.reservations.filter (fun r => decide (r.restaurant_id = restaurant.business_id ∧
          r.status = Status.CONFIRMED))).map (fun r => r.bags_received)).sum) := le_max_left _ _
      unfold confirmed_bags
      omega
    simp only [h0]

theorem log_stores_frame (ms : MarketState) (id : Int) (l : List Restaurant) :
    ∀ metrics : SimulationMetrics, (∀ S ∈ l, S.business_id ≠ id) →
      map_find (l.foldl (log_store ms) metrics).bags_sold_per_store id =
        map_find metrics.bags_sold_per_store id ∧
      map_find (l.foldl (log_store ms) metrics).waste_per_store id =
        map_find metrics.waste_per_store id := by
  induction l with
  | nil => intro metrics _; exact ⟨rfl, rfl⟩
  | cons R rest ih =>
    intro metrics hne
    obtain ⟨h1, h2⟩ := ih (log_store ms metrics R) (fun S hS => hne S (List.mem_cons_of_mem _ hS))
    have hR : id ≠ R.business_id := fun h => hne R (List.mem_cons_self _ _) h.symm
    rw [List.foldl_cons, h1, h2, (log_store_maps ms metrics R).1, (log_store_maps ms metrics R).2]
    exact ⟨map_find_update_ne _ _ _ _ _ hR, map_find_update_ne _ _ _ _ _ hR⟩

theorem log_stores_read (ms : MarketState) (l : List Restaurant)
    (hdist : (l.map (fun r => r.business_id)).Nodup) :
    ∀ (metrics : SimulationMetrics) (S : Restaurant), S ∈ l →
      map_find (l.foldl (log_store ms) metrics).bags_sold_per_store S.business_id =
        some (confirmed_bags ms S.business_id) ∧
      map_find (l.foldl (log_store ms) metrics).waste_per_store S.business_id =
        some (max 0 (S.actual_bags - confirmed_bags ms S.business_id)) := by
  induction l with
  | nil => intro metrics S hS; simp at hS
  | cons R rest ih =>
    intro metrics S hS
    rw [List.map_cons, List.nodup_cons] at hdist
    rcases List.mem_cons.mp hS with h | h
    · subst h
      have hne : ∀ T ∈ rest, T.business_id ≠ S.business_id := by
        intro T hT heq
        exact hdist.1 (List.mem_map.mpr ⟨T, hT, heq⟩)
      obtain ⟨h1, h2⟩ := log_stores_frame ms S.business_id rest (log_store ms metrics S) hne
      rw [List.foldl_cons, h1, h2, (log_store_maps ms metrics S).1,
        (log_store_maps ms metrics S).2, map_find_update_self, map_find_update_self]
      exact ⟨rfl, rfl⟩
    · rw [List.foldl_cons]
      exact ih hdist.2 (log_store ms metrics R) S h

theorem log_end_of_day_read (metrics : SimulationMetrics) (ms : MarketState)
    (hdist : (ms.restaurants.map (fun r => r.business_id)).Nodup) (S : Restaurant)
    (hS : S ∈ ms.restaurants) :
    map_find (log_end_of_day metrics ms).bags_sold_per_store S.business_id =
      some (confirmed_bags ms S.business_id) ∧
    map_find (log_end_of_day metrics ms).waste_per_store S.business_id =
      some (max 0 (S.actual_bags - confirmed_bags ms S.business_id)) :=
  log_stores_read ms ms.restaurants hdist _ S hS

theorem nodup_ids_first (rs : List Restaurant)
    (hdist : (rs.map (fun r => r.business_id)).Nodup) (i j : Nat) (R Rj : Restaurant)
    (hR : rs[i]? = some R) (hj : rs[j]? = some Rj) (hlt : j < i) :
    Rj.business_id ≠ R.business_id := by
  intro heq
  have hi1 : (rs.map (fun r => r.business_id))[i]? = some R.business_id := by
    rw [List.getElem?_map, hR]; rfl
  have hj1 : (rs.map (fun r => r.business_id))[j]? = some R.business_id := by
    rw [List.getElem?_map, hj, ← heq]; rfl
  obtain ⟨hil, hie⟩ := List.getElem?_eq_some_iff.mp hi1
  obtain ⟨hjl, hje⟩ := List.getElem?_eq_some_iff.mp hj1
  have := (List.Nodup.getElem_inj_iff hdist).mp (hie.trans hje.symm)
  omega

theorem frame_ids {ms ms1 : MarketState} (hf : Frame ms ms1) :
    ms1.restaurants.map (fun r => r.business_id) = ms.restaurants.map (fun r => r.business_id) := by
  have := congrArg (List.map (fun k : Int × Int × Int => k.1)) hf.stores
  simpa [List.map_map, Function.comp_def, Restaurant.key] using this

theorem confirmed_bags_none (ms : MarketState) (id : Int)
    (h : ∀ r ∈ ms.reservations, r.restaurant_id ≠ id) : confirmed_bags ms id = 0 := by
  unfold confirmed_bags
  have : ms.reservations.filter
      (fun r => decide (r.restaurant_id = id ∧ r.status = Status.CONFIRMED)) = [] := by
    apply List.filter_eq_nil_iff.mpr
    intro r hr
    simp [h r hr]
  rw [this]
  rfl

theorem frame_no_reservation {ms ms1 : MarketState} (hf : Frame ms ms1) (id : Int)
    (h : ∀ r ∈ ms.reservations, r.restaurant_id ≠ id) :
    ∀ r ∈ ms1.reservations, r.restaurant_id ≠ id := by
  intro r1 hr1
  obtain ⟨q, hq⟩ := List.getElem?_of_mem hr1
  obtain ⟨r, hr, hst⟩ := hf.symm.static_at q r1 hq
  have hid : r.restaurant_id = r1.restaurant_id := congrArg (fun k => k.2.2.1) hst
  rw [← hid]
  exact h r (List.getElem?_mem hr)

/-- C29: starting from a log whose reservations are all PENDING, with distinct
business ids and `actual_bags >= 0` for every store, under a `std::sort` that
meets its contract `process_end_of_day` returns, and after `log_end_of_day` on
the settled state every store has entries in `bags_sold_per_store` and
`waste_per_store` that add up to its `actual_bags`: the first is the total of
`bags_received` over its CONFIRMED reservations, the second what is left.  A
store without reservations has `waste_per_store` equal to its `actual_bags`.
Settlement leaves the stores' ids and `actual_bags` as they were.  The law does
not depend on the customers being registered. -/
theorem waste_conservation (sort : StdSort) (hs : SortContract sort) (ms : MarketState)
    (metrics : SimulationMetrics)
    (hpend : ∀ r ∈ ms.reservations, r.status = Status.PENDING)
    (hdist : (ms.restaurants.map (fun r => r.business_id)).Nodup)
    (hbags : ∀ S ∈ ms.restaurants, 0 ≤ S.actual_bags) :
    ∃ ms1, process_end_of_day sort ms = some ms1 ∧
      ms1.restaurants.map (fun r => (r.business_id, r.actual_bags)) =
        ms.restaurants.map (fun r => (r.business_id, r.actual_bags)) ∧
      ∀ S ∈ ms1.restaurants, ∃ sold waste,
        map_find (log_end_of_day metrics ms1).bags_sold_per_store S.business_id = some sold ∧
        map_find (log_end_of_day metrics ms1).waste_per_store S.business_id = some waste ∧
        sold = confirmed_bags ms1 S.business_id ∧
        0 ≤ waste ∧
        sold + waste = S.actual_bags ∧
        ((∀ r ∈ ms.reservations, r.restaurant_id ≠ S.business_id) → waste = S.actual_bags) := by
  obtain ⟨ms1, hrun⟩ := process_end_of_day_total hs ms hbags
  have hf : Frame ms ms1 := settle_stores_frame hs _ ms ms1 hrun
  have hdist1 : (ms1.restaurants.map (fun r => r.business_id)).Nodup := by
    rw [frame_ids hf]; exact hdist
  refine ⟨ms1, hrun, ?_, ?_⟩
  · have := congrArg (List.map (fun k : Int × Int × Int => (k.1, k.2.1))) hf.stores
    simpa [List.map_map, Function.comp_def, Restaurant.key] using this
  intro S hS
  obtain ⟨i, hi⟩ := List.getElem?_of_mem hS
  obtain ⟨R, hR, hkey⟩ := hf.store_at i S hi
  have hid : R.business_id = S.business_id := congrArg (fun k => k.1) hkey
  have hab : R.actual_bags = S.actual_bags := congrArg (fun k => k.2.1) hkey
  have h0 : 0 ≤ R.actual_bags := hbags R (List.getElem?_mem hR)
  have hle := first_store_confirmed_le sort hs ms i R hR
    (fun j Rj hj hRj => nodup_ids_first ms.restaurants hdist i j R Rj hR hRj hj)
    (fun r hr _ => hpend r hr) h0 ms1 hrun
  rw [hid, hab] at hle
  obtain ⟨h1, h2⟩ := log_end_of_day_read metrics ms1 hdist1 S hS
  refine ⟨_, _, h1, h2, rfl, le_max_left _ _, ?_, ?_⟩
  · rw [max_eq_right (by omega)]
    omega
  · intro hnone
    rw [confirmed_bags_none ms1 S.business_id (frame_no_reservation hf S.business_id hnone)]
    rw [hab] at h0
    rw [max_eq_right (by omega)]
    omega

theorem idle_store_settlement_call :
    (process_end_of_day insertion_sort idle_store_state).map
      (fun ms1 => ((log_end_of_day SimulationMetrics.fresh ms1).bags_sold_per_store,
        (log_end_of_day SimulationMetrics.fresh ms1).waste_per_store)) =
      some ([(1, 3), (2, 0)], [(1, 2), (2, 4)]) := by
  decide

/-- C29 (witness): store 1 with 5 bags and one pending reservation, store 2 with
4 bags and none: 3 bags sold and 2 wasted at store 1, 4 wasted at store 2. -/
theorem waste_conservation_witness :
    (∃ ms1, process_end_of_day insertion_sort idle_store_state = some ms1 ∧
      ms1.restaurants.map (fun r => (r.business_id, r.actual_bags)) =
        idle_store_state.restaurants.map (fun r => (r.business_id, r.actual_bags)) ∧
      ∀ S ∈ ms1.restaurants, ∃ sold waste,
        map_find (log_end_of_day SimulationMetrics.fresh ms1).bags_sold_per_store
          S.business_id = some sold ∧
        map_find (log_end_of_day SimulationMetrics.fresh ms1).waste_per_store
          S.business_id = some waste ∧
        sold = confirmed_bags ms1 S.business_id ∧
        0 ≤ waste ∧
        sold + waste = S.actual_bags ∧
        ((∀ r ∈ idle_store_state.reservations, r.restaurant_id ≠ S.business_id) →
          waste = S.actual_bags)) ∧
    (process_end_of_day insertion_sort idle_store_state).map
      (fun ms1 => ((log_end_of_day SimulationMetrics.fresh ms1).bags_sold_per_store,
        (log_end_of_day SimulationMetrics.fresh ms1).waste_per_store)) =
      some ([(1, 3), (2, 0)], [(1, 2), (2, 4)]) :=
  ⟨waste_conservation insertion_sort insertion_sort_conforms idle_store_state
      SimulationMetrics.fresh (by decide) (by decide) (by decide),
    idle_store_settlement_call⟩

/-! ## Fairness damping -/

theorem andrew_scores_single (fm : FloatMath) (customer : Customer) (ms : MarketState)
    (store_id : Int) (store : Restaurant) (h : ms.get_restaurant store_id = some store) :
    (andrew_scores fm customer [store_id] ms []).1 =
      [(store_id, damped_score fm (customer.calculate_store_score fm store)
        (map_read ms.impression_counts store_id 0))] := by
  simp [andrew_scores, h, damped_score]

theorem damping_factor_pos (fm : FloatMath)
    (hmono : ∀ x y : ℚ, 1 ≤ x → x ≤ y → fm.log x ≤ fm.log y) (hone : 0 ≤ fm.log 1)
    (i : Int) (hi : 0 ≤ i) : 0 < fm.log ((i : ℚ) + 1) + 1 := by
  have h1 : (1 : ℚ) ≤ (i : ℚ) + 1 := by
    have : (0 : ℚ) ≤ (i : ℚ) := by exact_mod_cast hi
    linarith
  have := hmono 1 ((i : ℚ) + 1) le_rfl h1
  linarith

theorem reference_log_mono (x y : ℚ) (hx : 1 ≤ x) (hxy : x ≤ y) :
    reference_math.log x ≤ reference_math.log y := by
  simp only [reference_math]
  rw [div_le_div_iff₀ (by linarith) (by linarith)]
  nlinarith

/-- C31 (amended): for a `log` that is non-decreasing from 1 on with
`log 1 >= 0`, impression counts `0 <= i <= j` and a personal utility `u >= 0`,
the damped score `u / (log(j + 1) + 1)` is `<=` `u / (log(i + 1) + 1)`; for
`u <= 0` the inequality is the other way round.  The damped score is the score
`get_displayed_stores_andrew` gives a store whose utility is `u` and whose
impression count is the one in the table. -/
theorem andrew_damping_monotone (fm : FloatMath)
    (hmono : ∀ x y : ℚ, 1 ≤ x → x ≤ y → fm.log x ≤ fm.log y) (hone : 0 ≤ fm.log 1)
    (u : ℚ) (i j : Int) (hi : 0 ≤ i) (hij : i ≤ j) :
    (0 ≤ u → damped_score fm u j ≤ damped_score fm u i) ∧
    (u ≤ 0 → damped_score fm u i ≤ damped_score fm u j) ∧
    (∀ (customer : Customer) (ms : MarketState) (store_id : Int) (store : Restaurant),
      ms.get_restaurant store_id = some store →
      (andrew_scores fm customer [store_id] ms []).1 =
        [(store_id, damped_score fm (customer.calculate_store_score fm store)
          (map_read ms.impression_counts store_id 0))]) := by
  have hpi := damping_factor_pos fm hmono hone i hi
  have hpj := damping_factor_pos fm hmono hone j (le_trans hi hij)
  have hle : fm.log ((i : ℚ) + 1) + 1 ≤ fm.log ((j : ℚ) + 1) + 1 := by
    have h1 : (1 : ℚ) ≤ (i : ℚ) + 1 := by
      have : (0 : ℚ) ≤ (i : ℚ) := by exact_mod_cast hi
      linarith
    have h2 : (i : ℚ) + 1 ≤ (j : ℚ) + 1 := by
      have : (i : ℚ) ≤ (j : ℚ) := by exact_mod_cast hij
      linarith
    have := hmono _ _ h1 h2
    linarith
  refine ⟨?_, ?_, fun customer ms store_id store h =>
    andrew_scores_single fm customer ms store_id store h⟩
  · intro hu
    exact div_le_div_of_nonneg_left hu hpi hle
  · intro hu
    unfold damped_score
    rw [div_le_div_iff₀ hpi hpj]
    nlinarith

/-- C31 (witness): utility 6, shown once against never shown: 3.6 against 6. -/
theorem andrew_damping_monotone_witness :
    ((0 : ℚ) ≤ 6 → damped_score reference_math 6 1 ≤ damped_score reference_math 6 0) ∧
    ((6 : ℚ) ≤ 0 → damped_score reference_math 6 0 ≤ damped_score reference_math 6 1) ∧
    (∀ (customer : Customer) (ms : MarketState) (store_id : Int) (store : Restaurant),
      ms.get_restaurant store_id = some store →
      (andrew_scores reference_math customer [store_id] ms []).1 =
        [(store_id, damped_score reference_math
          (customer.calculate_store_score reference_math store)
          (map_read ms.impression_counts store_id 0))]) :=
  andrew_damping_monotone reference_math reference_log_mono
    (by norm_num [reference_math]) 6 0 1 (by decide) (by decide)

/-- C31 (counterexample): a store outside the travel radius has the utility
`-100`; never shown it scores `-100`, shown once it scores `-60`: being shown
more often raised its score. -/
theorem andrew_damping_raises_negative_score :
    (andrew_scores reference_math (customer_fixture 1) [1] (far_store_state 0) []).1 =
      [(1, -100)] ∧
    (andrew_scores reference_math (customer_fixture 1) [1] (far_store_state 1) []).1 =
      [(1, -60)] ∧
    damped_score reference_math (-100) 0 = -100 ∧
    damped_score reference_math (-100) 1 = -60 ∧
    ¬ (damped_score reference_math (-100) 1 ≤ damped_score reference_math (-100) 0) := by
  refine ⟨?_, ?_, ?_, ?_, ?_⟩
  · norm_num [andrew_scores, far_store_state, market_fixture, store_fixture,
      MarketState.get_restaurant, Customer.calculate_store_score, calculate_distance,
      customer_fixture, reference_math, MAX_TRAVEL_DISTANCE, map_read, map_find, Rat.sqrt_eq]
  · norm_num [andrew_scores, far_store_state, market_fixture, store_fixture,
      MarketState.get_restaurant, Customer.calculate_store_score, calculate_distance,
      customer_fixture, reference_math, MAX_TRAVEL_DISTANCE, map_read, map_find, Rat.sqrt_eq]
  · norm_num [damped_score, reference_math]
  · norm_num [damped_score, reference_math]
  · norm_num [damped_score, reference_math]

/-! ## Selection: sentinel scores -/

theorem calculate_store_scores_eq (fm : FloatMath) (customer : Customer) (displayed : List Int)
    (ms : MarketState) :
    calculate_store_scores fm customer displayed ms =
      displayed.map (raw_score fm customer ms) := by
  unfold calculate_store_scores raw_score
  rfl

theorem adjust_all_get (customer : Customer) (ms : MarketState) (ids : List Int) :
    ∀ (scores adjusted : List ℚ) (i : Nat) (id : Int),
      adjust_all customer ms ids scores = some adjusted → ids[i]? = some id →
      ∃ s, scores[i]? = some s ∧ adjusted[i]? = some (adjust_score customer ms id s) := by
  induction ids with
  | nil => intro scores adjusted i id _ hi; simp at hi
  | cons a rest ih =>
    intro scores adjusted i id hadj hi
    cases scores with
    | nil => simp [adjust_all] at hadj
    | cons s ss =>
      simp only [adjust_all, Option.map_eq_some'] at hadj
      obtain ⟨tail, htail, rfl⟩ := hadj
      cases i with
      | zero =>
        simp only [List.getElem?_cons_zero, Option.some.injEq] at hi
        subst hi
        exact ⟨s, by simp, by simp⟩
      | succ k =>
        simp only [List.getElem?_cons_succ] at hi ⊢
        exact ih ss tail k id htail hi

theorem history_term_le (score : ℚ) (h : StoreInteraction) (hle : h.successes ≤ h.reservations) :
    (if h.reservations > 0 then
      if h.cancellations > 0 then
        score + (h.successes : ℚ) / (h.reservations : ℚ) * (3 / 2) -
          ((h.cancellations : ℚ) / (h.reservations : ℚ)) * 2
      else score + (h.successes : ℚ) / (h.reservations : ℚ) * (3 / 2)
    else score) ≤ score + 3 / 2 := by
  split
  · rename_i hr
    have hrq : (0 : ℚ) < (h.reservations : ℚ) := by exact_mod_cast hr
    have hrate : (h.successes : ℚ) / (h.reservations : ℚ) ≤ 1 := by
      rw [div_le_one hrq]
      exact_mod_cast hle
    generalize (h.successes : ℚ) / (h.reservations : ℚ) = x at hrate
    split
    · rename_i hc
      have hcq : (0 : ℚ) < (h.cancellations : ℚ) := by exact_mod_cast hc
      have hcr : 0 ≤ (h.cancellations : ℚ) / (h.reservations : ℚ) :=
        le_of_lt (div_pos hcq hrq)
      generalize (h.cancellations : ℚ) / (h.reservations : ℚ) = y at hcr
      linarith
    · linarith
  · linarith

theorem adjust_score_le (customer : Customer) (ms : MarketState) (id : Int) (score : ℚ)
    (hhist : ∀ h, map_find customer.history.store_interactions id = some h →
      h.successes ≤ h.reservations) :
    adjust_score customer ms id score ≤ score + 9 / 5 := by
  have hfin : score + 3 / 2 + 3 / 10 ≤ score + 9 / 5 := by linarith
  have hfin0 : score + 3 / 2 ≤ score + 9 / 5 := by linarith
  unfold adjust_score
  cases hf : map_find customer.history.store_interactions id with
  | none =>
    cases hst : ms.get_restaurant id with
    | none => simp only; linarith
    | some store =>
      simp only
      have := min_le_left (1 : ℚ) ((store.estimated_bags : ℚ) / 12)
      generalize min 1 ((store.estimated_bags : ℚ) / 12) = w at this
      linarith
  | some h =>
    have hh := history_term_le score h (hhist h hf)
    cases hst : ms.get_restaurant id with
    | none => exact le_trans hh hfin0
    | some store =>
      have hw : min 1 ((store.estimated_bags : ℚ) / 12) * (3 / 10) ≤ 3 / 10 := by
        have := min_le_left (1 : ℚ) ((store.estimated_bags : ℚ) / 12)
        generalize min 1 ((store.estimated_bags : ℚ) / 12) = w at this
        linarith
      exact le_trans (add_le_add hh hw) hfin

/-- C32: for a customer whose history for the store has
`successes <= reservations`, the adjusted score `select_store` computes from
the sentinel `-100` is at most `-98.2`, whatever the threshold; and a store
whose raw score is the sentinel (too far, or id absent from the store table)
is never the store `select_store` returns, for every displayed list and every
random draw.  The value `-1` is what `select_store` returns for no store. -/
theorem sentinel_never_chosen (fm : FloatMath) (random_val : ℚ) (customer : Customer)
    (displayed : List Int) (ms : MarketState) (id : Int)
    (hhist : ∀ h, map_find customer.history.store_interactions id = some h →
      h.successes ≤ h.reservations)
    (hraw : raw_score fm customer ms id = -100) (hid : id ≠ -1) :
    adjust_score customer ms id (-100) ≤ -491 / 5 ∧
    calculate_store_scores fm customer displayed ms = displayed.map (raw_score fm customer ms) ∧
    select_store fm random_val customer displayed
      (calculate_store_scores fm customer displayed ms) ms ≠ some id := by
  have hadj : adjust_score customer ms id (-100) ≤ -491 / 5 :=
    le_trans (adjust_score_le customer ms id (-100) hhist) (by norm_num)
  refine ⟨hadj, calculate_store_scores_eq fm customer displayed ms, ?_⟩
  intro hsel
  obtain ⟨i, adjusted, a, hall, hi, ha, _, hgt⟩ :=
    select_store_valid fm random_val customer displayed _ ms id hsel hid
  obtain ⟨s, hs, ha1⟩ := adjust_all_get customer ms displayed _ adjusted i id hall hi
  rw [calculate_store_scores_eq, List.getElem?_map, hi] at hs
  simp only [Option.map_some', Option.some.injEq] at hs
  rw [hraw] at hs
  rw [ha1, ← hs] at ha
  simp only [Option.some.injEq] at ha
  rw [← ha] at hgt
  linarith

theorem far_store_raw_score :
    raw_score reference_math (customer_fixture 1) (far_store_state 0) 1 = -100 := by
  norm_num [raw_score, far_store_state, market_fixture, store_fixture,
    MarketState.get_restaurant, Customer.calculate_store_score, calculate_distance,
    customer_fixture, reference_math, MAX_TRAVEL_DISTANCE, Rat.sqrt_eq]

/-- C32 (witness): the only displayed store is one degree away; its raw score
is `-100` and no draw selects it. -/
theorem sentinel_never_chosen_witness :
    raw_score reference_math (customer_fixture 1) (far_store_state 0) 1 = -100 ∧
    (adjust_score (customer_fixture 1) (far_store_state 0) 1 (-100) ≤ -491 / 5 ∧
      calculate_store_scores reference_math (customer_fixture 1) [1] (far_store_state 0) =
        [1].map (raw_score reference_math (customer_fixture 1) (far_store_state 0)) ∧
      select_store reference_math (1 / 2) (customer_fixture 1) [1]
        (calculate_store_scores reference_math (customer_fixture 1) [1] (far_store_state 0))
        (far_store_state 0) ≠ some 1) :=
  ⟨far_store_raw_score,
    sentinel_never_chosen reference_math (1 / 2) (customer_fixture 1) [1] (far_store_state 0) 1
      (by intro h hf; simp [customer_fixture, CustomerHistory.fresh, map_find] at hf)
      far_store_raw_score (by decide)⟩

/-! ## Settlement: the total handed out in abundance -/

theorem sum_range_shares (b e : Int) (c : Prop) [Decidable c] (he : 0 ≤ e) (n : Nat) :
    ((List.range n).map (fun t : Nat => if c ∧ (t : Int) < e then b + 1 else b)).sum =
      (n : Int) * b + (if c then min (n : Int) e else 0) := by
  induction n with
  | zero =>
    by_cases hc : c
    · simp [hc, he]
    · simp [hc]
  | succ m ih =>
    rw [List.range_succ, List.map_append, List.sum_append, ih]
    simp only [List.map_cons, List.map_nil, List.sum_cons, List.sum_nil, add_zero]
    by_cases hc : c
    · simp only [hc, true_and, if_true]
      by_cases hlt : (m : Int) < e
      · rw [if_pos hlt]
        push_cast
        rw [min_eq_left (by omega), min_eq_left (by omega)]
        ring
      · rw [if_neg hlt]
        push_cast
        rw [min_eq_right (by omega), min_eq_right (by omega)]
        ring
    · simp only [hc, false_and, if_false]
      push_cast
      ring

theorem abundance_shares_total (M a : Int) (k : Nat) (hk : 0 < k) (ha : (k : Int) ≤ a) :
    ((List.range k).map (fun t : Nat =>
      if min M (Int.tdiv a (k : Int)) < M ∧ (t : Int) < a - min M (Int.tdiv a (k : Int)) * (k : Int)
      then min M (Int.tdiv a (k : Int)) + 1 else min M (Int.tdiv a (k : Int)))).sum =
      min a ((k : Int) * M) := by
  have hkz : (0 : Int) < (k : Int) := by exact_mod_cast hk
  have ha0 : 0 ≤ a := by omega
  have hdiv : Int.tdiv a (k : Int) = a / (k : Int) := Int.tdiv_eq_ediv ha0 (le_of_lt hkz)
  have hmul : a / (k : Int) * (k : Int) ≤ a := Int.ediv_mul_le a (ne_of_gt hkz)
  have hmod : a - a / (k : Int) * (k : Int) < (k : Int) := by
    have h1 := Int.emod_lt_of_pos a hkz
    have h2 := Int.emod_add_ediv a (k : Int)
    have h3 : a / (k : Int) * (k : Int) = (k : Int) * (a / (k : Int)) := Int.mul_comm _ _
    omega
  rw [hdiv]
  by_cases hM : M ≤ a / (k : Int)
  · have hb : min M (a / (k : Int)) = M := min_eq_left hM
    rw [hb]
    have hle : M * (k : Int) ≤ a / (k : Int) * (k : Int) :=
      Int.mul_le_mul_of_nonneg_right hM (le_of_lt hkz)
    rw [sum_range_shares M (a - M * (k : Int)) (M < M) (by omega) k, if_neg (lt_irrefl M),
      min_eq_right (by rw [Int.mul_comm]; omega)]
    ring
  · have hlt : a / (k : Int) < M := not_le.mp hM
    have hb : min M (a / (k : Int)) = a / (k : Int) := min_eq_right (le_of_lt hlt)
    rw [hb, sum_range_shares (a / (k : Int)) (a - a / (k : Int) * (k : Int)) (a / (k : Int) < M)
      (by omega) k, if_pos hlt, min_eq_right (by omega)]
    have hbig : a ≤ (k : Int) * M := by
      have h1 : (a / (k : Int) + 1) * (k : Int) ≤ M * (k : Int) :=
        Int.mul_le_mul_of_nonneg_right (by omega) (le_of_lt hkz)
      have h2 : (a / (k : Int) + 1) * (k : Int) = a / (k : Int) * (k : Int) + (k : Int) := by ring
      have h3 : M * (k : Int) = (k : Int) * M := Int.mul_comm _ _
      omega
    rw [min_eq_left hbig]
    ring

theorem first_store_shares {sort : StdSort} (hs : SortContract sort) (ms ms1 : MarketState)
    (i : Nat) (R : Restaurant) (hR : ms.restaurants[i]? = some R)
    (hfirst : ∀ j Rj, j < i → ms.restaurants[j]? = some Rj → Rj.business_id ≠ R.business_id)
    (hk : (pending_for ms R.business_id).length ≠ 0)
    (ha : R.actual_bags ≥ ((pending_for ms R.business_id).length : Int))
    (hreg : ∀ q ∈ pending_for ms R.business_id, reg_at ms q = true)
    (hrun : process_end_of_day sort ms = some ms1) :
    ∀ (t q : Nat), (settlement_order sort ms R.business_id)[t]? = some q →
      status_at ms1 q = some Status.CONFIRMED ∧
      bags_at ms1 q = some
        (if min R.max_bags_per_customer
              (Int.tdiv R.actual_bags ((pending_for ms R.business_id).length : Int)) <
              R.max_bags_per_customer ∧
            (t : Int) < R.actual_bags -
              min R.max_bags_per_customer
                (Int.tdiv R.actual_bags ((pending_for ms R.business_id).length : Int)) *
                ((pending_for ms R.business_id).length : Int)
         then min R.max_bags_per_customer
              (Int.tdiv R.actual_bags ((pending_for ms R.business_id).length : Int)) + 1
         else min R.max_bags_per_customer
              (Int.tdiv R.actual_bags ((pending_for ms R.business_id).length : Int))) := by
  have hperm := settlement_order_perm hs ms R.business_id
  have h3 := first_store_abundance hs ms ms1 i R hR hfirst hk ha hrun
  have hflags : ∀ f ∈ (settlement_order sort ms R.business_id).map (reg_at ms), f = true := by
    intro f hf
    obtain ⟨p, hp, rfl⟩ := List.mem_map.mp hf
    exact hreg p (hperm.mem_iff.mp hp)
  intro t q ht
  have hlt : t < (settlement_order sort ms R.business_id).length := by
    rcases Nat.lt_or_ge t (settlement_order sort ms R.business_id).length with h | h
    · exact h
    · rw [List.getElem?_eq_none h] at ht; cases ht
  obtain ⟨r, hr, _, _⟩ :=
    (mem_pending_for ms _ q).mp (hperm.mem_iff.mp (List.getElem?_mem ht))
  have h4 := h3 t q _ ht (alloc_all_true _ _ _ _ t hflags (by rw [List.length_map]; exact hlt))
  rw [hr] at h4
  simp only [status_at, bags_at, h4]
  exact ⟨rfl, rfl⟩

/-- C36 (amended): for every store that is the first in the store list with
its business id, with `k >= 1` pending reservations, `actual_bags >= k` and all
reserving customers registered, after any run of `process_end_of_day` under a
`std::sort` that meets its contract all `k` reservations are CONFIRMED and
their `bags_received` total `min(actual_bags, k * max_bags_per_customer)`.  The
run returns whenever no store has a negative `actual_bags`. -/
theorem abundance_total (sort : StdSort) (hs : SortContract sort) (ms : MarketState) (i : Nat)
    (R : Restaurant) (hR : ms.restaurants[i]? = some R)
    (hfirst : ∀ j Rj, j < i → ms.restaurants[j]? = some Rj → Rj.business_id ≠ R.business_id)
    (hk : 1 ≤ (pending_for ms R.business_id).length)
    (ha : R.actual_bags ≥ ((pending_for ms R.business_id).length : Int))
    (hreg : ∀ q ∈ pending_for ms R.business_id, reg_at ms q = true) :
    (∀ ms1, process_end_of_day sort ms = some ms1 →
      (∀ q ∈ pending_for ms R.business_id, status_at ms1 q = some Status.CONFIRMED) ∧
      ((pending_for ms R.business_id).map (fun q => (bags_at ms1 q).getD 0)).sum =
        min R.actual_bags
          (((pending_for ms R.business_id).length : Int) * R.max_bags_per_customer)) ∧
    ((∀ S ∈ ms.restaurants, 0 ≤ S.actual_bags) →
      ∃ ms1, process_end_of_day sort ms = some ms1) := by
  refine ⟨?_, process_end_of_day_total hs ms⟩
  intro ms1 hrun
  have hperm := settlement_order_perm hs ms R.business_id
  have hlen := settlement_order_length hs ms R.business_id
  have hshare := first_store_shares hs ms ms1 i R hR hfirst (by omega) ha hreg hrun
  constructor
  · intro q hq
    obtain ⟨t, ht⟩ := List.getElem?_of_mem (hperm.mem_iff.mpr hq)
    exact (hshare t q ht).1
  · rw [← (hperm.map (fun q => (bags_at ms1 q).getD 0)).sum_eq,
      ← abundance_shares_total R.max_bags_per_customer R.actual_bags
        (pending_for ms R.business_id).length (by omega) ha]
    congr 1
    apply List.ext_getElem?
    intro t
    rw [List.getElem?_map, List.getElem?_map]
    cases ht : (settlement_order sort ms R.business_id)[t]? with
    | none =>
      have hge : (settlement_order sort ms R.business_id).length ≤ t :=
        List.getElem?_eq_none_iff.mp ht
      rw [List.getElem?_eq_none_iff.mpr (by rw [List.length_range]; omega)]
      rfl
    | some q =>
      have hlt : t < (settlement_order sort ms R.business_id).length := by
        rcases Nat.lt_or_ge t (settlement_order sort ms R.business_id).length with h | h
        · exact h
        · rw [List.getElem?_eq_none h] at ht; cases ht
      rw [List.getElem?_range (by omega)]
      simp only [Option.map_some', (hshare t q ht).2, Option.getD_some]

/-- C36 (witness): one store with 7 bags, cap 3 and three pending
reservations of registered customers: `3 + 2 + 2 = 7 = min(7, 9)` bags. -/
theorem abundance_total_witness :
    ((∀ ms1, process_end_of_day insertion_sort extras_state = some ms1 →
      (∀ q ∈ pending_for extras_state 1, status_at ms1 q = some Status.CONFIRMED) ∧
      ((pending_for extras_state 1).map (fun q => (bags_at ms1 q).getD 0)).sum =
        min (7 : Int) (((pending_for extras_state 1).length : Int) * 3)) ∧
    ((∀ S ∈ extras_state.restaurants, 0 ≤ S.actual_bags) →
      ∃ ms1, process_end_of_day insertion_sort extras_state = some ms1)) ∧
    (process_end_of_day insertion_sort extras_state).map
      (fun s => (pending_for extras_state 1).map (fun q => (bags_at s q).getD 0)) =
      some [2, 3, 2] :=
  ⟨abundance_total insertion_sort insertion_sort_conforms extras_state 0 (store_fixture 1 7 3)
      (by decide) (by intro j Rj hj; omega) (by decide) (by decide) (by decide),
    by decide⟩

/-- C36 (counterexample): the second of two stores with the same business id
has 4 bags, cap 3 and two pending reservations, so the claim asks for
`min(4, 6) = 4` bags; the reservations are settled from the first store's
2 bags and receive `1 + 1 = 2`. -/
theorem abundance_total_duplicate_store :
    duplicate_allocation_state.restaurants[1]? = some (store_fixture 1 4 3) ∧
    pending_for duplicate_allocation_state 1 = [0, 1] ∧
    (∀ q ∈ pending_for duplicate_allocation_state 1,
      reg_at duplicate_allocation_state q = true) ∧
    min (4 : Int) (2 * 3) = 4 ∧
    (process_end_of_day insertion_sort duplicate_allocation_state).map
      (fun s => ((pending_for duplicate_allocation_state 1).map
        (fun q => (bags_at s q).getD 0)).sum) = some 2 := by
  refine ⟨by decide, by decide, by decide, by decide, by decide⟩

/-! ## Settlement: index safety -/

theorem mem_int_range (a b i : Int) : i ∈ int_range a b ↔ a ≤ i ∧ i < b := by
  unfold int_range
  rw [List.mem_map]
  constructor
  · rintro ⟨n, hn, rfl⟩
    rw [List.mem_range] at hn
    omega
  · rintro ⟨h1, h2⟩
    refine ⟨(i - a).toNat, ?_, ?_⟩
    · rw [List.mem_range]
      omega
    · omega

theorem settlement_reads_safe (k : Nat) (actual_bags : Int) :
    (∀ i ∈ settlement_reads k actual_bags, 0 ≤ i ∧ i < (k : Int)) ↔ (k = 0 ∨ 0 ≤ actual_bags) := by
  unfold settlement_reads
  by_cases hk : k = 0
  · simp [hk]
  · rw [if_neg hk]
    by_cases ha : actual_bags ≥ (k : Int)
    · rw [if_pos ha]
      constructor
      · intro _
        right
        omega
      · intro _ i hi
        obtain ⟨n, hn, rfl⟩ := List.mem_map.mp hi
        rw [List.mem_range] at hn
        omega
    · rw [if_neg ha]
      constructor
      · intro h
        right
        by_contra hneg
        have hmem : actual_bags ∈ int_range 0 actual_bags ++ int_range actual_bags (k : Int) := by
          apply List.mem_append_right
          rw [mem_int_range]
          omega
        have := (h actual_bags hmem).1
        omega
      · rintro (h | h) i hi
        · exact absurd h hk
        · rcases List.mem_append.mp hi with h1 | h1
          · rw [mem_int_range] at h1
            omega
          · rw [mem_int_range] at h1
            omega

theorem settle_store_fault_iff (sort : StdSort) (ms : MarketState) (R : Restaurant) :
    settle_store sort ms R = none ↔
      ¬ ∀ i ∈ settlement_reads (settlement_order sort ms R.business_id).length R.actual_bags,
        0 ≤ i ∧ i < ((settlement_order sort ms R.business_id).length : Int) := by
  rw [settlement_reads_safe]
  unfold settle_store settlement_order
  simp only
  by_cases hk : (sort Nat (time_lt ms) (pending_for ms R.business_id)).length = 0
  · simp [hk]
  · have hk1 : ¬ ((sort Nat (time_lt ms) (pending_for ms R.business_id)).length : Int) = 0 := by
      omega
    rw [if_neg hk1]
    by_cases ha : R.actual_bags ≥
        ((sort Nat (time_lt ms) (pending_for ms R.business_id)).length : Int)
    · rw [if_pos ha]
      simp only [reduceCtorEq, false_iff, not_not]
      right
      omega
    · rw [if_neg ha]
      by_cases hneg : R.actual_bags < 0
      · rw [if_pos hneg]
        simp only [true_iff, not_or]
        exact ⟨hk, by omega⟩
      · rw [if_neg hneg]
        simp only [reduceCtorEq, false_iff, not_not]
        right
        omega

/-- C35 (amended): for every market state in which no store has a negative
`actual_bags`, every position that the loops of `process_end_of_day` read from
a store's sorted pending list of length `k` lies in `0 .. k-1`, and the run
returns.  In general the reads for `k` pending reservations are within bounds
exactly when `k = 0` or `actual_bags >= 0`, and the step of a store faults
exactly when one of its reads is out of bounds. -/
theorem settlement_index_safety (sort : StdSort) (hs : SortContract sort) (ms : MarketState)
    (hbags : ∀ S ∈ ms.restaurants, 0 ≤ S.actual_bags) :
    (∀ S ∈ ms.restaurants, ∀ (k : Nat), ∀ i ∈ settlement_reads k S.actual_bags,
      0 ≤ i ∧ i < (k : Int)) ∧
    (∃ ms1, process_end_of_day sort ms = some ms1) ∧
    (∀ (k : Nat) (actual_bags : Int),
      (∀ i ∈ settlement_reads k actual_bags, 0 ≤ i ∧ i < (k : Int)) ↔
        (k = 0 ∨ 0 ≤ actual_bags)) ∧
    (∀ (msi : MarketState) (R : Restaurant),
      settle_store sort msi R = none ↔
        ¬ ∀ i ∈ settlement_reads (settlement_order sort msi R.business_id).length R.actual_bags,
          0 ≤ i ∧ i < ((settlement_order sort msi R.business_id).length : Int)) := by
  refine ⟨?_, process_end_of_day_total hs ms hbags, settlement_reads_safe,
    settle_store_fault_iff sort⟩
  intro S hS k
  exact (settlement_reads_safe k S.actual_bags).mpr (Or.inr (hbags S hS))

/-- C35 (witness): the scarcity scenario, 3 bags and 5 pending reservations:
the loops read the positions 0, 1, 2 and then 3, 4. -/
theorem settlement_index_safety_witness :
    ((∀ S ∈ scarcity_state.restaurants, ∀ (k : Nat), ∀ i ∈ settlement_reads k S.actual_bags,
      0 ≤ i ∧ i < (k : Int)) ∧
    (∃ ms1, process_end_of_day insertion_sort scarcity_state = some ms1) ∧
    (∀ (k : Nat) (actual_bags : Int),
      (∀ i ∈ settlement_reads k actual_bags, 0 ≤ i ∧ i < (k : Int)) ↔
        (k = 0 ∨ 0 ≤ actual_bags)) ∧
    (∀ (msi : MarketState) (R : Restaurant),
      settle_store insertion_sort msi R = none ↔
        ¬ ∀ i ∈ settlement_reads (settlement_order insertion_sort msi R.business_id).length
            R.actual_bags,
          0 ≤ i ∧ i < ((settlement_order insertion_sort msi R.business_id).length : Int))) ∧
    settlement_reads 5 3 = [0, 1, 2, 3, 4] :=
  ⟨settlement_index_safety insertion_sort insertion_sort_conforms scarcity_state (by decide),
    by decide⟩

/-- C35 (counterexample): one store with `actual_bags = -1` and one pending
reservation: the cancel loop starts at position `-1` of a list of length 1. -/
theorem settlement_reads_negative_index :
    negative_state.restaurants = [store_fixture 1 (-1) 3] ∧
    pending_for negative_state 1 = [0] ∧
    settlement_reads 1 (-1) = [-1, 0] ∧
    process_end_of_day insertion_sort negative_state = none := by
  refine ⟨rfl, by decide, by decide, by decide⟩

/-! ## Display: the passes shared by the multi-pass strategies -/

theorem size_lt_iff (len : Nat) (n : Int) (h0 : 0 ≤ n) (hmax : n < 2 ^ 64) :
    size_lt len n = true ↔ (len : Int) < n := by
  simp only [size_lt, to_size_t, decide_eq_true_eq]
  rw [Int.emod_eq_of_lt h0 hmax]

theorem count_unselected (L r : List Int) (hr : r.Nodup) (hL : L.Nodup)
    (hsub : ∀ x ∈ r, x ∈ L) :
    r.length + (L.filter (fun x => decide (x ∉ r))).length = L.length := by
  have hsplit := length_filter_split L (fun x => decide (x ∈ r)) (fun x => decide (x ∉ r))
    (by
      intro a _
      by_cases h : a ∈ r
      · left; simp [h]
      · right; simp [h])
  have hperm : (L.filter (fun x => decide (x ∈ r))).Perm r := by
    apply (List.perm_ext_iff_of_nodup (hL.filter _) hr).mpr
    intro a
    simp only [List.mem_filter, decide_eq_true_eq]
    constructor
    · exact fun h => h.2
    · exact fun h => ⟨hsub a h, h⟩
  rw [hsplit, hperm.length_eq]

theorem fill_remaining_spec (n : Int) (h0 : 0 ≤ n) (hmax : n < 2 ^ 64) (T : List (Int × ℚ)) :
    ∀ r : List Int, r.Nodup → (T.map (fun s => s.1)).Nodup → (r.length : Int) ≤ n →
      (fill_remaining n T r).Nodup ∧
      ((fill_remaining n T r).length : Int) =
        min n ((r.length : Int) + ((T.filter (fun s => decide (s.1 ∉ r))).length : Int)) := by
  induction T with
  | nil =>
    intro r hr _ hlen
    simp only [fill_remaining, List.filter_nil, List.length_nil, Nat.cast_zero, add_zero]
    exact ⟨hr, by omega⟩
  | cons s tl ih =>
    intro r hr hT hlen
    rw [List.map_cons, List.nodup_cons] at hT
    unfold fill_remaining
    by_cases hsz : size_lt r.length n = true
    · have hlt : (r.length : Int) < n := (size_lt_iff r.length n h0 hmax).mp hsz
      rw [if_pos hsz]
      by_cases hmem : s.1 ∈ r
      · rw [if_pos hmem]
        obtain ⟨h1, h2⟩ := ih r hr hT.2 hlen
        refine ⟨h1, ?_⟩
        rw [h2, List.filter_cons, if_neg (by simp [hmem])]
      · rw [if_neg hmem]
        have hr1 : (r ++ [s.1]).Nodup := by
          rw [List.nodup_append]
          refine ⟨hr, List.nodup_singleton _, ?_⟩
          intro a ha hb
          rw [List.mem_singleton] at hb
          exact hmem (hb ▸ ha)
        obtain ⟨h1, h2⟩ := ih (r ++ [s.1]) hr1 hT.2 (by
          rw [List.length_append, List.length_singleton]; push_cast; omega)
        refine ⟨h1, ?_⟩
        have hcongr : tl.filter (fun t => decide (t.1 ∉ r ++ [s.1])) =
            tl.filter (fun t => decide (t.1 ∉ r)) := by
          apply List.filter_congr
          intro t ht
          have hne : t.1 ≠ s.1 := by
            intro heq
            exact hT.1 (List.mem_map.mpr ⟨t, ht, heq⟩)
          simp [hne]
        rw [h2, hcongr, List.filter_cons, if_pos (by simp [hmem]), List.length_append,
          List.length_singleton, List.length_cons]
        push_cast
        ring_nf
    · rw [if_neg hsz]
      have hge : ¬ (r.length : Int) < n := fun h => hsz ((size_lt_iff r.length n h0 hmax).mpr h)
      refine ⟨hr, ?_⟩
      have : (0 : Int) ≤ ((List.filter (fun s => decide (s.1 ∉ r)) (s :: tl)).length : Int) :=
        Int.ofNat_nonneg _
      omega

theorem within_display_fill (S : List (Int × ℚ)) (n : Int) (h0 : 0 ≤ n) (hmax : n < 2 ^ 64)
    (hS : (S.map (fun s => s.1)).Nodup) (r : List Int) (hr : WithinDisplay S n r) :
    (fill_remaining n S r).Nodup ∧
    ((fill_remaining n S r).length : Int) = min n (S.length : Int) ∧
    (∀ id ∈ fill_remaining n S r, id ∈ S.map (fun s => s.1)) := by
  obtain ⟨hnd, hsub, hlen⟩ := hr
  obtain ⟨h1, h2⟩ := fill_remaining_spec n h0 hmax S r hnd hS hlen
  refine ⟨h1, ?_, ?_⟩
  · rw [h2]
    have hcount := count_unselected (S.map (fun s => s.1)) r hnd hS hsub
    rw [List.filter_map, List.length_map, List.length_map] at hcount
    have hfun : S.filter ((fun x => decide (x ∉ r)) ∘ fun s => s.1) =
        S.filter (fun s => decide (s.1 ∉ r)) := rfl
    rw [hfun] at hcount
    have : (r.length : Int) + ((S.filter (fun s => decide (s.1 ∉ r))).length : Int) =
        (S.length : Int) := by exact_mod_cast hcount
    rw [this]
  · intro id hid
    rcases fill_remaining_mem n S r id hid with h | h
    · exact hsub id h
    · exact h

theorem within_display_take (S : List (Int × ℚ)) (n : Int) (d : Nat) (hd : (d : Int) ≤ n)
    (hS : (S.map (fun s => s.1)).Nodup) :
    WithinDisplay S n ((S.take d).map (fun s => s.1)) := by
  refine ⟨?_, ?_, ?_⟩
  · exact hS.sublist ((List.take_sublist _ _).map _)
  · intro id hid
    obtain ⟨e, he, rfl⟩ := List.mem_map.mp hid
    exact List.mem_map.mpr ⟨e, List.mem_of_mem_take he, rfl⟩
  · rw [List.length_map, List.length_take]
    omega

theorem within_display_snoc (S : List (Int × ℚ)) (n : Int) (r : List Int) (x : Int)
    (hr : WithinDisplay S n r) (hlt : (r.length : Int) < n) (hx : x ∉ r)
    (hmem : x ∈ S.map (fun s => s.1)) : WithinDisplay S n (r ++ [x]) := by
  obtain ⟨hnd, hsub, _⟩ := hr
  refine ⟨?_, ?_, ?_⟩
  · rw [List.nodup_append]
    refine ⟨hnd, List.nodup_singleton _, ?_⟩
    intro a ha hb
    rw [List.mem_singleton] at hb
    exact hx (hb ▸ ha)
  · intro id hid
    rcases List.mem_append.mp hid with h | h
    · exact hsub id h
    · rw [List.mem_singleton] at h
      rw [h]
      exact hmem
  · rw [List.length_append, List.length_singleton]
    push_cast
    omega

theorem harmony_high_waste_within (ms : MarketState) (S : List (Int × ℚ)) (n : Int)
    (r : List Int) (hr : WithinDisplay S n r) (hlt : (r.length : Int) < n) :
    WithinDisplay S n (harmony_high_waste ms S r) := by
  unfold harmony_high_waste
  split
  · rename_i s hfind
    have hp := List.find?_some hfind
    simp only [Bool.and_eq_true, Bool.not_eq_true', decide_eq_false_iff_not] at hp
    exact within_display_snoc S n r s.1 hr hlt hp.1
      (List.mem_map.mpr ⟨s, List.mem_of_find?_eq_some hfind, rfl⟩)
  · exact hr

theorem harmony_discovery_within (customer : Customer) (ms : MarketState) (S : List (Int × ℚ))
    (n : Int) (r : List Int) (hr : WithinDisplay S n r) (hlt : (r.length : Int) < n) :
    WithinDisplay S n (harmony_discovery customer ms S r) := by
  unfold harmony_discovery
  split
  · rename_i s hfind
    have hp := List.find?_some hfind
    simp only [Bool.and_eq_true, Bool.not_eq_true', decide_eq_false_iff_not] at hp
    exact within_display_snoc S n r s.1 hr hlt hp.1.1
      (List.mem_map.mpr ⟨s, List.mem_of_find?_eq_some hfind, rfl⟩)
  · exact hr

theorem push_best_within (sort : StdSort) (hs : SortContract sort) (S : List (Int × ℚ))
    (n : Int) (candidates : List (Int × ℚ)) (r : List Int) (hr : WithinDisplay S n r)
    (hlt : (r.length : Int) < n)
    (hcand : ∀ e ∈ candidates, e.1 ∉ r ∧ e.1 ∈ S.map (fun s => s.1)) :
    WithinDisplay S n (push_best sort candidates r) := by
  unfold push_best
  split
  · exact hr
  · split
    · exact hr
    · rename_i best rest hsort
      have hmem : best ∈ candidates := by
        apply (hs (Int × ℚ) score_gt candidates score_gt_swo).1.mem_iff.mp
        rw [hsort]
        exact List.mem_cons_self _ _
      exact within_display_snoc S n r best.1 hr hlt (hcand best hmem).1 (hcand best hmem).2

theorem sama_discovery_sound (customer : Customer) (ms : MarketState) (selected ids : List Int)
    (e : Int × ℚ) (h : e ∈ sama_discovery customer ms selected ids) :
    e.1 ∈ ids ∧ e.1 ∉ selected := by
  induction ids with
  | nil => simp [sama_discovery] at h
  | cons a rest ih =>
    unfold sama_discovery at h
    split at h
    · exact ⟨List.mem_cons_of_mem _ (ih h).1, (ih h).2⟩
    · rename_i hsel
      split at h
      · split at h
        · exact ⟨List.mem_cons_of_mem _ (ih h).1, (ih h).2⟩
        · split at h
          · exact ⟨List.mem_cons_of_mem _ (ih h).1, (ih h).2⟩
          · rcases List.mem_cons.mp h with h1 | h1
            · subst h1
              exact ⟨List.mem_cons_self _ _, hsel⟩
            · exact ⟨List.mem_cons_of_mem _ (ih h1).1, (ih h1).2⟩
      · exact ⟨List.mem_cons_of_mem _ (ih h).1, (ih h).2⟩

theorem sama_price_candidates_sound (customer : Customer) (ms : MarketState)
    (selected ids : List Int) (e : Int × ℚ)
    (h : e ∈ sama_price_candidates customer ms selected ids) :
    e.1 ∈ ids ∧ e.1 ∉ selected := by
  induction ids with
  | nil => simp [sama_price_candidates] at h
  | cons a rest ih =>
    unfold sama_price_candidates at h
    split at h
    · exact ⟨List.mem_cons_of_mem _ (ih h).1, (ih h).2⟩
    · rename_i hsel
      split at h
      · exact ⟨List.mem_cons_of_mem _ (ih h).1, (ih h).2⟩
      · split at h
        · exact ⟨List.mem_cons_of_mem _ (ih h).1, (ih h).2⟩
        · rcases List.mem_cons.mp h with h1 | h1
          · subst h1
            exact ⟨List.mem_cons_self _ _, hsel⟩
          · exact ⟨List.mem_cons_of_mem _ (ih h1).1, (ih h1).2⟩

theorem sama_select1_spec (store_scores : List (Int × ℚ)) (personalized_count n : Int)
    (h0 : 0 ≤ n) (hmax : n < 2 ^ 64)
    (hsafe : min personalized_count.toNat n.toNat ≤ store_scores.length) :
    ∀ (fuel i : Nat) (result : List Int),
      result = (store_scores.take i).map (fun s => s.1) →
      i + fuel = personalized_count.toNat → i ≤ n.toNat →
      sama_select1 store_scores personalized_count n fuel i result =
        some ((store_scores.take (min personalized_count.toNat n.toNat)).map (fun s => s.1)) := by
  intro fuel
  induction fuel with
  | zero =>
    intro i result hres hfuel hin
    simp only [sama_select1]
    rw [hres]
    have : min personalized_count.toNat n.toNat = i := by omega
    rw [this]
  | succ f ih =>
    intro i result hres hfuel hin
    have hlen : result.length = min i store_scores.length := by
      rw [hres, List.length_map, List.length_take]
    unfold sama_select1
    by_cases hlt : i < n.toNat
    · have hi : i < store_scores.length := by omega
      have hcond : (i : Int) < personalized_count ∧ size_lt result.length n = true := by
        refine ⟨by omega, ?_⟩
        rw [size_lt_iff _ n h0 hmax, hlen]
        omega
      rw [if_pos hcond, List.getElem?_eq_getElem hi]
      simp only
      apply ih (i + 1) _ _ (by omega) (by omega)
      rw [hres, List.take_succ, List.getElem?_eq_getElem hi]
      simp only [Option.toList, List.map_append, List.map_cons, List.map_nil]
    · have hcond : ¬ ((i : Int) < personalized_count ∧ size_lt result.length n = true) := by
        rintro ⟨_, h2⟩
        rw [size_lt_iff _ n h0 hmax, hlen] at h2
        omega
      rw [if_neg hcond, hres]
      have : min personalized_count.toNat n.toNat = i := by omega
      rw [this]

/-! ## Display: the multi-objective strategy -/

theorem available_nodup (ms : MarketState)
    (hdist : (ms.restaurants.map (fun r => r.business_id)).Nodup) :
    ms.get_available_restaurant_ids.Nodup :=
  hdist.sublist ((List.filter_sublist _).map _)

theorem sama_scores_ids (fm : FloatMath) (customer : Customer) (ms : MarketState)
    (ids : List Int) (h : ∀ id ∈ ids, id ∈ ms.get_available_restaurant_ids) :
    (sama_scores fm customer ms ids).map (fun s => s.1) = ids := by
  induction ids with
  | nil => rfl
  | cons a rest ih =>
    obtain ⟨store, hst⟩ := get_restaurant_of_available ms a (h a (List.mem_cons_self _ _))
    unfold sama_scores
    simp only [hst, List.map_cons]
    rw [ih (fun id hid => h id (List.mem_cons_of_mem _ hid))]

theorem sama_personalized_safe (x : Int) (len : Nat) (n : Int)
    (h3 : 3 ≤ len ∨ n ≤ (len : Int)) :
    min (max 3 (min x (len : Int))).toNat n.toNat ≤ len := by
  rcases h3 with h | h
  · have : max 3 (min x (len : Int)) ≤ (len : Int) := by omega
    omega
  · omega

theorem sama_display_spec (fm : FloatMath) (sort : StdSort) (hs : SortContract sort)
    (customer : Customer) (ms : MarketState) (n : Int) (h0 : 0 ≤ n) (hmax : n < 2 ^ 64)
    (hdist : (ms.restaurants.map (fun r => r.business_id)).Nodup)
    (h3 : 3 ≤ ms.get_available_restaurant_ids.length ∨
      n ≤ (ms.get_available_restaurant_ids.length : Int)) :
    ∃ result, get_displayed_stores_sama fm sort customer ms n = some result ∧
      result.Nodup ∧
      (result.length : Int) = min n (ms.get_available_restaurant_ids.length : Int) ∧
      ∀ id ∈ result, id ∈ ms.get_available_restaurant_ids := by
  by_cases hav : ms.get_available_restaurant_ids = []
  · refine ⟨[], by simp [get_displayed_stores_sama, hav], List.nodup_nil, ?_, by simp⟩
    rw [hav]
    simp only [List.length_nil, Nat.cast_zero]
    omega
  have hperm := (hs (Int × ℚ) score_gt
    (sama_scores fm customer ms ms.get_available_restaurant_ids) score_gt_swo).1
  have hids : ((sort (Int × ℚ) score_gt
      (sama_scores fm customer ms ms.get_available_restaurant_ids)).map (fun s => s.1)).Perm
      ms.get_available_restaurant_ids := by
    have := hperm.map (fun s : Int × ℚ => s.1)
    rw [sama_scores_ids fm customer ms _ (fun _ h => h)] at this
    exact this
  have hlen : (sort (Int × ℚ) score_gt
      (sama_scores fm customer ms ms.get_available_restaurant_ids)).length =
      ms.get_available_restaurant_ids.length := by
    have := hids.length_eq
    rw [List.length_map] at this
    exact this
  unfold get_displayed_stores_sama
  simp only [hav, if_false]
  generalize sort (Int × ℚ) score_gt
    (sama_scores fm customer ms ms.get_available_restaurant_ids) = S at hids hlen ⊢
  have hS : (S.map (fun s => s.1)).Nodup := hids.nodup_iff.mpr (available_nodup ms hdist)
  have hmemS : ∀ id, id ∈ S.map (fun s => s.1) ↔ id ∈ ms.get_available_restaurant_ids :=
    fun id => hids.mem_iff
  rw [sama_select1_spec S _ n h0 hmax
    (by rw [hlen]; exact sama_personalized_safe _ _ n h3) _ 0 [] (by simp) (by simp)
    (Nat.zero_le _)]
  simp only
  have hr1 : WithinDisplay S n ((S.take (min (max 3 (min
      (float_to_int ((n : ℚ) * sama_personalization customer ms)) (S.length : Int))).toNat
      n.toNat)).map (fun s => s.1)) :=
    within_display_take S n _ (by omega) hS
  generalize (S.take (min (max 3 (min
      (float_to_int ((n : ℚ) * sama_personalization customer ms)) (S.length : Int))).toNat
      n.toNat)).map (fun s => s.1) = r1 at hr1 ⊢
  have hr2 : WithinDisplay S n (if size_lt r1.length n = true then
      push_best sort (sama_discovery customer ms r1 ms.get_available_restaurant_ids) r1
      else r1) := by
    split
    · rename_i hsz
      apply push_best_within sort hs S n _ r1 hr1 ((size_lt_iff _ n h0 hmax).mp hsz)
      intro e he
      obtain ⟨h1, h2⟩ := sama_discovery_sound customer ms r1 _ e he
      exact ⟨h2, (hmemS e.1).mpr h1⟩
    · exact hr1
  generalize (if size_lt r1.length n = true then
      push_best sort (sama_discovery customer ms r1 ms.get_available_restaurant_ids) r1
      else r1) = r2 at hr2 ⊢
  have hr3 : WithinDisplay S n (if size_lt r2.length n = true then
      push_best sort (sama_price_candidates customer ms r2 ms.get_available_restaurant_ids) r2
      else r2) := by
    split
    · rename_i hsz
      apply push_best_within sort hs S n _ r2 hr2 ((size_lt_iff _ n h0 hmax).mp hsz)
      intro e he
      obtain ⟨h1, h2⟩ := sama_price_candidates_sound customer ms r2 _ e he
      exact ⟨h2, (hmemS e.1).mpr h1⟩
    · exact hr2
  generalize (if size_lt r2.length n = true then
      push_best sort (sama_price_candidates customer ms r2 ms.get_available_restaurant_ids) r2
      else r2) = r3 at hr3 ⊢
  obtain ⟨hn1, hn2, hn3⟩ := within_display_fill S n h0 hmax hS r3 hr3
  refine ⟨_, rfl, hn1, ?_, fun id hid => (hmemS id).mp (hn3 id hid)⟩
  rw [hn2, hlen]

theorem sama_returns (fm : FloatMath) (sort : StdSort) (hs : SortContract sort)
    (customer : Customer) (ms : MarketState) (n : Int) (h0 : 0 ≤ n) (hmax : n < 2 ^ 64)
    (h3 : 3 ≤ ms.get_available_restaurant_ids.length ∨
      n ≤ (ms.get_available_restaurant_ids.length : Int)) :
    ∃ result, get_displayed_stores_sama fm sort customer ms n = some result := by
  by_cases hav : ms.get_available_restaurant_ids = []
  · exact ⟨[], by simp [get_displayed_stores_sama, hav]⟩
  have hlen : (sort (Int × ℚ) score_gt
      (sama_scores fm customer ms ms.get_available_restaurant_ids)).length =
      ms.get_available_restaurant_ids.length := by
    rw [(hs _ score_gt _ score_gt_swo).1.length_eq]
    exact sama_scores_length_available fm customer ms _ (fun _ h => h)
  unfold get_displayed_stores_sama
  simp only [hav, if_false]
  rw [sama_select1_spec _ _ n h0 hmax
    (by rw [hlen]; exact sama_personalized_safe _ _ n h3) _ 0 [] (by simp) (by simp)
    (Nat.zero_le _)]
  exact ⟨_, rfl⟩

theorem sama_fault_iff (fm : FloatMath) (sort : StdSort) (hs : SortContract sort)
    (customer : Customer) (ms : MarketState) (n : Int) (h0 : 0 ≤ n) (hmax : n < 2 ^ 64) :
    get_displayed_stores_sama fm sort customer ms n = none ↔
      (1 ≤ ms.get_available_restaurant_ids.length ∧
        ms.get_available_restaurant_ids.length < 3 ∧
        (ms.get_available_restaurant_ids.length : Int) < n) := by
  constructor
  · intro hnone
    by_contra hcon
    by_cases hav : ms.get_available_restaurant_ids = []
    · simp [get_displayed_stores_sama, hav] at hnone
    have hpos : 1 ≤ ms.get_available_restaurant_ids.length :=
      List.length_pos.mpr hav
    have h3 : 3 ≤ ms.get_available_restaurant_ids.length ∨
        n ≤ (ms.get_available_restaurant_ids.length : Int) := by
      by_contra hno
      apply hcon
      omega
    obtain ⟨result, hres⟩ := sama_returns fm sort hs customer ms n h0 hmax h3
    rw [hnone] at hres
    cases hres
  · rintro ⟨h1, h2, h4⟩
    exact sama_reads_past_end fm sort hs customer ms n h1 h2 h4 hmax

/-- C33 (code): for `0 <= n_displayed < 2^64` and a `std::sort` that meets its
contract, the first pass of `get_displayed_stores_sama` reads `store_scores[i]`
past the end of the vector exactly when one or two stores are available and
`n_displayed` exceeds their number; in every other case all its reads are
within bounds.  With two available stores and `n_displayed = 3` the read of
`store_scores[2]` is out of bounds. -/
theorem sama_index_safety_fails :
    (∀ (fm : FloatMath) (sort : StdSort), SortContract sort →
      ∀ (customer : Customer) (ms : MarketState) (n : Int), 0 ≤ n → n < 2 ^ 64 →
        (get_displayed_stores_sama fm sort customer ms n = none ↔
          (1 ≤ ms.get_available_restaurant_ids.length ∧
            ms.get_available_restaurant_ids.length < 3 ∧
            (ms.get_available_restaurant_ids.length : Int) < n))) ∧
    rivalry_state.get_available_restaurant_ids = [1, 2] ∧
    get_displayed_stores_sama reference_math insertion_sort (customer_fixture 1)
      rivalry_state 3 = none := by
  have hav : rivalry_state.get_available_restaurant_ids = [1, 2] := by decide
  refine ⟨fun fm sort hs customer ms n h0 hmax =>
    sama_fault_iff fm sort hs customer ms n h0 hmax, hav, ?_⟩
  exact (sama_fault_iff reference_math insertion_sort insertion_sort_conforms
    (customer_fixture 1) rivalry_state 3 (by decide) (by decide)).mpr
    (by rw [hav]; decide)

/-! ## Display: the combined strategy -/

theorem float_to_int_le (x : ℚ) (n : Int) (hx : 0 ≤ x) (hxn : x ≤ (n : ℚ)) :
    float_to_int x ≤ n := by
  have hnum : 0 ≤ x.num := Rat.num_nonneg.mpr hx
  have hden : (0 : Int) ≤ (x.den : Int) := Int.ofNat_nonneg _
  have hfloor : float_to_int x = ⌊x⌋ := by
    unfold float_to_int
    rw [Int.tdiv_eq_ediv hnum hden, Rat.floor_def]
  rw [hfloor]
  have h1 : ((⌊x⌋ : Int) : ℚ) ≤ x := Int.floor_le x
  have h2 : ((⌊x⌋ : Int) : ℚ) ≤ (n : ℚ) := le_trans h1 hxn
  exact_mod_cast h2

theorem harmony_scores_ids (fm : FloatMath) (customer : Customer) (avg : ℚ) (ids : List Int) :
    ∀ (ms : MarketState) (acc : List (Int × ℚ)),
      (harmony_scores fm customer avg ids ms acc).1.map (fun s => s.1) =
        acc.map (fun s => s.1) ++ ids.filter (within_radius fm customer ms) := by
  induction ids with
  | nil => intro ms acc; simp [harmony_scores]
  | cons a rest ih =>
    intro ms acc
    unfold harmony_scores
    cases hst : ms.get_restaurant a with
    | none =>
      simp only
      rw [ih ms acc, List.filter_cons, if_neg (by simp [within_radius, hst])]
    | some store =>
      simp only
      split
      · rename_i hfar
        rw [ih ms acc, List.filter_cons,
          if_neg (by simp only [within_radius, hst, decide_eq_true_eq]; exact not_le.mpr hfar)]
      · rename_i hnear
        rw [ih, List.filter_cons,
          if_pos (by simp only [within_radius, hst, decide_eq_true_eq]; exact not_lt.mp hnear)]
        simp only [List.map_append, List.map_cons, List.map_nil, List.append_assoc,
          List.singleton_append]
        rfl

theorem harmony_display_spec (fm : FloatMath) (sort : StdSort) (hs : SortContract sort)
    (customer : Customer) (ms : MarketState) (n : Int) (h0 : 0 ≤ n) (hmax : n < 2 ^ 64)
    (hdist : (ms.restaurants.map (fun r => r.business_id)).Nodup) :
    (get_displayed_stores_harmony fm sort customer ms n).1.Nodup ∧
    ((get_displayed_stores_harmony fm sort customer ms n).1.length : Int) =
      min n ((ms.get_available_restaurant_ids.filter (within_radius fm customer ms)).length :
        Int) ∧
    ∀ id ∈ (get_displayed_stores_harmony fm sort customer ms n).1,
      id ∈ ms.get_available_restaurant_ids ∧ within_radius fm customer ms id = true := by
  by_cases hav : ms.get_available_restaurant_ids = []
  · simp only [get_displayed_stores_harmony, hav, if_true]
    refine ⟨List.nodup_nil, ?_, by simp⟩
    simp only [List.filter_nil, List.length_nil, Nat.cast_zero]
    omega
  have hperm := (hs (Int × ℚ) score_gt
    (harmony_scores fm customer (harmony_avg_impressions ms) ms.get_available_restaurant_ids
      ms []).1 score_gt_swo).1
  have hids : ((sort (Int × ℚ) score_gt
      (harmony_scores fm customer (harmony_avg_impressions ms) ms.get_available_restaurant_ids
        ms []).1).map (fun s => s.1)).Perm
      (ms.get_available_restaurant_ids.filter (within_radius fm customer ms)) := by
    have := hperm.map (fun s : Int × ℚ => s.1)
    rw [harmony_scores_ids] at this
    simpa using this
  have hlen : (sort (Int × ℚ) score_gt
      (harmony_scores fm customer (harmony_avg_impressions ms) ms.get_available_restaurant_ids
        ms []).1).length =
      (ms.get_available_restaurant_ids.filter (within_radius fm customer ms)).length := by
    have := hids.length_eq
    rw [List.length_map] at this
    exact this
  simp only [get_displayed_stores_harmony, hav, if_false]
  generalize sort (Int × ℚ) score_gt
    (harmony_scores fm customer (harmony_avg_impressions ms) ms.get_available_restaurant_ids
      ms []).1 = S at hids hlen ⊢
  generalize (harmony_scores fm customer (harmony_avg_impressions ms)
    ms.get_available_restaurant_ids ms []).2 = ms1
  have hS : (S.map (fun s => s.1)).Nodup :=
    hids.nodup_iff.mpr ((available_nodup ms hdist).filter _)
  have hmemS : ∀ id, id ∈ S.map (fun s => s.1) →
      id ∈ ms.get_available_restaurant_ids ∧ within_radius fm customer ms id = true := by
    intro id hid
    have := hids.mem_iff.mp hid
    rw [List.mem_filter] at this
    exact this
  have hd : ((float_to_int ((n : ℚ) * (7 / 10))).toNat : Int) ≤ n := by
    have hn : (0 : ℚ) ≤ (n : ℚ) := by exact_mod_cast h0
    have := float_to_int_le ((n : ℚ) * (7 / 10)) n (by linarith) (by linarith)
    omega
  have hr2 : WithinDisplay S n ((S.take (float_to_int ((n : ℚ) * (7 / 10))).toNat).map
      (fun s => s.1)) := within_display_take S n _ hd hS
  generalize (S.take (float_to_int ((n : ℚ) * (7 / 10))).toNat).map (fun s => s.1) = r2
    at hr2 ⊢
  have hr3 : WithinDisplay S n (if size_lt r2.length n = true then
      harmony_high_waste ms1 S r2 else r2) := by
    split
    · rename_i hsz
      exact harmony_high_waste_within ms1 S n r2 hr2 ((size_lt_iff _ n h0 hmax).mp hsz)
    · exact hr2
  generalize (if size_lt r2.length n = true then harmony_high_waste ms1 S r2 else r2) = r3
    at hr3 ⊢
  have hr4 : WithinDisplay S n (if size_lt r3.length n = true then
      harmony_discovery customer ms1 S r3 else r3) := by
    split
    · rename_i hsz
      exact harmony_discovery_within customer ms1 S n r3 hr3 ((size_lt_iff _ n h0 hmax).mp hsz)
    · exact hr3
  generalize (if size_lt r3.length n = true then harmony_discovery customer ms1 S r3 else r3)
    = r4 at hr4 ⊢
  obtain ⟨hn1, hn2, hn3⟩ := within_display_fill S n h0 hmax hS r4 hr4
  refine ⟨hn1, ?_, fun id hid => hmemS id (hn3 id hid)⟩
  rw [hn2, hlen]

/-! ## Display: the ids come from the available stores, each at most once -/

theorem find_of_mem_nodup (l : List Restaurant)
    (hd : (l.map (fun r => r.business_id)).Nodup) (r : Restaurant) (hr : r ∈ l) :
    l.find? (fun x => decide (x.business_id = r.business_id)) = some r := by
  induction l with
  | nil => simp at hr
  | cons a rest ih =>
    rw [List.map_cons, List.nodup_cons] at hd
    rcases List.mem_cons.mp hr with h | h
    · subst h
      simp
    · have hne : a.business_id ≠ r.business_id := by
        intro heq
        apply hd.1
        rw [heq]
        exact List.mem_map_of_mem _ h
      rw [List.find?_cons_of_neg _ (by simp [hne])]
      exact ih hd.2 h

theorem get_restaurant_of_mem (ms : MarketState)
    (hdist : (ms.restaurants.map (fun r => r.business_id)).Nodup) (r : Restaurant)
    (hr : r ∈ ms.restaurants) : ms.get_restaurant r.business_id = some r :=
  find_of_mem_nodup ms.restaurants hdist r hr

theorem available_store_accepts (ms : MarketState)
    (hdist : (ms.restaurants.map (fun r => r.business_id)).Nodup) (id : Int)
    (h : id ∈ ms.get_available_restaurant_ids) :
    ∃ store, ms.get_restaurant id = some store ∧ store.can_accept_reservation = true := by
  unfold MarketState.get_available_restaurant_ids at h
  obtain ⟨r, hr, hid⟩ := List.mem_map.mp h
  obtain ⟨hr1, hr2⟩ := List.mem_filter.mp hr
  refine ⟨r, ?_, hr2⟩
  rw [← hid]
  exact get_restaurant_of_mem ms hdist r hr1

theorem andrew_scores_ids (fm : FloatMath) (customer : Customer) (ids : List Int) :
    ∀ (ms : MarketState) (acc : List (Int × ℚ)),
      (andrew_scores fm customer ids ms acc).1.map (fun s => s.1) =
        acc.map (fun s => s.1) ++ ids.filter (fun id => (ms.get_restaurant id).isSome) := by
  induction ids with
  | nil => intro ms acc; simp [andrew_scores]
  | cons a rest ih =>
    intro ms acc
    unfold andrew_scores
    cases hst : ms.get_restaurant a with
    | none =>
      simp only
      rw [ih ms acc, List.filter_cons, if_neg (by simp [hst])]
    | some store =>
      simp only
      rw [ih, List.filter_cons, if_pos (by simp [hst])]
      simp only [List.map_append, List.map_cons, List.map_nil, List.append_assoc,
        List.singleton_append]
      rfl

theorem ziad_scores_ids (fm : FloatMath) (customer : Customer) (ms : MarketState)
    (ids : List Int) :
    (ziad_scores fm customer ms ids).map (fun s => s.1) =
      ids.filter (within_radius fm customer ms) := by
  induction ids with
  | nil => rfl
  | cons a rest ih =>
    unfold ziad_scores
    cases hst : ms.get_restaurant a with
    | none =>
      simp only
      rw [ih, List.filter_cons, if_neg (by simp [within_radius, hst])]
    | some store =>
      simp only
      split
      · rename_i hfar
        rw [ih, List.filter_cons,
          if_neg (by simp only [within_radius, hst, decide_eq_true_eq]; exact not_le.mpr hfar)]
      · rename_i hnear
        rw [List.map_cons, ih, List.filter_cons,
          if_pos (by simp only [within_radius, hst, decide_eq_true_eq]; exact not_lt.mp hnear)]

theorem amer_scores_ids (fm : FloatMath) (customer : Customer) (ms : MarketState)
    (selected ids : List Int) :
    (amer_scores fm customer ms selected ids).map (fun s => s.1) =
      ids.filter (fun id => !(decide (id ∈ selected)) && within_radius fm customer ms id) := by
  induction ids with
  | nil => rfl
  | cons a rest ih =>
    unfold amer_scores
    by_cases hsel : a ∈ selected
    · rw [if_pos hsel, ih, List.filter_cons, if_neg (by simp [hsel])]
    · rw [if_neg hsel]
      cases hst : ms.get_restaurant a with
      | none =>
        simp only
        rw [ih, List.filter_cons, if_neg (by simp [within_radius, hst])]
      | some store =>
        simp only
        split
        · rename_i hfar
          rw [ih, List.filter_cons, if_neg (by
            simp only [within_radius, hst, Bool.and_eq_true, decide_eq_true_eq, not_and]
            intro _
            exact not_le.mpr hfar)]
        · rename_i hnear
          rw [List.map_cons, ih, List.filter_cons, if_pos (by
            simp only [within_radius, hst, Bool.and_eq_true, Bool.not_eq_true',
              decide_eq_false_iff_not, decide_eq_true_eq]
            exact ⟨hsel, not_lt.mp hnear⟩)]

theorem sorted_take_ids {sort : StdSort} (hs : SortContract sort) (scores : List (Int × ℚ))
    (ids : List Int) (k : Nat) (hids : scores.map (fun s => s.1) = ids) (hnd : ids.Nodup) :
    (((sort (Int × ℚ) score_gt scores).take k).map (fun s => s.1)).Nodup ∧
    ∀ id ∈ ((sort (Int × ℚ) score_gt scores).take k).map (fun s => s.1), id ∈ ids := by
  have hperm := ((hs (Int × ℚ) score_gt scores score_gt_swo).1).map (fun s : Int × ℚ => s.1)
  rw [hids] at hperm
  constructor
  · exact (hperm.nodup_iff.mpr hnd).sublist ((List.take_sublist _ _).map _)
  · intro id hid
    obtain ⟨e, he, rfl⟩ := List.mem_map.mp hid
    exact hperm.mem_iff.mp (List.mem_map.mpr ⟨e, List.mem_of_mem_take he, rfl⟩)

theorem baseline_display_spec (sort : StdSort) (hs : SortContractOn sort) (ms : MarketState)
    (n : Int) (hdist : (ms.restaurants.map (fun r => r.business_id)).Nodup)
    (result : List Int) (h : get_displayed_stores_baseline sort ms n = some result) :
    result.Nodup ∧ ∀ id ∈ result, id ∈ ms.get_available_restaurant_ids := by
  have hperm := (hs Int (baseline_gt ms) ms.get_available_restaurant_ids
    (baseline_gt_orders_available ms hdist)).1
  unfold get_displayed_stores_baseline at h
  simp only at h
  split at h
  · cases h
  · simp only [Option.some.injEq] at h
    subst h
    constructor
    · exact (hperm.nodup_iff.mpr (available_nodup ms hdist)).sublist (List.take_sublist _ _)
    · intro id hid
      exact hperm.mem_iff.mp (List.mem_of_mem_take hid)

theorem andrew_display_spec (fm : FloatMath) (sort : StdSort) (hs : SortContract sort)
    (customer : Customer) (ms : MarketState) (n : Int)
    (hdist : (ms.restaurants.map (fun r => r.business_id)).Nodup) :
    (get_displayed_stores_andrew fm sort customer ms n).1.Nodup ∧
    ∀ id ∈ (get_displayed_stores_andrew fm sort customer ms n).1,
      id ∈ ms.get_available_restaurant_ids := by
  by_cases hav : ms.get_available_restaurant_ids = []
  · simp [get_displayed_stores_andrew, hav]
  · simp only [get_displayed_stores_andrew, hav, if_false]
    have hsub : ((ms.get_available_restaurant_ids.filter
        (fun id => (ms.get_restaurant id).isSome))).Sublist ms.get_available_restaurant_ids :=
      List.filter_sublist _
    obtain ⟨h1, h2⟩ := sorted_take_ids hs
      (andrew_scores fm customer ms.get_available_restaurant_ids ms []).1 _
      (min n ((sort (Int × ℚ) score_gt
        (andrew_scores fm customer ms.get_available_restaurant_ids ms []).1).length :
        Int)).toNat
      (by rw [andrew_scores_ids]; simp)
      ((available_nodup ms hdist).sublist hsub)
    exact ⟨h1, fun id hid => hsub.subset (h2 id hid)⟩

theorem ziad_display_spec (fm : FloatMath) (sort : StdSort) (hs : SortContract sort)
    (customer : Customer) (ms : MarketState) (n : Int)
    (hdist : (ms.restaurants.map (fun r => r.business_id)).Nodup) :
    (get_displayed_stores_ziad fm sort customer ms n).Nodup ∧
    ∀ id ∈ get_displayed_stores_ziad fm sort customer ms n,
      id ∈ ms.get_available_restaurant_ids := by
  by_cases hav : ms.get_available_restaurant_ids = []
  · simp [get_displayed_stores_ziad, hav]
  · simp only [get_displayed_stores_ziad, hav, if_false]
    have hsub : ((ms.get_available_restaurant_ids.filter
        (within_radius fm customer ms))).Sublist ms.get_available_restaurant_ids :=
      List.filter_sublist _
    obtain ⟨h1, h2⟩ := sorted_take_ids hs
      (ziad_scores fm customer ms ms.get_available_restaurant_ids) _
      (min n (min 5 ((sort (Int × ℚ) score_gt
        (ziad_scores fm customer ms ms.get_available_restaurant_ids)).length : Int))).toNat
      (ziad_scores_ids fm customer ms _)
      ((available_nodup ms hdist).sublist hsub)
    exact ⟨h1, fun id hid => hsub.subset (h2 id hid)⟩

theorem amer_display_spec (fm : FloatMath) (sort : StdSort) (hs : SortContract sort)
    (customer : Customer) (ms : MarketState) (n : Int)
    (hdist : (ms.restaurants.map (fun r => r.business_id)).Nodup) :
    (get_displayed_stores_amer fm sort customer ms n).Nodup ∧
    ∀ id ∈ get_displayed_stores_amer fm sort customer ms n,
      id ∈ ms.get_available_restaurant_ids := by
  by_cases hav : ms.get_available_restaurant_ids = []
  · simp [get_displayed_stores_amer, hav]
  · simp only [get_displayed_stores_amer, hav, if_false]
    obtain ⟨c, hc, hcase⟩ := amer_closest_spec fm customer ms
      ms.get_available_restaurant_ids (-1) FLT_MAX
    rw [hc]
    have hfirst : ∀ id ∈ (if c ≠ -1 then [c] else []), id ∈ ms.get_available_restaurant_ids := by
      intro id hid
      split at hid
      · rename_i hne
        rw [List.mem_singleton] at hid
        rcases hcase with ⟨h2, _⟩ | ⟨k, h2, _⟩
        · exact absurd h2 hne
        · rw [hid]; exact List.getElem?_mem h2
      · exact absurd hid (List.not_mem_nil id)
    have hfirst_nd : (if c ≠ -1 then [c] else ([] : List Int)).Nodup := by
      split
      · exact List.nodup_singleton _
      · exact List.nodup_nil
    generalize (if c ≠ -1 then [c] else ([] : List Int)) = first at hfirst hfirst_nd ⊢
    have hsub : ((ms.get_available_restaurant_ids.filter
        (fun id => !(decide (id ∈ first)) && within_radius fm customer ms id))).Sublist
        ms.get_available_restaurant_ids := List.filter_sublist _
    obtain ⟨h1, h2⟩ := sorted_take_ids hs
      (amer_scores fm customer ms first ms.get_available_restaurant_ids) _
      (n - (first.length : Int)).toNat
      (amer_scores_ids fm customer ms first _)
      ((available_nodup ms hdist).sublist hsub)
    constructor
    · rw [List.nodup_append]
      refine ⟨hfirst_nd, h1, ?_⟩
      intro a ha hb
      have := h2 a hb
      rw [List.mem_filter] at this
      simp [ha] at this
    · intro id hid
      rcases List.mem_append.mp hid with h | h
      · exact hfirst id h
      · exact hsub.subset (h2 id h)

theorem sama_select1_mem (S : List (Int × ℚ)) (pc n : Int) :
    ∀ (fuel i : Nat) (result r : List Int), sama_select1 S pc n fuel i result = some r →
      ∀ id ∈ r, id ∈ result ∨ id ∈ S.map (fun s => s.1) := by
  intro fuel
  induction fuel with
  | zero =>
    intro i result r h id hid
    simp only [sama_select1, Option.some.injEq] at h
    subst h
    exact Or.inl hid
  | succ f ih =>
    intro i result r h id hid
    unfold sama_select1 at h
    split at h
    · cases hget : S[i]? with
      | none => rw [hget] at h; cases h
      | some s =>
        rw [hget] at h
        simp only at h
        rcases ih (i + 1) _ r h id hid with h1 | h1
        · rcases List.mem_append.mp h1 with h2 | h2
          · exact Or.inl h2
          · rw [List.mem_singleton] at h2
            exact Or.inr (List.mem_map.mpr ⟨s, List.getElem?_mem hget, h2.symm⟩)
        · exact Or.inr h1
    · simp only [Option.some.injEq] at h
      subst h
      exact Or.inl hid

theorem push_best_mem (sort : StdSort) (hs : SortContract sort) (candidates : List (Int × ℚ))
    (r : List Int) (id : Int) (h : id ∈ push_best sort candidates r) :
    id ∈ r ∨ id ∈ candidates.map (fun s => s.1) := by
  unfold push_best at h
  split at h
  · exact Or.inl h
  · split at h
    · exact Or.inl h
    · rename_i best rest hsort
      rcases List.mem_append.mp h with h1 | h1
      · exact Or.inl h1
      · rw [List.mem_singleton] at h1
        have hmem : best ∈ candidates := by
          apply (hs (Int × ℚ) score_gt candidates score_gt_swo).1.mem_iff.mp
          rw [hsort]
          exact List.mem_cons_self _ _
        exact Or.inr (List.mem_map.mpr ⟨best, hmem, h1.symm⟩)

theorem sama_mem_available (fm : FloatMath) (sort : StdSort) (hs : SortContract sort)
    (customer : Customer) (ms : MarketState) (n : Int) (result : List Int)
    (h : get_displayed_stores_sama fm sort customer ms n = some result) :
    ∀ id ∈ result, id ∈ ms.get_available_restaurant_ids := by
  by_cases hav : ms.get_available_restaurant_ids = []
  · simp only [get_displayed_stores_sama, hav, if_true, Option.some.injEq] at h
    subst h
    simp
  have hids : ∀ id ∈ (sort (Int × ℚ) score_gt
      (sama_scores fm customer ms ms.get_available_restaurant_ids)).map (fun s => s.1),
      id ∈ ms.get_available_restaurant_ids := by
    intro id hid
    have hperm := ((hs (Int × ℚ) score_gt
      (sama_scores fm customer ms ms.get_available_restaurant_ids) score_gt_swo).1).map
      (fun s : Int × ℚ => s.1)
    rw [sama_scores_ids fm customer ms _ (fun _ h => h)] at hperm
    exact hperm.mem_iff.mp hid
  unfold get_displayed_stores_sama at h
  simp only [hav, if_false] at h
  generalize sort (Int × ℚ) score_gt
    (sama_scores fm customer ms ms.get_available_restaurant_ids) = S at hids h
  cases hsel : sama_select1 S (max 3 (min
      (float_to_int ((n : ℚ) * sama_personalization customer ms)) (S.length : Int))) n
      (max 3 (min (float_to_int ((n : ℚ) * sama_personalization customer ms))
        (S.length : Int))).toNat 0 [] with
  | none => rw [hsel] at h; cases h
  | some r1 =>
    rw [hsel] at h
    simp only [Option.some.injEq] at h
    have hr1 : ∀ id ∈ r1, id ∈ ms.get_available_restaurant_ids := by
      intro id hid
      rcases sama_select1_mem S _ n _ 0 [] r1 hsel id hid with h1 | h1
      · exact absurd h1 (List.not_mem_nil id)
      · exact hids id h1
    have hr2 : ∀ id ∈ (if size_lt r1.length n = true then
        push_best sort (sama_discovery customer ms r1 ms.get_available_restaurant_ids) r1
        else r1), id ∈ ms.get_available_restaurant_ids := by
      intro id hid
      rcases ite_mem_cases hid with h1 | h1
      · rcases push_best_mem sort hs _ r1 id h1 with h2 | h2
        · exact hr1 id h2
        · obtain ⟨e, he, rfl⟩ := List.mem_map.mp h2
          exact (sama_discovery_sound customer ms r1 _ e he).1
      · exact hr1 id h1
    generalize (if size_lt r1.length n = true then
        push_best sort (sama_discovery customer ms r1 ms.get_available_restaurant_ids) r1
        else r1) = r2 at hr2 h
    have hr3 : ∀ id ∈ (if size_lt r2.length n = true then
        push_best sort (sama_price_candidates customer ms r2 ms.get_available_restaurant_ids) r2
        else r2), id ∈ ms.get_available_restaurant_ids := by
      intro id hid
      rcases ite_mem_cases hid with h1 | h1
      · rcases push_best_mem sort hs _ r2 id h1 with h2 | h2
        · exact hr2 id h2
        · obtain ⟨e, he, rfl⟩ := List.mem_map.mp h2
          exact (sama_price_candidates_sound customer ms r2 _ e he).1
      · exact hr2 id h1
    generalize (if size_lt r2.length n = true then
        push_best sort (sama_price_candidates customer ms r2 ms.get_available_restaurant_ids) r2
        else r2) = r3 at hr3 h
    subst h
    intro id hid
    rcases fill_remaining_mem n S r3 id hid with h1 | h1
    · exact hr3 id h1
    · exact hids id h1

theorem harmony_mem_available (fm : FloatMath) (sort : StdSort) (hs : SortContract sort)
    (customer : Customer) (ms : MarketState) (n : Int) :
    ∀ id ∈ (get_displayed_stores_harmony fm sort customer ms n).1,
      id ∈ ms.get_available_restaurant_ids := by
  by_cases hav : ms.get_available_restaurant_ids = []
  · simp [get_displayed_stores_harmony, hav]
  have hids : ∀ id ∈ (sort (Int × ℚ) score_gt
      (harmony_scores fm customer (harmony_avg_impressions ms) ms.get_available_restaurant_ids
        ms []).1).map (fun s => s.1), id ∈ ms.get_available_restaurant_ids := by
    intro id hid
    have hperm := ((hs (Int × ℚ) score_gt
      (harmony_scores fm customer (harmony_avg_impressions ms) ms.get_available_restaurant_ids
        ms []).1 score_gt_swo).1).map (fun s : Int × ℚ => s.1)
    rw [harmony_scores_ids] at hperm
    have := hperm.mem_iff.mp hid
    simp only [List.map_nil, List.nil_append, List.mem_filter] at this
    exact this.1
  simp only [get_displayed_stores_harmony, hav, if_false]
  generalize sort (Int × ℚ) score_gt
    (harmony_scores fm customer (harmony_avg_impressions ms) ms.get_available_restaurant_ids
      ms []).1 = S at hids ⊢
  generalize (harmony_scores fm customer (harmony_avg_impressions ms)
    ms.get_available_restaurant_ids ms []).2 = ms1
  have hr2 : ∀ id ∈ (S.take (float_to_int ((n : ℚ) * (7 / 10))).toNat).map (fun s => s.1),
      id ∈ ms.get_available_restaurant_ids := by
    intro id hid
    obtain ⟨e, he, rfl⟩ := List.mem_map.mp hid
    exact hids _ (List.mem_map.mpr ⟨e, List.mem_of_mem_take he, rfl⟩)
  generalize (S.take (float_to_int ((n : ℚ) * (7 / 10))).toNat).map (fun s => s.1) = r2
    at hr2 ⊢
  have hr3 : ∀ id ∈ (if size_lt r2.length n = true then
      harmony_high_waste ms1 S r2 else r2), id ∈ ms.get_available_restaurant_ids := by
    intro id hid
    rcases ite_mem_cases hid with h1 | h1
    · rcases harmony_high_waste_mem ms1 S r2 id h1 with h2 | h2
      · exact hr2 id h2
      · exact hids id h2
    · exact hr2 id h1
  generalize (if size_lt r2.length n = true then harmony_high_waste ms1 S r2 else r2) = r3
    at hr3 ⊢
  have hr4 : ∀ id ∈ (if size_lt r3.length n = true then
      harmony_discovery customer ms1 S r3 else r3), id ∈ ms.get_available_restaurant_ids := by
    intro id hid
    rcases ite_mem_cases hid with h1 | h1
    · rcases harmony_discovery_mem customer ms1 S r3 id h1 with h2 | h2
      · exact hr3 id h2
      · exact hids id h2
    · exact hr3 id h1
  generalize (if size_lt r3.length n = true then harmony_discovery customer ms1 S r3 else r3)
    = r4 at hr4 ⊢
  intro id hid
  rcases fill_remaining_mem n S r4 id hid with h1 | h1
  · exact hr4 id h1
  · exact hids id h1

theorem display_mem_available (fm : FloatMath) (sort : StdSort) (hs : SortContractOn sort)
    (customer : Customer) (ms : MarketState) (n : Int) (algorithm : RankingAlgorithm)
    (hdist : (ms.restaurants.map (fun r => r.business_id)).Nodup)
    (displayed : List Int) (msd : MarketState)
    (h : get_displayed_stores fm sort customer ms n algorithm = some (displayed, msd)) :
    ∀ id ∈ displayed, id ∈ ms.get_available_restaurant_ids := by
  have hsc : SortContract sort := hs.contract
  cases algorithm with
  | BASELINE =>
    simp only [get_displayed_stores, Option.map_eq_some', Prod.mk.injEq] at h
    obtain ⟨r, hr, rfl, _⟩ := h
    exact (baseline_display_spec sort hs ms n hdist r hr).2
  | SAMA =>
    simp only [get_displayed_stores, Option.map_eq_some', Prod.mk.injEq] at h
    obtain ⟨r, hr, rfl, _⟩ := h
    exact sama_mem_available fm sort hsc customer ms n r hr
  | ANDREW =>
    simp only [get_displayed_stores, Option.some.injEq] at h
    have := (andrew_display_spec fm sort hsc customer ms n hdist).2
    rw [h] at this
    exact this
  | AMER =>
    simp only [get_displayed_stores, Option.some.injEq, Prod.mk.injEq] at h
    obtain ⟨rfl, _⟩ := h
    exact (amer_display_spec fm sort hsc customer ms n hdist).2
  | ZIAD =>
    simp only [get_displayed_stores, Option.some.injEq, Prod.mk.injEq] at h
    obtain ⟨rfl, _⟩ := h
    exact (ziad_display_spec fm sort hsc customer ms n hdist).2
  | HARMONY =>
    simp only [get_displayed_stores, Option.some.injEq] at h
    have := harmony_mem_available fm sort hsc customer ms n
    rw [h] at this
    exact this

/-! ## Arrival: the reservation of a selected store is accepted -/

theorem selected_store_accepts (fm : FloatMath) (sort : StdSort) (hs : SortContractOn sort)
    (random_val : ℚ) (customer : Customer) (ms : MarketState) (n : Int)
    (algorithm : RankingAlgorithm)
    (hdist : (ms.restaurants.map (fun r => r.business_id)).Nodup)
    (displayed : List Int) (msd : MarketState)
    (hd : get_displayed_stores fm sort customer ms n algorithm = some (displayed, msd))
    (counts : List (Int × Int)) (scores : List ℚ) (selected : Int)
    (hsel : select_store fm random_val customer displayed scores
      { msd with impression_counts := counts } = some selected)
    (hne : selected ≠ -1) :
    ∃ R, ms.get_restaurant selected = some R ∧ R.can_accept_reservation = true ∧
      create_reservation customer selected { msd with impression_counts := counts } =
        (true, customer.record_reservation_attempt selected R.business_type msd.current_time,
          { msd with
            impression_counts := counts,
            next_reservation_id := msd.next_reservation_id + 1,
            restaurants := update_restaurant
              (fun r => { r with reserved_count := r.reserved_count + 1 }) selected
              msd.restaurants,
            reservations := msd.reservations ++
              [Reservation.create msd.next_reservation_id customer.id selected
                msd.current_time] }) := by
  obtain ⟨i, _, _, _, hi, _⟩ := select_store_valid fm random_val customer displayed scores _
    selected hsel hne
  have hmem := display_mem_available fm sort hs customer ms n algorithm hdist displayed msd hd
    selected (List.getElem?_mem hi)
  obtain ⟨R, hR, hacc⟩ := available_store_accepts ms hdist selected hmem
  have hfields := get_displayed_stores_fields fm sort customer ms n algorithm displayed msd hd
  have hget : MarketState.get_restaurant { msd with impression_counts := counts } selected =
      some R := by
    rw [hfields]
    exact hR
  refine ⟨R, hR, hacc, ?_⟩
  unfold create_reservation
  rw [hget]
  simp only [hacc, Bool.true_eq_false, if_false]

/-- C34: for every market state with distinct business ids, every customer,
strategy, `n_displayed` and random draw, under a `std::sort` that meets its
contract: whenever `select_store` returns a store id inside
`process_customer_arrival`, the store found under that id accepts the
reservation, `create_reservation` succeeds and the arrival returns that id;
hence an arrival that returns `-1` had an empty display or a `select_store`
that returned `-1`. -/
theorem reservation_never_rejected (fm : FloatMath) (sort : StdSort) (hs : SortContractOn sort)
    (random_val : ℚ) (customer : Customer) (ms : MarketState) (n_displayed : Int)
    (algorithm : RankingAlgorithm)
    (hdist : (ms.restaurants.map (fun r => r.business_id)).Nodup)
    (sel : Int) (c1 : Customer) (ms1 : MarketState)
    (h : process_customer_arrival fm sort random_val customer ms n_displayed algorithm =
      some (sel, c1, ms1)) :
    ∃ displayed msd,
      get_displayed_stores fm sort customer.record_visit ms n_displayed algorithm =
        some (displayed, msd) ∧
      (∀ selected, displayed ≠ [] →
        select_store fm random_val customer.record_visit displayed
          (calculate_store_scores fm customer.record_visit displayed
            { msd with impression_counts := track_impressions msd.impression_counts displayed })
          { msd with impression_counts := track_impressions msd.impression_counts displayed } =
          some selected →
        selected ≠ -1 →
        (create_reservation customer.record_visit selected
          { msd with
            impression_counts := track_impressions msd.impression_counts displayed }).1 = true ∧
        sel = selected) ∧
      (sel = -1 →
        displayed = [] ∨
        select_store fm random_val customer.record_visit displayed
          (calculate_store_scores fm customer.record_visit displayed
            { msd with impression_counts := track_impressions msd.impression_counts displayed })
          { msd with impression_counts := track_impressions msd.impression_counts displayed } =
          some (-1)) := by
  unfold process_customer_arrival at h
  simp only at h
  cases hd : get_displayed_stores fm sort customer.record_visit ms n_displayed algorithm with
  | none => rw [hd] at h; cases h
  | some p =>
    obtain ⟨displayed, msd⟩ := p
    rw [hd] at h
    simp only at h
    refine ⟨displayed, msd, rfl, ?_, ?_⟩
    · intro selected hne hsel hsel1
      obtain ⟨R, _, _, hcr⟩ := selected_store_accepts fm sort hs random_val customer.record_visit
        ms n_displayed algorithm hdist displayed msd hd _ _ selected hsel hsel1
      rw [if_neg hne, hsel] at h
      simp only [if_neg hsel1, hcr, Option.some.injEq, Prod.mk.injEq] at h
      exact ⟨by rw [hcr], h.1.symm⟩
    · intro hsel
      by_cases hne : displayed = []
      · exact Or.inl hne
      · right
        rw [if_neg hne] at h
        cases hs1 : select_store fm random_val customer.record_visit displayed
          (calculate_store_scores fm customer.record_visit displayed
            { msd with impression_counts := track_impressions msd.impression_counts displayed })
          { msd with impression_counts := track_impressions msd.impression_counts displayed }
          with
        | none => rw [hs1] at h; cases h
        | some selected =>
          by_cases hsel1 : selected = -1
          · rw [hsel1]
          · exfalso
            obtain ⟨R, _, _, hcr⟩ := selected_store_accepts fm sort hs random_val
              customer.record_visit ms n_displayed algorithm hdist displayed msd hd _ _ selected
              hs1 hsel1
            rw [hs1] at h
            simp only [if_neg hsel1, hcr, Option.some.injEq, Prod.mk.injEq] at h
            exact hsel1 (h.1.trans hsel)

/-- C34 (witness): one available store shown by the baseline strategy; the
customer selects it and the reservation is created. -/
theorem reservation_never_rejected_witness :
    process_customer_arrival reference_math insertion_sort 0 (customer_fixture 1)
      single_store_state 5 RankingAlgorithm.BASELINE =
      some (1,
        (customer_fixture 1).record_visit.record_reservation_attempt 1 "bakery"
          { hour := 8, minute := 0 },
        single_store_state_reserved) ∧
    (∃ displayed msd,
      get_displayed_stores reference_math insertion_sort (customer_fixture 1).record_visit
        single_store_state 5 RankingAlgorithm.BASELINE = some (displayed, msd) ∧
      (∀ selected, displayed ≠ [] →
        select_store reference_math 0 (customer_fixture 1).record_visit displayed
          (calculate_store_scores reference_math (customer_fixture 1).record_visit displayed
            { msd with impression_counts := track_impressions msd.impression_counts displayed })
          { msd with impression_counts := track_impressions msd.impression_counts displayed } =
          some selected →
        selected ≠ -1 →
        (create_reservation (customer_fixture 1).record_visit selected
          { msd with
            impression_counts := track_impressions msd.impression_counts displayed }).1 = true ∧
        (1 : Int) = selected) ∧
      ((1 : Int) = -1 →
        displayed = [] ∨
        select_store reference_math 0 (customer_fixture 1).record_visit displayed
          (calculate_store_scores reference_math (customer_fixture 1).record_visit displayed
            { msd with impression_counts := track_impressions msd.impression_counts displayed })
          { msd with impression_counts := track_impressions msd.impression_counts displayed } =
          some (-1))) :=
  ⟨arrival_single_store_call,
    reservation_never_rejected reference_math insertion_sort insertion_sort_conforms_on 0
      (customer_fixture 1) single_store_state 5 RankingAlgorithm.BASELINE (by decide) 1 _ _
      arrival_single_store_call⟩

theorem baseline_returns (sort : StdSort) (ms : MarketState) (n : Int) (h0 : 0 ≤ n) :
    ∃ result, get_displayed_stores_baseline sort ms n = some result := by
  unfold get_displayed_stores_baseline
  simp only
  rw [if_neg (by omega)]
  exact ⟨_, rfl⟩

/-- C39: for every strategy, customer, `n_displayed >= 0` (an `int`, so below
`2^64`) and market state with distinct business ids, and at least three
available stores when the strategy is Sama, under a `std::sort` that meets its
contract `get_displayed_stores` returns, and the sequence it returns contains
no repeated id. -/
theorem display_no_repeats (fm : FloatMath) (sort : StdSort) (hs : SortContractOn sort)
    (customer : Customer) (ms : MarketState) (n_displayed : Int) (algorithm : RankingAlgorithm)
    (h0 : 0 ≤ n_displayed) (hmax : n_displayed < 2 ^ 64)
    (hdist : (ms.restaurants.map (fun r => r.business_id)).Nodup)
    (hsama : algorithm = RankingAlgorithm.SAMA → 3 ≤ ms.get_available_restaurant_ids.length) :
    ∃ displayed msd,
      get_displayed_stores fm sort customer ms n_displayed algorithm = some (displayed, msd) ∧
      displayed.Nodup := by
  have hsc : SortContract sort := hs.contract
  cases algorithm with
  | BASELINE =>
    obtain ⟨r, hr⟩ := baseline_returns sort ms n_displayed h0
    exact ⟨r, ms, by simp [get_displayed_stores, hr],
      (baseline_display_spec sort hs ms n_displayed hdist r hr).1⟩
  | SAMA =>
    obtain ⟨r, hr, hnd, _, _⟩ := sama_display_spec fm sort hsc customer ms n_displayed h0 hmax
      hdist (Or.inl (hsama rfl))
    exact ⟨r, ms, by simp [get_displayed_stores, hr], hnd⟩
  | ANDREW =>
    exact ⟨_, _, rfl, (andrew_display_spec fm sort hsc customer ms n_displayed hdist).1⟩
  | AMER =>
    exact ⟨_, _, rfl, (amer_display_spec fm sort hsc customer ms n_displayed hdist).1⟩
  | ZIAD =>
    exact ⟨_, _, rfl, (ziad_display_spec fm sort hsc customer ms n_displayed hdist).1⟩
  | HARMONY =>
    exact ⟨_, _, rfl,
      (harmony_display_spec fm sort hsc customer ms n_displayed h0 hmax hdist).1⟩

/-- C39 (witness): the Sama strategy on seven available stores, five slots. -/
theorem display_no_repeats_witness :
    seven_stores_state.get_available_restaurant_ids = [1, 2, 3, 4, 5, 6, 7] ∧
    (∃ displayed msd,
      get_displayed_stores reference_math insertion_sort (customer_fixture 1)
        seven_stores_state 5 RankingAlgorithm.SAMA = some (displayed, msd) ∧
      displayed.Nodup) :=
  ⟨by decide,
    display_no_repeats reference_math insertion_sort insertion_sort_conforms_on
      (customer_fixture 1) seven_stores_state 5 RankingAlgorithm.SAMA (by decide) (by decide)
      (by decide) (fun _ => by decide)⟩

theorem available_within_radius_count (fm : FloatMath) (customer : Customer) (ms : MarketState)
    (hdist : (ms.restaurants.map (fun r => r.business_id)).Nodup) :
    (ms.get_available_restaurant_ids.filter (within_radius fm customer ms)).length =
      (ms.restaurants.filter (fun r => r.can_accept_reservation &&
        decide (calculate_distance fm customer.latitude customer.longitude r.latitude
          r.longitude ≤ MAX_TRAVEL_DISTANCE))).length := by
  unfold MarketState.get_available_restaurant_ids
  rw [List.filter_map, List.length_map, List.filter_filter]
  congr 1
  apply List.filter_congr
  intro r hr
  have hget := get_restaurant_of_mem ms hdist r hr
  simp only [Function.comp, within_radius, hget]
  exact Bool.and_comm _ _

/-- C40: for every customer, `n_displayed >= 0` (an `int`, so below `2^64`)
and market state with distinct business ids, under a `std::sort` that meets
its contract, `get_displayed_stores_harmony` returns exactly
`min(n_displayed, number of available stores within distance 0.05)` ids, and
`get_displayed_stores_sama`, given at least three available stores, returns,
with exactly `min(n_displayed, number of available stores)` ids. -/
theorem multi_pass_fills_display (fm : FloatMath) (sort : StdSort) (hs : SortContract sort)
    (customer : Customer) (ms : MarketState) (n_displayed : Int)
    (h0 : 0 ≤ n_displayed) (hmax : n_displayed < 2 ^ 64)
    (hdist : (ms.restaurants.map (fun r => r.business_id)).Nodup) :
    ((get_displayed_stores_harmony fm sort customer ms n_displayed).1.length : Int) =
      min n_displayed
        ((ms.restaurants.filter (fun r => r.can_accept_reservation &&
          decide (calculate_distance fm customer.latitude customer.longitude r.latitude
            r.longitude ≤ MAX_TRAVEL_DISTANCE))).length : Int) ∧
    (3 ≤ (ms.restaurants.filter (fun r => r.can_accept_reservation)).length →
      ∃ result, get_displayed_stores_sama fm sort customer ms n_displayed = some result ∧
        (result.length : Int) = min n_displayed
          ((ms.restaurants.filter (fun r => r.can_accept_reservation)).length : Int)) := by
  have hlen : ms.get_available_restaurant_ids.length =
      (ms.restaurants.filter (fun r => r.can_accept_reservation)).length := by
    simp [MarketState.get_available_restaurant_ids]
  constructor
  · rw [(harmony_display_spec fm sort hs customer ms n_displayed h0 hmax hdist).2.1,
      available_within_radius_count fm customer ms hdist]
  · intro h3
    obtain ⟨r, hr, _, hl, _⟩ := sama_display_spec fm sort hs customer ms n_displayed h0 hmax
      hdist (Or.inl (by rw [hlen]; exact h3))
    exact ⟨r, hr, by rw [hl, hlen]⟩

/-- C40 (witness): seven available stores at the customer's position and five
slots: both strategies return five ids. -/
theorem multi_pass_fills_display_witness :
    (seven_stores_state.restaurants.filter (fun r => r.can_accept_reservation)).length = 7 ∧
    (((get_displayed_stores_harmony reference_math insertion_sort (customer_fixture 1)
        seven_stores_state 5).1.length : Int) =
      min 5
        ((seven_stores_state.restaurants.filter (fun r => r.can_accept_reservation &&
          decide (calculate_distance reference_math (customer_fixture 1).latitude
            (customer_fixture 1).longitude r.latitude r.longitude ≤
            MAX_TRAVEL_DISTANCE))).length : Int) ∧
    (3 ≤ (seven_stores_state.restaurants.filter (fun r => r.can_accept_reservation)).length →
      ∃ result, get_displayed_stores_sama reference_math insertion_sort (customer_fixture 1)
          seven_stores_state 5 = some result ∧
        (result.length : Int) = min 5
          ((seven_stores_state.restaurants.filter
            (fun r => r.can_accept_reservation)).length : Int))) :=
  ⟨by decide,
    multi_pass_fills_display reference_math insertion_sort insertion_sort_conforms
      (customer_fixture 1) seven_stores_state 5 (by decide) (by decide) (by decide)⟩

/-! ## Settlement: induction over the handler calls, each on a PENDING reservation -/

theorem confirm_all_pending_induct (P : MarketState → Prop) (M b : Int)
    (hstep : ∀ (ms : MarketState) (p : Nat) (res : Reservation) (c : Customer) (n : Int),
      ms.reservations[p]? = some res → res.status = Status.PENDING →
      ms.get_customer res.customer_id = some c → P ms →
      P (handle_confirmation ms p res.customer_id n)) (ps : List Nat) :
    ∀ (e : Int) (ms : MarketState), ps.Nodup →
      (∀ p ∈ ps, ∀ r, ms.reservations[p]? = some r → r.status = Status.PENDING) →
      P ms → P (confirm_all M b ps e ms) := by
  induction ps with
  | nil => intro e ms _ _ h; exact h
  | cons p rest ih =>
    intro e ms hnd hpend h
    rw [List.nodup_cons] at hnd
    have hrest : ∀ (n : Int) (cid : Int), ∀ q ∈ rest, ∀ r,
        (handle_confirmation ms p cid n).reservations[q]? = some r →
        r.status = Status.PENDING := by
      intro n cid q hq r hr
      rw [handle_confirmation_get, if_neg (fun (hqp : q = p) => hnd.1 (hqp ▸ hq))] at hr
      exact hpend q (List.mem_cons_of_mem _ hq) r hr
    unfold confirm_all
    split
    · exact ih e ms hnd.2 (fun q hq => hpend q (List.mem_cons_of_mem _ hq)) h
    · rename_i res hres
      split
      · exact ih e ms hnd.2 (fun q hq => hpend q (List.mem_cons_of_mem _ hq)) h
      · rename_i c hc
        have hp := hpend p (List.mem_cons_self _ _) res hres
        split
        · exact ih _ _ hnd.2 (hrest _ _) (hstep ms p res c _ hres hp hc h)
        · exact ih _ _ hnd.2 (hrest _ _) (hstep ms p res c _ hres hp hc h)

theorem cancel_rest_pending_induct (P : MarketState → Prop)
    (hstep : ∀ (ms : MarketState) (p : Nat) (res : Reservation) (c : Customer),
      ms.reservations[p]? = some res → res.status = Status.PENDING →
      ms.get_customer res.customer_id = some c → P ms →
      P (handle_cancellation ms p res.customer_id)) (ps : List Nat) :
    ∀ ms : MarketState, ps.Nodup →
      (∀ p ∈ ps, ∀ r, ms.reservations[p]? = some r → r.status = Status.PENDING) →
      P ms → P (cancel_rest ps ms) := by
  induction ps with
  | nil => intro ms _ _ h; exact h
  | cons p rest ih =>
    intro ms hnd hpend h
    rw [List.nodup_cons] at hnd
    have hrest : ∀ (cid : Int), ∀ q ∈ rest, ∀ r,
        (handle_cancellation ms p cid).reservations[q]? = some r →
        r.status = Status.PENDING := by
      intro cid q hq r hr
      rw [handle_cancellation_get, if_neg (fun (hqp : q = p) => hnd.1 (hqp ▸ hq))] at hr
      exact hpend q (List.mem_cons_of_mem _ hq) r hr
    unfold cancel_rest
    split
    · exact ih ms hnd.2 (fun q hq => hpend q (List.mem_cons_of_mem _ hq)) h
    · rename_i res hres
      split
      · exact ih ms hnd.2 (fun q hq => hpend q (List.mem_cons_of_mem _ hq)) h
      · rename_i c hc
        have hp := hpend p (List.mem_cons_self _ _) res hres
        exact ih _ hnd.2 (hrest _) (hstep ms p res c hres hp hc h)

theorem settle_store_pending_induct {sort : StdSort} (hs : SortContract sort)
    (P : MarketState → Prop)
    (hconf : ∀ (ms : MarketState) (p : Nat) (res : Reservation) (c : Customer) (n : Int),
      ms.reservations[p]? = some res → res.status = Status.PENDING →
      ms.get_customer res.customer_id = some c → P ms →
      P (handle_confirmation ms p res.customer_id n))
    (hcanc : ∀ (ms : MarketState) (p : Nat) (res : Reservation) (c : Customer),
      ms.reservations[p]? = some res → res.status = Status.PENDING →
      ms.get_customer res.customer_id = some c → P ms →
      P (handle_cancellation ms p res.customer_id))
    (ms ms1 : MarketState) (R : Restaurant) (h0 : P ms)
    (h : settle_store sort ms R = some ms1) : P ms1 := by
  have hnd := settlement_order_nodup hs ms R.business_id
  have hpend : ∀ p ∈ settlement_order sort ms R.business_id, ∀ r,
      ms.reservations[p]? = some r → r.status = Status.PENDING := by
    intro p hp r hr
    obtain ⟨r1, hr1, _, hst⟩ := (mem_pending_for ms R.business_id p).mp
      ((settlement_order_perm hs ms R.business_id).mem_iff.mp hp)
    rw [hr1] at hr
    cases hr
    exact hst
  rw [settle_store_eq hs] at h
  split at h
  · cases h; exact h0
  · split at h
    · cases h
      exact confirm_all_pending_induct P _ _ hconf _ _ ms hnd hpend h0
    · split at h
      · cases h
      · cases h
        have hspec := confirm_first_spec
          ((settlement_order sort ms R.business_id).take R.actual_bags.toNat) ms
          (hnd.sublist (List.take_sublist _ _))
        apply cancel_rest_pending_induct P hcanc _ _ (hnd.sublist (List.drop_sublist _ _))
        · intro p hp r hr
          have hnot : p ∉ (settlement_order sort ms R.business_id).take R.actual_bags.toNat :=
            fun hin => take_drop_disjoint hnd _ p hin hp
          rw [hspec.2.1 p hnot] at hr
          exact hpend p (List.mem_of_mem_drop hp) r hr
        · rw [confirm_first_eq 0]
          exact confirm_all_pending_induct P _ _ hconf _ _ ms
            (hnd.sublist (List.take_sublist _ _))
            (fun p hp => hpend p (List.mem_of_mem_take hp)) h0

theorem settle_stores_pending_induct {sort : StdSort} (hs : SortContract sort)
    (P : MarketState → Prop)
    (hconf : ∀ (ms : MarketState) (p : Nat) (res : Reservation) (c : Customer) (n : Int),
      ms.reservations[p]? = some res → res.status = Status.PENDING →
      ms.get_customer res.customer_id = some c → P ms →
      P (handle_confirmation ms p res.customer_id n))
    (hcanc : ∀ (ms : MarketState) (p : Nat) (res : Reservation) (c : Customer),
      ms.reservations[p]? = some res → res.status = Status.PENDING →
      ms.get_customer res.customer_id = some c → P ms →
      P (handle_cancellation ms p res.customer_id))
    (is : List Nat) :
    ∀ ms ms1 : MarketState, P ms → settle_stores sort is ms = some ms1 → P ms1 := by
  induction is with
  | nil => intro ms ms1 h0 h; cases h; exact h0
  | cons i rest ih =>
    intro ms ms1 h0 h
    cases hR : ms.restaurants[i]? with
    | none =>
      rw [settle_stores_cons_none sort i rest ms hR] at h
      exact ih ms ms1 h0 h
    | some R =>
      rw [settle_stores_cons_some sort i rest ms R hR] at h
      cases hst : settle_store sort ms R with
      | none => rw [hst] at h; cases h
      | some ms2 =>
        rw [hst] at h
        simp only [Option.bind] at h
        exact ih ms2 ms1 (settle_store_pending_induct hs P hconf hcanc ms ms2 R h0 hst) h

/-! ## Loyalty across arrivals and settlements -/

theorem countP_set {α : Type} (pred : α → Bool) (l : List α) :
    ∀ (p : Nat) (r r1 : α), l[p]? = some r →
      (l.set p r1).countP pred + (if pred r = true then 1 else 0) =
        l.countP pred + (if pred r1 = true then 1 else 0) := by
  induction l with
  | nil => intro p r r1 h; simp at h
  | cons a rest ih =>
    intro p r r1 h
    cases p with
    | zero =>
      simp only [List.getElem?_cons_zero, Option.some.injEq] at h
      subst h
      simp only [List.set_cons_zero, List.countP_cons]
      omega
    | succ k =>
      simp only [List.getElem?_cons_succ] at h
      have := ih k r r1 h
      simp only [List.set_cons_succ, List.countP_cons]
      omega

theorem loyalty_drop_bounds (l : ℚ) (h : 0 ≤ l) (m : Nat) :
    0 ≤ loyalty_drop^[m] l ∧ loyalty_drop^[m] l ≤ l := by
  induction m with
  | zero => exact ⟨h, le_rfl⟩
  | succ n ih =>
    rw [Function.iterate_succ_apply']
    have hstep : loyalty_drop (loyalty_drop^[n] l) = max 0 (loyalty_drop^[n] l - 1 / 10) := rfl
    rw [hstep]
    constructor
    · exact le_max_left _ _
    · apply max_le h
      linarith [ih.2]

theorem arrival_loyalty (fm : FloatMath) (sort : StdSort) (random_val : ℚ)
    (customer : Customer) (ms : MarketState) (n_displayed : Int) (algorithm : RankingAlgorithm)
    (sel : Int) (c1 : Customer) (ms1 : MarketState)
    (h : process_customer_arrival fm sort random_val customer ms n_displayed algorithm =
      some (sel, c1, ms1)) :
    c1.loyalty = customer.loyalty ∧ c1.id = customer.id ∧ ms1.customers = ms.customers := by
  obtain ⟨displayed, msd, hd, hcase⟩ := process_customer_arrival_cases fm sort random_val
    customer ms n_displayed algorithm sel c1 ms1 h
  have hf := get_displayed_stores_fields fm sort customer.record_visit ms n_displayed algorithm
    displayed msd hd
  have hcust : msd.customers = ms.customers := by rw [hf]
  rcases hcase with ⟨_, hc, hm⟩ | ⟨_, _, hcr⟩
  · rw [hc, hm]
    exact ⟨rfl, rfl, hcust⟩
  · rcases create_reservation_spec customer.record_visit sel
      { msd with impression_counts := track_impressions msd.impression_counts displayed }
      with hfalse | ⟨R, _, _, htrue⟩
    · rw [hfalse] at hcr
      cases hcr
    · rw [htrue] at hcr
      simp only [Prod.mk.injEq, true_and] at hcr
      obtain ⟨hc, hm⟩ := hcr
      rw [← hc, ← hm]
      exact ⟨rfl, rfl, hcust⟩

theorem handle_confirmation_customer (ms : MarketState) (p : Nat) (res : Reservation)
    (cid n k : Int) (hres : ms.reservations[p]? = some res) :
    (handle_confirmation ms p cid n).get_customer k =
      if k = cid then (ms.get_customer k).map
        (fun c => c.record_reservation_success res.restaurant_id "")
      else ms.get_customer k := by
  unfold handle_confirmation MarketState.get_customer
  rw [hres]
  exact update_customer_find_eq _ _ _ _

theorem handle_cancellation_customer (ms : MarketState) (p : Nat) (res : Reservation)
    (cid k : Int) (hres : ms.reservations[p]? = some res) :
    (handle_cancellation ms p cid).get_customer k =
      if k = cid then (ms.get_customer k).map
        (fun c => c.record_reservation_cancellation res.restaurant_id)
      else ms.get_customer k := by
  unfold handle_cancellation MarketState.get_customer
  rw [hres]
  exact update_customer_find_eq _ _ _ _

theorem handle_confirmation_count (ms : MarketState) (p : Nat) (res : Reservation)
    (cid n : Int) (pred : Reservation → Bool) (hres : ms.reservations[p]? = some res) :
    (handle_confirmation ms p cid n).reservations.countP pred +
        (if pred res = true then 1 else 0) =
      ms.reservations.countP pred +
        (if pred { res with status := Status.CONFIRMED, bags_received := n } = true
          then 1 else 0) := by
  have : (handle_confirmation ms p cid n).reservations =
      ms.reservations.set p { res with status := Status.CONFIRMED, bags_received := n } := by
    unfold handle_confirmation
    rw [hres]
  rw [this]
  exact countP_set pred ms.reservations p res _ hres

theorem handle_cancellation_count (ms : MarketState) (p : Nat) (res : Reservation)
    (cid : Int) (pred : Reservation → Bool) (hres : ms.reservations[p]? = some res) :
    (handle_cancellation ms p cid).reservations.countP pred +
        (if pred res = true then 1 else 0) =
      ms.reservations.countP pred +
        (if pred { res with status := Status.CANCELLED } = true then 1 else 0) := by
  have : (handle_cancellation ms p cid).reservations =
      ms.reservations.set p { res with status := Status.CANCELLED } := by
    unfold handle_cancellation
    rw [hres]
  rw [this]
  exact countP_set pred ms.reservations p res _ hres

theorem settlement_loyalty {sort : StdSort} (hs : SortContract sort) (ms ms1 : MarketState)
    (hrun : process_end_of_day sort ms = some ms1) (k : Int) (c : Customer)
    (hc : ms.get_customer k = some c) :
    ∃ (c1 : Customer) (m : Nat), ms1.get_customer k = some c1 ∧
      cancelled_count ms1 k = cancelled_count ms k + m ∧
      c1.loyalty = loyalty_drop^[m] c.loyalty ∧ c1.id = c.id := by
  apply settle_stores_pending_induct hs
    (fun s => ∃ (c1 : Customer) (m : Nat), s.get_customer k = some c1 ∧
      cancelled_count s k = cancelled_count ms k + m ∧
      c1.loyalty = loyalty_drop^[m] c.loyalty ∧ c1.id = c.id)
    ?_ ?_ _ ms ms1 ⟨c, 0, hc, rfl, rfl, rfl⟩ hrun
  · intro s p res cr n hres hpend _ ⟨c1, m, h1, h2, h3, h4⟩
    have hcount := handle_confirmation_count s p res res.customer_id n
      (fun r => decide (r.customer_id = k ∧ r.status = Status.CANCELLED)) hres
    simp only [hpend, reduceCtorEq, and_false, decide_False, Bool.false_eq_true, if_false,
      add_zero] at hcount
    rw [handle_confirmation_customer s p res _ n k hres, h1]
    by_cases hk : k = res.customer_id
    · rw [if_pos hk]
      exact ⟨_, m, rfl, by unfold cancelled_count; rw [hcount]; exact h2, h3, h4⟩
    · rw [if_neg hk]
      exact ⟨c1, m, rfl, by unfold cancelled_count; rw [hcount]; exact h2, h3, h4⟩
  · intro s p res cr hres hpend _ ⟨c1, m, h1, h2, h3, h4⟩
    have hcount := handle_cancellation_count s p res res.customer_id
      (fun r => decide (r.customer_id = k ∧ r.status = Status.CANCELLED)) hres
    simp only [hpend, reduceCtorEq, and_false, decide_False, Bool.false_eq_true, if_false,
      add_zero, and_true, decide_eq_true_eq] at hcount
    rw [handle_cancellation_customer s p res _ k hres, h1]
    by_cases hk : k = res.customer_id
    · rw [if_pos hk]
      rw [if_pos hk.symm] at hcount
      refine ⟨_, m + 1, rfl, ?_, ?_, h4⟩
      · unfold cancelled_count at h2 ⊢
        rw [hcount, h2]
        ring
      · rw [Function.iterate_succ_apply', ← h3]
        rfl
    · rw [if_neg hk]
      rw [if_neg (fun h => hk h.symm)] at hcount
      exact ⟨c1, m, rfl, by unfold cancelled_count; rw [hcount]; exact h2, h3, h4⟩

theorem registered_arrival_spec (fm : FloatMath) (sort : StdSort) (random_val : ℚ) (id : Int)
    (ms : MarketState) (n_displayed : Int) (algorithm : RankingAlgorithm) (sel : Int)
    (ms2 : MarketState)
    (h : registered_arrival fm sort random_val id ms n_displayed algorithm = some (sel, ms2)) :
    ∃ customer c1 ms1, ms.get_customer id = some customer ∧
      process_customer_arrival fm sort random_val customer ms n_displayed algorithm =
        some (sel, c1, ms1) ∧
      ms2 = { ms1 with customers := update_customer (fun _ => c1) id ms1.customers } ∧
      ∀ k, ms2.get_customer k = if k = id then some c1 else ms.get_customer k := by
  unfold registered_arrival at h
  cases hc : ms.get_customer id with
  | none => rw [hc] at h; cases h
  | some customer =>
    rw [hc] at h
    simp only at h
    cases hp : process_customer_arrival fm sort random_val customer ms n_displayed algorithm with
    | none => rw [hp] at h; cases h
    | some r =>
      obtain ⟨s1, c1, ms1⟩ := r
      rw [hp] at h
      simp only [Option.some.injEq, Prod.mk.injEq] at h
      obtain ⟨rfl, rfl⟩ := h
      refine ⟨customer, c1, ms1, rfl, hp, rfl, ?_⟩
      intro k
      have hcust := (arrival_loyalty fm sort random_val customer ms n_displayed algorithm s1 c1
        ms1 hp).2.2
      unfold MarketState.get_customer at hc ⊢
      simp only
      rw [update_customer_find_eq, hcust]
      by_cases hk : k = id
      · rw [if_pos hk, if_pos hk, hk, hc]
        rfl
      · rw [if_neg hk, if_neg hk]

theorem apply_event_loyalty (fm : FloatMath) {sort : StdSort} (hs : SortContract sort)
    (ms ms1 : MarketState) (e : MarketEvent) (h : apply_event fm sort ms e = some ms1)
    (k : Int) (c : Customer) (hc : ms.get_customer k = some c) (h0 : 0 ≤ c.loyalty) :
    ∃ c1, ms1.get_customer k = some c1 ∧ 0 ≤ c1.loyalty ∧ c1.loyalty ≤ c.loyalty := by
  cases e with
  | arrival random_val id n_displayed algorithm =>
    simp only [apply_event, Option.map_eq_some'] at h
    obtain ⟨r, hr, rfl⟩ := h
    obtain ⟨sel, ms2⟩ := r
    obtain ⟨customer, c1, msa, hcust, hp, _, hget⟩ := registered_arrival_spec fm sort random_val
      id ms n_displayed algorithm sel ms2 hr
    have hl := (arrival_loyalty fm sort random_val customer ms n_displayed algorithm sel c1 msa
      hp).1
    simp only
    rw [hget k]
    by_cases hk : k = id
    · rw [if_pos hk]
      rw [hk, hcust] at hc
      cases hc
      exact ⟨c1, rfl, by rw [hl]; exact h0, le_of_eq hl⟩
    · rw [if_neg hk]
      exact ⟨c, hc, h0, le_rfl⟩
  | settlement =>
    simp only [apply_event] at h
    obtain ⟨c1, m, h1, _, h3, _⟩ := settlement_loyalty hs ms ms1 h k c hc
    refine ⟨c1, h1, ?_, ?_⟩
    · rw [h3]; exact (loyalty_drop_bounds c.loyalty h0 m).1
    · rw [h3]; exact (loyalty_drop_bounds c.loyalty h0 m).2

theorem run_events_loyalty (fm : FloatMath) {sort : StdSort} (hs : SortContract sort)
    (events : List MarketEvent) :
    ∀ (ms ms1 : MarketState), run_events fm sort events ms = some ms1 →
      ∀ (k : Int) (c : Customer), ms.get_customer k = some c → 0 ≤ c.loyalty →
      ∃ c1, ms1.get_customer k = some c1 ∧ 0 ≤ c1.loyalty ∧ c1.loyalty ≤ c.loyalty := by
  induction events with
  | nil =>
    intro ms ms1 h k c hc h0
    simp only [run_events, Option.some.injEq] at h
    subst h
    exact ⟨c, hc, h0, le_rfl⟩
  | cons e rest ih =>
    intro ms ms1 h k c hc h0
    unfold run_events at h
    cases he : apply_event fm sort ms e with
    | none => rw [he] at h; cases h
    | some ms2 =>
      rw [he] at h
      simp only at h
      obtain ⟨c2, hc2, h02, hle2⟩ := apply_event_loyalty fm hs ms ms2 e he k c hc h0
      obtain ⟨c1, hc1, h01, hle1⟩ := ih ms2 ms1 h k c2 hc2 h02
      exact ⟨c1, hc1, h01, le_trans hle1 hle2⟩

/-- C38: `process_customer_arrival` leaves the customer's loyalty and the
registry unchanged; after `process_end_of_day`, under a `std::sort` that meets
its contract, the loyalty of a registered customer is `max(0, loyalty - 0.1)`
applied once per reservation of the customer that the run cancelled, so it is
unchanged when none was cancelled; and after any sequence of arrivals and
settlements the loyalty of a registered customer is still not negative and
`<=` its initial value. Loyalty is a value in `[0, 1]` in the data model; the
proof uses only `0 <= loyalty`. -/
theorem loyalty_never_rises (fm : FloatMath) (sort : StdSort) (hs : SortContract sort)
    (ms : MarketState) (events : List MarketEvent) (ms1 : MarketState)
    (hrun : run_events fm sort events ms = some ms1) (k : Int) (c : Customer)
    (hc : ms.get_customer k = some c) (h0 : 0 ≤ c.loyalty) :
    (∃ c1, ms1.get_customer k = some c1 ∧ 0 ≤ c1.loyalty ∧ c1.loyalty ≤ c.loyalty) ∧
    (∀ (random_val : ℚ) (customer : Customer) (n_displayed : Int)
      (algorithm : RankingAlgorithm) (sel : Int) (cu : Customer) (msa : MarketState),
      process_customer_arrival fm sort random_val customer ms n_displayed algorithm =
        some (sel, cu, msa) →
      cu.loyalty = customer.loyalty ∧ msa.customers = ms.customers) ∧
    (∀ ms2, process_end_of_day sort ms = some ms2 →
      ∃ (c2 : Customer) (m : Nat), ms2.get_customer k = some c2 ∧
        cancelled_count ms2 k = cancelled_count ms k + m ∧
        c2.loyalty = loyalty_drop^[m] c.loyalty) := by
  refine ⟨run_events_loyalty fm hs events ms ms1 hrun k c hc h0, ?_, ?_⟩
  · intro random_val customer n_displayed algorithm sel cu msa h
    have := arrival_loyalty fm sort random_val customer ms n_displayed algorithm sel cu msa h
    exact ⟨this.1, this.2.2⟩
  · intro ms2 h2
    obtain ⟨c2, m, h1, h3, h4, _⟩ := settlement_loyalty hs ms ms2 h2 k c hc
    exact ⟨c2, m, h1, h3, h4⟩

theorem shortage_settlement_call (l : ℚ) :
    (process_end_of_day insertion_sort (shortage_state l)).map
      (fun s => ((s.get_customer 1).map (fun c => c.loyalty),
        s.reservations.map (fun r => r.status))) =
      some (some (max 0 (l - 1 / 10)), [Status.CANCELLED]) := by
  simp [process_end_of_day, settle_stores, settle_store, shortage_state, market_fixture,
    store_fixture, pending_for, Reservation.create, insertion_sort, confirm_first, cancel_rest,
    MarketState.get_customer, map_find, handle_cancellation, update_customer, update_restaurant,
    Customer.record_reservation_cancellation, Customer.update_loyalty, customer_fixture,
    List.range, List.range.loop]

theorem shortage_settlement_run :
    run_events reference_math insertion_sort [MarketEvent.settlement] (shortage_state (4 / 5)) =
      some ((process_end_of_day insertion_sort (shortage_state (4 / 5))).getD
        (shortage_state (4 / 5))) := by
  obtain ⟨x, hx⟩ := process_end_of_day_total insertion_sort_conforms (shortage_state (4 / 5))
    (by decide)
  simp [run_events, apply_event, hx]

/-- C38 (witness): a registered customer with loyalty 0.8 whose only
reservation is cancelled at settlement ends with loyalty 0.7. -/
theorem loyalty_never_rises_witness :
    ((∃ c1, ((process_end_of_day insertion_sort (shortage_state (4 / 5))).getD
        (shortage_state (4 / 5))).get_customer 1 = some c1 ∧ 0 ≤ c1.loyalty ∧
        c1.loyalty ≤ ({ customer_fixture 1 with loyalty := 4 / 5 } : Customer).loyalty) ∧
    (∀ (random_val : ℚ) (customer : Customer) (n_displayed : Int)
      (algorithm : RankingAlgorithm) (sel : Int) (cu : Customer) (msa : MarketState),
      process_customer_arrival reference_math insertion_sort random_val customer
        (shortage_state (4 / 5)) n_displayed algorithm = some (sel, cu, msa) →
      cu.loyalty = customer.loyalty ∧ msa.customers = (shortage_state (4 / 5)).customers) ∧
    (∀ ms2, process_end_of_day insertion_sort (shortage_state (4 / 5)) = some ms2 →
      ∃ (c2 : Customer) (m : Nat), ms2.get_customer 1 = some c2 ∧
        cancelled_count ms2 1 = cancelled_count (shortage_state (4 / 5)) 1 + m ∧
        c2.loyalty = loyalty_drop^[m]
          ({ customer_fixture 1 with loyalty := 4 / 5 } : Customer).loyalty)) ∧
    (process_end_of_day insertion_sort (shortage_state (4 / 5))).map
      (fun s => ((s.get_customer 1).map (fun c => c.loyalty),
        s.reservations.map (fun r => r.status))) =
      some (some (7 / 10), [Status.CANCELLED]) :=
  ⟨loyalty_never_rises reference_math insertion_sort insertion_sort_conforms
      (shortage_state (4 / 5)) [MarketEvent.settlement] _ shortage_settlement_run 1
      { customer_fixture 1 with loyalty := 4 / 5 } rfl (by norm_num),
    by rw [shortage_settlement_call]; norm_num⟩

/-! ## History consistency -/

theorem interaction_attempt (c : Customer) (sid : Int) (cat : String) (t : Timestamp) (s : Int) :
    interaction_of (c.record_reservation_attempt sid cat t) s =
      if s = sid then
        { interaction_of c s with reservations := (interaction_of c s).reservations + 1 }
      else interaction_of c s := by
  unfold interaction_of Customer.record_reservation_attempt
  simp only
  by_cases h : s = sid
  · rw [if_pos h, h, map_read_update_self]
  · rw [if_neg h, map_read_update_ne _ _ _ _ _ h]

theorem interaction_success (c : Customer) (sid : Int) (cat : String) (s : Int) :
    interaction_of (c.record_reservation_success sid cat) s =
      if s = sid then
        { interaction_of c s with successes := (interaction_of c s).successes + 1 }
      else interaction_of c s := by
  unfold interaction_of Customer.record_reservation_success Customer.update_category_preference
  simp only
  by_cases h : s = sid
  · rw [if_pos h, h, map_read_update_self]
  · rw [if_neg h, map_read_update_ne _ _ _ _ _ h]

theorem interaction_cancellation (c : Customer) (sid : Int) (s : Int) :
    interaction_of (c.record_reservation_cancellation sid) s =
      if s = sid then
        { interaction_of c s with cancellations := (interaction_of c s).cancellations + 1 }
      else interaction_of c s := by
  unfold interaction_of Customer.record_reservation_cancellation Customer.update_loyalty
  simp only [if_true]
  by_cases h : s = sid
  · rw [if_pos h, h, map_read_update_self]
  · rw [if_neg h, map_read_update_ne _ _ _ _ _ h]

theorem history_consistent_fresh (ms : MarketState) (hlog : ms.reservations = [])
    (hfresh : ∀ (k : Int) (c : Customer), ms.get_customer k = some c →
      c.id = k ∧ c.history.store_interactions = []) :
    HistoryConsistent ms := by
  intro k c hc
  obtain ⟨hid, hhist⟩ := hfresh k c hc
  refine ⟨hid, fun s => ?_⟩
  simp [interaction_of, hhist, map_read, map_find, StoreInteraction.zero, pending_count, hlog]

theorem history_rates (ms : MarketState) (hinv : HistoryConsistent ms) (k : Int)
    (c : Customer) (hc : ms.get_customer k = some c) (s : Int) (h : StoreInteraction)
    (hfind : map_find c.history.store_interactions s = some h) (hpos : h.reservations > 0) :
    0 ≤ (h.successes : ℚ) / (h.reservations : ℚ) ∧
    (h.successes : ℚ) / (h.reservations : ℚ) ≤ 1 ∧
    0 ≤ (h.cancellations : ℚ) / (h.reservations : ℚ) ∧
    (h.cancellations : ℚ) / (h.reservations : ℚ) ≤ 1 := by
  obtain ⟨_, hs⟩ := hinv k c hc
  obtain ⟨h1, h2, h3⟩ := hs s
  have heq : interaction_of c s = h := by
    simp [interaction_of, map_read, hfind]
  rw [heq] at h1 h2 h3
  have hp : (0 : Int) ≤ (pending_count ms k s : Int) := Int.ofNat_nonneg _
  have hr : (0 : ℚ) < (h.reservations : ℚ) := by exact_mod_cast hpos
  have h1q : (0 : ℚ) ≤ (h.successes : ℚ) := by exact_mod_cast h1
  have h2q : (0 : ℚ) ≤ (h.cancellations : ℚ) := by exact_mod_cast h2
  have h3q : (h.successes : ℚ) ≤ (h.reservations : ℚ) := by
    have : h.successes ≤ h.reservations := by omega
    exact_mod_cast this
  have h4q : (h.cancellations : ℚ) ≤ (h.reservations : ℚ) := by
    have : h.cancellations ≤ h.reservations := by omega
    exact_mod_cast this
  exact ⟨div_nonneg h1q (le_of_lt hr), (div_le_one hr).mpr h3q,
    div_nonneg h2q (le_of_lt hr), (div_le_one hr).mpr h4q⟩

theorem settlement_consistent {sort : StdSort} (hs : SortContract sort) (ms ms1 : MarketState)
    (hinv : HistoryConsistent ms) (hrun : process_end_of_day sort ms = some ms1) :
    HistoryConsistent ms1 := by
  apply settle_stores_pending_induct hs HistoryConsistent ?_ ?_ _ ms ms1 hinv hrun
  · intro s p res cr n hres hpend hcr hP k c hc
    rw [handle_confirmation_customer s p res _ n k hres] at hc
    have hcount : ∀ st, (pending_count (handle_confirmation s p res.customer_id n) k st : Int) +
        (if res.customer_id = k ∧ res.restaurant_id = st then 1 else 0) =
        (pending_count s k st : Int) := by
      intro st
      have := handle_confirmation_count s p res res.customer_id n
        (fun r => decide (r.customer_id = k ∧ r.restaurant_id = st ∧
          r.status = Status.PENDING)) hres
      simp only [hpend, and_true, decide_eq_true_eq, reduceCtorEq, and_false, decide_False,
        Bool.false_eq_true, if_false, add_zero] at this
      unfold pending_count
      by_cases hm : res.customer_id = k ∧ res.restaurant_id = st
      · rw [if_pos hm] at this ⊢
        omega
      · rw [if_neg hm] at this ⊢
        omega
    by_cases hk : k = res.customer_id
    · rw [if_pos hk] at hc
      cases hold : s.get_customer k with
      | none => rw [hold] at hc; cases hc
      | some c0 =>
        rw [hold] at hc
        simp only [Option.map_some', Option.some.injEq] at hc
        subst hc
        obtain ⟨hid, hs0⟩ := hP k c0 hold
        refine ⟨hid, fun st => ?_⟩
        obtain ⟨h1, h2, h3⟩ := hs0 st
        have hc1 := hcount st
        rw [interaction_success]
        by_cases hst : st = res.restaurant_id
        · rw [if_pos hst]
          rw [if_pos ⟨hk.symm, hst.symm⟩] at hc1
          simp only
          exact ⟨by omega, h2, by omega⟩
        · rw [if_neg hst]
          rw [if_neg (fun h => hst h.2.symm)] at hc1
          exact ⟨h1, h2, by omega⟩
    · rw [if_neg hk] at hc
      obtain ⟨hid, hs0⟩ := hP k c hc
      refine ⟨hid, fun st => ?_⟩
      obtain ⟨h1, h2, h3⟩ := hs0 st
      have hc1 := hcount st
      rw [if_neg (fun h => hk h.1.symm)] at hc1
      exact ⟨h1, h2, by omega⟩
  · intro s p res cr hres hpend hcr hP k c hc
    rw [handle_cancellation_customer s p res _ k hres] at hc
    have hcount : ∀ st, (pending_count (handle_cancellation s p res.customer_id) k st : Int) +
        (if res.customer_id = k ∧ res.restaurant_id = st then 1 else 0) =
        (pending_count s k st : Int) := by
      intro st
      have := handle_cancellation_count s p res res.customer_id
        (fun r => decide (r.customer_id = k ∧ r.restaurant_id = st ∧
          r.status = Status.PENDING)) hres
      simp only [hpend, and_true, decide_eq_true_eq, reduceCtorEq, and_false, decide_False,
        Bool.false_eq_true, if_false, add_zero] at this
      unfold pending_count
      by_cases hm : res.customer_id = k ∧ res.restaurant_id = st
      · rw [if_pos hm] at this ⊢
        omega
      · rw [if_neg hm] at this ⊢
        omega
    by_cases hk : k = res.customer_id
    · rw [if_pos hk] at hc
      cases hold : s.get_customer k with
      | none => rw [hold] at hc; cases hc
      | some c0 =>
        rw [hold] at hc
        simp only [Option.map_some', Option.some.injEq] at hc
        subst hc
        obtain ⟨hid, hs0⟩ := hP k c0 hold
        refine ⟨hid, fun st => ?_⟩
        obtain ⟨h1, h2, h3⟩ := hs0 st
        have hc1 := hcount st
        rw [interaction_cancellation]
        by_cases hst : st = res.restaurant_id
        · rw [if_pos hst]
          rw [if_pos ⟨hk.symm, hst.symm⟩] at hc1
          simp only
          exact ⟨h1, by omega, by omega⟩
        · rw [if_neg hst]
          rw [if_neg (fun h => hst h.2.symm)] at hc1
          exact ⟨h1, h2, by omega⟩
    · rw [if_neg hk] at hc
      obtain ⟨hid, hs0⟩ := hP k c hc
      refine ⟨hid, fun st => ?_⟩
      obtain ⟨h1, h2, h3⟩ := hs0 st
      have hc1 := hcount st
      rw [if_neg (fun h => hk h.1.symm)] at hc1
      exact ⟨h1, h2, by omega⟩

theorem arrival_consistent (fm : FloatMath) (sort : StdSort) (random_val : ℚ) (id : Int)
    (ms : MarketState) (n_displayed : Int) (algorithm : RankingAlgorithm) (sel : Int)
    (ms2 : MarketState) (hinv : HistoryConsistent ms)
    (h : registered_arrival fm sort random_val id ms n_displayed algorithm = some (sel, ms2)) :
    HistoryConsistent ms2 := by
  obtain ⟨customer, c1, ms1, hcust, hp, hms2, hget⟩ := registered_arrival_spec fm sort
    random_val id ms n_displayed algorithm sel ms2 h
  obtain ⟨hcid, hcs⟩ := hinv id customer hcust
  have hlog2 : ms2.reservations = ms1.reservations := by rw [hms2]
  obtain ⟨displayed, msd, hd, hcase⟩ := process_customer_arrival_cases fm sort random_val
    customer ms n_displayed algorithm sel c1 ms1 hp
  have hf := get_displayed_stores_fields fm sort customer.record_visit ms n_displayed algorithm
    displayed msd hd
  have hlogd : msd.reservations = ms.reservations := by rw [hf]
  rcases hcase with ⟨_, hc1, hm1⟩ | ⟨_, _, hcr⟩
  · have hlog : ms2.reservations = ms.reservations := by rw [hlog2, hm1]; exact hlogd
    intro k c hc
    rw [hget k] at hc
    have hpend : ∀ st, pending_count ms2 k st = pending_count ms k st := by
      intro st; unfold pending_count; rw [hlog]
    by_cases hk : k = id
    · rw [if_pos hk] at hc
      cases hc
      refine ⟨by rw [hk, hc1]; exact hcid, fun st => ?_⟩
      rw [hpend st, hk, hc1]
      exact hcs st
    · rw [if_neg hk] at hc
      obtain ⟨h1, h2⟩ := hinv k c hc
      exact ⟨h1, fun st => by rw [hpend st]; exact h2 st⟩
  · rcases create_reservation_spec customer.record_visit sel
      { msd with impression_counts := track_impressions msd.impression_counts displayed }
      with hfalse | ⟨R, _, _, htrue⟩
    · rw [hfalse] at hcr
      cases hcr
    · rw [htrue] at hcr
      simp only [Prod.mk.injEq, true_and] at hcr
      obtain ⟨hc1, hm1⟩ := hcr
      have hlog : ms2.reservations = ms.reservations ++
          [Reservation.create msd.next_reservation_id customer.id sel msd.current_time] := by
        rw [hlog2, ← hm1]
        simp only
        rw [hlogd]
        rfl
      have hpend : ∀ k st, (pending_count ms2 k st : Int) = (pending_count ms k st : Int) +
          (if id = k ∧ sel = st then 1 else 0) := by
        intro k st
        unfold pending_count
        rw [hlog, List.countP_append]
        simp only [List.countP_cons, List.countP_nil, Reservation.create, and_true,
          decide_eq_true_eq, zero_add, hcid]
        by_cases hm : id = k ∧ sel = st
        · simp only [hm, and_self, if_true]
          push_cast
          rfl
        · simp only [hm, if_false]
          push_cast
          rfl
      intro k c hc
      rw [hget k] at hc
      by_cases hk : k = id
      · rw [if_pos hk] at hc
        cases hc
        refine ⟨by rw [hk, ← hc1]; exact hcid, fun st => ?_⟩
        obtain ⟨h1, h2, h3⟩ := hcs st
        have hint : interaction_of c1 st =
            if st = sel then
              { interaction_of customer st with
                reservations := (interaction_of customer st).reservations + 1 }
            else interaction_of customer st := by
          rw [← hc1, interaction_attempt]
          rfl
        rw [hpend k st, hint, hk]
        by_cases hst : st = sel
        · rw [if_pos hst, if_pos ⟨rfl, hst.symm⟩]
          simp only
          exact ⟨h1, h2, by omega⟩
        · rw [if_neg hst, if_neg (fun h => hst h.2.symm)]
          exact ⟨h1, h2, by omega⟩
      · rw [if_neg hk] at hc
        obtain ⟨h1, h2⟩ := hinv k c hc
        refine ⟨h1, fun st => ?_⟩
        rw [hpend k st, if_neg (fun h => hk h.1.symm)]
        obtain ⟨h3, h4, h5⟩ := h2 st
        exact ⟨h3, h4, by omega⟩

theorem run_events_consistent (fm : FloatMath) {sort : StdSort} (hs : SortContract sort)
    (events : List MarketEvent) :
    ∀ (ms ms1 : MarketState), HistoryConsistent ms →
      run_events fm sort events ms = some ms1 → HistoryConsistent ms1 := by
  induction events with
  | nil =>
    intro ms ms1 hinv h
    simp only [run_events, Option.some.injEq] at h
    subst h
    exact hinv
  | cons e rest ih =>
    intro ms ms1 hinv h
    unfold run_events at h
    cases he : apply_event fm sort ms e with
    | none => rw [he] at h; cases h
    | some ms2 =>
      rw [he] at h
      simp only at h
      apply ih ms2 ms1 ?_ h
      cases e with
      | arrival random_val id n_displayed algorithm =>
        simp only [apply_event, Option.map_eq_some'] at he
        obtain ⟨r, hr, rfl⟩ := he
        obtain ⟨sel, ms3⟩ := r
        exact arrival_consistent fm sort random_val id ms n_displayed algorithm sel ms3 hinv hr
      | settlement =>
        exact settlement_consistent hs ms ms2 hinv he

theorem opening_state_consistent : HistoryConsistent opening_state := by
  apply history_consistent_fresh opening_state rfl
  intro k c hc
  simp only [opening_state, market_fixture, MarketState.get_customer, List.map_cons,
    List.map_nil, map_find] at hc
  split at hc
  · rename_i hk
    cases hc
    exact ⟨hk, rfl⟩
  · cases hc

/-- C37: the history consistency invariant (every registry entry filed under
the customer's own id; for every registered customer and store, successes
and cancellations not negative and
`successes + cancellations + PENDING reservations of the customer at the store
<= reservations`) holds for customers with an empty history and an empty log,
is preserved by `process_customer_arrival` on a registered customer, by
`process_end_of_day` under a `std::sort` that meets its contract, and so by
every sequence of the two; and under it every success rate and cancellation
rate that the scoring code computes from a history entry with
`reservations > 0` lies in `[0,1]`. -/
theorem history_consistency (fm : FloatMath) (sort : StdSort) (hs : SortContract sort)
    (ms : MarketState) (hinv : HistoryConsistent ms) :
    (∀ (random_val : ℚ) (id : Int) (n_displayed : Int) (algorithm : RankingAlgorithm)
      (sel : Int) (ms2 : MarketState),
      registered_arrival fm sort random_val id ms n_displayed algorithm = some (sel, ms2) →
      HistoryConsistent ms2) ∧
    (∀ ms1, process_end_of_day sort ms = some ms1 → HistoryConsistent ms1) ∧
    (∀ (events : List MarketEvent) (ms1 : MarketState),
      run_events fm sort events ms = some ms1 → HistoryConsistent ms1) ∧
    (∀ (k : Int) (c : Customer) (s : Int) (h : StoreInteraction),
      ms.get_customer k = some c → map_find c.history.store_interactions s = some h →
      h.reservations > 0 →
      0 ≤ (h.successes : ℚ) / (h.reservations : ℚ) ∧
      (h.successes : ℚ) / (h.reservations : ℚ) ≤ 1 ∧
      0 ≤ (h.cancellations : ℚ) / (h.reservations : ℚ) ∧
      (h.cancellations : ℚ) / (h.reservations : ℚ) ≤ 1) ∧
    (∀ ms0 : MarketState, ms0.reservations = [] →
      (∀ (k : Int) (c : Customer), ms0.get_customer k = some c →
        c.id = k ∧ c.history.store_interactions = []) →
      HistoryConsistent ms0) := by
  refine ⟨?_, ?_, ?_, ?_, ?_⟩
  · intro random_val id n_displayed algorithm sel ms2 h
    exact arrival_consistent fm sort random_val id ms n_displayed algorithm sel ms2 hinv h
  · intro ms1 h
    exact settlement_consistent hs ms ms1 hinv h
  · intro events ms1 h
    exact run_events_consistent fm hs events ms ms1 hinv h
  · intro k c s h hc hfind hpos
    exact history_rates ms hinv k c hc s h hfind hpos
  · intro ms0 hlog hfresh
    exact history_consistent_fresh ms0 hlog hfresh

/-- C37 (witness): one store, the registered customer 1 with an empty history
and an empty log. -/
theorem history_consistency_witness :
    HistoryConsistent opening_state ∧
    ((∀ (random_val : ℚ) (id : Int) (n_displayed : Int) (algorithm : RankingAlgorithm)
      (sel : Int) (ms2 : MarketState),
      registered_arrival reference_math insertion_sort random_val id opening_state n_displayed
        algorithm = some (sel, ms2) →
      HistoryConsistent ms2) ∧
    (∀ ms1, process_end_of_day insertion_sort opening_state = some ms1 →
      HistoryConsistent ms1) ∧
    (∀ (events : List MarketEvent) (ms1 : MarketState),
      run_events reference_math insertion_sort events opening_state = some ms1 →
      HistoryConsistent ms1) ∧
    (∀ (k : Int) (c : Customer) (s : Int) (h : StoreInteraction),
      opening_state.get_customer k = some c →
      map_find c.history.store_interactions s = some h →
      h.reservations > 0 →
      0 ≤ (h.successes : ℚ) / (h.reservations : ℚ) ∧
      (h.successes : ℚ) / (h.reservations : ℚ) ≤ 1 ∧
      0 ≤ (h.cancellations : ℚ) / (h.reservations : ℚ) ∧
      (h.cancellations : ℚ) / (h.reservations : ℚ) ≤ 1) ∧
    (∀ ms0 : MarketState, ms0.reservations = [] →
      (∀ (k : Int) (c : Customer), ms0.get_customer k = some c →
        c.id = k ∧ c.history.store_interactions = []) →
      HistoryConsistent ms0)) :=
  ⟨opening_state_consistent,
    history_consistency reference_math insertion_sort insertion_sort_conforms opening_state
      opening_state_consistent⟩

end FoodWaste
